import Mathlib

/-!
# Seam-mask computation of enblend (`nearest.h`) and the separable squared
  distance transform of vigra (`multi_distance.hxx`)

A shallow embedding of the nearest-feature transform driver and of the
parabola lower-envelope distance transform, followed by the properties proved
about them.

Conventions of the embedding

* A raster is a function of the pixel coordinates `(x, y)`; its shape
  `(width, height)` travels separately, exactly like the iterator pair
  `(upperleft, lowerright)` of the source.  Writing a block of a raster leaves
  every pixel outside the block untouched.
* `double` and `float` values are exact rationals.
* `unsigned` arithmetic is arithmetic modulo `2 ^ 32`; an unsigned pixel type
  of `bits` bits is arithmetic modulo `2 ^ bits`.
* `exit(1)` is the result `none`.
-/

namespace Hugin

/-! ## Rasters and the vigra block operations used by `nearest.h` -/

/-- A raster addressed by `(x, y)`. -/
abbrev Raster (α : Type) := ℕ → ℕ → α

/-- A freshly constructed `BasicImage`: every pixel is value-initialised. -/
def newImage {α : Type} [Zero α] : Raster α := fun _ _ => 0

/-- The operation `vigra::copyImage(src_ul, src_lr, sa, dest_ul, da)`: the block
`[x0, x1) × [y0, y1)` of `src` is written to `dest` with its upper left corner
at `(dx, dy)`. -/
def copyImage {α : Type} (src : Raster α) (x0 y0 x1 y1 : ℕ)
    (dest : Raster α) (dx dy : ℕ) : Raster α :=
  fun x y =>
    if dx ≤ x ∧ x < dx + (x1 - x0) ∧ dy ≤ y ∧ y < dy + (y1 - y0) then
      src (x0 + (x - dx)) (y0 + (y - dy))
    else dest x y

/-- The operation `vigra::combineTwoImages`: `f` applied pixel by pixel to two
rasters of shape `w × h`, written to the block `[0, w) × [0, h)` of `dest`. -/
def combineTwoImages {α β γ : Type} (src1 : Raster α) (w h : ℕ) (src2 : Raster β)
    (dest : Raster γ) (f : α → β → γ) : Raster γ :=
  fun x y => if x < w ∧ y < h then f (src1 x y) (src2 x y) else dest x y

/-- The pixels of a `w × h` image in scan order, `begin()` to `end()`. -/
def scanOrder {α : Type} (img : Raster α) (w h : ℕ) : List α :=
  (List.range h).flatMap fun y => (List.range w).map fun x => img x y

/-! ## `nearest.h` -/

/-- The enumeration `boundary_t`. -/
inductive boundary_t where
  | OpenBoundaries
  | HorizontalStrip
  | VerticalStrip
  | DoubleStrip
  deriving DecidableEq, Repr

open boundary_t

/-- The distance transform that `nearest.h` calls as
`vigra::ocl::distanceTransform(src range, dest, background, norm)`: it receives
the shape and the pixels of the source range, the background value and the
norm, and yields the distance raster. -/
abbrev DistanceTransform (α β : Type) := ℕ → ℕ → Raster α → α → ℤ → Raster β

/-- The function `quadruple_image`; `w × h` is the shape of `src`. -/
def quadruple_image {α : Type} (src : Raster α) (w h : ℕ) (dest : Raster α) :
    boundary_t → Raster α
  | OpenBoundaries => copyImage src 0 0 w h dest 0 0
  | HorizontalStrip =>
      let d11 := copyImage src 0 0 w h dest 0 0
      copyImage src 0 0 w h d11 w 0
  | VerticalStrip =>
      let d11 := copyImage src 0 0 w h dest 0 0
      copyImage src 0 0 w h d11 0 h
  | DoubleStrip =>
      let d11 := copyImage src 0 0 w h dest 0 0
      let d12 := copyImage src 0 0 w h d11 w 0
      let d21 := copyImage src 0 0 w h d12 0 h
      copyImage src 0 0 w h d21 w h

/-- The function `quater_image`; `w × h` is the shape of `src` (the tiled
raster), halved and quartered with truncating integer division. -/
def quater_image {α : Type} (src : Raster α) (w h : ℕ) (dest : Raster α) :
    boundary_t → Raster α :=
  let size_x := w
  let size_y := h
  let size_x2 := size_x / 2
  let size_y2 := size_y / 2
  let size_x4 := size_x2 / 2
  let size_y4 := size_y2 / 2
  fun
  | OpenBoundaries => copyImage src 0 0 w h dest 0 0
  | HorizontalStrip =>
      let d11 := copyImage src size_x2 0 (size_x2 + size_x4) size_y dest 0 0
      copyImage src size_x4 0 size_x2 size_y d11 size_x4 0
  | VerticalStrip =>
      let d21 := copyImage src 0 size_y2 size_x (size_y2 + size_y4) dest 0 0
      copyImage src 0 size_y4 size_x size_y2 d21 0 size_y4
  | DoubleStrip =>
      let d11 := copyImage src size_x2 size_y2 (size_x2 + size_x4) (size_y2 + size_y4) dest 0 0
      let d12 := copyImage src size_x4 size_y2 size_x2 (size_y2 + size_y4) d11 size_x4 0
      let d21 := copyImage src size_x2 size_y4 (size_x2 + size_x4) size_y2 d12 0 size_y4
      copyImage src size_x4 size_y4 size_x2 size_y2 d21 size_x4 size_y4

/-- The function `periodicDistanceTransform`, over the distance transform `dt`
it dispatches to; `w × h` is the shape of `src`. -/
def periodicDistanceTransform {α β : Type} [Zero α] [Zero β] (dt : DistanceTransform α β)
    (src : Raster α) (w h : ℕ) (dest : Raster β)
    (background : α) (norm : ℤ) (boundary : boundary_t) : Raster β :=
  let size_x := match boundary with
    | OpenBoundaries => w
    | HorizontalStrip => 2 * w
    | VerticalStrip => w
    | DoubleStrip => 2 * w
  let size_y := match boundary with
    | OpenBoundaries => h
    | HorizontalStrip => h
    | VerticalStrip => 2 * h
    | DoubleStrip => 2 * h
  let periodic := quadruple_image src w h newImage boundary
  let distance := dt size_x size_y periodic background norm
  quater_image distance size_x size_y dest boundary

/-- The functor `saturating_subtract<ValueType>` for an unsigned `ValueType` of
`bits` bits, whose subtraction is performed modulo `2 ^ bits`. -/
def saturating_subtract (bits : ℕ) (v1 v2 : ℕ) : ℕ :=
  if v2 < v1 then (v1 + 2 ^ bits - v2) % 2 ^ bits else 0

/-- The loop of `quick_tally`: `count` is the running count, the list holds the
elements from the iterator `i` to `end`.  `count` stays below `threshold`
whenever it is incremented, so the unsigned counter cannot wrap. -/
def quick_tally_loop {α : Type} [Zero α] [DecidableEq α] (threshold : ℕ) : List α → ℕ → ℕ
  | [], count => count
  | a :: rest, count =>
      if count < threshold then
        quick_tally_loop threshold rest (if a ≠ 0 then count + 1 else count)
      else count

/-- The function `quick_tally(begin, end, acc, threshold)`. -/
def quick_tally {α : Type} [Zero α] [DecidableEq α] (xs : List α) (threshold : ℕ) : ℕ :=
  quick_tally_loop threshold xs 0

/-- The functor `ifThenElse(Arg1() < Arg2(), Param(max), Param(zero))` of the
final combine step. -/
def seamChoice {β γ : Type} [LT β] [DecidableRel (α := β) (· < ·)] (maxV zeroV : γ)
    (d12 d21 : β) : γ :=
  if d12 < d21 then maxV else zeroV

/-- The final combine step of `nearestFeatureTransform`: the seam mask written
from the two distance fields. -/
def seamMask {β γ : Type} [LT β] [DecidableRel (α := β) (· < ·)] (maxV zeroV : γ)
    (dist12 dist21 : Raster β) (w h : ℕ) (dest : Raster γ) : Raster γ :=
  combineTwoImages dist12 w h dist21 dest (seamChoice maxV zeroV)

/-- The value `overlap_threshold` of `nearestFeatureTransform`, an `unsigned`
product; `factor` is the parameter "overlap-check-threshold". -/
def overlap_threshold (factor w h : ℕ) : ℕ :=
  (factor * 2 * (h + w)) % 2 ^ 32

/-- The raster `diff12` of `nearestFeatureTransform` for the masks
`(src1, src2)`. -/
def diffImage (bits : ℕ) (src1 src2 : Raster ℕ) (w h : ℕ) : Raster ℕ :=
  combineTwoImages src1 w h src2 newImage (saturating_subtract bits)

/-- The distance field that `nearestFeatureTransform` computes from a
difference image: the transform itself for open boundaries, the periodic
transform otherwise. -/
def distField {β : Type} [Zero β] (dt : DistanceTransform ℕ β) (diff : Raster ℕ) (w h : ℕ)
    (norm : ℤ) (boundary : boundary_t) : Raster β :=
  let background : ℕ := 0
  match boundary with
  | OpenBoundaries => dt w h diff background norm
  | HorizontalStrip => periodicDistanceTransform dt diff w h newImage background norm boundary
  | VerticalStrip => periodicDistanceTransform dt diff w h newImage background norm boundary
  | DoubleStrip => periodicDistanceTransform dt diff w h newImage background norm boundary

/-- The intermediate values of one run of `nearestFeatureTransform`. -/
structure NftState (β : Type) where
  threshold : ℕ
  diff12 : Raster ℕ
  tally12 : ℕ
  dist12 : Raster β
  diff21 : Raster ℕ
  tally21 : ℕ
  dist21 : Raster β

/-- The body of `nearestFeatureTransform` up to the overlap check. -/
def nftState {β : Type} [Zero β] (dt : DistanceTransform ℕ β) (bits factor : ℕ)
    (src1 : Raster ℕ) (w h : ℕ) (src2 : Raster ℕ) (norm : ℤ) (boundary : boundary_t) :
    NftState β :=
  let threshold := overlap_threshold factor w h
  let diff12 := diffImage bits src1 src2 w h
  let tally12 := quick_tally (scanOrder diff12 w h) threshold
  let dist12 := distField dt diff12 w h norm boundary
  let diff21 := diffImage bits src2 src1 w h
  let tally21 := quick_tally (scanOrder diff21 w h) threshold
  let dist21 := distField dt diff21 w h norm boundary
  { threshold := threshold, diff12 := diff12, tally12 := tally12, dist12 := dist12,
    diff21 := diff21, tally21 := tally21, dist21 := dist21 }

/-- The function `nearestFeatureTransform`: `none` when the run ends in
`exit(1)`, the written seam mask otherwise. -/
def nearestFeatureTransform {β γ : Type} [Zero β] [LT β] [DecidableRel (α := β) (· < ·)]
    (dt : DistanceTransform ℕ β) (bits factor : ℕ) (maxV zeroV : γ)
    (src1 : Raster ℕ) (w h : ℕ) (src2 : Raster ℕ) (dest : Raster γ)
    (norm : ℤ) (boundary : boundary_t) : Option (Raster γ) :=
  let s := nftState dt bits factor src1 w h src2 norm boundary
  let overlap_tally := max s.tally12 s.tally21
  if overlap_tally < s.threshold then none
  else some (seamMask maxV zeroV s.dist12 s.dist21 w h dest)

/-- The number of non-zero elements of a sequence. -/
def nonZeroCount {α : Type} [Zero α] [DecidableEq α] (xs : List α) : ℕ :=
  xs.countP fun a => decide (a ≠ 0)

/-! ## `multi_distance.hxx` -/

/-- The struct `DistParabolaStackEntry`: the interval `[left, right)` on which
the parabola with apex `(center, apex_height)` is the lowest. -/
structure DistParabolaStackEntry where
  left : ℚ
  center : ℚ
  right : ℚ
  apex_height : ℚ
  deriving DecidableEq

/-- The constructor `Influence(p, l, c, r)`. -/
def Influence (p l c r : ℚ) : DistParabolaStackEntry :=
  { left := l, center := c, right := r, apex_height := p }

/-- The `while(true)` loop of `distParabola` for the sample `v` at position
`current`, with the `push_back` that follows it.  The stack is a list whose
head is `_stack.back()`.  The empty case is reached after a `pop_back` that
emptied the stack: there `intersection = 0.0`. -/
def distParabolaPush (sigma2 sigma22 w current v : ℚ) :
    List DistParabolaStackEntry → List DistParabolaStackEntry
  | [] => [Influence v 0 current w]
  | s :: rest =>
      let diff := current - s.center
      let intersection := current + (v - s.apex_height - sigma2 * diff ^ 2) / (sigma22 * diff)
      if intersection < s.left then
        distParabolaPush sigma2 sigma22 w current v rest
      else if intersection < s.right then
        Influence v intersection current w :: { s with right := intersection } :: rest
      else
        Influence v intersection current w :: s :: rest

/-- The forward sweep of `distParabola`: the `for` loop over the samples that
follow the first one; `current` is the position of the head of the list. -/
def distParabolaSweep (sigma2 sigma22 w : ℚ) :
    ℚ → List ℚ → List DistParabolaStackEntry → List DistParabolaStackEntry
  | _, [], stack => stack
  | current, v :: vs, stack =>
      distParabolaSweep sigma2 sigma22 w (current + 1) vs
        (distParabolaPush sigma2 sigma22 w current v stack)

/-- The loop `while(current >= it->right) ++it` of the emission pass; the list
holds the entries from the iterator `it` to the end of the stack. -/
def distParabolaAdvance (current : ℚ) :
    List DistParabolaStackEntry → List DistParabolaStackEntry
  | [] => []
  | e :: rest => if current ≥ e.right then distParabolaAdvance current rest else e :: rest

/-- The emission pass of `distParabola`: `n` positions are still to be written,
starting at `current`.  Were the iterator to run past the last entry (undefined
behaviour in the source) the model stops writing. -/
def distParabolaEmit (sigma2 : ℚ) : ℕ → ℚ → List DistParabolaStackEntry → List ℚ
  | 0, _, _ => []
  | n + 1, current, it =>
      match distParabolaAdvance current it with
      | [] => []
      | e :: rest =>
          (sigma2 * (current - e.center) ^ 2 + e.apex_height)
            :: distParabolaEmit sigma2 n (current + 1) (e :: rest)

/-- The function `distParabola(is, iend, sa, id, da, sigma)`: the values it
writes to the destination line, in order; nothing for an empty line. -/
def distParabola (line : List ℚ) (sigma : ℚ) : List ℚ :=
  match line with
  | [] => []
  | v0 :: vs =>
      let w : ℚ := (line.length : ℚ)
      let sigma2 := sigma * sigma
      let sigma22 := 2 * sigma2
      let stack := distParabolaSweep sigma2 sigma22 w 1 vs [Influence v0 0 0 w]
      distParabolaEmit sigma2 line.length 0 stack.reverse

/-- The line of a raster along dimension 0 at row `y`: `w` samples. -/
def lineX (img : Raster ℚ) (w y : ℕ) : List ℚ := (List.range w).map fun x => img x y

/-- The line of a raster along dimension 1 at column `x`: `h` samples. -/
def lineY (img : Raster ℚ) (h x : ℕ) : List ℚ := (List.range h).map fun y => img x y

/-- The values `vals` written through the destination iterator of row `y`. -/
def writeLineX (dest : Raster ℚ) (y : ℕ) (vals : List ℚ) : Raster ℚ :=
  fun x' y' => if y' = y ∧ x' < vals.length then vals.getD x' 0 else dest x' y'

/-- The values `vals` written through the destination iterator of column `x`. -/
def writeLineY (dest : Raster ℚ) (x : ℕ) (vals : List ℚ) : Raster ℚ :=
  fun x' y' => if x' = x ∧ y' < vals.length then vals.getD y' 0 else dest x' y'

/-- The operation `transformMultiArray` on a `w × h` array: `f` applied to
every element of the source, written to the destination. -/
def transformMultiArray {α β : Type} (src : Raster α) (w h : ℕ) (dest : Raster β)
    (f : α → β) : Raster β :=
  fun x y => if x < w ∧ y < h then f (src x y) else dest x y

/-- The function `internalSeparableMultiArrayDistTmp` for two dimensions
(`shape = (w, h)`): the pass along dimension 0 reads each line of the source
into `tmp` and writes the transformed line to the destination; the pass along
dimension 1 works on the destination in place.  A caller that passes the same
array as source and destination is embedded by passing the same raster twice:
a line of the source is read before the same line of the destination is
written, and no other step of the pass touches it. -/
def internalSeparableMultiArrayDistTmp (src : Raster ℚ) (w h : ℕ) (dest : Raster ℚ)
    (sigmas : ℕ → ℚ) (invert : Bool) : Raster ℚ :=
  let pass0 := (List.range h).foldl (fun d y =>
    let tmp := if invert then (lineX src w y).map fun v => 0 - v else lineX src w y
    writeLineX d y (distParabola tmp (sigmas 0))) dest
  let pass1 := (List.range w).foldl (fun d x =>
    let tmp := lineY d h x
    writeLineY d x (distParabola tmp (sigmas 1))) pass0
  if invert then transformMultiArray pass1 w h pass1 fun v => -v else pass1

/-- The conversion `int(p)` of a `double`: truncation towards zero. -/
def truncToInt (p : ℚ) : ℤ := if 0 ≤ p then ⌊p⌋ else ⌈p⌉

/-- The call `copyMultiArray(srcMultiArrayRange(src), destIter(d, dest))` on an
array of shape `(w, h)`: every value of `src` is stored through the destination
accessor, which converts it from the promoted type to the destination type.
The accessor is not among the sources; `toDest` is its conversion. -/
def copyMultiArray (src : Raster ℚ) (w h : ℕ) (dest : Raster ℚ) (toDest : ℚ → ℚ) : Raster ℚ :=
  fun x y => if x < w ∧ y < h then toDest (src x y) else dest x y

/-- What one call of `separableMultiDistSquared` leaves behind: the temporary
array `tmpArray` of the promoted type, with its final content, when the call
allocated one, and the destination array. -/
structure DistSquaredRun where
  tmpArray : Option (Raster ℚ)
  dest : Raster ℚ

/-- The function `separableMultiDistSquared` for two dimensions
(`shape = (w, h)`), with `destMax` the value `NumericTraits<DestType>::max()`
and `toDest` the conversion of the destination accessor.  Values of the
promoted type and of the destination type are exact numbers.  In the first
branch the mask is thresholded into a fresh temporary array, transformed there
and copied to the destination by `copyMultiArray`; in the second branch it is
thresholded into the destination and transformed in place. -/
def separableMultiDistSquaredRun (src : Raster ℕ) (w h : ℕ) (dest : Raster ℚ)
    (background : Bool) (pixelPitch : ℕ → ℚ) (destMax : ℚ) (toDest : ℚ → ℚ) :
    DistSquaredRun :=
  let dmax : ℚ := (pixelPitch 0 * w) ^ 2 + (pixelPitch 1 * h) ^ 2
  let pixelPitchIsReal : Bool :=
    decide (((truncToInt (pixelPitch 0) : ℤ) : ℚ) ≠ pixelPitch 0)
      || decide (((truncToInt (pixelPitch 1) : ℤ) : ℚ) ≠ pixelPitch 1)
  if dmax > destMax ∨ pixelPitchIsReal = true then
    let maxDist : ℚ := dmax
    let rzero : ℚ := 0
    let tmpArray : Raster ℚ :=
      if background = true then
        transformMultiArray src w h newImage fun v => if v = 0 then maxDist else rzero
      else
        transformMultiArray src w h newImage fun v => if v ≠ 0 then maxDist else rzero
    let tmpArray := internalSeparableMultiArrayDistTmp tmpArray w h tmpArray pixelPitch false
    { tmpArray := some tmpArray, dest := copyMultiArray tmpArray w h dest toDest }
  else
    let maxDist : ℚ := ((⌈dmax⌉ : ℤ) : ℚ)
    let rzero : ℚ := 0
    let d : Raster ℚ :=
      if background = true then
        transformMultiArray src w h dest fun v => if v = 0 then maxDist else rzero
      else
        transformMultiArray src w h dest fun v => if v ≠ 0 then maxDist else rzero
    { tmpArray := none, dest := internalSeparableMultiArrayDistTmp d w h d pixelPitch false }

/-- The destination array after the call of `separableMultiDistSquared`. -/
def separableMultiDistSquared (src : Raster ℕ) (w h : ℕ) (dest : Raster ℚ)
    (background : Bool) (pixelPitch : ℕ → ℚ) (destMax : ℚ) (toDest : ℚ → ℚ) : Raster ℚ :=
  (separableMultiDistSquaredRun src w h dest background pixelPitch destMax toDest).dest

/-- The default pixel pitch `1.0` for each coordinate. -/
def unitPitch : ℕ → ℚ := fun _ => 1

/-! ## The invariant of the parabola stack -/

/-- The parabola of a stack entry, evaluated at `x`. -/
def entryValue (sigma2 : ℚ) (e : DistParabolaStackEntry) (x : ℚ) : ℚ :=
  sigma2 * (x - e.center) ^ 2 + e.apex_height

/-- An entry of the stack after the samples `f 0, …, f (m-1)` of a line of
real length `w` have been swept: its parabola is the one of a swept sample, its
right bound is at most `w`, and on `[left, right)` it lies below the parabola of
every swept sample. -/
def StackEntryOK (sigma2 w : ℚ) (f : ℕ → ℚ) (m : ℕ) (e : DistParabolaStackEntry) : Prop :=
  (∃ c : ℕ, c < m ∧ e.center = c ∧ e.apex_height = f c)
    ∧ e.right ≤ w
    ∧ ∀ x : ℚ, e.left ≤ x → x < e.right →
        ∀ j : ℕ, j < m → entryValue sigma2 e x ≤ sigma2 * (x - j) ^ 2 + f j

/-- Relation between an entry `s` and the entry `t` directly below it. -/
def StackRel (w : ℚ) (s t : DistParabolaStackEntry) : Prop :=
  t.right = min s.left w ∧ t.left ≤ s.left

/-- The invariant of the stack (head = top) after `m ≥ 1` samples. -/
def StackInv (sigma2 w : ℚ) (f : ℕ → ℚ) (m : ℕ) (st : List DistParabolaStackEntry) : Prop :=
  (∃ top, st.head? = some top ∧ top.right = w)
    ∧ (∀ e, st.getLast? = some e → e.left = 0)
    ∧ List.Chain' (StackRel w) st
    ∧ ∀ e ∈ st, StackEntryOK sigma2 w f m e

/-- The right bound up to which the entries of the stack cover the line. -/
def coveredTo : List DistParabolaStackEntry → ℚ
  | [] => 0
  | s :: _ => s.right

/-- The state inside the `while(true)` loop for the sample at position `m`:
the remaining entries are as after `m` samples, and the new parabola lies
below every swept one from `coveredTo` on. -/
def PushPre (sigma2 w : ℚ) (f : ℕ → ℚ) (m : ℕ) (st : List DistParabolaStackEntry) : Prop :=
  (∀ e, st.getLast? = some e → e.left = 0)
    ∧ List.Chain' (StackRel w) st
    ∧ (∀ e ∈ st, StackEntryOK sigma2 w f m e)
    ∧ ∀ x : ℚ, coveredTo st ≤ x → x < w →
        ∀ j : ℕ, j < m → sigma2 * (x - m) ^ 2 + f m ≤ sigma2 * (x - j) ^ 2 + f j

/-- The state of the emission pass at position `x`: the entries from the
iterator on, bottom first, still end with right bound `w`, and the entry under
the iterator starts at or before `x`. -/
def EmitPre (w x : ℚ) (it : List DistParabolaStackEntry) : Prop :=
  List.Chain' (flip (StackRel w)) it
    ∧ (∃ e, it.getLast? = some e ∧ e.right = w)
    ∧ ∀ e, it.head? = some e → min e.left w ≤ x

/-! ## Distances and the contract of the distance transform -/

/-- The value `v` is the minimum of `cost` over the cells selected by `cand`:
it is attained at a selected cell and is a lower bound for all of them. -/
def IsMinOver (cand : ℕ → ℕ → Prop) (cost : ℕ → ℕ → ℚ) (v : ℚ) : Prop :=
  (∃ j k, cand j k ∧ v = cost j k) ∧ ∀ j k, cand j k → v ≤ cost j k

/-- Squared Euclidean distance between the pixels `(x, y)` and `(j, k)`. -/
def sqDist (x y j k : ℕ) : ℚ := ((x : ℚ) - j) ^ 2 + ((y : ℚ) - k) ^ 2

/-- Distance between the positions `x` and `j` on a closed strip of
circumference `W`: `min(|x - j|, W - |x - j|)`. -/
def wrapDist (W x j : ℕ) : ℚ := min |(x : ℚ) - j| ((W : ℚ) - |(x : ℚ) - j|)

/-- Contract of a squared Euclidean distance transform called with
`background` and `norm`: on every raster with at least one source pixel it
writes, at every pixel, the least squared Euclidean distance to a source
pixel.  Which pixel values count as sources is left to `isSource`. -/
def SqEuclideanEngine {α : Type} (dt : DistanceTransform α ℚ) (isSource : α → Prop)
    (background : α) (norm : ℤ) : Prop :=
  ∀ (w h : ℕ) (img : Raster α) (x y : ℕ), x < w → y < h →
    (∃ j k, j < w ∧ k < h ∧ isSource (img j k)) →
    IsMinOver (fun j k => j < w ∧ k < h ∧ isSource (img j k)) (sqDist x y)
      (dt w h img background norm x y)

/-- A distance transform reads only the pixels of the range it is given. -/
def ReadsOnlyRange {α β : Type} (dt : DistanceTransform α β) : Prop :=
  ∀ (w h : ℕ) (f g : Raster α) (background : α) (norm : ℤ),
    (∀ x y, x < w → y < h → f x y = g x y) →
    ∀ x y, x < w → y < h → dt w h f background norm x y = dt w h g background norm x y

/-- Least element of a list of rationals (`0` for the empty list). -/
def listMin : List ℚ → ℚ
  | [] => 0
  | [a] => a
  | a :: b :: rest => min a (listMin (b :: rest))

/-- Modelled from the spec: the Distance Transform Engine reached through
`vigra::ocl::distanceTransform` (its body, `vigra::omp::distanceTransform`, is
not among the sources), for the squared Euclidean norm: "a designated
background value marks transform sources", and every destination cell receives
the distance "to the nearest source cell".  The norm argument is not
inspected. -/
def distanceTransformModel : DistanceTransform ℕ ℚ :=
  fun w h img background _ x y =>
    listMin ((List.range h).flatMap fun k =>
      (List.range w).filterMap fun j =>
        if img j k = background then some (sqDist x y j k) else none)

/-- Position in the doubled axis from which `quater_image` reads position `x`
of the result: the second tile for the first `W / 2` positions, the first tile
for the others. -/
def foldPos (W x : ℕ) : ℕ := if x < W / 2 then W + x else x

/-- A raster whose only zero pixel is `(j, k)`; every other pixel is `1`. -/
def singleZeroRaster (j k : ℕ) : Raster ℕ := fun x y => if x = j ∧ y = k then 0 else 1

/-- A mask that covers the whole raster. -/
def fullMask : Raster ℕ := fun _ _ => 1

/-- A mask that covers the leftmost column only. -/
def columnMask : Raster ℕ := fun x _ => if x = 0 then 1 else 0

/-- The pixels from which `separableMultiDistSquared` measures distances: the
zero pixels when `background = false`, the non-zero pixels when
`background = true`.  They are the pixels thresholded to `rzero`. -/
def isSourceValue (background : Bool) (v : ℕ) : Prop :=
  if background = true then v ≠ 0 else v = 0

instance isSourceValue.instDecidable (background : Bool) (v : ℕ) :
    Decidable (isSourceValue background v) := by
  unfold isSourceValue
  infer_instance

/-- The mask with zero and non-zero exchanged. -/
def exchangeMask (src : Raster ℕ) : Raster ℕ := fun x y => if src x y = 0 then 1 else 0

/-- A mask with the value `v` on the columns `a ≤ x ≤ b` and `0` elsewhere. -/
def bandMask (a b v : ℕ) : Raster ℕ := fun x _ => if a ≤ x ∧ x ≤ b then v else 0

/-- A distance transform with the calling convention of `nearest.h`, built
from `separableMultiDistSquared` with `background = true` and unit pixel
pitch: distances are measured from the non-zero pixels.  The background and
norm arguments are not inspected; `destMax` is the maximum of the destination
type, and the destination holds values of the promoted type, so that the
converting copy stores every value unchanged. -/
def separableEngine (destMax : ℚ) : DistanceTransform ℕ ℚ :=
  fun w h img _ _ =>
    separableMultiDistSquared img w h newImage true unitPitch destMax fun v => v

/-- The shape `(size_x, size_y)` of the working rasters `periodic` and
`distance` of `periodicDistanceTransform`, as set by its `switch`. -/
def periodicSize (w h : ℕ) : boundary_t → ℕ × ℕ
  | OpenBoundaries => (w, h)
  | HorizontalStrip => (2 * w, h)
  | VerticalStrip => (w, 2 * h)
  | DoubleStrip => (2 * w, 2 * h)

/-- The mode wraps the horizontal axis. -/
def wrapsX (boundary : boundary_t) : Bool :=
  decide (boundary = HorizontalStrip ∨ boundary = DoubleStrip)

/-- The mode wraps the vertical axis. -/
def wrapsY (boundary : boundary_t) : Bool :=
  decide (boundary = VerticalStrip ∨ boundary = DoubleStrip)

/-- One call `copyImage(src_ul + (x0, y0), src_ul + (x1, y1), sa, dest_ul +
(dx, dy), da)`. -/
structure CopyBlock where
  x0 : ℕ
  y0 : ℕ
  x1 : ℕ
  y1 : ℕ
  dx : ℕ
  dy : ℕ

/-- The destination pixel `(x, y)` is written by the copy call. -/
def CopyBlock.writes (b : CopyBlock) (x y : ℕ) : Bool :=
  decide (b.dx ≤ x ∧ x < b.dx + (b.x1 - b.x0) ∧ b.dy ≤ y ∧ y < b.dy + (b.y1 - b.y0))

/-- A sequence of copy calls from `src`, carried out in order on `dest`. -/
def copyBlocks {α : Type} (src : Raster α) (blocks : List CopyBlock) (dest : Raster α) :
    Raster α :=
  blocks.foldl (fun d b => copyImage src b.x0 b.y0 b.x1 b.y1 d b.dx b.dy) dest

/-- The copy calls of `quater_image` on a source of shape `w × h`, in the order
of the source text. -/
def quater_blocks (w h : ℕ) : boundary_t → List CopyBlock :=
  let size_x := w
  let size_y := h
  let size_x2 := size_x / 2
  let size_y2 := size_y / 2
  let size_x4 := size_x2 / 2
  let size_y4 := size_y2 / 2
  fun
  | OpenBoundaries => [⟨0, 0, w, h, 0, 0⟩]
  | HorizontalStrip =>
      [⟨size_x2, 0, size_x2 + size_x4, size_y, 0, 0⟩,
       ⟨size_x4, 0, size_x2, size_y, size_x4, 0⟩]
  | VerticalStrip =>
      [⟨0, size_y2, size_x, size_y2 + size_y4, 0, 0⟩,
       ⟨0, size_y4, size_x, size_y2, 0, size_y4⟩]
  | DoubleStrip =>
      [⟨size_x2, size_y2, size_x2 + size_x4, size_y2 + size_y4, 0, 0⟩,
       ⟨size_x4, size_y2, size_x2, size_y2 + size_y4, size_x4, 0⟩,
       ⟨size_x2, size_y4, size_x2 + size_x4, size_y2, 0, size_y4⟩,
       ⟨size_x4, size_y4, size_x2, size_y2, size_x4, size_y4⟩]

/-- A diagnostic written by `vigra::ocl::distanceTransform`. -/
inductive DispatchMessage where
  | fallbackWarning
  deriving DecidableEq, Repr

/-- The process-wide accelerator state read by `vigra::ocl::distanceTransform`:
whether `GPUContext` is set, the kernel object `GPU::DistanceTransform` (absent
when the pointer is null), the flag `UseGPU`, and the parameter
"gpu-kernel-dt". -/
structure GpuState (α β : Type) where
  GPUContext : Bool
  kernel : Option (DistanceTransform α β)
  UseGPU : Bool
  enable_kernel : Bool

/-- The function `vigra::ocl::distanceTransform`: `opencl` tells whether the
build defines `OPENCL`, `omp` is the reference transform
`vigra::omp::distanceTransform`.  The result is the distance raster together
with the warnings written; the optional timing report is left out. -/
def ocl_distanceTransform {α β : Type} (opencl : Bool) (gpu : GpuState α β)
    (omp : DistanceTransform α β) (w h : ℕ) (src : Raster α) (background : α) (norm : ℤ) :
    Raster β × List DispatchMessage :=
  if opencl = true then
    match gpu.GPUContext && gpu.enable_kernel, gpu.kernel with
    | true, some run => (run w h src background norm, [])
    | _, _ =>
        let warnings :=
          if (gpu.UseGPU && gpu.enable_kernel) = true then [DispatchMessage.fallbackWarning]
          else []
        (omp w h src background norm, warnings)
  else
    (omp w h src background norm, [])

/-- The `while(true)` loop of `distParabola` with the conditions of a defined
step made explicit: `none` when `_stack.back()` would be read on an empty
stack, or when the divisor `sigma22 * diff` is zero or `diff < 1`.  After a
`pop_back` the stack is tested with `_stack.empty()` before it is read again. -/
def distParabolaPushChecked (sigma2 sigma22 w current v : ℚ) :
    List DistParabolaStackEntry → Option (List DistParabolaStackEntry)
  | [] => none
  | s :: rest =>
      let diff := current - s.center
      if 1 ≤ diff ∧ sigma22 * diff ≠ 0 then
        let intersection := current + (v - s.apex_height - sigma2 * diff ^ 2) / (sigma22 * diff)
        if intersection < s.left then
          if rest.isEmpty = true then some [Influence v 0 current w]
          else distParabolaPushChecked sigma2 sigma22 w current v rest
        else if intersection < s.right then
          some (Influence v intersection current w :: { s with right := intersection } :: rest)
        else
          some (Influence v intersection current w :: s :: rest)
      else none

/-- The forward sweep over the checked loop. -/
def distParabolaSweepChecked (sigma2 sigma22 w : ℚ) :
    ℚ → List ℚ → List DistParabolaStackEntry → Option (List DistParabolaStackEntry)
  | _, [], stack => some stack
  | current, v :: vs, stack =>
      match distParabolaPushChecked sigma2 sigma22 w current v stack with
      | none => none
      | some stack' => distParabolaSweepChecked sigma2 sigma22 w (current + 1) vs stack'

/-- The loop `while(current >= it->right) ++it` with the dereference checked:
`none` when the iterator has reached the end of the stack. -/
def distParabolaAdvanceChecked (current : ℚ) :
    List DistParabolaStackEntry → Option (List DistParabolaStackEntry)
  | [] => none
  | e :: rest =>
      if current ≥ e.right then distParabolaAdvanceChecked current rest else some (e :: rest)

/-- The emission pass over the checked iterator. -/
def distParabolaEmitChecked (sigma2 : ℚ) :
    ℕ → ℚ → List DistParabolaStackEntry → Option (List ℚ)
  | 0, _, _ => some []
  | n + 1, current, it =>
      match distParabolaAdvanceChecked current it with
      | none => none
      | some [] => none
      | some (e :: rest) =>
          match distParabolaEmitChecked sigma2 n (current + 1) (e :: rest) with
          | none => none
          | some out => some ((sigma2 * (current - e.center) ^ 2 + e.apex_height) :: out)

/-- The function `distParabola` with every step checked: `none` as soon as a
step would be undefined, the written values otherwise. -/
def distParabolaChecked (line : List ℚ) (sigma : ℚ) : Option (List ℚ) :=
  match line with
  | [] => some []
  | v0 :: vs =>
      let w : ℚ := (line.length : ℚ)
      let sigma2 := sigma * sigma
      let sigma22 := 2 * sigma2
      match distParabolaSweepChecked sigma2 sigma22 w 1 vs [Influence v0 0 0 w] with
      | none => none
      | some stack => distParabolaEmitChecked sigma2 line.length 0 stack.reverse


/-! ## Greatest common divisor (`hugin_math.cpp`) -/

/-- The helper `_gcd` of `hugin_math.cpp`: Euclid's algorithm with the
remainder of C, which truncates towards zero. -/
def hugin_utils._gcd (a b : ℤ) : ℤ :=
  if b = 0 then a else hugin_utils._gcd b (a.tmod b)
termination_by b.natAbs
decreasing_by
  rename_i hb
  have h1 : (a.tmod b).natAbs = a.natAbs % b.natAbs := by
    cases a <;> cases b <;> simp [Int.tmod, Int.natAbs_neg] <;> rfl
  rw [h1]
  exact Nat.mod_lt _ (Int.natAbs_pos.mpr hb)

/-- The function `hugin_utils::gcd`: both arguments are made non-negative with
`abs` before `_gcd` runs. -/
def hugin_utils.gcd (a b : ℤ) : ℤ := hugin_utils._gcd |a| |b|

/-! ## Thresholding, passes and conversion of `separableMultiDistSquared` -/

/-- What the theorems assume of the conversion to a destination type with
maximum `destMax`: a non-negative integer that does not exceed the maximum is
stored unchanged, and a value at or above the maximum is stored as the
maximum. -/
def SaturatingCast (destMax : ℚ) (toDest : ℚ → ℚ) : Prop :=
  (∀ n : ℕ, (n : ℚ) ≤ destMax → toDest (n : ℚ) = (n : ℚ))
    ∧ ∀ v : ℚ, destMax ≤ v → toDest v = destMax

/-- A conversion that has the contract `SaturatingCast`: values at or above
the maximum become the maximum, the others are stored unchanged. -/
def saturate (destMax : ℚ) (v : ℚ) : ℚ := if destMax ≤ v then destMax else v

/-- The initial thresholding of `separableMultiDistSquared`: the array `base`
(the temporary array or the destination) receives `maxDist` at the pixels that
are not sources and `0` at the sources. -/
def thresholdArray (src : Raster ℕ) (w h : ℕ) (base : Raster ℚ) (background : Bool)
    (maxDist : ℚ) : Raster ℚ :=
  let rzero : ℚ := 0
  if background = true then
    transformMultiArray src w h base fun v => if v = 0 then maxDist else rzero
  else
    transformMultiArray src w h base fun v => if v ≠ 0 then maxDist else rzero

/-- The pass of `internalSeparableMultiArrayDistTmp` along dimension 0
(`invert = false`). -/
def distPass0 (src : Raster ℚ) (w h : ℕ) (dest : Raster ℚ) (sigmas : ℕ → ℚ) : Raster ℚ :=
  (List.range h).foldl (fun d y =>
    let tmp := lineX src w y
    writeLineX d y (distParabola tmp (sigmas 0))) dest

/-- The pass of `internalSeparableMultiArrayDistTmp` along dimension 1, in
place on the destination. -/
def distPass1 (d0 : Raster ℚ) (w h : ℕ) (sigmas : ℕ → ℚ) : Raster ℚ :=
  (List.range w).foldl (fun d x =>
    let tmp := lineY d h x
    writeLineY d x (distParabola tmp (sigmas 1))) d0

/-- The array after the thresholding with `w^2 + h^2` and the two passes with
unit pixel pitch, before any conversion; `base` is the array that is
thresholded into. -/
def squaredPasses (src : Raster ℕ) (w h : ℕ) (base : Raster ℚ) (background : Bool) :
    Raster ℚ :=
  distPass1 (distPass0 (thresholdArray src w h base background ((w : ℚ) ^ 2 + (h : ℚ) ^ 2)) w h
    (thresholdArray src w h base background ((w : ℚ) ^ 2 + (h : ℚ) ^ 2)) unitPitch) w h unitPitch

/-! ## Rotation and reflection (`basicgeometry.hxx`) -/

/-- One call `ad.set(v, it)` of a destination accessor, the iterator standing
at `(x, y)`. -/
def setPixel {α : Type} (dest : Raster α) (x y : ℕ) (v : α) : Raster α :=
  fun a b => if a = x ∧ b = y then v else dest a b

/-- The function `rotateImage` on a source of shape `ws × hs`.  The rotation
is an `int`, `%` is the remainder of C; the result is `none` when the
precondition `rotation % 90 == 0` fails.  Each case runs its two nested loops
over `x` and `y`, the destination being walked along rows (cases 90 and 270)
or columns (case 180). -/
def rotateImage {α : Type} (src : Raster α) (ws hs : ℕ) (dest : Raster α) (rotation : ℤ) :
    Option (Raster α) :=
  if rotation.tmod 90 ≠ 0 then none
  else
    let rotation := rotation.tmod 360
    let rotation := if rotation < 0 then rotation + 360 else rotation
    if rotation = 0 then
      some (copyImage src 0 0 ws hs dest 0 0)
    else if rotation = 90 then
      some ((List.range ws).foldl (fun d x =>
        (List.range hs).foldl (fun d y => setPixel d y x (src (ws - 1 - x) y)) d) dest)
    else if rotation = 180 then
      some ((List.range ws).foldl (fun d x =>
        (List.range hs).foldl (fun d y => setPixel d x y (src (ws - 1 - x) (hs - 1 - y))) d)
        dest)
    else if rotation = 270 then
      some ((List.range ws).foldl (fun d x =>
        (List.range hs).foldl (fun d y => setPixel d y x (src x (hs - 1 - y))) d) dest)
    else none

/-- The shape of the destination required by the array overload of
`rotateImage`: the shape of the source when `rotation % 180 == 0`, the
reversed shape otherwise. -/
def rotatedShape (ws hs : ℕ) (rotation : ℤ) : ℕ × ℕ :=
  if rotation.tmod 180 = 0 then (ws, hs) else (hs, ws)

/-- The enumerator `vigra::horizontal`. -/
def horizontal : ℕ := 1

/-- The enumerator `vigra::vertical`. -/
def vertical : ℕ := 2

/-- The function `reflectImage` on a source of shape `ws × hs`; a value of
`Reflect` is its underlying unsigned number, `operator|` the bitwise or.  The
result is `none` when the function ends in `vigra_fail`. -/
def reflectImage {α : Type} (src : Raster α) (ws hs : ℕ) (dest : Raster α) (reflect : ℕ) :
    Option (Raster α) :=
  if reflect = horizontal then
    some ((List.range ws).foldl (fun d x =>
      (List.range hs).foldl (fun d y => setPixel d x y (src x (hs - 1 - y))) d) dest)
  else if reflect = vertical then
    some ((List.range ws).foldl (fun d x =>
      (List.range hs).foldl (fun d y => setPixel d x y (src (ws - 1 - x) y)) d) dest)
  else if reflect = (horizontal ||| vertical) then
    some ((List.range ws).foldl (fun d x =>
      (List.range hs).foldl (fun d y => setPixel d x y (src (ws - 1 - x) (hs - 1 - y))) d)
      dest)
  else none

/-! ## Resampling (`basicgeometry.hxx`) -/

/-- The loop of `resampleLine` for `factor >= 1.0`: each source value is
written `int_factor` times, once more when the accumulated fraction `saver`
has reached `1`. -/
def resampleLineUp {α : Type} (int_factor : ℕ) (dx : ℚ) : List α → ℚ → List α
  | [], _ => []
  | v :: rest, saver =>
      if saver ≥ 1 then
        v :: (List.replicate int_factor v
          ++ resampleLineUp int_factor dx rest (saver - truncToInt saver + dx))
      else
        List.replicate int_factor v ++ resampleLineUp int_factor dx rest (saver + dx)

/-- The loop of `resampleLine` for `factor < 1.0`, followed by its final
conditional write.  The first number is `dest_end - dest_iter`, the second the
position of `src_iter`; the loop ends when `src_iter` stands on the last
source element or the destination is full.  Reading outside the source line
gives `none`. -/
def resampleLineDown {α : Type} (src : List α) (int_factor : ℕ) (dx : ℚ) :
    ℕ → ℕ → ℚ → Option (List α)
  | 0, _, _ => some []
  | k + 1, p, saver =>
      if p = src.length - 1 then
        (src[src.length - 1]?).map fun v => [v]
      else
        let p1 := if saver ≥ 1 then p + 1 else p
        let saver1 := if saver ≥ 1 then saver - truncToInt saver else saver
        match src[p1]? with
        | none => none
        | some v =>
            (resampleLineDown src int_factor dx k (p1 + int_factor) (saver1 + dx)).map
              fun out => v :: out

/-- The function `resampleLine`: the values written through the destination
iterator, in order; `none` when a precondition fails or the source line is
read outside its range. -/
def resampleLine {α : Type} (src : List α) (factor : ℚ) : Option (List α) :=
  let src_width := src.length
  if ¬ src_width > 0 then none
  else if ¬ factor > 0 then none
  else if factor ≥ 1 then
    let int_factor : ℤ := truncToInt factor
    let dx : ℚ := factor - int_factor
    some (resampleLineUp int_factor.toNat dx src dx)
  else
    let dest_len : ℤ := ⌈(src_width : ℚ) * factor⌉
    let factor : ℚ := 1 / factor
    let int_factor : ℤ := truncToInt factor
    let dx : ℚ := factor - int_factor
    resampleLineDown src int_factor.toNat dx dest_len.toNat 0 dx

/-- The function `sizeForResamplingFactor`. -/
def sizeForResamplingFactor (oldsize : ℤ) (factor : ℚ) : ℤ :=
  if factor < 1 then ⌈(oldsize : ℚ) * factor⌉ else truncToInt ((oldsize : ℚ) * factor)

/-- The values `vals` written through a column iterator of column `x`,
starting at row `0`. -/
def writeColumn {α : Type} (dest : Raster α) (x : ℕ) (vals : List α) : Raster α :=
  fun a b => if a = x then (match vals[b]? with | some v => v | none => dest a b)
    else dest a b

/-- The values `vals` written through a row iterator of row `y`, starting at
column `0`. -/
def writeRow {α : Type} (dest : Raster α) (y : ℕ) (vals : List α) : Raster α :=
  fun a b => if b = y then (match vals[a]? with | some v => v | none => dest a b)
    else dest a b

/-- The function `resampleImage` with separate factors: the columns of the
source are resampled into the temporary image `tmp` of shape
`width_old × height_new`, then the rows of `tmp` into the destination.  The
result is `none` when a precondition fails. -/
def resampleImage {α : Type} [Zero α] (src : Raster α) (width_old height_old : ℕ)
    (dest : Raster α) (xfactor yfactor : ℚ) : Option (Raster α) :=
  let height_new := sizeForResamplingFactor height_old yfactor
  let width_new := sizeForResamplingFactor width_old xfactor
  if ¬ (width_old > 1 ∧ height_old > 1) then none
  else if ¬ (width_new > 1 ∧ height_new > 1) then none
  else
    let tmp : Raster α := newImage
    let columns := (List.range width_old).foldlM (fun t x =>
      (resampleLine ((List.range height_old).map fun y => src x y) yfactor).map
        fun vals => writeColumn t x vals) tmp
    columns.bind fun tmp =>
      (List.range height_new.toNat).foldlM (fun d y =>
        (resampleLine ((List.range width_old).map fun x => tmp x y) xfactor).map
          fun vals => writeRow d y vals) dest

/-- The number of times the fraction `dx` has carried after `i` source
elements. -/
def carryCount (dx : ℚ) (i : ℕ) : ℕ := ⌊(i : ℚ) * dx⌋₊

/-- The destination position at which the copies of source element `i` start
when a line is enlarged. -/
def blockStart (int_factor : ℕ) (dx : ℚ) (i : ℕ) : ℕ := i * int_factor + carryCount dx i

/-! ## Distance to the region boundary (`multi_distance.hxx`) -/

/-- The body of the `while(true)` loop of `boundaryDistParabola` up to the
conditional `push_back`, for the parabola with apex `(current, apex_height)`.
The stack is a list whose head is `_stack.back()`; the empty case is reached
after a `pop_back` that emptied the stack, where `intersection = begin`. -/
def boundaryDistParabolaPush (w begin current apex_height : ℚ) :
    List DistParabolaStackEntry → List DistParabolaStackEntry
  | [] => if begin < w then [Influence apex_height begin current w] else []
  | s :: rest =>
      let diff := current - s.center
      let intersection := current + (apex_height - s.apex_height - diff ^ 2) / (2 * diff)
      if intersection < s.left then
        boundaryDistParabolaPush w begin current apex_height rest
      else if intersection < s.right then
        if intersection < w then
          Influence apex_height intersection current w :: { s with right := intersection } :: rest
        else { s with right := intersection } :: rest
      else
        if intersection < w then Influence apex_height intersection current w :: s :: rest
        else s :: rest

/-- The loop that finalizes a segment of `boundaryDistParabola`: `n` positions
are still to be written, starting at `c`; the list holds the entries from the
iterator `it` to the end of the stack. -/
def boundaryDistParabolaEmit : ℕ → ℚ → List DistParabolaStackEntry → List ℚ
  | 0, _, _ => []
  | n + 1, c, it =>
      match distParabolaAdvance c it with
      | [] => []
      | e :: rest =>
          ((c - e.center) ^ 2 + e.apex_height) :: boundaryDistParabolaEmit n (c + 1) (e :: rest)

/-- The `for` loop of `boundaryDistParabola` from position `current` on: the
list holds the labels and values still to be read, `begin` is the start of
the present segment.  The result lists the values written from `begin` on.
At a label change the zero parabola of the present pixel closes the segment,
the segment is written, and the pixel is analysed again in a new segment that
starts with the zero parabola of the pixel before it. -/
def boundaryDistParabolaLoop {L : Type} [DecidableEq L] (w dmax : ℚ)
    (array_border_is_active : Bool) :
    List (L × ℚ) → ℕ → ℕ → L → List DistParabolaStackEntry → List ℚ
  | [], current, begin, _, stack =>
      let apex_height : ℚ := if array_border_is_active then 0 else dmax
      let stack := boundaryDistParabolaPush w begin current apex_height stack
      boundaryDistParabolaEmit (current - begin) begin stack.reverse
  | (label, v) :: rest, current, begin, current_label, stack =>
      if current_label = label then
        boundaryDistParabolaLoop w dmax array_border_is_active rest (current + 1) begin
          current_label (boundaryDistParabolaPush w begin current v stack)
      else
        let closed := boundaryDistParabolaPush w begin current 0 stack
        boundaryDistParabolaEmit (current - begin) begin closed.reverse
          ++ boundaryDistParabolaLoop w dmax array_border_is_active rest (current + 1) current
              label
              (boundaryDistParabolaPush w current current v
                [Influence 0 ((current : ℚ) - 1) ((current : ℚ) - 1) w])

/-- The function `boundaryDistParabola`: the values it writes to the line
`line` of squared distances, given the labels of the same pixels; an empty
line is returned as it is. -/
def boundaryDistParabola {L : Type} [DecidableEq L] (line : List ℚ) (labels : List L)
    (dmax : ℚ) (array_border_is_active : Bool) : List ℚ :=
  match labels.zip line with
  | [] => line
  | (l0, v0) :: rest =>
      let w : ℚ := (line.length : ℚ)
      let apex_height : ℚ := if array_border_is_active then 0 else dmax
      boundaryDistParabolaLoop w dmax array_border_is_active ((l0, v0) :: rest) 0 0 l0
        [Influence apex_height 0 (-1) w]

/-- The function `internalBoundaryMultiArrayDist` for two dimensions
(`shape = (w, h)`): the destination is filled with `dmax`, then every line
along dimension 0 and then every line along dimension 1 is transformed in
place by `boundaryDistParabola`. -/
def internalBoundaryMultiArrayDist {L : Type} [DecidableEq L] (labels : Raster L) (w h : ℕ)
    (dest : Raster ℚ) (dmax : ℚ) (array_border_is_active : Bool) : Raster ℚ :=
  let dest0 : Raster ℚ := fun x y => if x < w ∧ y < h then dmax else dest x y
  let pass0 := (List.range h).foldl (fun d y =>
    writeLineX d y (boundaryDistParabola (lineX d w y)
      ((List.range w).map fun x => labels x y) dmax array_border_is_active)) dest0
  (List.range w).foldl (fun d x =>
    writeLineY d x (boundaryDistParabola (lineY d h x)
      ((List.range h).map fun y => labels x y) dmax array_border_is_active)) pass0

/-- An entry of the stack of `boundaryDistParabola` in a segment whose
parabolas have the integer positions `lo ≤ j < hi` and the apex heights `F j`:
its parabola is one of them, its right bound is at most `w`, and on
`[left, right)` it lies below every one of them. -/
def BoundaryEntryOK (w : ℚ) (F : ℤ → ℚ) (lo hi : ℤ) (e : DistParabolaStackEntry) : Prop :=
  (∃ c : ℤ, lo ≤ c ∧ c < hi ∧ e.center = c ∧ e.apex_height = F c)
    ∧ e.right ≤ w
    ∧ ∀ x : ℚ, e.left ≤ x → x < e.right →
        ∀ j : ℤ, lo ≤ j → j < hi → (x - e.center) ^ 2 + e.apex_height ≤ (x - j) ^ 2 + F j

/-- The invariant of the stack of `boundaryDistParabola` (head = top) in the
segment that starts at `begin`. -/
def BoundaryInv (w begin : ℚ) (F : ℤ → ℚ) (lo hi : ℤ)
    (st : List DistParabolaStackEntry) : Prop :=
  (∃ top, st.head? = some top ∧ top.right = w)
    ∧ (∀ e, st.getLast? = some e → e.left ≤ begin)
    ∧ List.Chain' (StackRel w) st
    ∧ ∀ e ∈ st, BoundaryEntryOK w F lo hi e

/-- The position from which the new parabola is known to lie below all
earlier ones: the right bound of the top entry, `begin` for the empty stack. -/
def coveredFrom (begin : ℚ) : List DistParabolaStackEntry → ℚ
  | [] => begin
  | s :: _ => s.right

/-- The state inside the `while(true)` loop of `boundaryDistParabola` for the
parabola with apex `(m, v)`. -/
def BoundaryPre (w begin : ℚ) (F : ℤ → ℚ) (lo m : ℤ) (v : ℚ)
    (st : List DistParabolaStackEntry) : Prop :=
  (∀ e, st.getLast? = some e → e.left ≤ begin)
    ∧ List.Chain' (StackRel w) st
    ∧ (∀ e ∈ st, BoundaryEntryOK w F lo m e)
    ∧ ∀ x : ℚ, coveredFrom begin st ≤ x → x < w →
        ∀ j : ℤ, lo ≤ j → j < m → (x - m) ^ 2 + v ≤ (x - j) ^ 2 + F j

/-- The apex heights of the parabolas of the segment `[b, e)` of a line of
`W` pixels: the value of a pixel inside the segment, `0` for the pixels next to
it, which carry another label, and `border` where the segment reaches the end
of the line. -/
def segApex (val : ℕ → ℚ) (W : ℕ) (border : ℚ) (b e : ℕ) (j : ℤ) : ℚ :=
  if j < b then (if b = 0 then border else 0)
  else if j < e then val j.toNat
  else (if e = W then border else 0)

/-- The value `v` is what the boundary transform of a line must give at
position `p`: with `[b, e)` the maximal run of pixels around `p` that carry the
label of `p`, it is the minimum over `b - 1 ≤ j ≤ e` of `(p - j)^2` plus the
apex height of `j`. -/
def RunMin {L : Type} (lab : ℕ → L) (val : ℕ → ℚ) (W : ℕ) (border : ℚ) (p : ℕ) (v : ℚ) :
    Prop :=
  ∃ b e : ℕ, b ≤ p ∧ p < e ∧ e ≤ W
    ∧ (∀ i, b ≤ i → i < e → lab i = lab p)
    ∧ (b = 0 ∨ lab (b - 1) ≠ lab p)
    ∧ (e = W ∨ lab e ≠ lab p)
    ∧ (∃ j : ℤ, (b : ℤ) - 1 ≤ j ∧ j ≤ e ∧ v = ((p : ℚ) - j) ^ 2 + segApex val W border b e j)
    ∧ ∀ j : ℤ, (b : ℤ) - 1 ≤ j → j ≤ e → v ≤ ((p : ℚ) - j) ^ 2 + segApex val W border b e j

/-! # Theorems -/

/-! ## Properties of the seam decision, the saturating difference and the tally -/

/-- C1: inside the written block the seam mask is the maximum value where
`dist12 < dist21` and the zero value otherwise; a tie gives the zero value, and
no third value occurs. -/
theorem seamMask_decision {β γ : Type} [Preorder β] [DecidableRel (α := β) (· < ·)]
    (maxV zeroV : γ) (dist12 dist21 : Raster β) (w h : ℕ) (dest : Raster γ) (x y : ℕ)
    (hx : x < w) (hy : y < h) :
    seamMask maxV zeroV dist12 dist21 w h dest x y
        = (if dist12 x y < dist21 x y then maxV else zeroV)
      ∧ (dist12 x y = dist21 x y → seamMask maxV zeroV dist12 dist21 w h dest x y = zeroV)
      ∧ (seamMask maxV zeroV dist12 dist21 w h dest x y = maxV
          ∨ seamMask maxV zeroV dist12 dist21 w h dest x y = zeroV) := by
  have h0 : seamMask maxV zeroV dist12 dist21 w h dest x y
      = (if dist12 x y < dist21 x y then maxV else zeroV) := by
    simp [seamMask, combineTwoImages, seamChoice, hx, hy]
  refine ⟨h0, ?_, ?_⟩
  · intro he
    rw [h0, he, if_neg (lt_irrefl _)]
  · rw [h0]
    by_cases hlt : dist12 x y < dist21 x y
    · left; rw [if_pos hlt]
    · right; rw [if_neg hlt]

/-- Witness of `seamMask_decision`: a `2 × 1` pair of distance fields. -/
theorem seamMask_decision_witness :
    (0 < 2 ∧ 0 < 1) ∧
    (seamMask (255 : ℕ) 0 (fun x _ => x) (fun _ _ => 1) 2 1 newImage 0 0
        = (if (fun x _ => x : Raster ℕ) 0 0 < (fun _ _ => 1 : Raster ℕ) 0 0 then 255 else 0)
      ∧ ((fun x _ => x : Raster ℕ) 0 0 = (fun _ _ => 1 : Raster ℕ) 0 0 →
          seamMask (255 : ℕ) 0 (fun x _ => x) (fun _ _ => 1) 2 1 newImage 0 0 = 0)
      ∧ (seamMask (255 : ℕ) 0 (fun x _ => x) (fun _ _ => 1) 2 1 newImage 0 0 = 255
          ∨ seamMask (255 : ℕ) 0 (fun x _ => x) (fun _ _ => 1) 2 1 newImage 0 0 = 0)) :=
  ⟨⟨by decide, by decide⟩,
    seamMask_decision 255 0 (fun x _ => x) (fun _ _ => 1) 2 1 newImage 0 0 (by decide) (by decide)⟩

/-- C4: on values of an unsigned type of `bits` bits the saturating difference
is zero when `a ≤ b`, the exact difference `a - b` otherwise, never exceeds `a`
and is again a value of the type. -/
theorem saturating_subtract_exact (bits a b : ℕ) (ha : a < 2 ^ bits) (_hb : b < 2 ^ bits) :
    (a ≤ b → saturating_subtract bits a b = 0)
      ∧ (b < a → ((saturating_subtract bits a b : ℕ) : ℤ) = (a : ℤ) - (b : ℤ))
      ∧ saturating_subtract bits a b ≤ a
      ∧ saturating_subtract bits a b < 2 ^ bits := by
  have hpos : 0 < 2 ^ bits := Nat.pos_of_ne_zero (by positivity)
  have key : b < a → saturating_subtract bits a b = a - b := by
    intro hlt
    have h1 : a + 2 ^ bits - b = (a - b) + 2 ^ bits := by omega
    have h2 : a - b < 2 ^ bits := by omega
    simp only [saturating_subtract, if_pos hlt, h1, Nat.add_mod_right, Nat.mod_eq_of_lt h2]
  refine ⟨?_, ?_, ?_, ?_⟩
  · intro hle
    simp [saturating_subtract, Nat.not_lt.mpr hle]
  · intro hlt
    rw [key hlt]
    omega
  · by_cases hlt : b < a
    · rw [key hlt]; omega
    · simp [saturating_subtract, hlt]
  · by_cases hlt : b < a
    · rw [key hlt]; omega
    · simp [saturating_subtract, hlt]

/-- Witness of `saturating_subtract_exact`: 8-bit pixels 200 and 55. -/
theorem saturating_subtract_exact_witness :
    ((200 : ℕ) < 2 ^ 8 ∧ (55 : ℕ) < 2 ^ 8) ∧
    ((200 ≤ 55 → saturating_subtract 8 200 55 = 0)
      ∧ (55 < 200 → ((saturating_subtract 8 200 55 : ℕ) : ℤ) = ((200 : ℕ) : ℤ) - ((55 : ℕ) : ℤ))
      ∧ saturating_subtract 8 200 55 ≤ 200
      ∧ saturating_subtract 8 200 55 < 2 ^ 8) :=
  ⟨⟨by decide, by decide⟩, saturating_subtract_exact 8 200 55 (by decide) (by decide)⟩

theorem quick_tally_loop_eq {α : Type} [Zero α] [DecidableEq α] (threshold : ℕ) (xs : List α) :
    ∀ count, count ≤ threshold →
      quick_tally_loop threshold xs count = min threshold (count + nonZeroCount xs) := by
  induction xs with
  | nil =>
      intro count hc
      simp [quick_tally_loop, nonZeroCount, hc]
  | cons a rest ih =>
      intro count hc
      unfold quick_tally_loop
      by_cases hlt : count < threshold
      · rw [if_pos hlt]
        by_cases ha : a ≠ 0
        · rw [if_pos ha, ih (count + 1) hlt]
          have hc1 : nonZeroCount (a :: rest) = nonZeroCount rest + 1 := by
            simp [nonZeroCount, List.countP_cons, ha]
          rw [hc1]
          congr 1
          omega
        · rw [if_neg ha, ih count hc]
          have hc0 : nonZeroCount (a :: rest) = nonZeroCount rest := by
            simp [nonZeroCount, List.countP_cons, ha]
          rw [hc0]
      · rw [if_neg hlt]
        have : count = threshold := by omega
        omega

theorem quick_tally_eq_min {α : Type} [Zero α] [DecidableEq α] (xs : List α) (threshold : ℕ) :
    quick_tally xs threshold = min threshold (nonZeroCount xs) := by
  unfold quick_tally
  rw [quick_tally_loop_eq threshold xs 0 (Nat.zero_le _), Nat.zero_add]

theorem nonZeroCount_append {α : Type} [Zero α] [DecidableEq α] (xs ys : List α) :
    nonZeroCount (xs ++ ys) = nonZeroCount xs + nonZeroCount ys := by
  simp [nonZeroCount, List.countP_append]

/-- C5: the quick tally is the smaller of the threshold and the number of
non-zero elements; elements after a stretch that already holds `t` non-zero
elements do not change it; and it reaches the threshold exactly when the
sequence has at least `t` non-zero elements. -/
theorem quick_tally_spec {α : Type} [Zero α] [DecidableEq α] (xs : List α) (t : ℕ) :
    quick_tally xs t = min t (nonZeroCount xs)
      ∧ (∀ init rest : List α, xs = init ++ rest → t ≤ nonZeroCount init →
          quick_tally xs t = quick_tally init t)
      ∧ (t ≤ quick_tally xs t ↔ t ≤ nonZeroCount xs) := by
  refine ⟨quick_tally_eq_min xs t, ?_, ?_⟩
  · intro init rest hxs hge
    rw [quick_tally_eq_min, quick_tally_eq_min, hxs, nonZeroCount_append]
    omega
  · rw [quick_tally_eq_min]
    omega

/-- Witness of `quick_tally_spec`: threshold 2 on a sequence with three
non-zero elements, split after the second of them. -/
theorem quick_tally_spec_witness :
    quick_tally [0, 5, 7, 0, 9] 2 = min 2 (nonZeroCount ([0, 5, 7, 0, 9] : List ℕ))
      ∧ quick_tally ([0, 5, 7, 0, 9] : List ℕ) 2 = quick_tally ([0, 5, 7] : List ℕ) 2
      ∧ (2 ≤ quick_tally ([0, 5, 7, 0, 9] : List ℕ) 2
          ↔ 2 ≤ nonZeroCount ([0, 5, 7, 0, 9] : List ℕ)) :=
  ⟨(quick_tally_spec ([0, 5, 7, 0, 9] : List ℕ) 2).1,
    (quick_tally_spec ([0, 5, 7, 0, 9] : List ℕ) 2).2.1 [0, 5, 7] [0, 9] (by decide) (by decide),
    (quick_tally_spec ([0, 5, 7, 0, 9] : List ℕ) 2).2.2⟩

/-! ## The overlap check of `nearestFeatureTransform` -/

theorem nearestFeatureTransform_eq_none_iff {β γ : Type} [Zero β] [LT β]
    [DecidableRel (α := β) (· < ·)]
    (dt : DistanceTransform ℕ β) (bits factor : ℕ) (maxV zeroV : γ)
    (src1 : Raster ℕ) (w h : ℕ) (src2 : Raster ℕ) (dest : Raster γ)
    (norm : ℤ) (boundary : boundary_t) :
    nearestFeatureTransform dt bits factor maxV zeroV src1 w h src2 dest norm boundary = none
      ↔ max (quick_tally (scanOrder (diffImage bits src1 src2 w h) w h)
              (overlap_threshold factor w h))
            (quick_tally (scanOrder (diffImage bits src2 src1 w h) w h)
              (overlap_threshold factor w h))
          < overlap_threshold factor w h := by
  unfold nearestFeatureTransform
  simp only [nftState]
  split_ifs with hlt
  · simp [hlt]
  · simp [hlt]

theorem nearestFeatureTransform_eq_some {β γ : Type} [Zero β] [LT β]
    [DecidableRel (α := β) (· < ·)]
    (dt : DistanceTransform ℕ β) (bits factor : ℕ) (maxV zeroV : γ)
    (src1 : Raster ℕ) (w h : ℕ) (src2 : Raster ℕ) (dest : Raster γ)
    (norm : ℤ) (boundary : boundary_t) (r : Raster γ)
    (hr : nearestFeatureTransform dt bits factor maxV zeroV src1 w h src2 dest norm boundary
      = some r) :
    r = seamMask maxV zeroV
          (nftState dt bits factor src1 w h src2 norm boundary).dist12
          (nftState dt bits factor src1 w h src2 norm boundary).dist21 w h dest := by
  unfold nearestFeatureTransform at hr
  simp only at hr
  split_ifs at hr with hlt
  exact (Option.some.inj hr).symm

theorem nearestFeatureTransform_of_not_lt {β γ : Type} [Zero β] [LT β]
    [DecidableRel (α := β) (· < ·)]
    (dt : DistanceTransform ℕ β) (bits factor : ℕ) (maxV zeroV : γ)
    (src1 : Raster ℕ) (w h : ℕ) (src2 : Raster ℕ) (dest : Raster γ)
    (norm : ℤ) (boundary : boundary_t)
    (hge : ¬ max (quick_tally (scanOrder (diffImage bits src1 src2 w h) w h)
              (overlap_threshold factor w h))
            (quick_tally (scanOrder (diffImage bits src2 src1 w h) w h)
              (overlap_threshold factor w h))
          < overlap_threshold factor w h) :
    nearestFeatureTransform dt bits factor maxV zeroV src1 w h src2 dest norm boundary
      = some (seamMask maxV zeroV
          (nftState dt bits factor src1 w h src2 norm boundary).dist12
          (nftState dt bits factor src1 w h src2 norm boundary).dist21 w h dest) := by
  unfold nearestFeatureTransform
  simp only
  rw [if_neg]
  exact hge

/-- C6 (as amended): the threshold is `2 * f * (w + h)` reduced modulo `2 ^ 32`;
the run aborts exactly when the larger capped tally is below it, which is
exactly when both difference images have fewer non-zero pixels than it;
otherwise the seam mask is returned. -/
theorem nearestFeatureTransform_abort_iff {β γ : Type} [Zero β] [LT β]
    [DecidableRel (α := β) (· < ·)]
    (dt : DistanceTransform ℕ β) (bits factor : ℕ) (maxV zeroV : γ)
    (src1 : Raster ℕ) (w h : ℕ) (src2 : Raster ℕ) (dest : Raster γ)
    (norm : ℤ) (boundary : boundary_t) :
    (nftState dt bits factor src1 w h src2 norm boundary).threshold
        = (2 * factor * (w + h)) % 2 ^ 32
      ∧ (nearestFeatureTransform dt bits factor maxV zeroV src1 w h src2 dest norm boundary
            = none
          ↔ max (nftState dt bits factor src1 w h src2 norm boundary).tally12
                (nftState dt bits factor src1 w h src2 norm boundary).tally21
              < (2 * factor * (w + h)) % 2 ^ 32)
      ∧ (nearestFeatureTransform dt bits factor maxV zeroV src1 w h src2 dest norm boundary
            = none
          ↔ nonZeroCount (scanOrder (diffImage bits src1 src2 w h) w h)
                < (2 * factor * (w + h)) % 2 ^ 32
              ∧ nonZeroCount (scanOrder (diffImage bits src2 src1 w h) w h)
                < (2 * factor * (w + h)) % 2 ^ 32)
      ∧ (nearestFeatureTransform dt bits factor maxV zeroV src1 w h src2 dest norm boundary
            = none
          ∨ nearestFeatureTransform dt bits factor maxV zeroV src1 w h src2 dest norm boundary
            = some (seamMask maxV zeroV
                (nftState dt bits factor src1 w h src2 norm boundary).dist12
                (nftState dt bits factor src1 w h src2 norm boundary).dist21 w h dest)) := by
  have hT : overlap_threshold factor w h = (2 * factor * (w + h)) % 2 ^ 32 := by
    unfold overlap_threshold
    congr 1
    ring
  have hnone := nearestFeatureTransform_eq_none_iff dt bits factor maxV zeroV src1 w h src2
    dest norm boundary
  refine ⟨hT, ?_, ?_, ?_⟩
  · rw [hnone, ← hT]
    rfl
  · rw [hnone, quick_tally_eq_min, quick_tally_eq_min, ← hT]
    omega
  · unfold nearestFeatureTransform
    simp only
    split_ifs with hlt
    · left; rfl
    · right; rfl

/-- C6, the claim as stated fails: with factor `2 ^ 31` on a `1 × 1` pair of
empty masks the unsigned product wraps to `0`, so the run returns a mask
although both difference images have fewer than `2 * f * (w + h)` non-zero
pixels. -/
theorem nearestFeatureTransform_abort_counterexample :
    ¬ (nearestFeatureTransform (fun _ _ _ _ _ => (newImage : Raster ℕ)) 8 (2 ^ 31)
          (255 : ℕ) 0 newImage 1 1 newImage newImage 2 OpenBoundaries = none
        ↔ nonZeroCount (scanOrder (diffImage 8 newImage newImage 1 1) 1 1)
              < 2 * 2 ^ 31 * (1 + 1)
            ∧ nonZeroCount (scanOrder (diffImage 8 newImage newImage 1 1) 1 1)
              < 2 * 2 ^ 31 * (1 + 1)) := by
  intro hiff
  have hcount : nonZeroCount (scanOrder (diffImage 8 newImage newImage 1 1) 1 1) = 0 := by
    decide
  have hlt : nonZeroCount (scanOrder (diffImage 8 newImage newImage 1 1) 1 1)
      < 2 * 2 ^ 31 * (1 + 1) := by
    rw [hcount]; norm_num
  have hnone := hiff.mpr ⟨hlt, hlt⟩
  rw [nearestFeatureTransform_eq_none_iff] at hnone
  have hT : overlap_threshold (2 ^ 31) 1 1 = 0 := by
    unfold overlap_threshold; norm_num
  rw [hT] at hnone
  exact Nat.not_lt_zero _ hnone

/-! ## Exchanging the two masks -/

/-- C10: exchanging the masks leaves the abort decision unchanged, exchanges
the two distance fields, and, when both runs return a mask, gives
complementary values wherever the distance fields differ and the zero value in
both runs wherever they agree. -/
theorem nearestFeatureTransform_swap {β γ : Type} [Zero β] [LinearOrder β]
    (dt : DistanceTransform ℕ β) (bits factor : ℕ) (maxV zeroV : γ)
    (m1 m2 : Raster ℕ) (w h : ℕ) (dest dest' : Raster γ)
    (norm : ℤ) (boundary : boundary_t) :
    (nearestFeatureTransform dt bits factor maxV zeroV m2 w h m1 dest' norm boundary = none
        ↔ nearestFeatureTransform dt bits factor maxV zeroV m1 w h m2 dest norm boundary = none)
      ∧ (nftState dt bits factor m2 w h m1 norm boundary).dist12
          = (nftState dt bits factor m1 w h m2 norm boundary).dist21
      ∧ (nftState dt bits factor m2 w h m1 norm boundary).dist21
          = (nftState dt bits factor m1 w h m2 norm boundary).dist12
      ∧ ∀ r r' : Raster γ,
          nearestFeatureTransform dt bits factor maxV zeroV m1 w h m2 dest norm boundary
            = some r →
          nearestFeatureTransform dt bits factor maxV zeroV m2 w h m1 dest' norm boundary
            = some r' →
          ∀ x y, x < w → y < h →
            ((nftState dt bits factor m1 w h m2 norm boundary).dist12 x y
                ≠ (nftState dt bits factor m1 w h m2 norm boundary).dist21 x y →
              (r x y = maxV ∧ r' x y = zeroV) ∨ (r x y = zeroV ∧ r' x y = maxV))
            ∧ ((nftState dt bits factor m1 w h m2 norm boundary).dist12 x y
                = (nftState dt bits factor m1 w h m2 norm boundary).dist21 x y →
              r x y = zeroV ∧ r' x y = zeroV) := by
  refine ⟨?_, rfl, rfl, ?_⟩
  · rw [nearestFeatureTransform_eq_none_iff, nearestFeatureTransform_eq_none_iff, max_comm]
  · intro r r' hr hr' x y hx hy
    have e := nearestFeatureTransform_eq_some dt bits factor maxV zeroV m1 w h m2 dest norm
      boundary r hr
    have e' := nearestFeatureTransform_eq_some dt bits factor maxV zeroV m2 w h m1 dest' norm
      boundary r' hr'
    have hs12 : (nftState dt bits factor m2 w h m1 norm boundary).dist12
        = (nftState dt bits factor m1 w h m2 norm boundary).dist21 := rfl
    have hs21 : (nftState dt bits factor m2 w h m1 norm boundary).dist21
        = (nftState dt bits factor m1 w h m2 norm boundary).dist12 := rfl
    rw [hs12, hs21] at e'
    generalize (nftState dt bits factor m1 w h m2 norm boundary).dist12 = d12 at e e' ⊢
    generalize (nftState dt bits factor m1 w h m2 norm boundary).dist21 = d21 at e e' ⊢
    have hv : r x y = if d12 x y < d21 x y then maxV else zeroV := by
      rw [e]; simp [seamMask, combineTwoImages, seamChoice, hx, hy]
    have hv' : r' x y = if d21 x y < d12 x y then maxV else zeroV := by
      rw [e']; simp [seamMask, combineTwoImages, seamChoice, hx, hy]
    constructor
    · intro hne
      rcases lt_or_gt_of_ne hne with hlt | hgt
      · left
        rw [hv, hv', if_pos hlt, if_neg (not_lt_of_gt hlt)]
        exact ⟨rfl, rfl⟩
      · right
        rw [hv, hv', if_neg (not_lt_of_gt hgt), if_pos hgt]
        exact ⟨rfl, rfl⟩
    · intro heq
      rw [hv, hv', heq, if_neg (lt_irrefl _)]
      exact ⟨rfl, rfl⟩

/-! ## The modelled distance transform meets its contract -/

theorem listMin_mem : ∀ l : List ℚ, l ≠ [] → listMin l ∈ l
  | [], h => absurd rfl h
  | [a], _ => by simp [listMin]
  | a :: b :: rest, _ => by
      have ih := listMin_mem (b :: rest) (by simp)
      rw [listMin]
      rcases min_choice a (listMin (b :: rest)) with h | h
      · rw [h]; exact List.mem_cons_self _ _
      · rw [h]; exact List.mem_cons_of_mem _ ih

theorem listMin_le : ∀ (l : List ℚ) (c : ℚ), c ∈ l → listMin l ≤ c
  | [], c, h => by simp at h
  | [a], c, h => by
      simp only [List.mem_singleton] at h
      simp [listMin, h]
  | a :: b :: rest, c, h => by
      rw [listMin]
      rcases List.mem_cons.mp h with h | h
      · rw [h]; exact min_le_left _ _
      · exact le_trans (min_le_right _ _) (listMin_le (b :: rest) c h)

theorem mem_candidates (w h : ℕ) (img : Raster ℕ) (background : ℕ) (x y : ℕ) (c : ℚ) :
    c ∈ ((List.range h).flatMap fun k =>
        (List.range w).filterMap fun j =>
          if img j k = background then some (sqDist x y j k) else none)
      ↔ ∃ j k, (j < w ∧ k < h ∧ img j k = background) ∧ c = sqDist x y j k := by
  simp only [List.mem_flatMap, List.mem_filterMap, List.mem_range]
  constructor
  · rintro ⟨k, hk, j, hj, hjk⟩
    by_cases hb : img j k = background
    · rw [if_pos hb] at hjk
      exact ⟨j, k, ⟨hj, hk, hb⟩, (Option.some.inj hjk).symm⟩
    · rw [if_neg hb] at hjk
      exact absurd hjk (by simp)
  · rintro ⟨j, k, ⟨hj, hk, hb⟩, hc⟩
    exact ⟨k, hk, j, hj, by rw [if_pos hb, hc]⟩

theorem distanceTransformModel_sqEuclidean (background : ℕ) (norm : ℤ) :
    SqEuclideanEngine distanceTransformModel (fun v => v = background) background norm := by
  intro w h img x y _ _ hsrc
  obtain ⟨j0, k0, hj0, hk0, hb0⟩ := hsrc
  have hne : ((List.range h).flatMap fun k =>
        (List.range w).filterMap fun j =>
          if img j k = background then some (sqDist x y j k) else none) ≠ [] := by
    intro hnil
    have hm := (mem_candidates w h img background x y (sqDist x y j0 k0)).mpr
      ⟨j0, k0, ⟨hj0, hk0, hb0⟩, rfl⟩
    rw [hnil] at hm
    simp at hm
  constructor
  · obtain ⟨j, k, hc, hv⟩ := (mem_candidates w h img background x y _).mp (listMin_mem _ hne)
    exact ⟨j, k, hc, hv⟩
  · intro j k hc
    exact listMin_le _ _ ((mem_candidates w h img background x y _).mpr ⟨j, k, hc, rfl⟩)

theorem distanceTransformModel_readsOnlyRange : ReadsOnlyRange distanceTransformModel := by
  intro w h f g background norm hfg x y _ _
  unfold distanceTransformModel
  congr 1
  apply List.flatMap_congr
  intro k hk
  apply List.filterMap_congr
  intro j hj
  rw [hfg j k (List.mem_range.mp hj) (List.mem_range.mp hk)]

theorem sqDist_nonneg (x y j k : ℕ) : 0 ≤ sqDist x y j k := by
  unfold sqDist
  positivity

theorem sqDist_self (x y : ℕ) : sqDist x y x y = 0 := by
  simp [sqDist]

theorem sqDist_pos (x y j k : ℕ) (hne : ¬ (j = x ∧ k = y)) : 0 < sqDist x y j k := by
  unfold sqDist
  by_cases hj : j = x
  · have hk : k ≠ y := fun hk => hne ⟨hj, hk⟩
    have : ((y : ℚ) - k) ≠ 0 := by
      intro h0
      apply hk
      have : (y : ℚ) = k := by linarith
      exact_mod_cast this.symm
    positivity
  · have : ((x : ℚ) - j) ≠ 0 := by
      intro h0
      apply hj
      have : (x : ℚ) = j := by linarith
      exact_mod_cast this.symm
    positivity

theorem sqEuclidean_zero_at_source {α : Type} (dt : DistanceTransform α ℚ)
    (isSource : α → Prop) (background : α) (norm : ℤ)
    (hdt : SqEuclideanEngine dt isSource background norm)
    (w h : ℕ) (img : Raster α) (x y : ℕ) (hx : x < w) (hy : y < h)
    (hs : isSource (img x y)) : dt w h img background norm x y = 0 := by
  obtain ⟨⟨j, k, _, hval⟩, hle⟩ := hdt w h img x y hx hy ⟨x, y, hx, hy, hs⟩
  have h1 := hle x y ⟨hx, hy, hs⟩
  rw [sqDist_self] at h1
  have h2 := sqDist_nonneg x y j k
  rw [← hval] at h2
  exact le_antisymm h1 h2

theorem sqEuclidean_pos_off_source {α : Type} (dt : DistanceTransform α ℚ)
    (isSource : α → Prop) (background : α) (norm : ℤ)
    (hdt : SqEuclideanEngine dt isSource background norm)
    (w h : ℕ) (img : Raster α) (x y : ℕ) (hx : x < w) (hy : y < h)
    (hsrc : ∃ j k, j < w ∧ k < h ∧ isSource (img j k))
    (hs : ¬ isSource (img x y)) : 0 < dt w h img background norm x y := by
  obtain ⟨⟨j, k, ⟨_, _, hjk⟩, hval⟩, _⟩ := hdt w h img x y hx hy hsrc
  rw [hval]
  apply sqDist_pos
  rintro ⟨rfl, rfl⟩
  exact hs hjk

/-- Witness of `nearestFeatureTransform_swap`: a full mask against a one-column
mask on a `5 × 5` raster with the modelled engine; at pixel `(1, 0)` the two
distance fields differ and the two runs give complementary values. -/
theorem nearestFeatureTransform_swap_witness :
    (nearestFeatureTransform distanceTransformModel 8 1 (255 : ℕ) 0 fullMask 5 5 columnMask
          newImage 2 OpenBoundaries
        = some (seamMask 255 0
            (nftState distanceTransformModel 8 1 fullMask 5 5 columnMask 2 OpenBoundaries).dist12
            (nftState distanceTransformModel 8 1 fullMask 5 5 columnMask 2 OpenBoundaries).dist21
            5 5 newImage)
      ∧ nearestFeatureTransform distanceTransformModel 8 1 (255 : ℕ) 0 columnMask 5 5 fullMask
          newImage 2 OpenBoundaries
        = some (seamMask 255 0
            (nftState distanceTransformModel 8 1 columnMask 5 5 fullMask 2 OpenBoundaries).dist12
            (nftState distanceTransformModel 8 1 columnMask 5 5 fullMask 2 OpenBoundaries).dist21
            5 5 newImage)
      ∧ 1 < 5 ∧ 0 < 5
      ∧ (nftState distanceTransformModel 8 1 fullMask 5 5 columnMask 2 OpenBoundaries).dist12 1 0
        ≠ (nftState distanceTransformModel 8 1 fullMask 5 5 columnMask 2 OpenBoundaries).dist21
            1 0)
    ∧ ((seamMask (255 : ℕ) 0
            (nftState distanceTransformModel 8 1 fullMask 5 5 columnMask 2 OpenBoundaries).dist12
            (nftState distanceTransformModel 8 1 fullMask 5 5 columnMask 2 OpenBoundaries).dist21
            5 5 newImage 1 0 = 255
          ∧ seamMask (255 : ℕ) 0
            (nftState distanceTransformModel 8 1 columnMask 5 5 fullMask 2 OpenBoundaries).dist12
            (nftState distanceTransformModel 8 1 columnMask 5 5 fullMask 2 OpenBoundaries).dist21
            5 5 newImage 1 0 = 0)
        ∨ (seamMask (255 : ℕ) 0
            (nftState distanceTransformModel 8 1 fullMask 5 5 columnMask 2 OpenBoundaries).dist12
            (nftState distanceTransformModel 8 1 fullMask 5 5 columnMask 2 OpenBoundaries).dist21
            5 5 newImage 1 0 = 0
          ∧ seamMask (255 : ℕ) 0
            (nftState distanceTransformModel 8 1 columnMask 5 5 fullMask 2 OpenBoundaries).dist12
            (nftState distanceTransformModel 8 1 columnMask 5 5 fullMask 2 OpenBoundaries).dist21
            5 5 newImage 1 0 = 255)) :=
  have hr := nearestFeatureTransform_of_not_lt distanceTransformModel 8 1 (255 : ℕ) 0
    fullMask 5 5 columnMask newImage 2 OpenBoundaries (by decide)
  have hr' := nearestFeatureTransform_of_not_lt distanceTransformModel 8 1 (255 : ℕ) 0
    columnMask 5 5 fullMask newImage 2 OpenBoundaries (by decide)
  have h21 : (nftState distanceTransformModel 8 1 fullMask 5 5 columnMask 2
        OpenBoundaries).dist21 1 0 = 0 :=
    sqEuclidean_zero_at_source distanceTransformModel _ 0 2
      (distanceTransformModel_sqEuclidean 0 2) 5 5 (diffImage 8 columnMask fullMask 5 5) 1 0
      (by decide) (by decide) (by decide)
  have h12 : 0 < (nftState distanceTransformModel 8 1 fullMask 5 5 columnMask 2
        OpenBoundaries).dist12 1 0 :=
    sqEuclidean_pos_off_source distanceTransformModel _ 0 2
      (distanceTransformModel_sqEuclidean 0 2) 5 5 (diffImage 8 fullMask columnMask 5 5) 1 0
      (by decide) (by decide) ⟨0, 0, by decide, by decide, by decide⟩ (by decide)
  have hne : (nftState distanceTransformModel 8 1 fullMask 5 5 columnMask 2
        OpenBoundaries).dist12 1 0
      ≠ (nftState distanceTransformModel 8 1 fullMask 5 5 columnMask 2
        OpenBoundaries).dist21 1 0 := by
    rw [h21]
    exact ne_of_gt h12
  ⟨⟨hr, hr', by decide, by decide, hne⟩,
    ((nearestFeatureTransform_swap distanceTransformModel 8 1 (255 : ℕ) 0 fullMask columnMask
      5 5 newImage newImage 2 OpenBoundaries).2.2.2 _ _ hr hr' 1 0 (by decide) (by decide)).1
      hne⟩

/-! ## The periodic distance transform -/

/-- C9: with open boundaries the tile step and the extract step copy the whole
raster, and the periodic distance transform writes, pixel for pixel, what the
distance transform itself yields on the source. -/
theorem periodicDistanceTransform_open {α β : Type} [Zero α] [Zero β]
    (dt : DistanceTransform α β) (hdt : ReadsOnlyRange dt)
    (src : Raster α) (w h : ℕ) (dest : Raster β) (background : α) (norm : ℤ)
    (x y : ℕ) (hx : x < w) (hy : y < h) :
    periodicDistanceTransform dt src w h dest background norm OpenBoundaries x y
        = dt w h src background norm x y
      ∧ quadruple_image src w h newImage OpenBoundaries x y = src x y
      ∧ quater_image (dt w h src background norm) w h dest OpenBoundaries x y
          = dt w h src background norm x y := by
  have hquad : ∀ x y, x < w → y < h →
      quadruple_image src w h newImage OpenBoundaries x y = src x y := by
    intro x y hx hy
    simp [quadruple_image, copyImage, hx, hy]
  have hquat : ∀ d : Raster β, quater_image d w h dest OpenBoundaries x y = d x y := by
    intro d
    simp [quater_image, copyImage, hx, hy]
  refine ⟨?_, hquad x y hx hy, hquat _⟩
  unfold periodicDistanceTransform
  simp only
  rw [hquat]
  exact hdt w h _ _ background norm hquad x y hx hy

/-- Witness of `periodicDistanceTransform_open`: the modelled engine on a
`2 × 2` raster. -/
theorem periodicDistanceTransform_open_witness :
    (ReadsOnlyRange distanceTransformModel ∧ 1 < 2 ∧ 0 < 2) ∧
    (periodicDistanceTransform distanceTransformModel (fun x y => x + y) 2 2 newImage 0 2
          OpenBoundaries 1 0
        = distanceTransformModel 2 2 (fun x y => x + y) 0 2 1 0
      ∧ quadruple_image (fun x y => x + y : Raster ℕ) 2 2 newImage OpenBoundaries 1 0
          = (fun x y => x + y : Raster ℕ) 1 0
      ∧ quater_image (distanceTransformModel 2 2 (fun x y => x + y) 0 2) 2 2 newImage
            OpenBoundaries 1 0
          = distanceTransformModel 2 2 (fun x y => x + y) 0 2 1 0) :=
  ⟨⟨distanceTransformModel_readsOnlyRange, by decide, by decide⟩,
    periodicDistanceTransform_open distanceTransformModel distanceTransformModel_readsOnlyRange
      (fun x y => x + y) 2 2 newImage 0 2 1 0 (by decide) (by decide)⟩

/-! ### Distances on the doubled axis -/

theorem wrap_int_le (W x j a : ℕ) (hx : x < W) (hj : j < W) (ha : a = 0 ∨ a = W) :
    0 ≤ min |(x : ℤ) - j| ((W : ℤ) - |(x : ℤ) - j|)
      ∧ min |(x : ℤ) - j| ((W : ℤ) - |(x : ℤ) - j|)
        ≤ |((foldPos W x : ℕ) : ℤ) - ((j + a : ℕ) : ℤ)| := by
  unfold foldPos
  split_ifs with hlt <;> simp only [abs_eq_max_neg] <;> push_cast <;>
    rcases ha with rfl | rfl <;> omega

theorem wrap_int_attained (W x j : ℕ) (hx : x < W) (hj : j < W) :
    ∃ a : ℕ, (a = 0 ∨ a = W) ∧ min |(x : ℤ) - j| ((W : ℤ) - |(x : ℤ) - j|)
        = |((foldPos W x : ℕ) : ℤ) - ((j + a : ℕ) : ℤ)| := by
  by_cases hc : |((foldPos W x : ℕ) : ℤ) - ((j + 0 : ℕ) : ℤ)|
      ≤ |((foldPos W x : ℕ) : ℤ) - ((j + W : ℕ) : ℤ)|
  · refine ⟨0, Or.inl rfl, ?_⟩
    revert hc
    unfold foldPos
    split_ifs with hlt <;> simp only [abs_eq_max_neg] <;> push_cast <;> omega
  · refine ⟨W, Or.inr rfl, ?_⟩
    revert hc
    unfold foldPos
    split_ifs with hlt <;> simp only [abs_eq_max_neg] <;> push_cast <;> omega

theorem wrapDist_cast (W x j : ℕ) :
    wrapDist W x j = ((min |(x : ℤ) - j| ((W : ℤ) - |(x : ℤ) - j|) : ℤ) : ℚ) := by
  unfold wrapDist
  push_cast
  rfl

theorem wrapDist_sq_le (W x j a : ℕ) (hx : x < W) (hj : j < W) (ha : a = 0 ∨ a = W) :
    wrapDist W x j ^ 2 ≤ (((foldPos W x : ℕ) : ℚ) - ((j + a : ℕ) : ℚ)) ^ 2 := by
  obtain ⟨h0, h1⟩ := wrap_int_le W x j a hx hj ha
  rw [wrapDist_cast]
  have h2 : (min |(x : ℤ) - j| ((W : ℤ) - |(x : ℤ) - j|)) ^ 2
      ≤ (((foldPos W x : ℕ) : ℤ) - ((j + a : ℕ) : ℤ)) ^ 2 := by
    rw [← sq_abs (((foldPos W x : ℕ) : ℤ) - ((j + a : ℕ) : ℤ))]
    exact pow_le_pow_left₀ h0 h1 2
  exact_mod_cast h2

theorem wrapDist_sq_attained (W x j : ℕ) (hx : x < W) (hj : j < W) :
    ∃ a : ℕ, (a = 0 ∨ a = W) ∧
      wrapDist W x j ^ 2 = (((foldPos W x : ℕ) : ℚ) - ((j + a : ℕ) : ℚ)) ^ 2 := by
  obtain ⟨a, ha, h⟩ := wrap_int_attained W x j hx hj
  refine ⟨a, ha, ?_⟩
  rw [wrapDist_cast, h]
  have h2 : (|((foldPos W x : ℕ) : ℤ) - ((j + a : ℕ) : ℤ)|) ^ 2
      = (((foldPos W x : ℕ) : ℤ) - ((j + a : ℕ) : ℤ)) ^ 2 := sq_abs _
  exact_mod_cast h2

/-- Minimum over a tiled raster: when the sources of the tiled raster are the
translates `(j + a, k + b)` of the sources `(j, k)` of the original, and the
per-axis costs `cx`, `cy` are the least squared offsets over the translates,
the least squared distance in the tiled raster is the least `cx + cy`. -/
theorem isMinOver_tiled (srcCand tileCand : ℕ → ℕ → Prop) (A B : ℕ → Prop)
    (x' y' : ℕ) (cx cy : ℕ → ℚ) (v : ℚ)
    (htile : ∀ j' k', tileCand j' k' ↔
      ∃ j k a b, srcCand j k ∧ A a ∧ B b ∧ j' = j + a ∧ k' = k + b)
    (hxa : ∀ j k, srcCand j k → ∃ a, A a ∧ cx j = ((x' : ℚ) - ((j + a : ℕ) : ℚ)) ^ 2)
    (hxl : ∀ j k, srcCand j k → ∀ a, A a → cx j ≤ ((x' : ℚ) - ((j + a : ℕ) : ℚ)) ^ 2)
    (hya : ∀ j k, srcCand j k → ∃ b, B b ∧ cy k = ((y' : ℚ) - ((k + b : ℕ) : ℚ)) ^ 2)
    (hyl : ∀ j k, srcCand j k → ∀ b, B b → cy k ≤ ((y' : ℚ) - ((k + b : ℕ) : ℚ)) ^ 2)
    (hv : IsMinOver tileCand (sqDist x' y') v) :
    IsMinOver srcCand (fun j k => cx j + cy k) v := by
  have hupper : ∀ j k, srcCand j k → v ≤ cx j + cy k := by
    intro j k hs
    obtain ⟨a, hA, hca⟩ := hxa j k hs
    obtain ⟨b, hB, hcb⟩ := hya j k hs
    have ht : tileCand (j + a) (k + b) := (htile _ _).mpr ⟨j, k, a, b, hs, hA, hB, rfl, rfl⟩
    have := hv.2 _ _ ht
    rw [hca, hcb]
    exact this
  refine ⟨?_, hupper⟩
  obtain ⟨j', k', ht, hval⟩ := hv.1
  obtain ⟨j, k, a, b, hs, hA, hB, rfl, rfl⟩ := (htile _ _).mp ht
  refine ⟨j, k, hs, le_antisymm (hupper j k hs) ?_⟩
  rw [hval]
  exact add_le_add (hxl j k hs a hA) (hyl j k hs b hB)

/-! ### Tiling and extraction, pixel by pixel -/

theorem quadruple_image_double_apply {α : Type} (src dest : Raster α) (W H j' k' : ℕ)
    (hj : j' < 2 * W) (hk : k' < 2 * H) :
    quadruple_image src W H dest DoubleStrip j' k'
      = src (if j' < W then j' else j' - W) (if k' < H then k' else k' - H) := by
  simp only [quadruple_image, copyImage]
  split_ifs <;> first | rfl | (exfalso; omega) | (congr 1 <;> omega)

theorem quadruple_image_horizontal_apply {α : Type} (src dest : Raster α) (W H j' k' : ℕ)
    (hj : j' < 2 * W) (hk : k' < H) :
    quadruple_image src W H dest HorizontalStrip j' k'
      = src (if j' < W then j' else j' - W) k' := by
  simp only [quadruple_image, copyImage]
  split_ifs <;> first | rfl | (exfalso; omega) | (congr 1 <;> omega)

theorem quater_image_double_apply {α : Type} (D dest : Raster α) (W H x y : ℕ)
    (hx : x < W) (hy : y < H) :
    quater_image D (2 * W) (2 * H) dest DoubleStrip x y = D (foldPos W x) (foldPos H y) := by
  have hW : 2 * W / 2 = W := by omega
  have hH : 2 * H / 2 = H := by omega
  simp only [quater_image, copyImage, foldPos, hW, hH]
  split_ifs <;> first | rfl | (exfalso; omega) | (congr 1 <;> omega)

theorem quater_image_horizontal_apply {α : Type} (D dest : Raster α) (W H x y : ℕ)
    (hx : x < W) (hy : y < H) :
    quater_image D (2 * W) H dest HorizontalStrip x y = D (foldPos W x) y := by
  have hW : 2 * W / 2 = W := by omega
  simp only [quater_image, copyImage, foldPos, hW]
  split_ifs <;> first | rfl | (exfalso; omega) | (congr 1 <;> omega)

theorem foldPos_lt (W x : ℕ) (hx : x < W) : foldPos W x < 2 * W := by
  unfold foldPos
  split_ifs <;> omega

theorem horizontal_sources {α : Type} (isSource : α → Prop) (src dest : Raster α) (W H : ℕ)
    (j' k' : ℕ) :
    (j' < 2 * W ∧ k' < H ∧ isSource (quadruple_image src W H dest HorizontalStrip j' k'))
      ↔ ∃ j k a b, (j < W ∧ k < H ∧ isSource (src j k)) ∧ (a = 0 ∨ a = W) ∧ b = 0
          ∧ j' = j + a ∧ k' = k + b := by
  constructor
  · rintro ⟨hj, hk, hs⟩
    rw [quadruple_image_horizontal_apply src dest W H j' k' hj hk] at hs
    by_cases h1 : j' < W
    · rw [if_pos h1] at hs
      exact ⟨j', k', 0, 0, ⟨h1, hk, hs⟩, Or.inl rfl, rfl, rfl, rfl⟩
    · rw [if_neg h1] at hs
      exact ⟨j' - W, k', W, 0, ⟨by omega, hk, hs⟩, Or.inr rfl, rfl, by omega, rfl⟩
  · rintro ⟨j, k, a, b, ⟨hj, hk, hs⟩, ha, hb, hj', hk'⟩
    have hkk : k' = k := by omega
    have hja : j' < 2 * W := by rcases ha with rfl | rfl <;> omega
    rw [hkk]
    refine ⟨hja, hk, ?_⟩
    rw [quadruple_image_horizontal_apply src dest W H j' k hja hk]
    have e1 : (if j' < W then j' else j' - W) = j := by
      rcases ha with rfl | rfl
      · rw [if_pos (by omega)]; omega
      · rw [if_neg (by omega)]; omega
    rw [e1]
    exact hs

theorem double_sources {α : Type} (isSource : α → Prop) (src dest : Raster α) (W H : ℕ)
    (j' k' : ℕ) :
    (j' < 2 * W ∧ k' < 2 * H ∧ isSource (quadruple_image src W H dest DoubleStrip j' k'))
      ↔ ∃ j k a b, (j < W ∧ k < H ∧ isSource (src j k)) ∧ (a = 0 ∨ a = W) ∧ (b = 0 ∨ b = H)
          ∧ j' = j + a ∧ k' = k + b := by
  constructor
  · rintro ⟨hj, hk, hs⟩
    rw [quadruple_image_double_apply src dest W H j' k' hj hk] at hs
    refine ⟨if j' < W then j' else j' - W, if k' < H then k' else k' - H,
      if j' < W then 0 else W, if k' < H then 0 else H, ⟨?_, ?_, hs⟩, ?_, ?_, ?_, ?_⟩
    · split_ifs <;> omega
    · split_ifs <;> omega
    · split_ifs
      · exact Or.inl rfl
      · exact Or.inr rfl
    · split_ifs
      · exact Or.inl rfl
      · exact Or.inr rfl
    · split_ifs <;> omega
    · split_ifs <;> omega
  · rintro ⟨j, k, a, b, ⟨hj, hk, hs⟩, ha, hb, rfl, rfl⟩
    have hja : j + a < 2 * W := by rcases ha with rfl | rfl <;> omega
    have hkb : k + b < 2 * H := by rcases hb with rfl | rfl <;> omega
    refine ⟨hja, hkb, ?_⟩
    rw [quadruple_image_double_apply src dest W H (j + a) (k + b) hja hkb]
    have e1 : (if j + a < W then j + a else j + a - W) = j := by
      rcases ha with rfl | rfl
      · simp [hj]
      · have : ¬ (j + a < a) := by omega
        simp [this]
    have e2 : (if k + b < H then k + b else k + b - H) = k := by
      rcases hb with rfl | rfl
      · simp [hk]
      · have : ¬ (k + b < b) := by omega
        simp [this]
    rw [e1, e2]
    exact hs

theorem wrapDist_adjacent (W : ℕ) (hW : 2 ≤ W) : wrapDist W 0 (W - 1) = 1 := by
  rw [wrapDist_cast]
  have h : min |((0 : ℕ) : ℤ) - ((W - 1 : ℕ) : ℤ)| ((W : ℤ) - |((0 : ℕ) : ℤ) - ((W - 1 : ℕ) : ℤ)|)
      = 1 := by
    simp only [abs_eq_max_neg]
    omega
  rw [h]
  norm_num

/-- C7: with a squared Euclidean engine the horizontally wrapped transform
writes at every pixel the least, over the source pixels, of the squared
cylinder distance `min(|x-j|, W-|x-j|)^2 + (y-k)^2`; a single source pixel in
the rightmost column gives squared distance `1` at the leftmost column of its
row when `W ≥ 2`. -/
theorem periodicDistanceTransform_horizontal {α : Type} [Zero α]
    (dt : DistanceTransform α ℚ) (isSource : α → Prop) (background : α) (norm : ℤ)
    (hdt : SqEuclideanEngine dt isSource background norm)
    (src : Raster α) (W H : ℕ) (dest : Raster ℚ)
    (hsrc : ∃ j k, j < W ∧ k < H ∧ isSource (src j k)) :
    (∀ x y, x < W → y < H →
        IsMinOver (fun j k => j < W ∧ k < H ∧ isSource (src j k))
          (fun j k => wrapDist W x j ^ 2 + ((y : ℚ) - k) ^ 2)
          (periodicDistanceTransform dt src W H dest background norm HorizontalStrip x y))
      ∧ (2 ≤ W → ∀ k, k < H →
          (∀ j' k', j' < W → k' < H → (isSource (src j' k') ↔ j' = W - 1 ∧ k' = k)) →
          periodicDistanceTransform dt src W H dest background norm HorizontalStrip 0 k = 1) := by
  have main : ∀ x y, x < W → y < H →
      IsMinOver (fun j k => j < W ∧ k < H ∧ isSource (src j k))
        (fun j k => wrapDist W x j ^ 2 + ((y : ℚ) - k) ^ 2)
        (periodicDistanceTransform dt src W H dest background norm HorizontalStrip x y) := by
    intro x y hx hy
    simp only [periodicDistanceTransform]
    rw [quater_image_horizontal_apply _ _ W H x y hx hy]
    have hex : ∃ j k, j < 2 * W ∧ k < H
        ∧ isSource (quadruple_image src W H newImage HorizontalStrip j k) := by
      obtain ⟨j, k, hj, hk, hs⟩ := hsrc
      have := (horizontal_sources isSource src newImage W H (j + 0) (k + 0)).mpr
        ⟨j, k, 0, 0, ⟨hj, hk, hs⟩, Or.inl rfl, rfl, rfl, rfl⟩
      exact ⟨j + 0, k + 0, this⟩
    have hv := hdt (2 * W) H (quadruple_image src W H newImage HorizontalStrip)
      (foldPos W x) y (foldPos_lt W x hx) hy hex
    refine isMinOver_tiled (fun j k => j < W ∧ k < H ∧ isSource (src j k)) _
      (fun a => a = 0 ∨ a = W) (fun b => b = 0) (foldPos W x) y
      (fun j => wrapDist W x j ^ 2) (fun k => ((y : ℚ) - k) ^ 2) _
      (horizontal_sources isSource src newImage W H) ?_ ?_ ?_ ?_ hv
    · intro j k hs
      exact wrapDist_sq_attained W x j hx hs.1
    · intro j k hs a ha
      exact wrapDist_sq_le W x j a hx hs.1 ha
    · intro j k _
      exact ⟨0, rfl, by simp⟩
    · intro j k _ b hb
      rw [hb]
      simp
  refine ⟨main, ?_⟩
  intro hW k hk honly
  obtain ⟨⟨j, k', ⟨hj, hk', hs⟩, hval⟩, _⟩ := main 0 k (by omega) hk
  obtain ⟨rfl, rfl⟩ := (honly j k' hj hk').mp hs
  rw [hval]
  show wrapDist W 0 (W - 1) ^ 2 + ((k' : ℚ) - k') ^ 2 = 1
  rw [wrapDist_adjacent W hW]
  norm_num

/-- Witness of `periodicDistanceTransform_horizontal`: the modelled engine on a
`3 × 2` raster whose only source pixel lies in the rightmost column. -/
theorem periodicDistanceTransform_horizontal_witness :
    (SqEuclideanEngine distanceTransformModel (fun v => v = 0) 0 2
      ∧ (∃ j k, j < 3 ∧ k < 2 ∧ singleZeroRaster 2 1 j k = 0)
      ∧ 0 < 3 ∧ 1 < 2 ∧ 2 ≤ 3
      ∧ (∀ j' k', j' < 3 → k' < 2 → (singleZeroRaster 2 1 j' k' = 0 ↔ j' = 3 - 1 ∧ k' = 1)))
    ∧ IsMinOver (fun j k => j < 3 ∧ k < 2 ∧ singleZeroRaster 2 1 j k = 0)
        (fun j k => wrapDist 3 0 j ^ 2 + (((1 : ℕ) : ℚ) - k) ^ 2)
        (periodicDistanceTransform distanceTransformModel (singleZeroRaster 2 1) 3 2 newImage
          0 2 HorizontalStrip 0 1)
    ∧ periodicDistanceTransform distanceTransformModel (singleZeroRaster 2 1) 3 2 newImage
        0 2 HorizontalStrip 0 1 = 1 :=
  have hsrc : ∃ j k, j < 3 ∧ k < 2 ∧ singleZeroRaster 2 1 j k = 0 :=
    ⟨2, 1, by decide, by decide, by decide⟩
  have honly : ∀ j' k', j' < 3 → k' < 2 →
      (singleZeroRaster 2 1 j' k' = 0 ↔ j' = 3 - 1 ∧ k' = 1) := by
    intro j' k' _ _
    simp [singleZeroRaster]
  ⟨⟨distanceTransformModel_sqEuclidean 0 2, hsrc, by decide, by decide, by decide, honly⟩,
    (periodicDistanceTransform_horizontal distanceTransformModel (fun v => v = 0) 0 2
      (distanceTransformModel_sqEuclidean 0 2) (singleZeroRaster 2 1) 3 2 newImage hsrc).1
      0 1 (by decide) (by decide),
    (periodicDistanceTransform_horizontal distanceTransformModel (fun v => v = 0) 0 2
      (distanceTransformModel_sqEuclidean 0 2) (singleZeroRaster 2 1) 3 2 newImage hsrc).2
      (by decide) 1 (by decide) honly⟩

/-- C8: with a squared Euclidean engine the doubly wrapped transform writes at
every pixel the least, over the source pixels, of the squared torus distance
`min(|x-j|, W-|x-j|)^2 + min(|y-k|, H-|y-k|)^2`, for every shape, odd sizes
included. -/
theorem periodicDistanceTransform_double {α : Type} [Zero α]
    (dt : DistanceTransform α ℚ) (isSource : α → Prop) (background : α) (norm : ℤ)
    (hdt : SqEuclideanEngine dt isSource background norm)
    (src : Raster α) (W H : ℕ) (dest : Raster ℚ)
    (hsrc : ∃ j k, j < W ∧ k < H ∧ isSource (src j k))
    (x y : ℕ) (hx : x < W) (hy : y < H) :
    IsMinOver (fun j k => j < W ∧ k < H ∧ isSource (src j k))
      (fun j k => wrapDist W x j ^ 2 + wrapDist H y k ^ 2)
      (periodicDistanceTransform dt src W H dest background norm DoubleStrip x y) := by
  simp only [periodicDistanceTransform]
  rw [quater_image_double_apply _ _ W H x y hx hy]
  have hex : ∃ j k, j < 2 * W ∧ k < 2 * H
      ∧ isSource (quadruple_image src W H newImage DoubleStrip j k) := by
    obtain ⟨j, k, hj, hk, hs⟩ := hsrc
    have := (double_sources isSource src newImage W H (j + 0) (k + 0)).mpr
      ⟨j, k, 0, 0, ⟨hj, hk, hs⟩, Or.inl rfl, Or.inl rfl, rfl, rfl⟩
    exact ⟨j + 0, k + 0, this⟩
  have hv := hdt (2 * W) (2 * H) (quadruple_image src W H newImage DoubleStrip)
    (foldPos W x) (foldPos H y) (foldPos_lt W x hx) (foldPos_lt H y hy) hex
  refine isMinOver_tiled (fun j k => j < W ∧ k < H ∧ isSource (src j k)) _
    (fun a => a = 0 ∨ a = W) (fun b => b = 0 ∨ b = H) (foldPos W x) (foldPos H y)
    (fun j => wrapDist W x j ^ 2) (fun k => wrapDist H y k ^ 2) _
    (double_sources isSource src newImage W H) ?_ ?_ ?_ ?_ hv
  · intro j k hs
    exact wrapDist_sq_attained W x j hx hs.1
  · intro j k hs a ha
    exact wrapDist_sq_le W x j a hx hs.1 ha
  · intro j k hs
    exact wrapDist_sq_attained H y k hy hs.2.1
  · intro j k hs b hb
    exact wrapDist_sq_le H y k b hy hs.2.1 hb

/-- Witness of `periodicDistanceTransform_double`: the modelled engine on a
`3 × 3` raster with one source pixel. -/
theorem periodicDistanceTransform_double_witness :
    (SqEuclideanEngine distanceTransformModel (fun v => v = 0) 0 2
      ∧ (∃ j k, j < 3 ∧ k < 3 ∧ singleZeroRaster 2 2 j k = 0) ∧ 0 < 3 ∧ 0 < 3)
    ∧ IsMinOver (fun j k => j < 3 ∧ k < 3 ∧ singleZeroRaster 2 2 j k = 0)
        (fun j k => wrapDist 3 0 j ^ 2 + wrapDist 3 0 k ^ 2)
        (periodicDistanceTransform distanceTransformModel (singleZeroRaster 2 2) 3 3 newImage
          0 2 DoubleStrip 0 0) :=
  have hsrc : ∃ j k, j < 3 ∧ k < 3 ∧ singleZeroRaster 2 2 j k = 0 :=
    ⟨2, 2, by decide, by decide, by decide⟩
  ⟨⟨distanceTransformModel_sqEuclidean 0 2, hsrc, by decide, by decide⟩,
    periodicDistanceTransform_double distanceTransformModel (fun v => v = 0) 0 2
      (distanceTransformModel_sqEuclidean 0 2) (singleZeroRaster 2 2) 3 3 newImage hsrc
      0 0 (by decide) (by decide)⟩

/-! ## The lower envelope computed by `distParabola` -/

theorem parabola_crossing (sigma2 c a cur v x : ℚ) (hs : 0 < sigma2) (hc : c < cur) :
    sigma2 * (x - cur) ^ 2 + v ≤ sigma2 * (x - c) ^ 2 + a
      ↔ cur + (v - a - sigma2 * (cur - c) ^ 2) / (2 * sigma2 * (cur - c)) ≤ x := by
  have hd : 0 < 2 * sigma2 * (cur - c) := by
    have : 0 < cur - c := by linarith
    positivity
  have key : (sigma2 * (x - c) ^ 2 + a) - (sigma2 * (x - cur) ^ 2 + v)
      = 2 * sigma2 * (cur - c)
        * (x - (cur + (v - a - sigma2 * (cur - c) ^ 2) / (2 * sigma2 * (cur - c)))) := by
    field_simp
    ring
  constructor
  · intro h
    have h1 : 0 ≤ 2 * sigma2 * (cur - c)
        * (x - (cur + (v - a - sigma2 * (cur - c) ^ 2) / (2 * sigma2 * (cur - c)))) := by
      rw [← key]; linarith
    have h2 := nonneg_of_mul_nonneg_right h1 hd
    linarith
  · intro h
    have h1 : 0 ≤ 2 * sigma2 * (cur - c)
        * (x - (cur + (v - a - sigma2 * (cur - c) ^ 2) / (2 * sigma2 * (cur - c)))) :=
      mul_nonneg hd.le (by linarith)
    rw [← key] at h1
    linarith

theorem entryValue_Influence (sigma2 p l c r x : ℚ) :
    entryValue sigma2 (Influence p l c r) x = sigma2 * (x - c) ^ 2 + p := rfl

theorem StackEntryOK.mono {sigma2 w : ℚ} {f : ℕ → ℚ} {m : ℕ} {e : DistParabolaStackEntry}
    (h : StackEntryOK sigma2 w f m e) (hnew : ∀ x, e.left ≤ x → x < e.right →
      entryValue sigma2 e x ≤ sigma2 * (x - m) ^ 2 + f m) :
    StackEntryOK sigma2 w f (m + 1) e := by
  obtain ⟨⟨c, hc, hcen, hap⟩, hr, hdom⟩ := h
  refine ⟨⟨c, Nat.lt_succ_of_lt hc, hcen, hap⟩, hr, ?_⟩
  intro x hl hx j hj
  rcases Nat.lt_succ_iff_lt_or_eq.mp hj with hj | rfl
  · exact hdom x hl hx j hj
  · exact hnew x hl hx

theorem StackChain.right_le_left {w : ℚ} :
    ∀ (s : DistParabolaStackEntry) (rest : List DistParabolaStackEntry),
      List.Chain' (StackRel w) (s :: rest) → ∀ e ∈ rest, e.right ≤ s.left
  | _, [], _, e, he => by simp at he
  | s, t :: rest, hch, e, he => by
      rw [List.chain'_cons] at hch
      obtain ⟨⟨hr, hl⟩, htail⟩ := hch
      rcases List.mem_cons.mp he with rfl | he
      · rw [hr]; exact min_le_left _ _
      · exact le_trans (StackChain.right_le_left t rest htail e he) hl

theorem coveredTo_le_left {w : ℚ} (s : DistParabolaStackEntry)
    (rest : List DistParabolaStackEntry)
    (hbot : ∀ e, (s :: rest).getLast? = some e → e.left = 0)
    (hch : List.Chain' (StackRel w) (s :: rest)) (x : ℚ)
    (hx : coveredTo rest ≤ x) (hxw : x < w) : s.left ≤ x := by
  cases rest with
  | nil =>
      have h0 : s.left = 0 := hbot s rfl
      rw [h0]
      exact hx
  | cons t r =>
      rw [List.chain'_cons] at hch
      have hr : t.right = min s.left w := hch.1.1
      have hx' : min s.left w ≤ x := by rw [← hr]; exact hx
      rcases min_le_iff.mp hx' with h | h
      · exact h
      · exact absurd hxw (not_lt.mpr h)

theorem getLast?_tail_of_cons {α : Type} (s : α) (rest : List α) (e : α)
    (h : rest.getLast? = some e) : (s :: rest).getLast? = some e := by
  cases rest with
  | nil => simp at h
  | cons t r => rw [List.getLast?_cons_cons]; exact h

theorem distParabolaPush_inv (sigma2 w : ℚ) (f : ℕ → ℚ) (m : ℕ) (hs : 0 < sigma2) :
    ∀ st, PushPre sigma2 w f m st →
      StackInv sigma2 w f (m + 1) (distParabolaPush sigma2 (2 * sigma2) w m (f m) st) := by
  intro st
  induction st with
  | nil =>
      rintro ⟨_, _, _, hpend⟩
      refine ⟨⟨_, rfl, rfl⟩, ?_, List.chain'_singleton _, ?_⟩
      · intro e he
        simp only [distParabolaPush, List.getLast?_singleton, Option.some.injEq] at he
        rw [← he]; rfl
      · intro e he
        simp only [distParabolaPush, List.mem_singleton] at he
        subst he
        refine ⟨⟨m, Nat.lt_succ_self m, rfl, rfl⟩, le_refl _, ?_⟩
        intro x hl hx j hj
        rw [entryValue_Influence]
        rcases Nat.lt_succ_iff_lt_or_eq.mp hj with hj | rfl
        · exact hpend x hl hx j hj
        · exact le_refl _
  | cons s rest ih =>
      rintro ⟨hbot, hch, hent, hpend⟩
      obtain ⟨⟨c, hc, hcen, hap⟩, hsr, hsdom⟩ := hent s (List.mem_cons_self _ _)
      have hcm : s.center < (m : ℚ) := by rw [hcen]; exact_mod_cast hc
      have cross : ∀ x : ℚ, sigma2 * (x - m) ^ 2 + f m ≤ entryValue sigma2 s x
          ↔ (m : ℚ) + (f m - s.apex_height - sigma2 * ((m : ℚ) - s.center) ^ 2)
              / (2 * sigma2 * ((m : ℚ) - s.center)) ≤ x := by
        intro x
        exact parabola_crossing sigma2 s.center s.apex_height m (f m) x hs hcm
      have hsval : ∀ x : ℚ, entryValue sigma2 s x = sigma2 * (x - c) ^ 2 + f c := by
        intro x
        unfold entryValue
        rw [hcen, hap]
      have hbelow : ∀ e ∈ rest, e.right ≤ s.left := StackChain.right_le_left s rest hch
      -- every entry below `s` stays below the new parabola on its interval
      have hrest : ∀ I : ℚ, s.left ≤ I →
          (∀ x : ℚ, x < I → entryValue sigma2 s x ≤ sigma2 * (x - m) ^ 2 + f m) →
          ∀ e ∈ rest, StackEntryOK sigma2 w f (m + 1) e := by
        intro I hI hlow e he
        have heok := hent e (List.mem_cons_of_mem _ he)
        refine heok.mono ?_
        intro x hl hx
        have hxI : x < I := lt_of_lt_of_le hx (le_trans (hbelow e he) hI)
        have h1 := heok.2.2 x hl hx c hc
        rw [← hsval x] at h1
        exact le_trans h1 (hlow x hxI)
      unfold distParabolaPush
      simp only
      generalize hI : (m : ℚ) + (f m - s.apex_height - sigma2 * ((m : ℚ) - s.center) ^ 2)
              / (2 * sigma2 * ((m : ℚ) - s.center)) = I at cross ⊢
      have hlow : ∀ x : ℚ, x < I → entryValue sigma2 s x ≤ sigma2 * (x - m) ^ 2 + f m := by
        intro x hx
        by_contra hcon
        have := (cross x).mp (le_of_lt (not_le.mp hcon))
        exact absurd hx (not_lt.mpr this)
      split_ifs with h1 h2
      · -- the top entry has no influence: pop it
        apply ih
        refine ⟨?_, hch.tail, fun e he => hent e (List.mem_cons_of_mem _ he), ?_⟩
        · intro e he
          exact hbot e (getLast?_tail_of_cons s rest e he)
        · intro x hcov hxw j hj
          have hl : s.left ≤ x := coveredTo_le_left s rest hbot hch x hcov hxw
          by_cases hx : x < s.right
          · exact le_trans ((cross x).mpr (le_trans h1.le hl)) (hsdom x hl hx j hj)
          · exact hpend x (not_lt.mp hx) hxw j hj
      · -- the new parabola takes over from `intersection` on
        have hI1 : s.left ≤ I := not_lt.mp h1
        refine ⟨⟨_, rfl, rfl⟩, ?_, ?_, ?_⟩
        · intro e he
          rw [List.getLast?_cons_cons] at he
          cases rest with
          | nil =>
              simp only [List.getLast?_singleton, Option.some.injEq] at he
              rw [← he]
              exact hbot s rfl
          | cons t r =>
              rw [List.getLast?_cons_cons] at he
              apply hbot e
              rw [List.getLast?_cons_cons]
              exact he
        · rw [List.chain'_cons]
          refine ⟨⟨?_, hI1⟩, ?_⟩
          · show I = min I w
            rw [min_eq_left (le_trans h2.le hsr)]
          · cases rest with
            | nil => exact List.chain'_singleton _
            | cons t r =>
                rw [List.chain'_cons] at hch ⊢
                exact hch
        · intro e he
          rcases List.mem_cons.mp he with rfl | he
          · refine ⟨⟨m, Nat.lt_succ_self m, rfl, rfl⟩, le_refl _, ?_⟩
            intro x hl hx j hj
            rw [entryValue_Influence]
            change I ≤ x at hl
            change x < w at hx
            rcases Nat.lt_succ_iff_lt_or_eq.mp hj with hj | rfl
            · by_cases hxr : x < s.right
              · exact le_trans ((cross x).mpr hl) (hsdom x (le_trans hI1 hl) hxr j hj)
              · exact hpend x (not_lt.mp hxr) hx j hj
            · exact le_refl _
          rcases List.mem_cons.mp he with rfl | he
          · refine StackEntryOK.mono ⟨⟨c, hc, hcen, hap⟩, le_trans h2.le hsr, ?_⟩ ?_
            · intro x hl hx j hj
              change x < I at hx
              exact hsdom x hl (lt_trans hx h2) j hj
            · intro x _ hx
              change x < I at hx
              exact hlow x hx
          · exact hrest I hI1 hlow e he
      · -- the new parabola starts at or beyond the right bound of the top entry
        have hI1 : s.left ≤ I := not_lt.mp h1
        have hI2 : s.right ≤ I := not_lt.mp h2
        refine ⟨⟨_, rfl, rfl⟩, ?_, ?_, ?_⟩
        · intro e he
          rw [List.getLast?_cons_cons] at he
          exact hbot e he
        · rw [List.chain'_cons]
          refine ⟨⟨?_, hI1⟩, hch⟩
          show s.right = min I w
          rcases lt_or_eq_of_le hsr with hlt | heq
          · have h3 := hpend s.right (le_refl _) hlt c hc
            rw [← hsval] at h3
            have h4 := (cross s.right).mp h3
            have h5 : I = s.right := le_antisymm h4 hI2
            rw [h5, min_eq_left hsr]
          · rw [heq] at hI2 ⊢
            rw [min_eq_right hI2]
        · intro e he
          rcases List.mem_cons.mp he with rfl | he
          · refine ⟨⟨m, Nat.lt_succ_self m, rfl, rfl⟩, le_refl _, ?_⟩
            intro x hl hx j hj
            rw [entryValue_Influence]
            change I ≤ x at hl
            change x < w at hx
            rcases Nat.lt_succ_iff_lt_or_eq.mp hj with hj | rfl
            · exact hpend x (le_trans hI2 hl) hx j hj
            · exact le_refl _
          rcases List.mem_cons.mp he with rfl | he
          · refine StackEntryOK.mono ⟨⟨c, hc, hcen, hap⟩, hsr, hsdom⟩ ?_
            intro x _ hx
            exact hlow x (lt_of_lt_of_le hx hI2)
          · exact hrest I hI1 hlow e he

theorem StackInv.toPushPre {sigma2 w : ℚ} {f : ℕ → ℚ} {m : ℕ}
    {st : List DistParabolaStackEntry} (h : StackInv sigma2 w f m st) :
    PushPre sigma2 w f m st := by
  obtain ⟨⟨top, htop, hright⟩, hbot, hch, hent⟩ := h
  refine ⟨hbot, hch, hent, ?_⟩
  intro x hcov hxw
  cases st with
  | nil => simp at htop
  | cons s rest =>
      simp only [List.head?_cons, Option.some.injEq] at htop
      subst htop
      have : w ≤ x := by rw [← hright]; exact hcov
      exact absurd hxw (not_lt.mpr this)

theorem distParabolaSweep_inv (sigma2 w : ℚ) (f : ℕ → ℚ) (hs : 0 < sigma2) :
    ∀ (vs : List ℚ) (m : ℕ) (st : List DistParabolaStackEntry),
      (∀ i, i < vs.length → vs.getD i 0 = f (m + i)) →
      StackInv sigma2 w f m st →
      StackInv sigma2 w f (m + vs.length)
        (distParabolaSweep sigma2 (2 * sigma2) w (m : ℚ) vs st) := by
  intro vs
  induction vs with
  | nil =>
      intro m st _ hinv
      simpa [distParabolaSweep] using hinv
  | cons v vs ih =>
      intro m st hvs hinv
      have hv : v = f m := by
        have := hvs 0 (by simp)
        simpa using this
      have hvs' : ∀ i, i < vs.length → vs.getD i 0 = f (m + 1 + i) := by
        intro i hi
        have := hvs (i + 1) (by simp; omega)
        rw [List.getD_cons_succ] at this
        rw [this]
        congr 1
        omega
      have hpush := distParabolaPush_inv sigma2 w f m hs st hinv.toPushPre
      have := ih (m + 1) _ hvs' hpush
      have hcast : ((m : ℚ) + 1) = ((m + 1 : ℕ) : ℚ) := by push_cast; rfl
      have hlen : m + (v :: vs).length = m + 1 + vs.length := by simp; omega
      rw [distParabolaSweep, hcast, hlen, hv]
      exact this

theorem distParabolaAdvance_spec (w x : ℚ) (hx : x < w) :
    ∀ it : List DistParabolaStackEntry, EmitPre w x it →
      ∃ e rest, distParabolaAdvance x it = e :: rest ∧ e.left ≤ x ∧ x < e.right
        ∧ (∀ a ∈ e :: rest, a ∈ it) ∧ EmitPre w x (e :: rest) := by
  intro it
  induction it with
  | nil =>
      rintro ⟨_, ⟨e, he, _⟩, _⟩
      simp at he
  | cons t rest ih =>
      intro hpre
      obtain ⟨hch, ⟨top, htop, hright⟩, hhead⟩ := hpre
      unfold distParabolaAdvance
      by_cases hge : x ≥ t.right
      · rw [if_pos hge]
        cases rest with
        | nil =>
            simp only [List.getLast?_singleton, Option.some.injEq] at htop
            subst htop
            rw [hright] at hge
            exact absurd hx (not_lt.mpr hge)
        | cons s r =>
            rw [List.chain'_cons] at hch
            have hrel : t.right = min s.left w := hch.1.1
            have hpre' : EmitPre w x (s :: r) := by
              refine ⟨hch.2, ⟨top, ?_, hright⟩, ?_⟩
              · rw [List.getLast?_cons_cons] at htop
                exact htop
              · intro e he
                simp only [List.head?_cons, Option.some.injEq] at he
                subst he
                rw [← hrel]
                exact hge
            obtain ⟨e, rest', hadv, hl, hr, hsub, hpre''⟩ := ih hpre'
            exact ⟨e, rest', hadv, hl, hr,
              fun a ha => List.mem_cons_of_mem _ (hsub a ha), hpre''⟩
      · rw [if_neg hge]
        refine ⟨t, rest, rfl, ?_, not_le.mp hge, fun a ha => ha, hch, ⟨top, htop, hright⟩, hhead⟩
        rcases min_le_iff.mp (hhead t rfl) with h | h
        · exact h
        · exact absurd hx (not_lt.mpr h)

theorem distParabolaEmit_spec (sigma2 w : ℚ) :
    ∀ (k x : ℕ) (it : List DistParabolaStackEntry),
      ((x + k : ℕ) : ℚ) ≤ w → EmitPre w x it →
      (distParabolaEmit sigma2 k x it).length = k
        ∧ ∀ i, i < k → ∃ e ∈ it, e.left ≤ ((x + i : ℕ) : ℚ) ∧ ((x + i : ℕ) : ℚ) < e.right
            ∧ (distParabolaEmit sigma2 k x it).getD i 0
                = entryValue sigma2 e ((x + i : ℕ) : ℚ) := by
  intro k
  induction k with
  | zero =>
      intro x it _ _
      exact ⟨rfl, fun i hi => absurd hi (Nat.not_lt_zero i)⟩
  | succ k ih =>
      intro x it hxw hpre
      have hx : (x : ℚ) < w := by
        have : (x : ℚ) < ((x + (k + 1) : ℕ) : ℚ) := by
          exact_mod_cast (by omega : x < x + (k + 1))
        exact lt_of_lt_of_le this hxw
      obtain ⟨e, rest, hadv, hl, hr, hsub, hpre'⟩ := distParabolaAdvance_spec w x hx it hpre
      have hpre1 : EmitPre w ((x + 1 : ℕ) : ℚ) (e :: rest) := by
        obtain ⟨hch, hlast, hhead⟩ := hpre'
        refine ⟨hch, hlast, ?_⟩
        intro a ha
        have h1 := hhead a ha
        have h2 : (x : ℚ) ≤ ((x + 1 : ℕ) : ℚ) := by push_cast; linarith
        exact le_trans h1 h2
      have hxw' : ((x + 1 + k : ℕ) : ℚ) ≤ w := by
        have : x + 1 + k = x + (k + 1) := by omega
        rw [this]; exact hxw
      obtain ⟨hlen, hval⟩ := ih (x + 1) (e :: rest) hxw' hpre1
      have hunf : distParabolaEmit sigma2 (k + 1) x it
          = (sigma2 * ((x : ℚ) - e.center) ^ 2 + e.apex_height)
            :: distParabolaEmit sigma2 k ((x + 1 : ℕ) : ℚ) (e :: rest) := by
        rw [distParabolaEmit, hadv]
        simp only
        have hcast : ((x : ℚ) + 1) = ((x + 1 : ℕ) : ℚ) := by push_cast; rfl
        rw [hcast]
      rw [hunf]
      refine ⟨by rw [List.length_cons, hlen], ?_⟩
      intro i hi
      cases i with
      | zero =>
          refine ⟨e, hsub e (List.mem_cons_self _ _), ?_, ?_, ?_⟩
          · simpa using hl
          · simpa using hr
          · simp [entryValue]
      | succ i =>
          obtain ⟨a, ha, hal, har, hav⟩ := hval i (by omega)
          have hidx : x + 1 + i = x + (i + 1) := by omega
          rw [hidx] at hal har hav
          refine ⟨a, hsub a ha, hal, har, ?_⟩
          rw [List.getD_cons_succ]
          exact hav

/-- The values written by `distParabola` for a non-empty line and a non-zero
spread: as many as the line has samples, each one the value at its position of
the parabola of some sample, and below the parabola of every sample. -/
theorem distParabola_envelope (line : List ℚ) (sigma : ℚ) (hne : line ≠ [])
    (hsig : sigma ≠ 0) :
    (distParabola line sigma).length = line.length
      ∧ ∀ x, x < line.length →
          (∃ j, j < line.length ∧ (distParabola line sigma).getD x 0
              = sigma * sigma * ((x : ℚ) - j) ^ 2 + line.getD j 0)
          ∧ ∀ j, j < line.length → (distParabola line sigma).getD x 0
              ≤ sigma * sigma * ((x : ℚ) - j) ^ 2 + line.getD j 0 := by
  cases line with
  | nil => exact absurd rfl hne
  | cons v0 vs =>
      have hs : 0 < sigma * sigma := mul_self_pos.mpr hsig
      set w : ℚ := (((v0 :: vs).length : ℕ) : ℚ) with hw
      set f : ℕ → ℚ := fun j => (v0 :: vs).getD j 0 with hf
      have hinit : StackInv (sigma * sigma) w f 1 [Influence v0 0 0 w] := by
        refine ⟨⟨_, rfl, rfl⟩, ?_, List.chain'_singleton _, ?_⟩
        · intro e he
          simp only [List.getLast?_singleton, Option.some.injEq] at he
          rw [← he]; rfl
        · intro e he
          simp only [List.mem_singleton] at he
          subst he
          refine ⟨⟨0, Nat.one_pos, by simp [Influence], by simp [Influence, hf]⟩, le_refl _, ?_⟩
          intro x _ _ j hj
          have hj0 : j = 0 := by omega
          subst hj0
          simp [entryValue, Influence, hf]
      have hvs : ∀ i, i < vs.length → vs.getD i 0 = f (1 + i) := by
        intro i _
        simp only [hf]
        rw [Nat.add_comm 1 i, List.getD_cons_succ]
      have hsweep := distParabolaSweep_inv (sigma * sigma) w f hs vs 1 _ hvs hinit
      have hlen1 : 1 + vs.length = (v0 :: vs).length := by simp; omega
      rw [hlen1] at hsweep
      obtain ⟨⟨top, htop, hright⟩, hbot, hch, hent⟩ := hsweep
      have hpre : EmitPre w ((0 : ℕ) : ℚ)
          (distParabolaSweep (sigma * sigma) (2 * (sigma * sigma)) w ((1 : ℕ) : ℚ) vs
            [Influence v0 0 0 w]).reverse := by
        refine ⟨List.chain'_reverse.mpr hch, ⟨top, ?_, hright⟩, ?_⟩
        · rw [List.getLast?_reverse]; exact htop
        · intro e he
          rw [List.head?_reverse] at he
          rw [hbot e he]
          simp
      have hk : ((0 + (v0 :: vs).length : ℕ) : ℚ) ≤ w := by simp [hw]
      obtain ⟨hlen, hval⟩ := distParabolaEmit_spec (sigma * sigma) w (v0 :: vs).length 0 _ hk hpre
      have hdef : distParabola (v0 :: vs) sigma
          = distParabolaEmit (sigma * sigma) (v0 :: vs).length ((0 : ℕ) : ℚ)
              (distParabolaSweep (sigma * sigma) (2 * (sigma * sigma)) w ((1 : ℕ) : ℚ) vs
                [Influence v0 0 0 w]).reverse := by
        simp [distParabola, hw]
      rw [hdef]
      refine ⟨hlen, ?_⟩
      intro x hx
      obtain ⟨e, he, hl, hr, hv⟩ := hval x hx
      rw [Nat.zero_add] at hl hr hv
      obtain ⟨⟨c, hc, hcen, hap⟩, _, hdom⟩ := hent e (List.mem_reverse.mp he)
      rw [hv]
      refine ⟨⟨c, hc, ?_⟩, ?_⟩
      · simp [entryValue, hcen, hap, hf]
      · intro j hj
        exact hdom x hl hr j hj

/-- C3: for a non-empty line and `sigma = 1`, `distParabola` writes one value
per position, and the value at `x` is the minimum over all positions `j` of
`(x - j)^2 + v[j]`; when `v` is `0` at background positions and larger than
`(n - 1)^2` elsewhere, it is the squared distance to a nearest background
position. -/
theorem distParabola_lower_envelope (line : List ℚ) (hne : line ≠ []) :
    (distParabola line 1).length = line.length
      ∧ (∀ x, x < line.length →
          (∃ j, j < line.length
              ∧ (distParabola line 1).getD x 0 = ((x : ℚ) - j) ^ 2 + line.getD j 0)
          ∧ ∀ j, j < line.length →
              (distParabola line 1).getD x 0 ≤ ((x : ℚ) - j) ^ 2 + line.getD j 0)
      ∧ ((∀ j, j < line.length →
            line.getD j 0 = 0 ∨ ((line.length : ℚ) - 1) ^ 2 < line.getD j 0) →
          (∃ k, k < line.length ∧ line.getD k 0 = 0) →
          ∀ x, x < line.length →
            ∃ k, k < line.length ∧ line.getD k 0 = 0
              ∧ (distParabola line 1).getD x 0 = ((x : ℚ) - k) ^ 2
              ∧ ∀ j, j < line.length → line.getD j 0 = 0 →
                  ((x : ℚ) - k) ^ 2 ≤ ((x : ℚ) - j) ^ 2) := by
  obtain ⟨hlen, henv⟩ := distParabola_envelope line 1 hne one_ne_zero
  have henv1 : ∀ x, x < line.length →
      (∃ j, j < line.length
          ∧ (distParabola line 1).getD x 0 = ((x : ℚ) - j) ^ 2 + line.getD j 0)
      ∧ ∀ j, j < line.length →
          (distParabola line 1).getD x 0 ≤ ((x : ℚ) - j) ^ 2 + line.getD j 0 := by
    intro x hx
    obtain ⟨⟨j, hj, hv⟩, hle⟩ := henv x hx
    refine ⟨⟨j, hj, by simpa using hv⟩, ?_⟩
    intro j' hj'
    simpa using hle j' hj'
  refine ⟨hlen, henv1, ?_⟩
  intro hmask ⟨k0, hk0, hz0⟩ x hx
  obtain ⟨⟨j, hj, hv⟩, hle⟩ := henv1 x hx
  have hbound : ((x : ℚ) - k0) ^ 2 ≤ ((line.length : ℚ) - 1) ^ 2 := by
    have h1 : (x : ℚ) + 1 ≤ line.length := by exact_mod_cast hx
    have h2 : (k0 : ℚ) + 1 ≤ line.length := by exact_mod_cast hk0
    have h3 : (0 : ℚ) ≤ x := by positivity
    have h4 : (0 : ℚ) ≤ k0 := by positivity
    apply sq_le_sq' <;> linarith
  have hup := hle k0 hk0
  rw [hz0, add_zero] at hup
  rcases hmask j hj with hzero | hbig
  · refine ⟨j, hj, hzero, by rw [hv, hzero, add_zero], ?_⟩
    intro j' hj' hz'
    have := hle j' hj'
    rw [hz', add_zero, hv, hzero, add_zero] at this
    exact this
  · exfalso
    have h5 : 0 ≤ ((x : ℚ) - j) ^ 2 := sq_nonneg _
    rw [hv] at hup
    linarith

/-- Witness of `distParabola_lower_envelope`: the mask line `9, 0, 9`. -/
theorem distParabola_lower_envelope_witness :
    (([9, 0, 9] : List ℚ) ≠ []
      ∧ (∀ j, j < ([9, 0, 9] : List ℚ).length →
          ([9, 0, 9] : List ℚ).getD j 0 = 0
            ∨ ((([9, 0, 9] : List ℚ).length : ℚ) - 1) ^ 2 < ([9, 0, 9] : List ℚ).getD j 0)
      ∧ (∃ k, k < ([9, 0, 9] : List ℚ).length ∧ ([9, 0, 9] : List ℚ).getD k 0 = 0)
      ∧ 2 < ([9, 0, 9] : List ℚ).length)
    ∧ (distParabola [9, 0, 9] 1).length = ([9, 0, 9] : List ℚ).length
    ∧ (∃ k, k < ([9, 0, 9] : List ℚ).length ∧ ([9, 0, 9] : List ℚ).getD k 0 = 0
        ∧ (distParabola [9, 0, 9] 1).getD 2 0 = (((2 : ℕ) : ℚ) - k) ^ 2
        ∧ ∀ j, j < ([9, 0, 9] : List ℚ).length → ([9, 0, 9] : List ℚ).getD j 0 = 0 →
            (((2 : ℕ) : ℚ) - k) ^ 2 ≤ (((2 : ℕ) : ℚ) - j) ^ 2) :=
  have hmask : ∀ j, j < ([9, 0, 9] : List ℚ).length →
      ([9, 0, 9] : List ℚ).getD j 0 = 0
        ∨ ((([9, 0, 9] : List ℚ).length : ℚ) - 1) ^ 2 < ([9, 0, 9] : List ℚ).getD j 0 := by
    intro j hj
    simp only [List.length_cons, List.length_nil] at hj
    interval_cases j
    · right; norm_num
    · left; rfl
    · right; norm_num
  have hzero : ∃ k, k < ([9, 0, 9] : List ℚ).length ∧ ([9, 0, 9] : List ℚ).getD k 0 = 0 :=
    ⟨1, by decide, rfl⟩
  ⟨⟨by simp, hmask, hzero, by decide⟩,
    (distParabola_lower_envelope [9, 0, 9] (by simp)).1,
    (distParabola_lower_envelope [9, 0, 9] (by simp)).2.2 hmask hzero 2 (by decide)⟩


/-! ## The separable squared distance transform in two dimensions -/

theorem getD_map_range (n : ℕ) (g : ℕ → ℚ) (i : ℕ) (hi : i < n) :
    ((List.range n).map g).getD i 0 = g i := by
  simp [List.getD, List.getElem?_map, List.getElem?_range, hi]

theorem lineX_length (img : Raster ℚ) (w y : ℕ) : (lineX img w y).length = w := by
  simp [lineX]

theorem lineY_length (img : Raster ℚ) (h x : ℕ) : (lineY img h x).length = h := by
  simp [lineY]

theorem lineX_ne_nil (img : Raster ℚ) (w y : ℕ) (hw : 0 < w) : lineX img w y ≠ [] := by
  intro h0
  have := lineX_length img w y
  rw [h0] at this
  simp at this
  omega

theorem lineY_ne_nil (img : Raster ℚ) (h x : ℕ) (hh : 0 < h) : lineY img h x ≠ [] := by
  intro h0
  have := lineY_length img h x
  rw [h0] at this
  simp at this
  omega

theorem writeLineX_apply (dest : Raster ℚ) (y : ℕ) (vals : List ℚ) (x' y' : ℕ) :
    writeLineX dest y vals x' y'
      = if y' = y ∧ x' < vals.length then vals.getD x' 0 else dest x' y' := rfl

theorem writeLineY_apply (dest : Raster ℚ) (x : ℕ) (vals : List ℚ) (x' y' : ℕ) :
    writeLineY dest x vals x' y'
      = if x' = x ∧ y' < vals.length then vals.getD y' 0 else dest x' y' := rfl

theorem distParabola_length (line : List ℚ) (sigma : ℚ) (hs : sigma ≠ 0) :
    (distParabola line sigma).length = line.length := by
  cases line with
  | nil => rfl
  | cons v vs => exact (distParabola_envelope (v :: vs) sigma (by simp) hs).1

theorem pass0_apply (src dest : Raster ℚ) (w : ℕ) (sigma : ℚ) (hs : sigma ≠ 0) :
    ∀ (n x y : ℕ),
      (List.range n).foldl (fun d y =>
          writeLineX d y (distParabola (lineX src w y) sigma)) dest x y
        = if y < n ∧ x < w then (distParabola (lineX src w y) sigma).getD x 0
          else dest x y := by
  intro n
  induction n with
  | zero => intro x y; simp
  | succ n ih =>
      intro x y
      rw [List.range_succ, List.foldl_append]
      simp only [List.foldl_cons, List.foldl_nil]
      rw [writeLineX_apply, distParabola_length _ _ hs, lineX_length, ih]
      by_cases hy : y = n
      · subst hy
        by_cases hx : x < w
        · simp [hx]
        · simp [hx]
      · by_cases hyn : y < n
        · have : y < n + 1 := by omega
          simp [hy, hyn, this]
        · have : ¬ y < n + 1 := by omega
          simp [hy, hyn, this]

theorem lineY_congr (d d' : Raster ℚ) (h x : ℕ) (hd : ∀ y, y < h → d x y = d' x y) :
    lineY d h x = lineY d' h x := by
  unfold lineY
  apply List.map_congr_left
  intro y hy
  exact hd y (List.mem_range.mp hy)

theorem pass1_apply (p0 : Raster ℚ) (h : ℕ) (sigma : ℚ) (hs : sigma ≠ 0) :
    ∀ (n x y : ℕ),
      (List.range n).foldl (fun d x =>
          writeLineY d x (distParabola (lineY d h x) sigma)) p0 x y
        = if x < n ∧ y < h then (distParabola (lineY p0 h x) sigma).getD y 0
          else p0 x y := by
  intro n
  induction n with
  | zero => intro x y; simp
  | succ n ih =>
      intro x y
      rw [List.range_succ, List.foldl_append]
      simp only [List.foldl_cons, List.foldl_nil]
      have hline : lineY ((List.range n).foldl (fun d x =>
          writeLineY d x (distParabola (lineY d h x) sigma)) p0) h n = lineY p0 h n := by
        apply lineY_congr
        intro y' _
        rw [ih]
        simp
      rw [writeLineY_apply, hline, distParabola_length _ _ hs, lineY_length, ih]
      by_cases hx : x = n
      · subst hx
        by_cases hy : y < h
        · simp [hy]
        · simp [hy]
      · by_cases hxn : x < n
        · have : x < n + 1 := by omega
          simp [hx, hxn, this]
        · have : ¬ x < n + 1 := by omega
          simp [hx, hxn, this]

/-- The two passes of `internalSeparableMultiArrayDistTmp` with unit spread and
no inversion yield, at every pixel of the array, the minimum over all pixels
`(j, k)` of `(x - j)^2 + (y - k)^2 + src(j, k)`. -/
theorem internalSeparableMultiArrayDistTmp_envelope (src dest : Raster ℚ) (w h : ℕ)
    (x y : ℕ) (hx : x < w) (hy : y < h) :
    (∃ j k, j < w ∧ k < h
        ∧ internalSeparableMultiArrayDistTmp src w h dest unitPitch false x y
          = sqDist x y j k + src j k)
      ∧ ∀ j k, j < w → k < h →
          internalSeparableMultiArrayDistTmp src w h dest unitPitch false x y
            ≤ sqDist x y j k + src j k := by
  have hw : 0 < w := by omega
  have hh : 0 < h := by omega
  have h1 : (1 : ℚ) ≠ 0 := one_ne_zero
  set p0 : Raster ℚ := (List.range h).foldl (fun d y =>
    writeLineX d y (distParabola (lineX src w y) 1)) dest with hp0
  have hp0v : ∀ j k, j < w → k < h → p0 j k = (distParabola (lineX src w k) 1).getD j 0 := by
    intro j k hj hk
    rw [hp0, pass0_apply src dest w 1 h1 h j k, if_pos ⟨hk, hj⟩]
  have hout : internalSeparableMultiArrayDistTmp src w h dest unitPitch false x y
      = (distParabola (lineY p0 h x) 1).getD y 0 := by
    simp only [internalSeparableMultiArrayDistTmp, unitPitch, Bool.false_eq_true, if_false]
    rw [← hp0, pass1_apply p0 h 1 h1 w x y, if_pos ⟨hx, hy⟩]
  rw [hout]
  obtain ⟨_, hcol⟩ := distParabola_envelope (lineY p0 h x) 1 (lineY_ne_nil p0 h x hh) h1
  have hy' : y < (lineY p0 h x).length := by rw [lineY_length]; exact hy
  obtain ⟨⟨k, hk, hkv⟩, hkle⟩ := hcol y hy'
  rw [lineY_length] at hk
  have hrow : ∀ k, k < h →
      (∃ j, j < w ∧ p0 x k = ((x : ℚ) - j) ^ 2 + src j k)
        ∧ ∀ j, j < w → p0 x k ≤ ((x : ℚ) - j) ^ 2 + src j k := by
    intro k hk
    obtain ⟨_, hr⟩ := distParabola_envelope (lineX src w k) 1 (lineX_ne_nil src w k hw) h1
    have hx' : x < (lineX src w k).length := by rw [lineX_length]; exact hx
    obtain ⟨⟨j, hj, hjv⟩, hjle⟩ := hr x hx'
    rw [lineX_length] at hj
    rw [hp0v x k hx hk]
    have hgetX : ∀ j, j < w → (lineX src w k).getD j 0 = src j k := by
      intro j hj
      exact getD_map_range w (fun x => src x k) j hj
    refine ⟨⟨j, hj, ?_⟩, ?_⟩
    · rw [hjv, hgetX j hj]
      ring
    · intro j' hj'
      have := hjle j' (by rw [lineX_length]; exact hj')
      rw [hgetX j' hj'] at this
      linarith
  have hgetY : ∀ k, k < h → (lineY p0 h x).getD k 0 = p0 x k := by
    intro k hk
    exact getD_map_range h (fun y => p0 x y) k hk
  constructor
  · obtain ⟨⟨j, hj, hjv⟩, _⟩ := hrow k hk
    refine ⟨j, k, hj, hk, ?_⟩
    rw [hkv, hgetY k hk, hjv]
    simp only [sqDist]
    ring
  · intro j k' hj hk'
    have h2 := hkle k' (by rw [lineY_length]; exact hk')
    rw [hgetY k' hk'] at h2
    have h3 := (hrow k' hk').2 j hj
    simp only [sqDist]
    have : (1 : ℚ) * 1 * ((y : ℚ) - k') ^ 2 + p0 x k'
        ≤ ((x : ℚ) - j) ^ 2 + ((y : ℚ) - k') ^ 2 + src j k' := by linarith
    linarith

theorem sqDist_lt_diag (w h x y j k : ℕ) (hx : x < w) (hy : y < h) (hj : j < w) (hk : k < h) :
    sqDist x y j k < (w : ℚ) ^ 2 + (h : ℚ) ^ 2 := by
  have hxq : (x : ℚ) < w := by exact_mod_cast hx
  have hyq : (y : ℚ) < h := by exact_mod_cast hy
  have hjq : (j : ℚ) < w := by exact_mod_cast hj
  have hkq : (k : ℚ) < h := by exact_mod_cast hk
  have hx0 : (0 : ℚ) ≤ x := by positivity
  have hy0 : (0 : ℚ) ≤ y := by positivity
  have hj0 : (0 : ℚ) ≤ j := by positivity
  have hk0 : (0 : ℚ) ≤ k := by positivity
  have h1 : ((x : ℚ) - j) ^ 2 < (w : ℚ) ^ 2 := by apply sq_lt_sq' <;> linarith
  have h2 : ((y : ℚ) - k) ^ 2 < (h : ℚ) ^ 2 := by apply sq_lt_sq' <;> linarith
  unfold sqDist
  linarith

/-- On a thresholded mask (`0` on the zero pixels, a value of at least
`w^2 + h^2` elsewhere) the minimum of `squared distance + value` is the least
squared distance to a zero pixel. -/
theorem isMinOver_of_threshold (src : Raster ℕ) (t : Raster ℚ) (w h : ℕ) (M : ℚ)
    (hM : (w : ℚ) ^ 2 + (h : ℚ) ^ 2 ≤ M)
    (ht : ∀ j k, j < w → k < h → t j k = if src j k ≠ 0 then M else 0)
    (hzero : ∃ j k, j < w ∧ k < h ∧ src j k = 0)
    (x y : ℕ) (hx : x < w) (hy : y < h) (r : ℚ)
    (hex : ∃ j k, j < w ∧ k < h ∧ r = sqDist x y j k + t j k)
    (hle : ∀ j k, j < w → k < h → r ≤ sqDist x y j k + t j k) :
    IsMinOver (fun j k => j < w ∧ k < h ∧ src j k = 0) (sqDist x y) r := by
  have hlow : ∀ j k, j < w → k < h → src j k = 0 → r ≤ sqDist x y j k := by
    intro j k hj hk hs
    have := hle j k hj hk
    rw [ht j k hj hk, if_neg (not_not.mpr hs), add_zero] at this
    exact this
  refine ⟨?_, fun j k hc => hlow j k hc.1 hc.2.1 hc.2.2⟩
  obtain ⟨j0, k0, hj0, hk0, hs0⟩ := hzero
  obtain ⟨j, k, hj, hk, hr⟩ := hex
  by_cases hs : src j k = 0
  · refine ⟨j, k, ⟨hj, hk, hs⟩, ?_⟩
    rw [hr, ht j k hj hk, if_neg (not_not.mpr hs), add_zero]
  · exfalso
    rw [ht j k hj hk, if_pos hs] at hr
    have h1 := hlow j0 k0 hj0 hk0 hs0
    have h2 := sqDist_lt_diag w h x y j0 k0 hx hy hj0 hk0
    have h3 := sqDist_nonneg x y j k
    linarith

theorem truncToInt_one : ((truncToInt (unitPitch 0) : ℤ) : ℚ) = unitPitch 0
    ∧ ((truncToInt (unitPitch 1) : ℤ) : ℚ) = unitPitch 1 := by
  simp [truncToInt, unitPitch]

/-! ## The stages of `separableMultiDistSquared` -/

/-- With unit pixel pitch a call of `separableMultiDistSquared` allocates the
temporary array exactly when `w^2 + h^2` exceeds the maximum of the
destination type; the array then holds the result of the passes and is copied
to the destination with conversion, otherwise the passes run in the
destination. -/
theorem separableMultiDistSquaredRun_unit (src : Raster ℕ) (w h : ℕ) (dest : Raster ℚ)
    (background : Bool) (destMax : ℚ) (toDest : ℚ → ℚ) :
    separableMultiDistSquaredRun src w h dest background unitPitch destMax toDest
      = if (w : ℚ) ^ 2 + (h : ℚ) ^ 2 > destMax then
          { tmpArray := some (squaredPasses src w h newImage background),
            dest := copyMultiArray (squaredPasses src w h newImage background) w h dest
              toDest }
        else { tmpArray := none, dest := squaredPasses src w h dest background } := by
  have hdmax : (unitPitch 0 * (w : ℚ)) ^ 2 + (unitPitch 1 * (h : ℚ)) ^ 2
      = (w : ℚ) ^ 2 + (h : ℚ) ^ 2 := by
    simp [unitPitch]
  have hceil : ((⌈(w : ℚ) ^ 2 + (h : ℚ) ^ 2⌉ : ℤ) : ℚ) = (w : ℚ) ^ 2 + (h : ℚ) ^ 2 := by
    have : (w : ℚ) ^ 2 + (h : ℚ) ^ 2 = (((w ^ 2 + h ^ 2 : ℕ) : ℤ) : ℚ) := by push_cast; ring
    rw [this, Int.ceil_intCast]
  unfold separableMultiDistSquaredRun
  simp only [truncToInt_one.1, truncToInt_one.2, ne_eq, not_true_eq_false, decide_False,
    Bool.or_self, Bool.false_eq_true, or_false, hdmax, hceil]
  by_cases hbig : (w : ℚ) ^ 2 + (h : ℚ) ^ 2 > destMax
  · rw [if_pos hbig, if_pos hbig]
    rfl
  · rw [if_neg hbig, if_neg hbig]
    rfl

/-- The temporary array is allocated exactly when the test of the source
holds: the sum of the squared scaled extents exceeds the maximum of the
destination type, or a pixel pitch is not an integer. -/
theorem separableMultiDistSquaredRun_isSome (src : Raster ℕ) (w h : ℕ) (dest : Raster ℚ)
    (background : Bool) (pixelPitch : ℕ → ℚ) (destMax : ℚ) (toDest : ℚ → ℚ) :
    (separableMultiDistSquaredRun src w h dest background pixelPitch destMax
        toDest).tmpArray.isSome = true
      ↔ ((pixelPitch 0 * w) ^ 2 + (pixelPitch 1 * h) ^ 2 > destMax
          ∨ ((truncToInt (pixelPitch 0) : ℤ) : ℚ) ≠ pixelPitch 0
          ∨ ((truncToInt (pixelPitch 1) : ℤ) : ℚ) ≠ pixelPitch 1) := by
  unfold separableMultiDistSquaredRun
  simp only [Bool.or_eq_true, decide_eq_true_eq]
  by_cases hc : (pixelPitch 0 * w) ^ 2 + (pixelPitch 1 * h) ^ 2 > destMax
      ∨ ((truncToInt (pixelPitch 0) : ℤ) : ℚ) ≠ pixelPitch 0
      ∨ ((truncToInt (pixelPitch 1) : ℤ) : ℚ) ≠ pixelPitch 1
  · rw [if_pos hc]
    exact ⟨fun _ => hc, fun _ => rfl⟩
  · rw [if_neg hc]
    exact ⟨fun hs => by simp at hs, fun hp => absurd hp hc⟩

theorem separableMultiDistSquared_apply (src : Raster ℕ) (w h : ℕ) (dest : Raster ℚ)
    (background : Bool) (destMax : ℚ) (toDest : ℚ → ℚ) (x y : ℕ) (hx : x < w) (hy : y < h) :
    separableMultiDistSquared src w h dest background unitPitch destMax toDest x y
      = if (w : ℚ) ^ 2 + (h : ℚ) ^ 2 > destMax
        then toDest (squaredPasses src w h newImage background x y)
        else squaredPasses src w h dest background x y := by
  unfold separableMultiDistSquared
  rw [separableMultiDistSquaredRun_unit]
  by_cases hbig : (w : ℚ) ^ 2 + (h : ℚ) ^ 2 > destMax
  · rw [if_pos hbig, if_pos hbig]
    simp [copyMultiArray, hx, hy]
  · rw [if_neg hbig, if_neg hbig]

/-- With unit pixel pitch the value held at a pixel after the two passes is
the minimum over all pixels `(j, k)` of `squared distance + thresholded value`,
where the thresholded value is `0` on the source pixels and `w^2 + h^2` on the
others. -/
theorem squaredPasses_envelope (src : Raster ℕ) (w h : ℕ) (base : Raster ℚ)
    (background : Bool) (x y : ℕ) (hx : x < w) (hy : y < h) :
    (∃ j k, j < w ∧ k < h
        ∧ squaredPasses src w h base background x y
          = sqDist x y j k
            + if isSourceValue background (src j k) then 0 else (w : ℚ) ^ 2 + (h : ℚ) ^ 2)
      ∧ ∀ j k, j < w → k < h →
          squaredPasses src w h base background x y
            ≤ sqDist x y j k
              + if isSourceValue background (src j k) then 0 else (w : ℚ) ^ 2 + (h : ℚ) ^ 2 := by
  have hthr : ∀ j k, j < w → k < h →
      thresholdArray src w h base background ((w : ℚ) ^ 2 + (h : ℚ) ^ 2) j k
        = if isSourceValue background (src j k) then 0 else (w : ℚ) ^ 2 + (h : ℚ) ^ 2 := by
    intro j k hj hk
    cases background <;> by_cases hs : src j k = 0 <;>
      simp [thresholdArray, transformMultiArray, isSourceValue, hj, hk, hs]
  have heq : squaredPasses src w h base background
      = internalSeparableMultiArrayDistTmp
          (thresholdArray src w h base background ((w : ℚ) ^ 2 + (h : ℚ) ^ 2)) w h
          (thresholdArray src w h base background ((w : ℚ) ^ 2 + (h : ℚ) ^ 2)) unitPitch
          false := rfl
  rw [heq]
  obtain ⟨⟨j, k, hj, hk, hv⟩, hle⟩ := internalSeparableMultiArrayDistTmp_envelope
    (thresholdArray src w h base background ((w : ℚ) ^ 2 + (h : ℚ) ^ 2))
    (thresholdArray src w h base background ((w : ℚ) ^ 2 + (h : ℚ) ^ 2)) w h x y hx hy
  refine ⟨⟨j, k, hj, hk, ?_⟩, ?_⟩
  · rw [hv, hthr j k hj hk]
  · intro j' k' hj' hk'
    rw [← hthr j' k' hj' hk']
    exact hle j' k' hj' hk'

/-- The values after the passes do not depend on the array that was
thresholded into. -/
theorem squaredPasses_base (src : Raster ℕ) (w h : ℕ) (base base' : Raster ℚ)
    (background : Bool) (x y : ℕ) (hx : x < w) (hy : y < h) :
    squaredPasses src w h base background x y = squaredPasses src w h base' background x y := by
  obtain ⟨⟨j, k, hj, hk, hv⟩, hle⟩ := squaredPasses_envelope src w h base background x y hx hy
  obtain ⟨⟨j', k', hj', hk', hv'⟩, hle'⟩ :=
    squaredPasses_envelope src w h base' background x y hx hy
  apply le_antisymm
  · rw [hv']
    exact hle j' k' hj' hk'
  · rw [hv]
    exact hle' j k hj hk

theorem sq_sub_natCast (a b : ℕ) : ∃ n : ℕ, ((a : ℚ) - (b : ℚ)) ^ 2 = (n : ℚ) := by
  rcases le_total a b with hab | hab
  · refine ⟨(b - a) ^ 2, ?_⟩
    rw [Nat.cast_pow, Nat.cast_sub hab]
    ring
  · refine ⟨(a - b) ^ 2, ?_⟩
    rw [Nat.cast_pow, Nat.cast_sub hab]

theorem sqDist_natCast (x y j k : ℕ) : ∃ n : ℕ, sqDist x y j k = (n : ℚ) := by
  obtain ⟨n, hn⟩ := sq_sub_natCast x j
  obtain ⟨m, hm⟩ := sq_sub_natCast y k
  refine ⟨n + m, ?_⟩
  unfold sqDist
  rw [Nat.cast_add, ← hn, ← hm]

/-- The values after the passes are non-negative integers of at most
`w^2 + h^2`. -/
theorem squaredPasses_natCast (src : Raster ℕ) (w h : ℕ) (base : Raster ℚ)
    (background : Bool) (x y : ℕ) (hx : x < w) (hy : y < h) :
    (∃ n : ℕ, squaredPasses src w h base background x y = (n : ℚ))
      ∧ squaredPasses src w h base background x y ≤ (w : ℚ) ^ 2 + (h : ℚ) ^ 2 := by
  obtain ⟨⟨j, k, hj, hk, hv⟩, hle⟩ := squaredPasses_envelope src w h base background x y hx hy
  constructor
  · obtain ⟨n, hn⟩ := sqDist_natCast x y j k
    rw [hv, hn]
    split_ifs
    · exact ⟨n, by simp⟩
    · exact ⟨n + (w ^ 2 + h ^ 2), by push_cast; ring⟩
  · have h1 := hle x y hx hy
    rw [sqDist_self, zero_add] at h1
    refine le_trans h1 ?_
    split_ifs
    · positivity
    · exact le_refl _

theorem saturatingCast_natCast (destMax : ℚ) (toDest : ℚ → ℚ)
    (hcast : SaturatingCast destMax toDest) (n : ℕ) :
    toDest (n : ℚ) = min (n : ℚ) destMax := by
  rcases le_total (n : ℚ) destMax with h | h
  · rw [hcast.1 n h, min_eq_left h]
  · rw [hcast.2 _ h, min_eq_right h]

theorem saturate_saturatingCast (destMax : ℚ) : SaturatingCast destMax (saturate destMax) := by
  constructor
  · intro n hn
    unfold saturate
    split_ifs with h
    · exact le_antisymm h hn
    · rfl
  · intro v hv
    unfold saturate
    rw [if_pos hv]

/-- With unit pixel pitch and a saturating conversion the value written at a
pixel is the value after the passes, cut off at the maximum of the destination
type. -/
theorem separableMultiDistSquared_saturating (src : Raster ℕ) (w h : ℕ) (dest : Raster ℚ)
    (background : Bool) (destMax : ℚ) (toDest : ℚ → ℚ)
    (hcast : SaturatingCast destMax toDest) (x y : ℕ) (hx : x < w) (hy : y < h) :
    separableMultiDistSquared src w h dest background unitPitch destMax toDest x y
      = min (squaredPasses src w h newImage background x y) destMax := by
  rw [separableMultiDistSquared_apply src w h dest background destMax toDest x y hx hy]
  obtain ⟨⟨n, hn⟩, hle⟩ := squaredPasses_natCast src w h newImage background x y hx hy
  by_cases hbig : (w : ℚ) ^ 2 + (h : ℚ) ^ 2 > destMax
  · rw [if_pos hbig, hn, saturatingCast_natCast destMax toDest hcast n]
  · rw [if_neg hbig, squaredPasses_base src w h dest newImage background x y hx hy,
      min_eq_left (le_trans hle (not_lt.mp hbig))]

/-- With at least one source pixel the value after the passes is the least
squared distance to a source pixel, for either value of the background flag. -/
theorem squaredPasses_isMinOver (src : Raster ℕ) (w h : ℕ) (base : Raster ℚ)
    (background : Bool)
    (hsrc : ∃ j k, j < w ∧ k < h ∧ isSourceValue background (src j k))
    (x y : ℕ) (hx : x < w) (hy : y < h) :
    IsMinOver (fun j k => j < w ∧ k < h ∧ isSourceValue background (src j k)) (sqDist x y)
      (squaredPasses src w h base background x y) := by
  obtain ⟨⟨j, k, hj, hk, hv⟩, hle⟩ := squaredPasses_envelope src w h base background x y hx hy
  have hlow : ∀ j k, j < w → k < h → isSourceValue background (src j k) →
      squaredPasses src w h base background x y ≤ sqDist x y j k := by
    intro j k hj hk hs
    have := hle j k hj hk
    rw [if_pos hs, add_zero] at this
    exact this
  refine ⟨?_, fun j k hc => hlow j k hc.1 hc.2.1 hc.2.2⟩
  by_cases hs : isSourceValue background (src j k)
  · refine ⟨j, k, ⟨hj, hk, hs⟩, ?_⟩
    rw [hv, if_pos hs, add_zero]
  · exfalso
    obtain ⟨j0, k0, hj0, hk0, hs0⟩ := hsrc
    rw [if_neg hs] at hv
    have h1 := hlow j0 k0 hj0 hk0 hs0
    have h2 := sqDist_lt_diag w h x y j0 k0 hx hy hj0 hk0
    have h3 := sqDist_nonneg x y j k
    linarith

theorem isMinOver_unique (cand : ℕ → ℕ → Prop) (cost : ℕ → ℕ → ℚ) (u v : ℚ)
    (hu : IsMinOver cand cost u) (hv : IsMinOver cand cost v) : u = v := by
  obtain ⟨⟨j, k, hc, hju⟩, hule⟩ := hu
  obtain ⟨⟨j', k', hc', hjv⟩, hvle⟩ := hv
  apply le_antisymm
  · rw [hjv]; exact hule j' k' hc'
  · rw [hju]; exact hvle j k hc

/-- With the conversion that stores every value unchanged the value written is
the least squared distance to a source pixel, whatever the maximum of the
destination type. -/
theorem separableMultiDistSquared_isMinOver (src : Raster ℕ) (w h : ℕ) (dest : Raster ℚ)
    (background : Bool) (destMax : ℚ)
    (hsrc : ∃ j k, j < w ∧ k < h ∧ isSourceValue background (src j k))
    (x y : ℕ) (hx : x < w) (hy : y < h) :
    IsMinOver (fun j k => j < w ∧ k < h ∧ isSourceValue background (src j k)) (sqDist x y)
      (separableMultiDistSquared src w h dest background unitPitch destMax (fun v => v) x y) := by
  rw [separableMultiDistSquared_apply src w h dest background destMax _ x y hx hy]
  split_ifs
  · exact squaredPasses_isMinOver src w h newImage background hsrc x y hx hy
  · exact squaredPasses_isMinOver src w h dest background hsrc x y hx hy

/-- When exactly one pixel `(a, b)` of the raster is a source pixel, the value
after the passes is the squared distance to it. -/
theorem squaredPasses_single (src : Raster ℕ) (w h : ℕ) (base : Raster ℚ)
    (background : Bool) (a b : ℕ) (ha : a < w) (hb : b < h)
    (hs : isSourceValue background (src a b))
    (honly : ∀ j k, j < w → k < h → isSourceValue background (src j k) → j = a ∧ k = b)
    (x y : ℕ) (hx : x < w) (hy : y < h) :
    squaredPasses src w h base background x y = sqDist x y a b := by
  obtain ⟨⟨j, k, ⟨hj, hk, hjk⟩, hv⟩, _⟩ :=
    squaredPasses_isMinOver src w h base background ⟨a, b, ha, hb, hs⟩ x y hx hy
  obtain ⟨rfl, rfl⟩ := honly j k hj hk hjk
  exact hv

/-- The value after the passes is non-negative, and it is zero exactly at the
source pixels. -/
theorem squaredPasses_zero_iff (src : Raster ℕ) (w h : ℕ) (base : Raster ℚ)
    (background : Bool) (x y : ℕ) (hx : x < w) (hy : y < h) :
    0 ≤ squaredPasses src w h base background x y
      ∧ (squaredPasses src w h base background x y = 0
          ↔ isSourceValue background (src x y)) := by
  obtain ⟨⟨j, k, hj, hk, hv⟩, hle⟩ := squaredPasses_envelope src w h base background x y hx hy
  have hMpos : 0 < (w : ℚ) ^ 2 + (h : ℚ) ^ 2 := by
    have hw : (1 : ℚ) ≤ w := by exact_mod_cast (by omega : 1 ≤ w)
    have hh : (0 : ℚ) ≤ (h : ℚ) ^ 2 := sq_nonneg _
    nlinarith
  have hthr : 0 ≤ (if isSourceValue background (src j k) then (0 : ℚ)
      else (w : ℚ) ^ 2 + (h : ℚ) ^ 2) := by
    split_ifs
    · exact le_refl _
    · exact hMpos.le
  have hd := sqDist_nonneg x y j k
  refine ⟨by rw [hv]; linarith, ?_⟩
  constructor
  · intro h0
    rw [hv] at h0
    have hd0 : sqDist x y j k = 0 := by linarith
    have ht0 : (if isSourceValue background (src j k) then (0 : ℚ)
        else (w : ℚ) ^ 2 + (h : ℚ) ^ 2) = 0 := by linarith
    have hjk : j = x ∧ k = y := by
      by_contra hne
      have := sqDist_pos x y j k hne
      linarith
    have hs : isSourceValue background (src j k) := by
      by_contra hns
      rw [if_neg hns] at ht0
      linarith
    rw [hjk.1, hjk.2] at hs
    exact hs
  · intro hs
    have := hle x y hx hy
    rw [if_pos hs, add_zero, sqDist_self] at this
    apply le_antisymm this
    rw [hv]; linarith

theorem sqDist_far_corner : sqDist 19 9 0 0 = 442 := by
  norm_num [sqDist]

/-- C2: on a two-dimensional mask with at least one zero pixel,
`separableMultiDistSquared` with `background = false`, unit pixel pitch and a
saturating conversion to the destination type writes at every pixel the
minimum, over the zero pixels of the source, of the squared Euclidean
distance, cut off at the maximum of the destination type; where that minimum
does not exceed the maximum the value written is the minimum itself. -/
theorem separableMultiDistSquared_correct (src : Raster ℕ) (w h : ℕ) (dest : Raster ℚ)
    (destMax : ℚ) (toDest : ℚ → ℚ) (hcast : SaturatingCast destMax toDest)
    (hzero : ∃ j k, j < w ∧ k < h ∧ src j k = 0)
    (x y : ℕ) (hx : x < w) (hy : y < h) :
    ∃ d : ℚ, IsMinOver (fun j k => j < w ∧ k < h ∧ src j k = 0) (sqDist x y) d
      ∧ separableMultiDistSquared src w h dest false unitPitch destMax toDest x y
          = min d destMax
      ∧ (d ≤ destMax →
          IsMinOver (fun j k => j < w ∧ k < h ∧ src j k = 0) (sqDist x y)
            (separableMultiDistSquared src w h dest false unitPitch destMax toDest x y)) := by
  have hsrc : ∃ j k, j < w ∧ k < h ∧ isSourceValue false (src j k) := by
    obtain ⟨j, k, hj, hk, hs⟩ := hzero
    exact ⟨j, k, hj, hk, by simpa [isSourceValue] using hs⟩
  have hmin := squaredPasses_isMinOver src w h newImage false hsrc x y hx hy
  have hcand : (fun j k => j < w ∧ k < h ∧ isSourceValue false (src j k))
      = fun j k => j < w ∧ k < h ∧ src j k = 0 := by
    funext j k
    simp [isSourceValue]
  rw [hcand] at hmin
  have hval := separableMultiDistSquared_saturating src w h dest false destMax toDest hcast
    x y hx hy
  refine ⟨squaredPasses src w h newImage false x y, hmin, hval, ?_⟩
  intro hd
  rw [hval, min_eq_left hd]
  exact hmin

/-- Witness of `separableMultiDistSquared_correct`: a `3 × 2` mask whose only
zero pixel is `(2, 1)`, written to a destination type with maximum `255`. -/
theorem separableMultiDistSquared_correct_witness :
    (SaturatingCast 255 (saturate 255)
      ∧ (∃ j k, j < 3 ∧ k < 2 ∧ singleZeroRaster 2 1 j k = 0) ∧ 0 < 3 ∧ 0 < 2)
    ∧ ∃ d : ℚ, IsMinOver (fun j k => j < 3 ∧ k < 2 ∧ singleZeroRaster 2 1 j k = 0)
          (sqDist 0 0) d
      ∧ separableMultiDistSquared (singleZeroRaster 2 1) 3 2 newImage false unitPitch 255
          (saturate 255) 0 0 = min d 255
      ∧ (d ≤ 255 →
          IsMinOver (fun j k => j < 3 ∧ k < 2 ∧ singleZeroRaster 2 1 j k = 0) (sqDist 0 0)
            (separableMultiDistSquared (singleZeroRaster 2 1) 3 2 newImage false unitPitch 255
              (saturate 255) 0 0)) :=
  have hzero : ∃ j k, j < 3 ∧ k < 2 ∧ singleZeroRaster 2 1 j k = 0 :=
    ⟨2, 1, by decide, by decide, by decide⟩
  ⟨⟨saturate_saturatingCast 255, hzero, by decide, by decide⟩,
    separableMultiDistSquared_correct (singleZeroRaster 2 1) 3 2 newImage 255 (saturate 255)
      (saturate_saturatingCast 255) hzero 0 0 (by decide) (by decide)⟩

/-- Counterexample to the exact minimum for every destination type: on the
`20 × 10` mask whose only zero pixel is `(0, 0)`, written to a destination type
with maximum `255`, the value at pixel `(19, 9)` is `255`, while the least
squared distance to a zero pixel is `19^2 + 9^2 = 442`. -/
theorem separableMultiDistSquared_correct_counterexample :
    (∃ j k, j < 20 ∧ k < 10 ∧ singleZeroRaster 0 0 j k = 0)
    ∧ SaturatingCast 255 (saturate 255)
    ∧ separableMultiDistSquared (singleZeroRaster 0 0) 20 10 newImage false unitPitch 255
        (saturate 255) 19 9 = 255
    ∧ IsMinOver (fun j k => j < 20 ∧ k < 10 ∧ singleZeroRaster 0 0 j k = 0) (sqDist 19 9) 442
    ∧ ¬ IsMinOver (fun j k => j < 20 ∧ k < 10 ∧ singleZeroRaster 0 0 j k = 0) (sqDist 19 9)
        (separableMultiDistSquared (singleZeroRaster 0 0) 20 10 newImage false unitPitch 255
          (saturate 255) 19 9) := by
  have hval : separableMultiDistSquared (singleZeroRaster 0 0) 20 10 newImage false unitPitch 255
      (saturate 255) 19 9 = 255 := by
    rw [separableMultiDistSquared_saturating _ _ _ _ _ _ _ (saturate_saturatingCast 255) 19 9
        (by decide) (by decide),
      squaredPasses_single (singleZeroRaster 0 0) 20 10 newImage false 0 0 (by decide)
        (by decide) (by simp [isSourceValue, singleZeroRaster])
        (by
          intro j k _ _ hs
          by_contra hne
          simp [isSourceValue, singleZeroRaster, hne] at hs)
        19 9 (by decide) (by decide),
      sqDist_far_corner]
    norm_num
  have hmin : IsMinOver (fun j k => j < 20 ∧ k < 10 ∧ singleZeroRaster 0 0 j k = 0)
      (sqDist 19 9) 442 := by
    refine ⟨⟨0, 0, ⟨by decide, by decide, by decide⟩, sqDist_far_corner.symm⟩, ?_⟩
    rintro j k ⟨_, _, hs⟩
    have hjk : j = 0 ∧ k = 0 := by
      by_contra hne
      simp [singleZeroRaster, hne] at hs
    rw [hjk.1, hjk.2, sqDist_far_corner]
  refine ⟨⟨0, 0, by decide, by decide, by decide⟩, saturate_saturatingCast 255, hval, hmin, ?_⟩
  intro hcon
  rw [hval] at hcon
  have := isMinOver_unique _ _ _ _ hcon hmin
  norm_num at this

/-! ## Zero set, background flag and sentinel of `separableMultiDistSquared` -/

/-- C13: with unit pixel pitch, `background = false` and a saturating
conversion to a destination type with positive maximum, the value written at
any pixel of a non-empty mask is non-negative, and it is zero exactly when the
source value at that pixel is zero. -/
theorem separableMultiDistSquared_zero_iff (src : Raster ℕ) (w h : ℕ) (dest : Raster ℚ)
    (destMax : ℚ) (toDest : ℚ → ℚ) (hcast : SaturatingCast destMax toDest)
    (hmax : 0 < destMax) (x y : ℕ) (hx : x < w) (hy : y < h) :
    0 ≤ separableMultiDistSquared src w h dest false unitPitch destMax toDest x y
      ∧ (separableMultiDistSquared src w h dest false unitPitch destMax toDest x y = 0
          ↔ src x y = 0) := by
  rw [separableMultiDistSquared_saturating src w h dest false destMax toDest hcast x y hx hy]
  obtain ⟨h0, hiff⟩ := squaredPasses_zero_iff src w h newImage false x y hx hy
  have hsv : isSourceValue false (src x y) ↔ src x y = 0 := by simp [isSourceValue]
  rw [hsv] at hiff
  refine ⟨le_min h0 hmax.le, ?_⟩
  rw [← hiff]
  constructor
  · intro hm
    rcases min_choice (squaredPasses src w h newImage false x y) destMax with hc | hc
    · rw [hc] at hm
      exact hm
    · rw [hc] at hm
      linarith
  · intro hz
    rw [hz]
    exact min_eq_left hmax.le

/-- Witness of `separableMultiDistSquared_zero_iff`: pixel `(0, 0)` of a
`3 × 2` mask whose only zero pixel is `(2, 1)`, written to a destination type
with maximum `255`. -/
theorem separableMultiDistSquared_zero_iff_witness :
    (SaturatingCast 255 (saturate 255) ∧ (0 : ℚ) < 255 ∧ 0 < 3 ∧ 0 < 2)
    ∧ 0 ≤ separableMultiDistSquared (singleZeroRaster 2 1) 3 2 newImage false unitPitch 255
        (saturate 255) 0 0
    ∧ (separableMultiDistSquared (singleZeroRaster 2 1) 3 2 newImage false unitPitch 255
          (saturate 255) 0 0 = 0
        ↔ singleZeroRaster 2 1 0 0 = 0) :=
  ⟨⟨saturate_saturatingCast 255, by norm_num, by decide, by decide⟩,
    separableMultiDistSquared_zero_iff (singleZeroRaster 2 1) 3 2 newImage 255 (saturate 255)
      (saturate_saturatingCast 255) (by norm_num) 0 0 (by decide) (by decide)⟩

/-- C16: with `background = true`, unit pixel pitch, at least one non-zero
pixel and a saturating conversion to the destination type,
`separableMultiDistSquared` writes `0` at every non-zero pixel and at every
pixel the least squared distance to a non-zero pixel, cut off at the maximum
of the destination type; this is the value that `background = false` yields
for the same destination type on the mask with zero and non-zero exchanged. -/
theorem separableMultiDistSquared_background (src : Raster ℕ) (w h : ℕ)
    (dest dest' : Raster ℚ) (destMax : ℚ) (toDest : ℚ → ℚ)
    (hcast : SaturatingCast destMax toDest) (hmax : 0 ≤ destMax)
    (hobj : ∃ j k, j < w ∧ k < h ∧ src j k ≠ 0)
    (x y : ℕ) (hx : x < w) (hy : y < h) :
    (src x y ≠ 0 →
        separableMultiDistSquared src w h dest true unitPitch destMax toDest x y = 0)
      ∧ (∃ d : ℚ, IsMinOver (fun j k => j < w ∧ k < h ∧ src j k ≠ 0) (sqDist x y) d
          ∧ separableMultiDistSquared src w h dest true unitPitch destMax toDest x y
              = min d destMax)
      ∧ separableMultiDistSquared src w h dest true unitPitch destMax toDest x y
          = separableMultiDistSquared (exchangeMask src) w h dest' false unitPitch destMax
              toDest x y := by
  have hsrc : ∃ j k, j < w ∧ k < h ∧ isSourceValue true (src j k) := by
    obtain ⟨j, k, hj, hk, hs⟩ := hobj
    exact ⟨j, k, hj, hk, by simpa [isSourceValue] using hs⟩
  have hmin := squaredPasses_isMinOver src w h newImage true hsrc x y hx hy
  have hcand : (fun j k => j < w ∧ k < h ∧ isSourceValue true (src j k))
      = fun j k => j < w ∧ k < h ∧ src j k ≠ 0 := by
    funext j k
    simp [isSourceValue]
  rw [hcand] at hmin
  have hsrc' : ∃ j k, j < w ∧ k < h ∧ isSourceValue false (exchangeMask src j k) := by
    obtain ⟨j, k, hj, hk, hs⟩ := hobj
    exact ⟨j, k, hj, hk, by simp [isSourceValue, exchangeMask, hs]⟩
  have hmin' := squaredPasses_isMinOver (exchangeMask src) w h newImage false hsrc' x y hx hy
  have hcand' : (fun j k => j < w ∧ k < h ∧ isSourceValue false (exchangeMask src j k))
      = fun j k => j < w ∧ k < h ∧ src j k ≠ 0 := by
    funext j k
    by_cases hs : src j k = 0 <;> simp [isSourceValue, exchangeMask, hs]
  rw [hcand'] at hmin'
  have hval := separableMultiDistSquared_saturating src w h dest true destMax toDest hcast
    x y hx hy
  have hval' := separableMultiDistSquared_saturating (exchangeMask src) w h dest' false destMax
    toDest hcast x y hx hy
  refine ⟨?_, ⟨_, hmin, hval⟩, ?_⟩
  · intro hs
    have hs' : isSourceValue true (src x y) := by simpa [isSourceValue] using hs
    rw [hval, (squaredPasses_zero_iff src w h newImage true x y hx hy).2.2 hs']
    exact min_eq_left hmax
  · rw [hval, hval', isMinOver_unique _ _ _ _ hmin hmin']

/-- Witness of `separableMultiDistSquared_background`: the one-column mask on a
`3 × 2` raster, at the non-zero pixel `(0, 1)`, written to a destination type
with maximum `255`. -/
theorem separableMultiDistSquared_background_witness :
    (SaturatingCast 255 (saturate 255) ∧ (0 : ℚ) ≤ 255
      ∧ (∃ j k, j < 3 ∧ k < 2 ∧ columnMask j k ≠ 0) ∧ 0 < 3 ∧ 1 < 2 ∧ columnMask 0 1 ≠ 0)
    ∧ separableMultiDistSquared columnMask 3 2 newImage true unitPitch 255 (saturate 255) 0 1
        = 0
    ∧ (∃ d : ℚ, IsMinOver (fun j k => j < 3 ∧ k < 2 ∧ columnMask j k ≠ 0) (sqDist 0 1) d
        ∧ separableMultiDistSquared columnMask 3 2 newImage true unitPitch 255 (saturate 255)
            0 1 = min d 255)
    ∧ separableMultiDistSquared columnMask 3 2 newImage true unitPitch 255 (saturate 255) 0 1
        = separableMultiDistSquared (exchangeMask columnMask) 3 2 newImage false unitPitch 255
            (saturate 255) 0 1 :=
  have hobj : ∃ j k, j < 3 ∧ k < 2 ∧ columnMask j k ≠ 0 :=
    ⟨0, 0, by decide, by decide, by decide⟩
  ⟨⟨saturate_saturatingCast 255, by norm_num, hobj, by decide, by decide, by decide⟩,
    (separableMultiDistSquared_background columnMask 3 2 newImage newImage 255 (saturate 255)
      (saturate_saturatingCast 255) (by norm_num) hobj 0 1 (by decide) (by decide)).1
      (by decide),
    (separableMultiDistSquared_background columnMask 3 2 newImage newImage 255 (saturate 255)
      (saturate_saturatingCast 255) (by norm_num) hobj 0 1 (by decide) (by decide)).2⟩

/-- Counterexample to the exact distance at every zero pixel: on the `20 × 10`
mask whose only non-zero pixel is `(0, 0)`, written with `background = true`
to a destination type with maximum `255`, the value at the zero pixel
`(19, 9)` is `255`, while the squared distance to the nearest non-zero pixel
is `19^2 + 9^2 = 442`. -/
theorem separableMultiDistSquared_background_counterexample :
    (∃ j k, j < 20 ∧ k < 10 ∧ exchangeMask (singleZeroRaster 0 0) j k ≠ 0)
    ∧ SaturatingCast 255 (saturate 255)
    ∧ exchangeMask (singleZeroRaster 0 0) 19 9 = 0
    ∧ separableMultiDistSquared (exchangeMask (singleZeroRaster 0 0)) 20 10 newImage true
        unitPitch 255 (saturate 255) 19 9 = 255
    ∧ IsMinOver (fun j k => j < 20 ∧ k < 10 ∧ exchangeMask (singleZeroRaster 0 0) j k ≠ 0)
        (sqDist 19 9) 442 := by
  have hval : separableMultiDistSquared (exchangeMask (singleZeroRaster 0 0)) 20 10 newImage true
      unitPitch 255 (saturate 255) 19 9 = 255 := by
    rw [separableMultiDistSquared_saturating _ _ _ _ _ _ _ (saturate_saturatingCast 255) 19 9
        (by decide) (by decide),
      squaredPasses_single (exchangeMask (singleZeroRaster 0 0)) 20 10 newImage true 0 0
        (by decide) (by decide) (by simp [isSourceValue, singleZeroRaster, exchangeMask])
        (by
          intro j k _ _ hs
          by_contra hne
          simp [isSourceValue, singleZeroRaster, exchangeMask, hne] at hs)
        19 9 (by decide) (by decide),
      sqDist_far_corner]
    norm_num
  have hmin : IsMinOver
      (fun j k => j < 20 ∧ k < 10 ∧ exchangeMask (singleZeroRaster 0 0) j k ≠ 0)
      (sqDist 19 9) 442 := by
    refine ⟨⟨0, 0, ⟨by decide, by decide, by decide⟩, sqDist_far_corner.symm⟩, ?_⟩
    rintro j k ⟨_, _, hs⟩
    have hjk : j = 0 ∧ k = 0 := by
      by_contra hne
      simp [singleZeroRaster, exchangeMask, hne] at hs
    rw [hjk.1, hjk.2, sqDist_far_corner]
  exact ⟨⟨0, 0, by decide, by decide, by decide⟩, saturate_saturatingCast 255, by decide,
    hval, hmin⟩


/-! ## Identical masks -/

theorem mem_scanOrder {α : Type} (img : Raster α) (w h : ℕ) (a : α) :
    a ∈ scanOrder img w h ↔ ∃ x y, x < w ∧ y < h ∧ a = img x y := by
  simp only [scanOrder, List.mem_flatMap, List.mem_map, List.mem_range]
  constructor
  · rintro ⟨y, hy, x, hx, ha⟩
    exact ⟨x, y, hx, hy, ha.symm⟩
  · rintro ⟨x, y, hx, hy, ha⟩
    exact ⟨y, hy, x, hx, ha.symm⟩

theorem nonZeroCount_eq_zero_of_forall {α : Type} [Zero α] [DecidableEq α] (xs : List α)
    (h0 : ∀ a ∈ xs, a = 0) : nonZeroCount xs = 0 := by
  unfold nonZeroCount
  rw [List.countP_eq_zero]
  intro a ha
  simp [h0 a ha]

theorem saturating_subtract_self (bits a : ℕ) : saturating_subtract bits a a = 0 := by
  simp [saturating_subtract]

theorem diffImage_self (bits : ℕ) (m : Raster ℕ) (w h x y : ℕ) :
    diffImage bits m m w h x y = 0 := by
  unfold diffImage combineTwoImages
  split_ifs
  · exact saturating_subtract_self bits _
  · rfl

theorem quick_tally_diffImage_self (bits : ℕ) (m : Raster ℕ) (w h t : ℕ) :
    quick_tally (scanOrder (diffImage bits m m w h) w h) t = 0 := by
  rw [quick_tally_eq_min, nonZeroCount_eq_zero_of_forall]
  · exact Nat.min_zero t
  · intro a ha
    obtain ⟨x, y, _, _, rfl⟩ := (mem_scanOrder _ w h a).mp ha
    exact diffImage_self bits m w h x y

/-- C12 (as amended): for identical masks both difference images are zero at
every pixel and both directional tallies are `0`; the run aborts exactly when
the threshold `2 * f * (w + h)` reduced modulo `2 ^ 32` is not zero, hence
whenever `f ≥ 1`, `w + h ≥ 1` and `2 * f * (w + h) < 2 ^ 32`. -/
theorem nearestFeatureTransform_identical {β γ : Type} [Zero β] [LT β]
    [DecidableRel (α := β) (· < ·)]
    (dt : DistanceTransform ℕ β) (bits factor : ℕ) (maxV zeroV : γ)
    (m : Raster ℕ) (w h : ℕ) (dest : Raster γ) (norm : ℤ) (boundary : boundary_t) :
    (∀ x y, (nftState dt bits factor m w h m norm boundary).diff12 x y = 0
        ∧ (nftState dt bits factor m w h m norm boundary).diff21 x y = 0)
      ∧ (nftState dt bits factor m w h m norm boundary).tally12 = 0
      ∧ (nftState dt bits factor m w h m norm boundary).tally21 = 0
      ∧ (nearestFeatureTransform dt bits factor maxV zeroV m w h m dest norm boundary = none
          ↔ (2 * factor * (w + h)) % 2 ^ 32 ≠ 0)
      ∧ (1 ≤ factor → 1 ≤ w + h → 2 * factor * (w + h) < 2 ^ 32 →
          nearestFeatureTransform dt bits factor maxV zeroV m w h m dest norm boundary
            = none) := by
  have hT : overlap_threshold factor w h = (2 * factor * (w + h)) % 2 ^ 32 := by
    unfold overlap_threshold
    congr 1
    ring
  have hiff : nearestFeatureTransform dt bits factor maxV zeroV m w h m dest norm boundary
      = none ↔ (2 * factor * (w + h)) % 2 ^ 32 ≠ 0 := by
    rw [nearestFeatureTransform_eq_none_iff, quick_tally_diffImage_self, ← hT]
    simp [Nat.pos_iff_ne_zero]
  refine ⟨fun x y => ⟨diffImage_self bits m w h x y, diffImage_self bits m w h x y⟩,
    quick_tally_diffImage_self bits m w h _, quick_tally_diffImage_self bits m w h _, hiff, ?_⟩
  intro hf hwh hlt
  rw [hiff, Nat.mod_eq_of_lt hlt]
  have : 0 < 2 * factor * (w + h) := by positivity
  omega

/-- Witness of `nearestFeatureTransform_identical`: a `10 × 10` pair of full
masks with the default factor `2`. -/
theorem nearestFeatureTransform_identical_witness :
    (1 ≤ 2 ∧ 1 ≤ 10 + 10 ∧ 2 * 2 * (10 + 10) < 2 ^ 32)
    ∧ nearestFeatureTransform distanceTransformModel 8 2 (255 : ℕ) 0 fullMask 10 10 fullMask
        newImage 2 OpenBoundaries = none :=
  ⟨⟨by decide, by decide, by decide⟩,
    (nearestFeatureTransform_identical distanceTransformModel 8 2 (255 : ℕ) 0 fullMask 10 10
      newImage 2 OpenBoundaries).2.2.2.2 (by decide) (by decide) (by decide)⟩

/-- C12, the claim as stated fails: with factor `2 ^ 31` on a `1 × 1` pair of
identical full masks the unsigned threshold wraps to `0`, and the run returns
a mask although `f ≥ 1` and `w + h ≥ 1`. -/
theorem nearestFeatureTransform_identical_counterexample :
    (1 ≤ 2 ^ 31 ∧ 1 ≤ 1 + 1)
    ∧ ¬ (nearestFeatureTransform distanceTransformModel 8 (2 ^ 31) (255 : ℕ) 0 fullMask 1 1
          fullMask newImage 2 OpenBoundaries = none) := by
  refine ⟨⟨by norm_num, by norm_num⟩, ?_⟩
  rw [nearestFeatureTransform_eq_none_iff]
  have hT : overlap_threshold (2 ^ 31) 1 1 = 0 := by
    unfold overlap_threshold; norm_num
  rw [hT]
  exact Nat.not_lt_zero _


/-! ## The end-to-end scenario: two overlapping bands -/

theorem separableEngine_sqEuclidean (destMax : ℚ) (background : ℕ) (norm : ℤ) :
    SqEuclideanEngine (separableEngine destMax) (fun v => v ≠ 0) background norm := by
  intro w h img x y hx hy hsrc
  have hcand : (fun j k => j < w ∧ k < h ∧ isSourceValue true (img j k))
      = fun j k => j < w ∧ k < h ∧ img j k ≠ 0 := by
    funext j k
    simp [isSourceValue]
  have hsrc' : ∃ j k, j < w ∧ k < h ∧ isSourceValue true (img j k) := by
    obtain ⟨j, k, hj, hk, hs⟩ := hsrc
    exact ⟨j, k, hj, hk, by simpa [isSourceValue] using hs⟩
  have := separableMultiDistSquared_isMinOver img w h newImage true destMax hsrc' x y hx hy
  rw [hcand] at this
  exact this

theorem nonZeroCount_scanOrder_le {α : Type} [Zero α] [DecidableEq α] (img : Raster α)
    (w h : ℕ) (P : ℕ → Bool) (hP : ∀ x y, x < w → y < h → img x y ≠ 0 → P x = true) :
    nonZeroCount (scanOrder img w h) ≤ h * (List.range w).countP P := by
  unfold nonZeroCount scanOrder
  rw [List.countP_flatMap]
  have hrow : ∀ c ∈ List.map (List.countP (fun a => decide (a ≠ 0))
      ∘ fun y => List.map (fun x => img x y) (List.range w)) (List.range h),
      c ≤ (List.range w).countP P := by
    intro c hc
    obtain ⟨y, hy, rfl⟩ := List.mem_map.mp hc
    simp only [Function.comp, List.countP_map]
    apply List.countP_mono_left
    intro x hx hne
    simp only [Function.comp, decide_eq_true_eq] at hne
    exact hP x y (List.mem_range.mp hx) (List.mem_range.mp hy) hne
  have := List.sum_le_card_nsmul _ _ hrow
  simpa using this

theorem dist_left_band (dt : DistanceTransform ℕ ℚ) (norm : ℤ)
    (hdt : SqEuclideanEngine dt (fun v => v ≠ 0) 0 norm)
    (img : Raster ℕ) (w h c : ℕ) (hc : 0 < c) (hcw : c ≤ w)
    (himg : ∀ j k, j < w → k < h → (img j k ≠ 0 ↔ j < c))
    (x y : ℕ) (hx : x < w) (hy : y < h) :
    dt w h img 0 norm x y = if x < c then 0 else ((x : ℚ) - c + 1) ^ 2 := by
  split_ifs with hxc
  · exact sqEuclidean_zero_at_source dt _ 0 norm hdt w h img x y hx hy
      ((himg x y hx hy).mpr hxc)
  · have hsrc : ∃ j k, j < w ∧ k < h ∧ img j k ≠ 0 :=
      ⟨c - 1, y, by omega, hy, (himg (c - 1) y (by omega) hy).mpr (by omega)⟩
    obtain ⟨⟨j, k, ⟨hj, hk, hs⟩, hv⟩, hle⟩ := hdt w h img x y hx hy hsrc
    have hjc : j < c := (himg j k hj hk).mp hs
    have hup := hle (c - 1) y ⟨by omega, hy, (himg (c - 1) y (by omega) hy).mpr (by omega)⟩
    have hc1 : ((c - 1 : ℕ) : ℚ) = (c : ℚ) - 1 := by
      rw [Nat.cast_sub hc]; simp
    have hup' : dt w h img 0 norm x y ≤ ((x : ℚ) - c + 1) ^ 2 := by
      have : sqDist x y (c - 1) y = ((x : ℚ) - c + 1) ^ 2 := by
        unfold sqDist
        rw [hc1]
        ring
      rw [← this]
      exact hup
    apply le_antisymm hup'
    rw [hv]
    unfold sqDist
    have hjq : (j : ℚ) + 1 ≤ c := by exact_mod_cast hjc
    have hxq : (c : ℚ) ≤ x := by exact_mod_cast (not_lt.mp hxc)
    have h1 : ((x : ℚ) - c + 1) ^ 2 ≤ ((x : ℚ) - j) ^ 2 := by
      apply sq_le_sq' <;> linarith
    have h2 : 0 ≤ ((y : ℚ) - k) ^ 2 := sq_nonneg _
    linarith

theorem dist_right_band (dt : DistanceTransform ℕ ℚ) (norm : ℤ)
    (hdt : SqEuclideanEngine dt (fun v => v ≠ 0) 0 norm)
    (img : Raster ℕ) (w h c : ℕ) (hcw : c < w)
    (himg : ∀ j k, j < w → k < h → (img j k ≠ 0 ↔ c ≤ j))
    (x y : ℕ) (hx : x < w) (hy : y < h) :
    dt w h img 0 norm x y = if c ≤ x then 0 else ((c : ℚ) - x) ^ 2 := by
  split_ifs with hxc
  · exact sqEuclidean_zero_at_source dt _ 0 norm hdt w h img x y hx hy
      ((himg x y hx hy).mpr hxc)
  · have hsrc : ∃ j k, j < w ∧ k < h ∧ img j k ≠ 0 :=
      ⟨c, y, hcw, hy, (himg c y hcw hy).mpr (le_refl c)⟩
    obtain ⟨⟨j, k, ⟨hj, hk, hs⟩, hv⟩, hle⟩ := hdt w h img x y hx hy hsrc
    have hjc : c ≤ j := (himg j k hj hk).mp hs
    have hup := hle c y ⟨hcw, hy, (himg c y hcw hy).mpr (le_refl c)⟩
    have hup' : dt w h img 0 norm x y ≤ ((c : ℚ) - x) ^ 2 := by
      have : sqDist x y c y = ((c : ℚ) - x) ^ 2 := by
        unfold sqDist
        ring
      rw [← this]
      exact hup
    apply le_antisymm hup'
    rw [hv]
    unfold sqDist
    have hjq : (c : ℚ) ≤ j := by exact_mod_cast hjc
    have hxq : (x : ℚ) + 1 ≤ c := by exact_mod_cast (not_le.mp hxc)
    have h1 : ((c : ℚ) - x) ^ 2 ≤ ((x : ℚ) - j) ^ 2 := by
      have : ((x : ℚ) - j) ^ 2 = ((j : ℚ) - x) ^ 2 := by ring
      rw [this]
      apply sq_le_sq' <;> linarith
    have h2 : 0 ≤ ((y : ℚ) - k) ^ 2 := sq_nonneg _
    linarith

theorem saturating_subtract_zero_right (bits v : ℕ) (hv : v < 2 ^ bits) :
    saturating_subtract bits v 0 = v := by
  unfold saturating_subtract
  split_ifs with h0
  · rw [Nat.sub_zero, Nat.add_mod_right, Nat.mod_eq_of_lt hv]
  · omega

theorem saturating_subtract_zero_left (bits v : ℕ) : saturating_subtract bits 0 v = 0 := by
  simp [saturating_subtract]

theorem diffImage_bands_left (bits v : ℕ) (hv0 : 0 < v) (hv : v < 2 ^ bits)
    (m1 m2 : Raster ℕ)
    (hm1 : ∀ x y, x < 20 → y < 10 → m1 x y = if x ≤ 14 then v else 0)
    (hm2 : ∀ x y, x < 20 → y < 10 → m2 x y = if 5 ≤ x then v else 0)
    (j k : ℕ) (hj : j < 20) (hk : k < 10) :
    diffImage bits m1 m2 20 10 j k ≠ 0 ↔ j < 5 := by
  have hd : diffImage bits m1 m2 20 10 j k = saturating_subtract bits (m1 j k) (m2 j k) := by
    simp [diffImage, combineTwoImages, hj, hk]
  rw [hd, hm1 j k hj hk, hm2 j k hj hk]
  by_cases h5 : 5 ≤ j
  · rw [if_pos h5]
    by_cases h14 : j ≤ 14
    · rw [if_pos h14, saturating_subtract_self]
      constructor
      · intro h; exact absurd rfl h
      · intro h; omega
    · rw [if_neg h14, saturating_subtract_zero_left]
      constructor
      · intro h; exact absurd rfl h
      · intro h; omega
  · rw [if_neg h5, if_pos (by omega), saturating_subtract_zero_right bits v hv]
    constructor
    · intro _; omega
    · intro _; omega

theorem diffImage_bands_right (bits v : ℕ) (hv0 : 0 < v) (hv : v < 2 ^ bits)
    (m1 m2 : Raster ℕ)
    (hm1 : ∀ x y, x < 20 → y < 10 → m1 x y = if x ≤ 14 then v else 0)
    (hm2 : ∀ x y, x < 20 → y < 10 → m2 x y = if 5 ≤ x then v else 0)
    (j k : ℕ) (hj : j < 20) (hk : k < 10) :
    diffImage bits m2 m1 20 10 j k ≠ 0 ↔ 15 ≤ j := by
  have hd : diffImage bits m2 m1 20 10 j k = saturating_subtract bits (m2 j k) (m1 j k) := by
    simp [diffImage, combineTwoImages, hj, hk]
  rw [hd, hm1 j k hj hk, hm2 j k hj hk]
  by_cases h14 : j ≤ 14
  · rw [if_pos h14]
    by_cases h5 : 5 ≤ j
    · rw [if_pos h5, saturating_subtract_self]
      constructor
      · intro h; exact absurd rfl h
      · intro h; omega
    · rw [if_neg h5, saturating_subtract_zero_left]
      constructor
      · intro h; exact absurd rfl h
      · intro h; omega
  · rw [if_neg h14, if_pos (by omega), saturating_subtract_zero_right bits v hv]
    constructor
    · intro _; omega
    · intro _; omega

theorem bands_abort {β γ : Type} [Zero β] [LT β] [DecidableRel (α := β) (· < ·)]
    (dt : DistanceTransform ℕ β) (bits v : ℕ) (hv0 : 0 < v) (hv : v < 2 ^ bits)
    (maxV zeroV : γ) (m1 m2 : Raster ℕ) (dest : Raster γ) (norm : ℤ)
    (hm1 : ∀ x y, x < 20 → y < 10 → m1 x y = if x ≤ 14 then v else 0)
    (hm2 : ∀ x y, x < 20 → y < 10 → m2 x y = if 5 ≤ x then v else 0) :
    nearestFeatureTransform dt bits 2 maxV zeroV m1 20 10 m2 dest norm OpenBoundaries
      = none := by
  rw [nearestFeatureTransform_eq_none_iff, quick_tally_eq_min, quick_tally_eq_min]
  have hT : overlap_threshold 2 20 10 = 120 := by decide
  rw [hT]
  have h12 : nonZeroCount (scanOrder (diffImage bits m1 m2 20 10) 20 10)
      ≤ 10 * (List.range 20).countP (fun x => decide (x < 5)) := by
    apply nonZeroCount_scanOrder_le
    intro x y hx hy hne
    simpa using (diffImage_bands_left bits v hv0 hv m1 m2 hm1 hm2 x y hx hy).mp hne
  have h21 : nonZeroCount (scanOrder (diffImage bits m2 m1 20 10) 20 10)
      ≤ 10 * (List.range 20).countP (fun x => decide (15 ≤ x)) := by
    apply nonZeroCount_scanOrder_le
    intro x y hx hy hne
    simpa using (diffImage_bands_right bits v hv0 hv m1 m2 hm1 hm2 x y hx hy).mp hne
  have c1 : (List.range 20).countP (fun x => decide (x < 5)) = 5 := by decide
  have c2 : (List.range 20).countP (fun x => decide (15 ≤ x)) = 5 := by decide
  rw [c1] at h12
  rw [c2] at h21
  omega

/-- C11 (as amended): on the `20 × 10` canvas with mask 1 on the columns
`0..14` and mask 2, of the same value, on the columns `5..19`, with open
boundaries and a squared Euclidean engine that measures from the non-zero
pixels: with the default factor `2` the run aborts (each directional tally is
at most `50`, the threshold is `120`); with every factor for which the run
returns a mask, every pixel in a column `< 10` is the maximum value and every
pixel in a column `≥ 10` is the zero value; factor `0` is such a factor. -/
theorem nearestFeatureTransform_bands {γ : Type}
    (dt : DistanceTransform ℕ ℚ) (norm : ℤ)
    (hdt : SqEuclideanEngine dt (fun v => v ≠ 0) 0 norm)
    (bits v : ℕ) (hv0 : 0 < v) (hv : v < 2 ^ bits)
    (maxV zeroV : γ) (m1 m2 : Raster ℕ) (dest : Raster γ)
    (hm1 : ∀ x y, x < 20 → y < 10 → m1 x y = if x ≤ 14 then v else 0)
    (hm2 : ∀ x y, x < 20 → y < 10 → m2 x y = if 5 ≤ x then v else 0) :
    nearestFeatureTransform dt bits 2 maxV zeroV m1 20 10 m2 dest norm OpenBoundaries = none
      ∧ (∀ (factor : ℕ) (r : Raster γ),
          nearestFeatureTransform dt bits factor maxV zeroV m1 20 10 m2 dest norm
              OpenBoundaries = some r →
          ∀ x y, x < 20 → y < 10 →
            (x < 10 → r x y = maxV) ∧ (10 ≤ x → r x y = zeroV))
      ∧ ∃ r : Raster γ,
          nearestFeatureTransform dt bits 0 maxV zeroV m1 20 10 m2 dest norm OpenBoundaries
            = some r := by
  refine ⟨bands_abort dt bits v hv0 hv maxV zeroV m1 m2 dest norm hm1 hm2, ?_, ?_⟩
  · intro factor r hr x y hx hy
    have hre := nearestFeatureTransform_eq_some dt bits factor maxV zeroV m1 20 10 m2 dest
      norm OpenBoundaries r hr
    have hd12 : (nftState dt bits factor m1 20 10 m2 norm OpenBoundaries).dist12 x y
        = if x < 5 then 0 else ((x : ℚ) - (5 : ℕ) + 1) ^ 2 :=
      dist_left_band dt norm hdt (diffImage bits m1 m2 20 10) 20 10 5 (by decide) (by decide)
        (diffImage_bands_left bits v hv0 hv m1 m2 hm1 hm2) x y hx hy
    have hd21 : (nftState dt bits factor m1 20 10 m2 norm OpenBoundaries).dist21 x y
        = if 15 ≤ x then 0 else (((15 : ℕ) : ℚ) - x) ^ 2 :=
      dist_right_band dt norm hdt (diffImage bits m2 m1 20 10) 20 10 15 (by decide)
        (diffImage_bands_right bits v hv0 hv m1 m2 hm1 hm2) x y hx hy
    have hrv : r x y
        = if (nftState dt bits factor m1 20 10 m2 norm OpenBoundaries).dist12 x y
            < (nftState dt bits factor m1 20 10 m2 norm OpenBoundaries).dist21 x y
          then maxV else zeroV := by
      rw [hre]
      simp [seamMask, combineTwoImages, seamChoice, hx, hy]
    rw [hrv, hd12, hd21]
    constructor
    · intro hlt
      rw [if_pos]
      interval_cases x <;> norm_num
    · intro hge
      rw [if_neg]
      interval_cases x <;> norm_num
  · refine ⟨_, nearestFeatureTransform_of_not_lt dt bits 0 maxV zeroV m1 20 10 m2 dest norm
      OpenBoundaries ?_⟩
    have hT : overlap_threshold 0 20 10 = 0 := by decide
    rw [hT]
    exact Nat.not_lt_zero _

/-- Witness of `nearestFeatureTransform_bands`: 8-bit band masks of value `255`
with the engine built from `separableMultiDistSquared`; with factor `2` the run
aborts, with factor `0` it returns a mask that is `255` at `(9, 0)` and `0` at
`(10, 0)`. -/
theorem nearestFeatureTransform_bands_witness :
    (SqEuclideanEngine (separableEngine 255) (fun v => v ≠ 0) 0 2
      ∧ 0 < 255 ∧ 255 < 2 ^ 8
      ∧ (∀ x y, x < 20 → y < 10 → bandMask 0 14 255 x y = if x ≤ 14 then 255 else 0)
      ∧ (∀ x y, x < 20 → y < 10 → bandMask 5 19 255 x y = if 5 ≤ x then 255 else 0))
    ∧ nearestFeatureTransform (separableEngine 255) 8 2 (255 : ℕ) 0 (bandMask 0 14 255) 20 10
        (bandMask 5 19 255) newImage 2 OpenBoundaries = none
    ∧ ∃ r : Raster ℕ,
        nearestFeatureTransform (separableEngine 255) 8 0 (255 : ℕ) 0 (bandMask 0 14 255)
          20 10 (bandMask 5 19 255) newImage 2 OpenBoundaries = some r
        ∧ r 9 0 = 255 ∧ r 10 0 = 0 := by
  have h1 : ∀ x y, x < 20 → y < 10 → bandMask 0 14 255 x y = if x ≤ 14 then 255 else 0 := by
    intro x y _ _
    simp [bandMask]
  have h2 : ∀ x y, x < 20 → y < 10 → bandMask 5 19 255 x y = if 5 ≤ x then 255 else 0 := by
    intro x y hx _
    have : x ≤ 19 := by omega
    simp [bandMask, this]
  obtain ⟨habort, hmask, r, hr⟩ :=
    nearestFeatureTransform_bands (separableEngine 255) 2 (separableEngine_sqEuclidean 255 0 2)
      8 255 (by decide) (by decide) (255 : ℕ) 0 (bandMask 0 14 255) (bandMask 5 19 255)
      newImage h1 h2
  exact ⟨⟨separableEngine_sqEuclidean 255 0 2, by decide, by decide, h1, h2⟩, habort, r, hr,
    (hmask 0 r hr 9 0 (by decide) (by decide)).1 (by decide),
    (hmask 0 r hr 10 0 (by decide) (by decide)).2 (by decide)⟩

/-- C11, the claim as stated fails: on its scenario, with the default factor
`2`, the run aborts and returns no seam mask. -/
theorem nearestFeatureTransform_bands_counterexample :
    ¬ ∃ r : Raster ℕ,
        nearestFeatureTransform (separableEngine 255) 8 2 (255 : ℕ) 0 (bandMask 0 14 255)
          20 10 (bandMask 5 19 255) newImage 2 OpenBoundaries = some r := by
  have h1 : ∀ x y, x < 20 → y < 10 → bandMask 0 14 255 x y = if x ≤ 14 then 255 else 0 := by
    intro x y _ _
    simp [bandMask]
  have h2 : ∀ x y, x < 20 → y < 10 → bandMask 5 19 255 x y = if 5 ≤ x then 255 else 0 := by
    intro x y hx _
    have : x ≤ 19 := by omega
    simp [bandMask, this]
  rintro ⟨r, hr⟩
  rw [bands_abort (separableEngine 255) 8 255 (by decide) (by decide) (255 : ℕ) 0
    (bandMask 0 14 255) (bandMask 5 19 255) newImage 2 h1 h2] at hr
  exact Option.noConfusion hr


/-! ## The tiling step and the extraction step -/

theorem mod_of_lt_double (W x : ℕ) (hx : x < 2 * W) :
    x % W = if x < W then x else x - W := by
  split_ifs with h
  · exact Nat.mod_eq_of_lt h
  · rw [Nat.mod_eq_sub_mod (not_lt.mp h), Nat.mod_eq_of_lt (by omega)]

/-- C14: the working raster of `periodicDistanceTransform` has the shape
`(fx * W) × (fy * H)` with `fx = 2` exactly for `HorizontalStrip` and
`DoubleStrip`, `fy = 2` exactly for `VerticalStrip` and `DoubleStrip`, and `1`
otherwise; `quadruple_image` fills each of its pixels `(x, y)` with
`source(x mod W, y mod H)`. -/
theorem quadruple_image_tiles {α β : Type} [Zero α] [Zero β] (dt : DistanceTransform α β)
    (src : Raster α) (W H : ℕ) (dest : Raster β) (work : Raster α)
    (background : α) (norm : ℤ) (boundary : boundary_t) :
    periodicDistanceTransform dt src W H dest background norm boundary
        = quater_image
            (dt (periodicSize W H boundary).1 (periodicSize W H boundary).2
              (quadruple_image src W H newImage boundary) background norm)
            (periodicSize W H boundary).1 (periodicSize W H boundary).2 dest boundary
      ∧ (periodicSize W H boundary).1
          = (if boundary = HorizontalStrip ∨ boundary = DoubleStrip then 2 else 1) * W
      ∧ (periodicSize W H boundary).2
          = (if boundary = VerticalStrip ∨ boundary = DoubleStrip then 2 else 1) * H
      ∧ ∀ x y, x < (periodicSize W H boundary).1 → y < (periodicSize W H boundary).2 →
          quadruple_image src W H work boundary x y = src (x % W) (y % H) := by
  refine ⟨?_, ?_, ?_, ?_⟩
  · cases boundary <;> rfl
  · cases boundary <;> simp [periodicSize]
  · cases boundary <;> simp [periodicSize]
  · intro x y hx hy
    cases boundary
    · simp only [periodicSize] at hx hy
      rw [Nat.mod_eq_of_lt hx, Nat.mod_eq_of_lt hy]
      simp [quadruple_image, copyImage, hx, hy]
    · simp only [periodicSize] at hx hy
      rw [quadruple_image_horizontal_apply src work W H x y hx hy, mod_of_lt_double W x hx,
        Nat.mod_eq_of_lt hy]
    · simp only [periodicSize] at hx hy
      rw [mod_of_lt_double H y hy, Nat.mod_eq_of_lt hx]
      simp only [quadruple_image, copyImage]
      split_ifs <;> first | rfl | (exfalso; omega) | (congr 1 <;> omega)
    · simp only [periodicSize] at hx hy
      rw [quadruple_image_double_apply src work W H x y hx hy, mod_of_lt_double W x hx,
        mod_of_lt_double H y hy]

/-- Witness of `quadruple_image_tiles`: pixel `(4, 1)` of the `6 × 2` working
raster of a `3 × 2` source under `HorizontalStrip`. -/
theorem quadruple_image_tiles_witness :
    (4 < (periodicSize 3 2 HorizontalStrip).1 ∧ 1 < (periodicSize 3 2 HorizontalStrip).2)
    ∧ quadruple_image (singleZeroRaster 2 1) 3 2 newImage HorizontalStrip 4 1
        = singleZeroRaster 2 1 (4 % 3) (1 % 2) :=
  ⟨⟨by decide, by decide⟩,
    (quadruple_image_tiles distanceTransformModel (singleZeroRaster 2 1) 3 2 newImage newImage
      0 2 HorizontalStrip).2.2.2 4 1 (by decide) (by decide)⟩

theorem quater_image_eq_copyBlocks {α : Type} (src dest : Raster α) (w h : ℕ)
    (boundary : boundary_t) :
    quater_image src w h dest boundary = copyBlocks src (quater_blocks w h boundary) dest := by
  cases boundary <;> rfl

/-- C15: `quater_image` applied to the `(fx * W) × (fy * H)` distance raster
writes each pixel of the `W × H` destination by exactly one of its copy calls
and no pixel outside it, and the value written at `(x, y)` is the distance at
`(x + W, ·)` when the mode wraps horizontally and `x < W / 2`, at `(x, ·)`
otherwise, and likewise for `y` and `H`. -/
theorem quater_image_extracts {α : Type} (D dest : Raster α) (W H : ℕ)
    (boundary : boundary_t) :
    quater_image D (periodicSize W H boundary).1 (periodicSize W H boundary).2 dest boundary
        = copyBlocks D
            (quater_blocks (periodicSize W H boundary).1 (periodicSize W H boundary).2 boundary)
            dest
      ∧ (∀ x y, x < W → y < H →
          (quater_blocks (periodicSize W H boundary).1 (periodicSize W H boundary).2
              boundary).countP (fun b => b.writes x y) = 1
          ∧ quater_image D (periodicSize W H boundary).1 (periodicSize W H boundary).2 dest
                boundary x y
              = D (x + if wrapsX boundary = true ∧ x < W / 2 then W else 0)
                  (y + if wrapsY boundary = true ∧ y < H / 2 then H else 0))
      ∧ ∀ x y, ¬ (x < W ∧ y < H) →
          (quater_blocks (periodicSize W H boundary).1 (periodicSize W H boundary).2
              boundary).countP (fun b => b.writes x y) = 0
          ∧ quater_image D (periodicSize W H boundary).1 (periodicSize W H boundary).2 dest
                boundary x y
              = dest x y := by
  have hW : 2 * W / 2 = W := by omega
  have hH : 2 * H / 2 = H := by omega
  refine ⟨quater_image_eq_copyBlocks _ _ _ _ _, ?_, ?_⟩
  · intro x y hx hy
    cases boundary
    · constructor
      · simp [quater_blocks, periodicSize, CopyBlock.writes, List.countP_cons, hx, hy]
      · simp [quater_image, periodicSize, copyImage, wrapsX, wrapsY, hx, hy]
    · constructor
      · simp only [quater_blocks, periodicSize, CopyBlock.writes, List.countP_cons,
          List.countP_nil, hW, decide_eq_true_eq]
        split_ifs <;> omega
      · simp only [quater_image, periodicSize, copyImage, wrapsX, wrapsY, hW]
        simp only [decide_eq_true_eq, true_or, or_true, true_and, reduceCtorEq, or_self,
          false_and, if_false, Nat.add_zero]
        split_ifs <;> first | rfl | (exfalso; omega) | (congr 1 <;> omega)
    · constructor
      · simp only [quater_blocks, periodicSize, CopyBlock.writes, List.countP_cons,
          List.countP_nil, hH, decide_eq_true_eq]
        split_ifs <;> omega
      · simp only [quater_image, periodicSize, copyImage, wrapsX, wrapsY, hH]
        simp only [decide_eq_true_eq, true_or, or_true, true_and, reduceCtorEq, or_self,
          false_and, if_false, Nat.add_zero]
        split_ifs <;> first | rfl | (exfalso; omega) | (congr 1 <;> omega)
    · constructor
      · simp only [quater_blocks, periodicSize, CopyBlock.writes, List.countP_cons,
          List.countP_nil, hW, hH, decide_eq_true_eq]
        split_ifs <;> omega
      · simp only [quater_image, periodicSize, copyImage, wrapsX, wrapsY, hW, hH]
        simp only [decide_eq_true_eq, true_or, or_true, true_and, reduceCtorEq, or_self,
          false_and, if_false, Nat.add_zero]
        split_ifs <;> first | rfl | (exfalso; omega) | (congr 1 <;> omega)
  · intro x y hout
    cases boundary
    · constructor
      · simp only [quater_blocks, periodicSize, CopyBlock.writes, List.countP_cons,
          List.countP_nil, decide_eq_true_eq]
        split_ifs <;> omega
      · simp only [quater_image, periodicSize, copyImage]
        split_ifs <;> first | rfl | (exfalso; omega)
    · constructor
      · simp only [quater_blocks, periodicSize, CopyBlock.writes, List.countP_cons,
          List.countP_nil, hW, decide_eq_true_eq]
        split_ifs <;> omega
      · simp only [quater_image, periodicSize, copyImage, hW]
        split_ifs <;> first | rfl | (exfalso; omega)
    · constructor
      · simp only [quater_blocks, periodicSize, CopyBlock.writes, List.countP_cons,
          List.countP_nil, hH, decide_eq_true_eq]
        split_ifs <;> omega
      · simp only [quater_image, periodicSize, copyImage, hH]
        split_ifs <;> first | rfl | (exfalso; omega)
    · constructor
      · simp only [quater_blocks, periodicSize, CopyBlock.writes, List.countP_cons,
          List.countP_nil, hW, hH, decide_eq_true_eq]
        split_ifs <;> omega
      · simp only [quater_image, periodicSize, copyImage, hW, hH]
        split_ifs <;> first | rfl | (exfalso; omega)

/-- Witness of `quater_image_extracts`: a `3 × 3` destination under
`DoubleStrip`, at the inner pixel `(0, 2)` and at the outer pixel `(3, 0)`. -/
theorem quater_image_extracts_witness :
    (0 < 3 ∧ 2 < 3 ∧ ¬ (3 < 3 ∧ 0 < 3))
    ∧ ((quater_blocks (periodicSize 3 3 DoubleStrip).1 (periodicSize 3 3 DoubleStrip).2
            DoubleStrip).countP (fun b => b.writes 0 2) = 1
        ∧ quater_image (singleZeroRaster 3 2) (periodicSize 3 3 DoubleStrip).1
              (periodicSize 3 3 DoubleStrip).2 newImage DoubleStrip 0 2
            = singleZeroRaster 3 2 (0 + if wrapsX DoubleStrip = true ∧ 0 < 3 / 2 then 3 else 0)
                (2 + if wrapsY DoubleStrip = true ∧ 2 < 3 / 2 then 3 else 0))
    ∧ ((quater_blocks (periodicSize 3 3 DoubleStrip).1 (periodicSize 3 3 DoubleStrip).2
            DoubleStrip).countP (fun b => b.writes 3 0) = 0
        ∧ quater_image (singleZeroRaster 3 2) (periodicSize 3 3 DoubleStrip).1
              (periodicSize 3 3 DoubleStrip).2 newImage DoubleStrip 3 0
            = (newImage : Raster ℕ) 3 0) :=
  ⟨⟨by decide, by decide, by decide⟩,
    (quater_image_extracts (singleZeroRaster 3 2) newImage 3 3 DoubleStrip).2.1 0 2
      (by decide) (by decide),
    (quater_image_extracts (singleZeroRaster 3 2) newImage 3 3 DoubleStrip).2.2 3 0
      (by decide)⟩

/-! ## Numeric policy, dispatch and the empty line -/

/-- C17: with unit pixel pitch `separableMultiDistSquared` allocates the
promoted temporary array exactly when the sum of the squared extents
`w^2 + h^2` exceeds the maximum of the destination type; it then runs the two
passes in that array and copies the result, converted, to the destination.
Otherwise it allocates no temporary array and runs the passes in the
destination array. -/
theorem separableMultiDistSquared_policy (src : Raster ℕ) (w h : ℕ) (dest : Raster ℚ)
    (background : Bool) (destMax : ℚ) (toDest : ℚ → ℚ) :
    ((separableMultiDistSquaredRun src w h dest background unitPitch destMax
          toDest).tmpArray.isSome = true
        ↔ (w : ℚ) ^ 2 + (h : ℚ) ^ 2 > destMax)
      ∧ ((w : ℚ) ^ 2 + (h : ℚ) ^ 2 > destMax →
          (separableMultiDistSquaredRun src w h dest background unitPitch destMax
              toDest).tmpArray
            = some (distPass1 (distPass0
                (thresholdArray src w h newImage background ((w : ℚ) ^ 2 + (h : ℚ) ^ 2)) w h
                (thresholdArray src w h newImage background ((w : ℚ) ^ 2 + (h : ℚ) ^ 2))
                unitPitch) w h unitPitch)
          ∧ separableMultiDistSquared src w h dest background unitPitch destMax toDest
            = copyMultiArray (distPass1 (distPass0
                (thresholdArray src w h newImage background ((w : ℚ) ^ 2 + (h : ℚ) ^ 2)) w h
                (thresholdArray src w h newImage background ((w : ℚ) ^ 2 + (h : ℚ) ^ 2))
                unitPitch) w h unitPitch) w h dest toDest)
      ∧ (¬ ((w : ℚ) ^ 2 + (h : ℚ) ^ 2 > destMax) →
          (separableMultiDistSquaredRun src w h dest background unitPitch destMax
              toDest).tmpArray = none
          ∧ separableMultiDistSquared src w h dest background unitPitch destMax toDest
            = distPass1 (distPass0
                (thresholdArray src w h dest background ((w : ℚ) ^ 2 + (h : ℚ) ^ 2)) w h
                (thresholdArray src w h dest background ((w : ℚ) ^ 2 + (h : ℚ) ^ 2))
                unitPitch) w h unitPitch) := by
  unfold separableMultiDistSquared
  rw [separableMultiDistSquaredRun_unit]
  by_cases hbig : (w : ℚ) ^ 2 + (h : ℚ) ^ 2 > destMax
  · rw [if_pos hbig]
    exact ⟨⟨fun _ => hbig, fun _ => rfl⟩, fun _ => ⟨rfl, rfl⟩, fun hn => absurd hbig hn⟩
  · rw [if_neg hbig]
    refine ⟨⟨fun hs => ?_, fun hb => absurd hb hbig⟩, fun hb => absurd hb hbig,
      fun _ => ⟨rfl, rfl⟩⟩
    simp at hs

/-- Witness of `separableMultiDistSquared_policy`: a `20 × 10` mask needs the
temporary array for an 8-bit destination and none for a 16-bit one. -/
theorem separableMultiDistSquared_policy_witness :
    (((20 : ℕ) : ℚ) ^ 2 + ((10 : ℕ) : ℚ) ^ 2 > 255
      ∧ ¬ (((20 : ℕ) : ℚ) ^ 2 + ((10 : ℕ) : ℚ) ^ 2 > 65535))
    ∧ (separableMultiDistSquaredRun fullMask 20 10 newImage false unitPitch 255
          (saturate 255)).tmpArray.isSome = true
    ∧ (separableMultiDistSquaredRun fullMask 20 10 newImage false unitPitch 65535
          (saturate 65535)).tmpArray = none :=
  ⟨⟨by norm_num, by norm_num⟩,
    (separableMultiDistSquared_policy fullMask 20 10 newImage false 255 (saturate 255)).1.2
      (by norm_num),
    ((separableMultiDistSquared_policy fullMask 20 10 newImage false 65535
      (saturate 65535)).2.2 (by norm_num)).1⟩

/-- C19: whenever the accelerator context is missing, the kernel object is
absent or the kernel is disabled, and in every build without OpenCL,
`vigra::ocl::distanceTransform` yields the raster of the reference transform on
the same arguments, whatever `UseGPU` says; the fallback warning is written
exactly when an OpenCL build has `UseGPU` set and the kernel enabled. -/
theorem ocl_distanceTransform_fallback {α β : Type} (opencl : Bool) (gpu : GpuState α β)
    (omp : DistanceTransform α β) (w h : ℕ) (src : Raster α) (background : α) (norm : ℤ) :
    (opencl = false ∨ gpu.GPUContext = false ∨ gpu.kernel = none
          ∨ gpu.enable_kernel = false) →
        (ocl_distanceTransform opencl gpu omp w h src background norm).1
            = omp w h src background norm
          ∧ (ocl_distanceTransform opencl gpu omp w h src background norm).2
            = if (opencl && gpu.UseGPU && gpu.enable_kernel) = true
              then [DispatchMessage.fallbackWarning] else [] := by
  intro habsent
  obtain ⟨ctx, kernel, useGpu, enable⟩ := gpu
  simp only at habsent
  unfold ocl_distanceTransform
  cases opencl
  · simp
  · cases ctx <;> cases enable <;> cases kernel <;> simp at habsent ⊢

/-- Witness of `ocl_distanceTransform_fallback`: an OpenCL build with the
accelerator requested but no context. -/
theorem ocl_distanceTransform_fallback_witness :
    ((true = false ∨ (⟨false, some distanceTransformModel, true, true⟩ : GpuState ℕ ℚ).GPUContext
          = false
        ∨ (⟨false, some distanceTransformModel, true, true⟩ : GpuState ℕ ℚ).kernel = none
        ∨ (⟨false, some distanceTransformModel, true, true⟩ : GpuState ℕ ℚ).enable_kernel
          = false))
    ∧ (ocl_distanceTransform true ⟨false, some distanceTransformModel, true, true⟩
          (separableEngine 255) 3 2 fullMask 0 2).1
        = separableEngine 255 3 2 fullMask 0 2
    ∧ (ocl_distanceTransform true ⟨false, some distanceTransformModel, true, true⟩
          (separableEngine 255) 3 2 fullMask 0 2).2
        = [DispatchMessage.fallbackWarning] :=
  ⟨Or.inr (Or.inl rfl),
    (ocl_distanceTransform_fallback true ⟨false, some distanceTransformModel, true, true⟩
      (separableEngine 255) 3 2 fullMask 0 2 (Or.inr (Or.inl rfl))).1,
    (ocl_distanceTransform_fallback true ⟨false, some distanceTransformModel, true, true⟩
      (separableEngine 255) 3 2 fullMask 0 2 (Or.inr (Or.inl rfl))).2⟩

/-- C20: for a line of length at most `0`, `distParabola` writes no value, and
the destination line is left as it was. -/
theorem distParabola_empty (line : List ℚ) (sigma : ℚ) (hlen : line.length ≤ 0)
    (dest : Raster ℚ) (i : ℕ) :
    distParabola line sigma = []
      ∧ writeLineX dest i (distParabola line sigma) = dest
      ∧ writeLineY dest i (distParabola line sigma) = dest := by
  have hnil : line = [] := List.length_eq_zero.mp (Nat.le_zero.mp hlen)
  subst hnil
  refine ⟨rfl, ?_, ?_⟩
  · funext x y
    simp [writeLineX, distParabola]
  · funext x y
    simp [writeLineY, distParabola]

/-- Witness of `distParabola_empty`: the empty line. -/
theorem distParabola_empty_witness :
    (([] : List ℚ).length ≤ 0)
    ∧ distParabola [] 1 = []
    ∧ writeLineX (newImage : Raster ℚ) 0 (distParabola [] 1) = (newImage : Raster ℚ)
    ∧ writeLineY (newImage : Raster ℚ) 0 (distParabola [] 1) = (newImage : Raster ℚ) :=
  ⟨by decide, distParabola_empty [] 1 (by decide) (newImage : Raster ℚ) 0⟩


/-! ## Every step of `distParabola` is defined -/

theorem distParabolaPushChecked_eq (sigma2 w v : ℚ) (m : ℕ) (hs : 0 < sigma2) :
    ∀ st : List DistParabolaStackEntry, st ≠ [] →
      (∀ e ∈ st, ∃ c : ℕ, c < m ∧ e.center = c) →
      distParabolaPushChecked sigma2 (2 * sigma2) w m v st
        = some (distParabolaPush sigma2 (2 * sigma2) w m v st) := by
  intro st
  induction st with
  | nil => intro h; exact absurd rfl h
  | cons s rest ih =>
      intro _ hcen
      obtain ⟨c, hc, hsc⟩ := hcen s (List.mem_cons_self _ _)
      have hdiff : (1 : ℚ) ≤ (m : ℚ) - s.center := by
        rw [hsc]
        have : (c : ℚ) + 1 ≤ m := by exact_mod_cast hc
        linarith
      have hdiv : 2 * sigma2 * ((m : ℚ) - s.center) ≠ 0 := by
        have : 0 < 2 * sigma2 * ((m : ℚ) - s.center) := by
          have : 0 < (m : ℚ) - s.center := by linarith
          positivity
        exact ne_of_gt this
      unfold distParabolaPushChecked distParabolaPush
      simp only
      rw [if_pos ⟨hdiff, hdiv⟩]
      split_ifs with h1 h2 h3
      · have : rest = [] := List.isEmpty_iff.mp h2
        subst this
        rfl
      · have hne : rest ≠ [] := fun h => h2 (List.isEmpty_iff.mpr h)
        exact ih hne (fun e he => hcen e (List.mem_cons_of_mem _ he))
      · rfl
      · rfl

theorem StackInv.ne_nil {sigma2 w : ℚ} {f : ℕ → ℚ} {m : ℕ}
    {st : List DistParabolaStackEntry} (h : StackInv sigma2 w f m st) : st ≠ [] := by
  obtain ⟨⟨top, htop, _⟩, _⟩ := h
  intro hnil
  rw [hnil] at htop
  simp at htop

theorem StackInv.centers {sigma2 w : ℚ} {f : ℕ → ℚ} {m : ℕ}
    {st : List DistParabolaStackEntry} (h : StackInv sigma2 w f m st) :
    ∀ e ∈ st, ∃ c : ℕ, c < m ∧ e.center = c := by
  intro e he
  obtain ⟨⟨c, hc, hcen, _⟩, _⟩ := h.2.2.2 e he
  exact ⟨c, hc, hcen⟩

theorem distParabolaSweepChecked_eq (sigma2 w : ℚ) (f : ℕ → ℚ) (hs : 0 < sigma2) :
    ∀ (vs : List ℚ) (m : ℕ) (st : List DistParabolaStackEntry),
      (∀ i, i < vs.length → vs.getD i 0 = f (m + i)) →
      StackInv sigma2 w f m st →
      distParabolaSweepChecked sigma2 (2 * sigma2) w (m : ℚ) vs st
        = some (distParabolaSweep sigma2 (2 * sigma2) w (m : ℚ) vs st) := by
  intro vs
  induction vs with
  | nil => intro m st _ _; rfl
  | cons v vs ih =>
      intro m st hvs hinv
      have hv : v = f m := by
        have := hvs 0 (by simp)
        simpa using this
      have hvs' : ∀ i, i < vs.length → vs.getD i 0 = f (m + 1 + i) := by
        intro i hi
        have := hvs (i + 1) (by simp; omega)
        rw [List.getD_cons_succ] at this
        rw [this]
        congr 1
        omega
      have hpush := distParabolaPush_inv sigma2 w f m hs st hinv.toPushPre
      have hcast : ((m : ℚ) + 1) = ((m + 1 : ℕ) : ℚ) := by push_cast; rfl
      rw [distParabolaSweepChecked, distParabolaSweep,
        distParabolaPushChecked_eq sigma2 w v m hs st hinv.ne_nil hinv.centers]
      simp only
      rw [hcast, hv]
      exact ih (m + 1) _ hvs' hpush

theorem distParabolaAdvanceChecked_eq (x : ℚ) :
    ∀ it : List DistParabolaStackEntry, distParabolaAdvance x it ≠ [] →
      distParabolaAdvanceChecked x it = some (distParabolaAdvance x it) := by
  intro it
  induction it with
  | nil => intro h; exact absurd rfl h
  | cons e rest ih =>
      intro hne
      unfold distParabolaAdvanceChecked
      unfold distParabolaAdvance at hne ⊢
      split_ifs with hge
      · rw [if_pos hge] at hne
        exact ih hne
      · rfl

theorem distParabolaEmitChecked_eq (sigma2 w : ℚ) :
    ∀ (k x : ℕ) (it : List DistParabolaStackEntry),
      ((x + k : ℕ) : ℚ) ≤ w → EmitPre w x it →
      distParabolaEmitChecked sigma2 k x it = some (distParabolaEmit sigma2 k x it) := by
  intro k
  induction k with
  | zero => intro x it _ _; rfl
  | succ k ih =>
      intro x it hxw hpre
      have hx : (x : ℚ) < w := by
        have : (x : ℚ) < ((x + (k + 1) : ℕ) : ℚ) := by
          exact_mod_cast (by omega : x < x + (k + 1))
        exact lt_of_lt_of_le this hxw
      obtain ⟨e, rest, hadv, _, _, _, hpre'⟩ := distParabolaAdvance_spec w x hx it hpre
      have hpre1 : EmitPre w ((x + 1 : ℕ) : ℚ) (e :: rest) := by
        obtain ⟨hch, hlast, hhead⟩ := hpre'
        refine ⟨hch, hlast, ?_⟩
        intro a ha
        have h1 := hhead a ha
        have h2 : (x : ℚ) ≤ ((x + 1 : ℕ) : ℚ) := by push_cast; linarith
        exact le_trans h1 h2
      have hxw' : ((x + 1 + k : ℕ) : ℚ) ≤ w := by
        have : x + 1 + k = x + (k + 1) := by omega
        rw [this]; exact hxw
      have hcast : ((x : ℚ) + 1) = ((x + 1 : ℕ) : ℚ) := by push_cast; rfl
      have hchk : distParabolaAdvanceChecked x it = some (e :: rest) := by
        rw [distParabolaAdvanceChecked_eq x it (by rw [hadv]; simp), hadv]
      rw [distParabolaEmitChecked, distParabolaEmit, hchk, hadv]
      simp only
      rw [hcast, ih (x + 1) (e :: rest) hxw' hpre1]

/-- C18: for a non-empty line and a non-zero spread every step of
`distParabola` is defined: the run with all checks in place (the stack is
non-empty whenever its top is read, `current - s.center ≥ 1` and the divisor is
non-zero at every division, the iterator of the emission pass stays inside the
stack) fails nowhere and writes the values of `distParabola`; the last entry of
the swept stack has the right bound `n`. -/
theorem distParabolaChecked_defined (line : List ℚ) (sigma : ℚ) (hne : line ≠ [])
    (hsig : sigma ≠ 0) :
    distParabolaChecked line sigma = some (distParabola line sigma)
      ∧ (distParabola line sigma).length = line.length
      ∧ ∃ stack top, distParabolaSweepChecked (sigma * sigma) (2 * (sigma * sigma))
            (line.length : ℚ) 1 line.tail [Influence (line.headD 0) 0 0 (line.length : ℚ)]
          = some stack
        ∧ stack.head? = some top ∧ top.right = (line.length : ℚ) := by
  cases line with
  | nil => exact absurd rfl hne
  | cons v0 vs =>
      have hs : 0 < sigma * sigma := mul_self_pos.mpr hsig
      set w : ℚ := (((v0 :: vs).length : ℕ) : ℚ) with hw
      set f : ℕ → ℚ := fun j => (v0 :: vs).getD j 0 with hf
      have hinit : StackInv (sigma * sigma) w f 1 [Influence v0 0 0 w] := by
        refine ⟨⟨_, rfl, rfl⟩, ?_, List.chain'_singleton _, ?_⟩
        · intro e he
          simp only [List.getLast?_singleton, Option.some.injEq] at he
          rw [← he]; rfl
        · intro e he
          simp only [List.mem_singleton] at he
          subst he
          refine ⟨⟨0, Nat.one_pos, by simp [Influence], by simp [Influence, hf]⟩, le_refl _, ?_⟩
          intro x _ _ j hj
          have hj0 : j = 0 := by omega
          subst hj0
          simp [entryValue, Influence, hf]
      have hvs : ∀ i, i < vs.length → vs.getD i 0 = f (1 + i) := by
        intro i _
        simp only [hf]
        rw [Nat.add_comm 1 i, List.getD_cons_succ]
      have hsweep := distParabolaSweep_inv (sigma * sigma) w f hs vs 1 _ hvs hinit
      have hchk := distParabolaSweepChecked_eq (sigma * sigma) w f hs vs 1 _ hvs hinit
      have hlen1 : 1 + vs.length = (v0 :: vs).length := by simp; omega
      rw [hlen1] at hsweep
      have hone : ((1 : ℕ) : ℚ) = 1 := Nat.cast_one
      rw [hone] at hsweep hchk
      obtain ⟨⟨top, htop, hright⟩, hbot, hch, hent⟩ := hsweep
      have hpre : EmitPre w ((0 : ℕ) : ℚ)
          (distParabolaSweep (sigma * sigma) (2 * (sigma * sigma)) w 1 vs
            [Influence v0 0 0 w]).reverse := by
        refine ⟨List.chain'_reverse.mpr hch, ⟨top, ?_, hright⟩, ?_⟩
        · rw [List.getLast?_reverse]; exact htop
        · intro e he
          rw [List.head?_reverse] at he
          rw [hbot e he]
          simp
      have hk : ((0 + (v0 :: vs).length : ℕ) : ℚ) ≤ w := by simp [hw]
      have hemit := distParabolaEmitChecked_eq (sigma * sigma) w (v0 :: vs).length 0 _ hk hpre
      have hzero : ((0 : ℕ) : ℚ) = 0 := Nat.cast_zero
      rw [hzero] at hemit
      refine ⟨?_, distParabola_length _ _ hsig, _, top, hchk, htop, hright⟩
      show (match distParabolaSweepChecked (sigma * sigma) (2 * (sigma * sigma)) w 1 vs
            [Influence v0 0 0 w] with
          | none => none
          | some stack => distParabolaEmitChecked (sigma * sigma) (v0 :: vs).length 0
              stack.reverse) = _
      rw [hchk]
      simp only
      rw [hemit]
      rfl

/-- Witness of `distParabolaChecked_defined`: the line `9, 0, 9` with unit
spread. -/
theorem distParabolaChecked_defined_witness :
    (([9, 0, 9] : List ℚ) ≠ [] ∧ (1 : ℚ) ≠ 0)
    ∧ distParabolaChecked [9, 0, 9] 1 = some (distParabola [9, 0, 9] 1)
    ∧ (distParabola [9, 0, 9] 1).length = ([9, 0, 9] : List ℚ).length :=
  ⟨⟨by simp, one_ne_zero⟩,
    (distParabolaChecked_defined [9, 0, 9] 1 (by simp) one_ne_zero).1,
    (distParabolaChecked_defined [9, 0, 9] 1 (by simp) one_ne_zero).2.1⟩

/-- Counterexample to the claim without the condition on the spread: for the
line `1, 2` and spread `0` the first division of the sweep has the divisor
`2 * 0^2 * (1 - 0) = 0`, and the checked run stops there. -/
theorem distParabolaChecked_defined_counterexample :
    ([1, 2] : List ℚ) ≠ [] ∧ (2 : ℚ) * (0 * 0) * (1 - 0) = 0
      ∧ distParabolaChecked [1, 2] 0 = none := by
  refine ⟨by simp, by norm_num, ?_⟩
  simp [distParabolaChecked, distParabolaSweepChecked, distParabolaPushChecked, Influence]


/-! ## Difference supports, small rectangles and exclusive pixels -/

theorem scanOrder_succ {α : Type} (img : Raster α) (w h : ℕ) :
    scanOrder img w (h + 1) = scanOrder img w h ++ (List.range w).map fun x => img x h := by
  simp [scanOrder, List.range_succ, List.flatMap_append]

theorem scanOrder_length {α : Type} (img : Raster α) (w h : ℕ) :
    (scanOrder img w h).length = w * h := by
  induction h with
  | zero => simp [scanOrder]
  | succ h ih => rw [scanOrder_succ, List.length_append, ih]; simp; ring

theorem nonZeroCount_le_length {α : Type} [Zero α] [DecidableEq α] (xs : List α) :
    nonZeroCount xs ≤ xs.length := List.countP_le_length _

theorem saturating_subtract_ne_zero_iff (bits a b : ℕ) (ha : a < 2 ^ bits) :
    saturating_subtract bits a b ≠ 0 ↔ b < a := by
  unfold saturating_subtract
  constructor
  · intro h
    by_contra hlt
    rw [if_neg hlt] at h
    exact h rfl
  · intro hlt
    rw [if_pos hlt]
    have h1 : a + 2 ^ bits - b = (a - b) + 2 ^ bits := by omega
    have h2 : a - b < 2 ^ bits := by omega
    rw [h1, Nat.add_mod_right, Nat.mod_eq_of_lt h2]
    omega

theorem diffImage_apply (bits : ℕ) (m1 m2 : Raster ℕ) (w h x y : ℕ) (hx : x < w) (hy : y < h) :
    diffImage bits m1 m2 w h x y = saturating_subtract bits (m1 x y) (m2 x y) := by
  simp [diffImage, combineTwoImages, hx, hy]

theorem countP_add_countP_le {α : Type} (p q : α → Bool) (l : List α)
    (hpq : ∀ a ∈ l, ¬ (p a = true ∧ q a = true)) :
    l.countP p + l.countP q ≤ l.length := by
  induction l with
  | nil => simp
  | cons a l ih =>
      have ih' := ih (fun b hb => hpq b (List.mem_cons_of_mem _ hb))
      have ha := hpq a (List.mem_cons_self _ _)
      simp only [List.countP_cons, List.length_cons]
      by_cases h1 : p a = true <;> by_cases h2 : q a = true <;> simp [h1, h2] <;>
        first | omega | exact absurd ⟨h1, h2⟩ ha

theorem nonZeroCount_row_add (f g : ℕ → ℕ) (w : ℕ) (hfg : ∀ x, x < w → ¬ (f x ≠ 0 ∧ g x ≠ 0)) :
    nonZeroCount ((List.range w).map f) + nonZeroCount ((List.range w).map g) ≤ w := by
  unfold nonZeroCount
  rw [List.countP_map, List.countP_map]
  have := countP_add_countP_le ((fun a => decide (a ≠ 0)) ∘ f) ((fun a => decide (a ≠ 0)) ∘ g)
    (List.range w) (by
      intro x hx
      simp only [Function.comp, decide_eq_true_eq]
      exact hfg x (List.mem_range.mp hx))
  simpa using this

/-- C29: for masks with values of the pixel type, at most one of the two
difference images is non-zero at a pixel, both are zero exactly where the masks
agree, and the numbers of non-zero pixels of the two difference images sum to at
most `w * h`. -/
theorem diffImage_disjoint (bits : ℕ) (m1 m2 : Raster ℕ) (w h : ℕ)
    (hm1 : ∀ x y, x < w → y < h → m1 x y < 2 ^ bits)
    (hm2 : ∀ x y, x < w → y < h → m2 x y < 2 ^ bits) :
    (∀ x y, x < w → y < h →
        ¬ (diffImage bits m1 m2 w h x y ≠ 0 ∧ diffImage bits m2 m1 w h x y ≠ 0)
        ∧ ((diffImage bits m1 m2 w h x y = 0 ∧ diffImage bits m2 m1 w h x y = 0)
            ↔ m1 x y = m2 x y))
      ∧ nonZeroCount (scanOrder (diffImage bits m1 m2 w h) w h)
          + nonZeroCount (scanOrder (diffImage bits m2 m1 w h) w h) ≤ w * h := by
  have hpix : ∀ x y, x < w → y < h →
      ¬ (diffImage bits m1 m2 w h x y ≠ 0 ∧ diffImage bits m2 m1 w h x y ≠ 0) := by
    intro x y hx hy
    rw [diffImage_apply bits m1 m2 w h x y hx hy, diffImage_apply bits m2 m1 w h x y hx hy,
      saturating_subtract_ne_zero_iff bits _ _ (hm1 x y hx hy),
      saturating_subtract_ne_zero_iff bits _ _ (hm2 x y hx hy)]
    omega
  refine ⟨fun x y hx hy => ⟨hpix x y hx hy, ?_⟩, ?_⟩
  · have h12 := saturating_subtract_ne_zero_iff bits (m1 x y) (m2 x y) (hm1 x y hx hy)
    have h21 := saturating_subtract_ne_zero_iff bits (m2 x y) (m1 x y) (hm2 x y hx hy)
    rw [diffImage_apply bits m1 m2 w h x y hx hy, diffImage_apply bits m2 m1 w h x y hx hy]
    constructor
    · rintro ⟨h1, h2⟩
      have n1 : ¬ m2 x y < m1 x y := fun hlt => h12.mpr hlt h1
      have n2 : ¬ m1 x y < m2 x y := fun hlt => h21.mpr hlt h2
      omega
    · intro heq
      rw [heq]
      exact ⟨saturating_subtract_self bits _, saturating_subtract_self bits _⟩
  · have key : ∀ n, n ≤ h →
        nonZeroCount (scanOrder (diffImage bits m1 m2 w h) w n)
          + nonZeroCount (scanOrder (diffImage bits m2 m1 w h) w n) ≤ w * n := by
      intro n
      induction n with
      | zero => intro _; simp [scanOrder, nonZeroCount]
      | succ n ih =>
          intro hn
          have ih' := ih (by omega)
          rw [scanOrder_succ, scanOrder_succ, nonZeroCount_append, nonZeroCount_append]
          have hrow := nonZeroCount_row_add (fun x => diffImage bits m1 m2 w h x n)
            (fun x => diffImage bits m2 m1 w h x n) w
            (fun x hx => hpix x n hx (by omega))
          have : w * (n + 1) = w * n + w := by ring
          omega
    exact key h (le_refl h)

/-- Witness of `diffImage_disjoint`: 8-bit band masks on a `20 × 10` raster. -/
theorem diffImage_disjoint_witness :
    ((∀ x y, x < 20 → y < 10 → bandMask 0 14 255 x y < 2 ^ 8)
      ∧ (∀ x y, x < 20 → y < 10 → bandMask 5 19 255 x y < 2 ^ 8) ∧ 3 < 20 ∧ 0 < 10)
    ∧ ¬ (diffImage 8 (bandMask 0 14 255) (bandMask 5 19 255) 20 10 3 0 ≠ 0
          ∧ diffImage 8 (bandMask 5 19 255) (bandMask 0 14 255) 20 10 3 0 ≠ 0)
    ∧ nonZeroCount (scanOrder (diffImage 8 (bandMask 0 14 255) (bandMask 5 19 255) 20 10) 20 10)
        + nonZeroCount
            (scanOrder (diffImage 8 (bandMask 5 19 255) (bandMask 0 14 255) 20 10) 20 10)
        ≤ 20 * 10 :=
  have h1 : ∀ x y, x < 20 → y < 10 → bandMask 0 14 255 x y < 2 ^ 8 := by
    intro x y _ _
    unfold bandMask
    split_ifs <;> norm_num
  have h2 : ∀ x y, x < 20 → y < 10 → bandMask 5 19 255 x y < 2 ^ 8 := by
    intro x y _ _
    unfold bandMask
    split_ifs <;> norm_num
  ⟨⟨h1, h2, by decide, by decide⟩,
    ((diffImage_disjoint 8 (bandMask 0 14 255) (bandMask 5 19 255) 20 10 h1 h2).1 3 0
      (by decide) (by decide)).1,
    (diffImage_disjoint 8 (bandMask 0 14 255) (bandMask 5 19 255) 20 10 h1 h2).2⟩

theorem quick_tally_le_area {α : Type} [Zero α] [DecidableEq α] (img : Raster α) (w h t : ℕ) :
    quick_tally (scanOrder img w h) t ≤ w * h := by
  rw [quick_tally_eq_min]
  have := nonZeroCount_le_length (scanOrder img w h)
  rw [scanOrder_length] at this
  omega

/-- C28 (as amended): when `w * h` is below the threshold `2 * f * (w + h)`
reduced modulo `2 ^ 32`, the run aborts for every pair of masks of that shape;
this is the case whenever `w * h < 2 * f * (w + h) < 2 ^ 32`, and with the
default `f = 2` for every rectangle with positive sides, one of them at most
`4`, and `4 * (w + h) < 2 ^ 32`. -/
theorem nearestFeatureTransform_small {β γ : Type} [Zero β] [LT β]
    [DecidableRel (α := β) (· < ·)]
    (dt : DistanceTransform ℕ β) (bits factor : ℕ) (maxV zeroV : γ)
    (m1 m2 : Raster ℕ) (w h : ℕ) (dest : Raster γ) (norm : ℤ) (boundary : boundary_t) :
    (w * h < (2 * factor * (w + h)) % 2 ^ 32 →
        nearestFeatureTransform dt bits factor maxV zeroV m1 w h m2 dest norm boundary = none)
      ∧ (w * h < 2 * factor * (w + h) → 2 * factor * (w + h) < 2 ^ 32 →
        nearestFeatureTransform dt bits factor maxV zeroV m1 w h m2 dest norm boundary = none)
      ∧ (1 ≤ w → 1 ≤ h → (w ≤ 4 ∨ h ≤ 4) → 4 * (w + h) < 2 ^ 32 →
        nearestFeatureTransform dt bits 2 maxV zeroV m1 w h m2 dest norm boundary = none) := by
  have main : ∀ f : ℕ, w * h < (2 * f * (w + h)) % 2 ^ 32 →
      nearestFeatureTransform dt bits f maxV zeroV m1 w h m2 dest norm boundary = none := by
    intro f hlt
    have hT : overlap_threshold f w h = (2 * f * (w + h)) % 2 ^ 32 := by
      unfold overlap_threshold
      congr 1
      ring
    rw [nearestFeatureTransform_eq_none_iff, hT]
    have h12 := quick_tally_le_area (diffImage bits m1 m2 w h) w h ((2 * f * (w + h)) % 2 ^ 32)
    have h21 := quick_tally_le_area (diffImage bits m2 m1 w h) w h ((2 * f * (w + h)) % 2 ^ 32)
    omega
  refine ⟨main factor, ?_, ?_⟩
  · intro hlt hsmall
    apply main
    rw [Nat.mod_eq_of_lt hsmall]
    exact hlt
  · intro hw hh hside hsmall
    apply main
    have e : 2 * 2 * (w + h) = 4 * (w + h) := by ring
    rw [e, Nat.mod_eq_of_lt hsmall]
    rcases hside with h4 | h4
    · have : w * h ≤ 4 * h := Nat.mul_le_mul_right h h4
      omega
    · have : w * h ≤ w * 4 := Nat.mul_le_mul_left w h4
      omega

/-- Witness of `nearestFeatureTransform_small`: a `4 × 100` pair of masks with
the default factor. -/
theorem nearestFeatureTransform_small_witness :
    (1 ≤ 4 ∧ 1 ≤ 100 ∧ (4 ≤ 4 ∨ 100 ≤ 4) ∧ 4 * (4 + 100) < 2 ^ 32)
    ∧ nearestFeatureTransform distanceTransformModel 8 2 (255 : ℕ) 0 fullMask 4 100 columnMask
        newImage 2 OpenBoundaries = none :=
  ⟨⟨by decide, by decide, Or.inl (by decide), by decide⟩,
    (nearestFeatureTransform_small distanceTransformModel 8 2 (255 : ℕ) 0 fullMask columnMask
      4 100 newImage 2 OpenBoundaries).2.2 (by decide) (by decide) (Or.inl (by decide))
      (by decide)⟩

/-- C28, the claim as stated fails: with factor `2 ^ 31` on a `1 × 1` raster
`w * h < 2 * f * (w + h)` holds, but the unsigned threshold wraps to `0` and
the run returns a mask. -/
theorem nearestFeatureTransform_small_counterexample :
    1 * 1 < 2 * 2 ^ 31 * (1 + 1)
    ∧ ¬ (nearestFeatureTransform distanceTransformModel 8 (2 ^ 31) (255 : ℕ) 0 fullMask 1 1
          columnMask newImage 2 OpenBoundaries = none) := by
  refine ⟨by norm_num, ?_⟩
  rw [nearestFeatureTransform_eq_none_iff]
  have hT : overlap_threshold (2 ^ 31) 1 1 = 0 := by
    unfold overlap_threshold; norm_num
  rw [hT]
  exact Nat.not_lt_zero _

/-- C27: when each directional distance field is `0` at the non-zero pixels of
its difference image and positive at the other pixels, every returned seam
mask is the maximum value at every pixel with `mask1 > mask2` and the zero
value at every pixel with `mask2 > mask1`, in every boundary mode. -/
theorem nearestFeatureTransform_exclusive {β γ : Type} [Zero β] [Preorder β]
    [DecidableRel (α := β) (· < ·)]
    (dt : DistanceTransform ℕ β) (bits factor : ℕ) (maxV zeroV : γ)
    (m1 m2 : Raster ℕ) (w h : ℕ) (dest : Raster γ) (norm : ℤ) (boundary : boundary_t)
    (hm1 : ∀ x y, x < w → y < h → m1 x y < 2 ^ bits)
    (hm2 : ∀ x y, x < w → y < h → m2 x y < 2 ^ bits)
    (h12 : ∀ x y, x < w → y < h →
      (diffImage bits m1 m2 w h x y ≠ 0 →
          (nftState dt bits factor m1 w h m2 norm boundary).dist12 x y = 0)
        ∧ (diffImage bits m1 m2 w h x y = 0 →
          0 < (nftState dt bits factor m1 w h m2 norm boundary).dist12 x y))
    (h21 : ∀ x y, x < w → y < h →
      (diffImage bits m2 m1 w h x y ≠ 0 →
          (nftState dt bits factor m1 w h m2 norm boundary).dist21 x y = 0)
        ∧ (diffImage bits m2 m1 w h x y = 0 →
          0 < (nftState dt bits factor m1 w h m2 norm boundary).dist21 x y))
    (r : Raster γ)
    (hr : nearestFeatureTransform dt bits factor maxV zeroV m1 w h m2 dest norm boundary
      = some r)
    (x y : ℕ) (hx : x < w) (hy : y < h) :
    (m2 x y < m1 x y → r x y = maxV) ∧ (m1 x y < m2 x y → r x y = zeroV) := by
  have hre := nearestFeatureTransform_eq_some dt bits factor maxV zeroV m1 w h m2 dest norm
    boundary r hr
  have hrv : r x y
      = if (nftState dt bits factor m1 w h m2 norm boundary).dist12 x y
          < (nftState dt bits factor m1 w h m2 norm boundary).dist21 x y
        then maxV else zeroV := by
    rw [hre]
    simp [seamMask, combineTwoImages, seamChoice, hx, hy]
  have d12 := diffImage_apply bits m1 m2 w h x y hx hy
  have d21 := diffImage_apply bits m2 m1 w h x y hx hy
  have n12 := saturating_subtract_ne_zero_iff bits (m1 x y) (m2 x y) (hm1 x y hx hy)
  have n21 := saturating_subtract_ne_zero_iff bits (m2 x y) (m1 x y) (hm2 x y hx hy)
  constructor
  · intro hgt
    have e12 : diffImage bits m1 m2 w h x y ≠ 0 := by rw [d12]; exact n12.mpr hgt
    have e21 : diffImage bits m2 m1 w h x y = 0 := by
      rw [d21]
      by_contra hne
      have := n21.mp hne
      omega
    rw [hrv, (h12 x y hx hy).1 e12, if_pos ((h21 x y hx hy).2 e21)]
  · intro hlt
    have e21 : diffImage bits m2 m1 w h x y ≠ 0 := by rw [d21]; exact n21.mpr hlt
    have e12 : diffImage bits m1 m2 w h x y = 0 := by
      rw [d12]
      by_contra hne
      have := n12.mp hne
      omega
    rw [hrv, (h21 x y hx hy).1 e21, if_neg]
    exact not_lt_of_gt ((h12 x y hx hy).2 e12)

theorem open_dist_exclusive (dt : DistanceTransform ℕ ℚ) (norm : ℤ)
    (hdt : SqEuclideanEngine dt (fun v => v ≠ 0) 0 norm) (diff : Raster ℕ) (w h : ℕ)
    (hsrc : ∃ j k, j < w ∧ k < h ∧ diff j k ≠ 0) (x y : ℕ) (hx : x < w) (hy : y < h) :
    (diff x y ≠ 0 → distField dt diff w h norm OpenBoundaries x y = 0)
      ∧ (diff x y = 0 → 0 < distField dt diff w h norm OpenBoundaries x y) :=
  ⟨fun hne => sqEuclidean_zero_at_source dt _ 0 norm hdt w h diff x y hx hy hne,
    fun he => sqEuclidean_pos_off_source dt _ 0 norm hdt w h diff x y hx hy hsrc
      (fun hne => hne he)⟩

/-- Witness of `nearestFeatureTransform_exclusive`: the bands `0..3` and `4..4`
on a `5 × 5` raster with the separable engine; the run returns a mask that is
`255` at `(0, 0)` and `0` at `(4, 0)`. -/
theorem nearestFeatureTransform_exclusive_witness :
    ∃ r : Raster ℕ,
      nearestFeatureTransform (separableEngine 255) 8 1 (255 : ℕ) 0 (bandMask 0 3 1) 5 5
          (bandMask 4 4 1) newImage 2 OpenBoundaries = some r
        ∧ bandMask 4 4 1 0 0 < bandMask 0 3 1 0 0 ∧ r 0 0 = 255
        ∧ bandMask 0 3 1 4 0 < bandMask 4 4 1 4 0 ∧ r 4 0 = 0 :=
  have hm1 : ∀ x y, x < 5 → y < 5 → bandMask 0 3 1 x y < 2 ^ 8 := by
    intro x y _ _
    unfold bandMask
    split_ifs <;> norm_num
  have hm2 : ∀ x y, x < 5 → y < 5 → bandMask 4 4 1 x y < 2 ^ 8 := by
    intro x y _ _
    unfold bandMask
    split_ifs <;> norm_num
  have hr := nearestFeatureTransform_of_not_lt (separableEngine 255) 8 1 (255 : ℕ) 0
    (bandMask 0 3 1) 5 5 (bandMask 4 4 1) newImage 2 OpenBoundaries (by decide)
  have h12 := open_dist_exclusive (separableEngine 255) 2 (separableEngine_sqEuclidean 255 0 2)
    (diffImage 8 (bandMask 0 3 1) (bandMask 4 4 1) 5 5) 5 5
    ⟨0, 0, by decide, by decide, by decide⟩
  have h21 := open_dist_exclusive (separableEngine 255) 2 (separableEngine_sqEuclidean 255 0 2)
    (diffImage 8 (bandMask 4 4 1) (bandMask 0 3 1) 5 5) 5 5
    ⟨4, 0, by decide, by decide, by decide⟩
  ⟨_, hr, by decide,
    (nearestFeatureTransform_exclusive (separableEngine 255) 8 1 (255 : ℕ) 0 (bandMask 0 3 1)
      (bandMask 4 4 1) 5 5 newImage 2 OpenBoundaries hm1 hm2 h12 h21 _ hr 0 0 (by decide)
      (by decide)).1 (by decide),
    by decide,
    (nearestFeatureTransform_exclusive (separableEngine 255) 8 1 (255 : ℕ) 0 (bandMask 0 3 1)
      (bandMask 4 4 1) 5 5 newImage 2 OpenBoundaries hm1 hm2 h12 h21 _ hr 4 0 (by decide)
      (by decide)).2 (by decide)⟩

/-! ## Greatest common divisor -/

theorem hugin_utils._gcd_eq_gcd (b : ℕ) : ∀ a : ℕ,
    hugin_utils._gcd (a : ℤ) (b : ℤ) = ((Nat.gcd a b : ℕ) : ℤ) := by
  induction b using Nat.strong_induction_on with
  | _ b ih =>
      intro a
      rw [hugin_utils._gcd]
      by_cases hb : b = 0
      · subst hb
        simp
      · have hb' : (b : ℤ) ≠ 0 := by exact_mod_cast hb
        rw [if_neg hb', ← Int.ofNat_tmod, ih (a % b) (Nat.mod_lt _ (Nat.pos_of_ne_zero hb)) b]
        rw [Nat.gcd_comm a b, Nat.gcd_rec b a, Nat.gcd_comm]

theorem hugin_utils.gcd_eq (a b : ℤ) : hugin_utils.gcd a b = ((Int.gcd a b : ℕ) : ℤ) := by
  unfold hugin_utils.gcd
  rw [Int.abs_eq_natAbs a, Int.abs_eq_natAbs b, hugin_utils._gcd_eq_gcd]
  rfl

/-- C26: `hugin_utils::gcd` is total on the integers and returns the greatest
common divisor of `|a|` and `|b|`: the result is non-negative, divides `a` and
`b`, is divided by every common divisor of `a` and `b`, is at most
`max |a| |b|`, and `gcd a 0 = |a|`, so that `gcd 0 0 = 0`. -/
theorem hugin_utils.gcd_spec (a b : ℤ) :
    hugin_utils.gcd a b = ((Nat.gcd a.natAbs b.natAbs : ℕ) : ℤ)
      ∧ 0 ≤ hugin_utils.gcd a b
      ∧ hugin_utils.gcd a b ∣ a ∧ hugin_utils.gcd a b ∣ b
      ∧ (∀ d : ℤ, d ∣ a → d ∣ b → d ∣ hugin_utils.gcd a b)
      ∧ hugin_utils.gcd a b ≤ max |a| |b|
      ∧ hugin_utils.gcd a 0 = |a| ∧ hugin_utils.gcd 0 0 = 0 := by
  have h0 : hugin_utils.gcd a 0 = |a| := by
    rw [hugin_utils.gcd_eq, Int.gcd_zero_right, Int.abs_eq_natAbs]
  refine ⟨hugin_utils.gcd_eq a b, ?_, ?_, ?_, ?_, ?_, h0, ?_⟩
  · rw [hugin_utils.gcd_eq]
    exact Int.natCast_nonneg _
  · rw [hugin_utils.gcd_eq]
    exact Int.gcd_dvd_left
  · rw [hugin_utils.gcd_eq]
    exact Int.gcd_dvd_right
  · intro d ha hb
    rw [hugin_utils.gcd_eq]
    exact Int.dvd_gcd ha hb
  · rw [hugin_utils.gcd_eq, Int.abs_eq_natAbs a, Int.abs_eq_natAbs b]
    by_cases ha : a = 0
    · subst ha
      simp
    · have : Int.gcd a b ≤ a.natAbs :=
        Nat.le_of_dvd (Int.natAbs_pos.mpr ha) (Nat.gcd_dvd_left _ _)
      have h2 : ((Int.gcd a b : ℕ) : ℤ) ≤ (a.natAbs : ℤ) := by exact_mod_cast this
      exact le_trans h2 (le_max_left _ _)
  · rw [hugin_utils.gcd_eq]
    simp

/-! ## The temporary array of `separableMultiDistSquared` -/

/-- C21: the temporary array is allocated although the maximum of the
destination type is not less than `N * M * M` (`N = 2`, `M` the larger
extent): for a `10 × 10` array with pixel pitch `2` and an 8-bit destination
(`255 ≥ 200`), and for a `2 × 2` array with pixel pitch `1/2` and a 16-bit
destination (`65535 ≥ 8`). -/
theorem separableMultiDistSquared_temporary_divergence :
    ((separableMultiDistSquaredRun fullMask 10 10 newImage false (fun _ => 2) 255
          (saturate 255)).tmpArray.isSome = true
      ∧ ¬ ((255 : ℚ) < 2 * ((max 10 10 : ℕ) : ℚ) * ((max 10 10 : ℕ) : ℚ)))
    ∧ ((separableMultiDistSquaredRun fullMask 2 2 newImage false (fun _ => 1 / 2) 65535
          (saturate 65535)).tmpArray.isSome = true
      ∧ ¬ ((65535 : ℚ) < 2 * ((max 2 2 : ℕ) : ℚ) * ((max 2 2 : ℕ) : ℚ))) := by
  refine ⟨⟨?_, by norm_num⟩, ⟨?_, by norm_num⟩⟩
  · rw [separableMultiDistSquaredRun_isSome]
    left
    norm_num
  · rw [separableMultiDistSquaredRun_isSome]
    right
    left
    norm_num [truncToInt]

/-! ## Bounds on the intermediate values -/

theorem internalSeparableMultiArrayDistTmp_eq_passes (src dest : Raster ℚ) (w h : ℕ)
    (sigmas : ℕ → ℚ) :
    internalSeparableMultiArrayDistTmp src w h dest sigmas false
      = distPass1 (distPass0 src w h dest sigmas) w h sigmas := rfl

theorem thresholdArray_bounds (src : Raster ℕ) (w h : ℕ) (base : Raster ℚ) (background : Bool)
    (M : ℚ) (hM : 0 ≤ M) (x y : ℕ) (hx : x < w) (hy : y < h) :
    0 ≤ thresholdArray src w h base background M x y
      ∧ thresholdArray src w h base background M x y ≤ M := by
  have hv : ∀ f : ℕ → ℚ, transformMultiArray src w h base f x y = f (src x y) := by
    intro f
    simp [transformMultiArray, hx, hy]
  unfold thresholdArray
  cases background <;> simp only [Bool.false_eq_true, if_false, if_true] <;> rw [hv] <;>
    split_ifs <;> first | exact ⟨hM, le_refl _⟩ | exact ⟨le_refl _, hM⟩

theorem distParabola_bounds (line : List ℚ) (M : ℚ) (hne : line ≠ [])
    (hline : ∀ j, j < line.length → 0 ≤ line.getD j 0 ∧ line.getD j 0 ≤ M)
    (x : ℕ) (hx : x < line.length) :
    0 ≤ (distParabola line 1).getD x 0 ∧ (distParabola line 1).getD x 0 ≤ M := by
  obtain ⟨_, henv⟩ := distParabola_envelope line 1 hne one_ne_zero
  obtain ⟨⟨j, hj, hv⟩, hle⟩ := henv x hx
  constructor
  · rw [hv]
    have := (hline j hj).1
    have h2 : 0 ≤ ((x : ℚ) - j) ^ 2 := sq_nonneg _
    linarith
  · have := hle x hx
    have h2 := (hline x hx).2
    simp only [sub_self, ne_eq, OfNat.ofNat_ne_zero, not_false_eq_true, zero_pow, mul_zero,
      zero_add] at this
    linarith

theorem distPass0_bounds (t dest : Raster ℚ) (w h : ℕ) (M : ℚ)
    (ht : ∀ x y, x < w → y < h → 0 ≤ t x y ∧ t x y ≤ M)
    (x y : ℕ) (hx : x < w) (hy : y < h) :
    0 ≤ distPass0 t w h dest unitPitch x y ∧ distPass0 t w h dest unitPitch x y ≤ M := by
  have hv : distPass0 t w h dest unitPitch x y = (distParabola (lineX t w y) 1).getD x 0 := by
    simp only [distPass0, unitPitch]
    rw [pass0_apply t dest w 1 one_ne_zero h x y, if_pos ⟨hy, hx⟩]
  rw [hv]
  apply distParabola_bounds _ M (lineX_ne_nil t w y (by omega))
  · intro j hj
    rw [lineX_length] at hj
    have : (lineX t w y).getD j 0 = t j y := getD_map_range w (fun x => t x y) j hj
    rw [this]
    exact ht j y hj hy
  · rw [lineX_length]; exact hx

theorem distPass1_bounds (p0 : Raster ℚ) (w h : ℕ) (M : ℚ)
    (hp : ∀ x y, x < w → y < h → 0 ≤ p0 x y ∧ p0 x y ≤ M)
    (x y : ℕ) (hx : x < w) (hy : y < h) :
    0 ≤ distPass1 p0 w h unitPitch x y ∧ distPass1 p0 w h unitPitch x y ≤ M := by
  have hv : distPass1 p0 w h unitPitch x y = (distParabola (lineY p0 h x) 1).getD y 0 := by
    simp only [distPass1, unitPitch]
    rw [pass1_apply p0 h 1 one_ne_zero w x y, if_pos ⟨hx, hy⟩]
  rw [hv]
  apply distParabola_bounds _ M (lineY_ne_nil p0 h x (by omega))
  · intro k hk
    rw [lineY_length] at hk
    have : (lineY p0 h x).getD k 0 = p0 x k := getD_map_range h (fun y => p0 x y) k hk
    rw [this]
    exact hp x k hx hk
  · rw [lineY_length]; exact hy

/-- C30: with unit pixel pitch and `dmax = w^2 + h^2`, the thresholded array,
the array after the pass along dimension 0 and the array after the pass along
dimension 1 hold values in `[0, dmax]` at every pixel, in the temporary array
as well as in the destination; `separableMultiDistSquared` writes the last of
these arrays, converted to the destination type when it is the temporary
array, and when `dmax` is at most the maximum of the destination type the work
is done in the destination without a temporary array and every value written
there is at most that maximum. -/
theorem separableMultiDistSquared_bounded (src : Raster ℕ) (w h : ℕ) (dest base : Raster ℚ)
    (background : Bool) (destMax : ℚ) (toDest : ℚ → ℚ) (x y : ℕ) (hx : x < w) (hy : y < h) :
    (0 ≤ thresholdArray src w h base background ((w : ℚ) ^ 2 + (h : ℚ) ^ 2) x y
        ∧ thresholdArray src w h base background ((w : ℚ) ^ 2 + (h : ℚ) ^ 2) x y
          ≤ (w : ℚ) ^ 2 + (h : ℚ) ^ 2)
      ∧ (0 ≤ distPass0 (thresholdArray src w h base background ((w : ℚ) ^ 2 + (h : ℚ) ^ 2)) w h
            (thresholdArray src w h base background ((w : ℚ) ^ 2 + (h : ℚ) ^ 2)) unitPitch x y
        ∧ distPass0 (thresholdArray src w h base background ((w : ℚ) ^ 2 + (h : ℚ) ^ 2)) w h
            (thresholdArray src w h base background ((w : ℚ) ^ 2 + (h : ℚ) ^ 2)) unitPitch x y
          ≤ (w : ℚ) ^ 2 + (h : ℚ) ^ 2)
      ∧ (0 ≤ distPass1 (distPass0
              (thresholdArray src w h base background ((w : ℚ) ^ 2 + (h : ℚ) ^ 2)) w h
              (thresholdArray src w h base background ((w : ℚ) ^ 2 + (h : ℚ) ^ 2)) unitPitch)
            w h unitPitch x y
        ∧ distPass1 (distPass0
              (thresholdArray src w h base background ((w : ℚ) ^ 2 + (h : ℚ) ^ 2)) w h
              (thresholdArray src w h base background ((w : ℚ) ^ 2 + (h : ℚ) ^ 2)) unitPitch)
            w h unitPitch x y
          ≤ (w : ℚ) ^ 2 + (h : ℚ) ^ 2)
      ∧ separableMultiDistSquared src w h dest background unitPitch destMax toDest x y
          = (if (w : ℚ) ^ 2 + (h : ℚ) ^ 2 > destMax then
              toDest (distPass1 (distPass0
                (thresholdArray src w h newImage background ((w : ℚ) ^ 2 + (h : ℚ) ^ 2)) w h
                (thresholdArray src w h newImage background ((w : ℚ) ^ 2 + (h : ℚ) ^ 2))
                unitPitch) w h unitPitch x y)
            else
              distPass1 (distPass0
                (thresholdArray src w h dest background ((w : ℚ) ^ 2 + (h : ℚ) ^ 2)) w h
                (thresholdArray src w h dest background ((w : ℚ) ^ 2 + (h : ℚ) ^ 2))
                unitPitch) w h unitPitch x y)
      ∧ ((w : ℚ) ^ 2 + (h : ℚ) ^ 2 ≤ destMax →
          (separableMultiDistSquaredRun src w h dest background unitPitch destMax
              toDest).tmpArray = none
            ∧ 0 ≤ separableMultiDistSquared src w h dest background unitPitch destMax toDest x y
            ∧ separableMultiDistSquared src w h dest background unitPitch destMax toDest x y
              ≤ destMax) := by
  have hM : (0 : ℚ) ≤ (w : ℚ) ^ 2 + (h : ℚ) ^ 2 := by positivity
  have hT : ∀ b : Raster ℚ, ∀ x y, x < w → y < h →
      0 ≤ thresholdArray src w h b background ((w : ℚ) ^ 2 + (h : ℚ) ^ 2) x y
        ∧ thresholdArray src w h b background ((w : ℚ) ^ 2 + (h : ℚ) ^ 2) x y
          ≤ (w : ℚ) ^ 2 + (h : ℚ) ^ 2 :=
    fun b x y hx hy => thresholdArray_bounds src w h b background _ hM x y hx hy
  have hP0 : ∀ b : Raster ℚ, ∀ x y, x < w → y < h →
      0 ≤ distPass0 (thresholdArray src w h b background ((w : ℚ) ^ 2 + (h : ℚ) ^ 2)) w h
            (thresholdArray src w h b background ((w : ℚ) ^ 2 + (h : ℚ) ^ 2)) unitPitch x y
        ∧ distPass0 (thresholdArray src w h b background ((w : ℚ) ^ 2 + (h : ℚ) ^ 2)) w h
            (thresholdArray src w h b background ((w : ℚ) ^ 2 + (h : ℚ) ^ 2)) unitPitch x y
          ≤ (w : ℚ) ^ 2 + (h : ℚ) ^ 2 :=
    fun b x y hx hy => distPass0_bounds _ _ w h _ (hT b) x y hx hy
  have hP1 : ∀ b : Raster ℚ, ∀ x y, x < w → y < h →
      0 ≤ distPass1 (distPass0
              (thresholdArray src w h b background ((w : ℚ) ^ 2 + (h : ℚ) ^ 2)) w h
              (thresholdArray src w h b background ((w : ℚ) ^ 2 + (h : ℚ) ^ 2)) unitPitch)
            w h unitPitch x y
        ∧ distPass1 (distPass0
              (thresholdArray src w h b background ((w : ℚ) ^ 2 + (h : ℚ) ^ 2)) w h
              (thresholdArray src w h b background ((w : ℚ) ^ 2 + (h : ℚ) ^ 2)) unitPitch)
            w h unitPitch x y
          ≤ (w : ℚ) ^ 2 + (h : ℚ) ^ 2 :=
    fun b x y hx hy => distPass1_bounds _ w h _ (hP0 b) x y hx hy
  have heq := separableMultiDistSquared_apply src w h dest background destMax toDest x y hx hy
  refine ⟨hT base x y hx hy, hP0 base x y hx hy, hP1 base x y hx hy, heq, ?_⟩
  intro hsmall
  have hnot : ¬ ((w : ℚ) ^ 2 + (h : ℚ) ^ 2 > destMax) := not_lt.mpr hsmall
  refine ⟨?_, ?_, ?_⟩
  · rw [separableMultiDistSquaredRun_unit, if_neg hnot]
  · rw [heq, if_neg hnot]
    exact (hP1 dest x y hx hy).1
  · rw [heq, if_neg hnot]
    exact le_trans (hP1 dest x y hx hy).2 hsmall

/-- Witness of `separableMultiDistSquared_bounded`: a `20 × 10` mask and a
16-bit destination, at pixel `(3, 4)`. -/
theorem separableMultiDistSquared_bounded_witness :
    (3 < 20 ∧ 4 < 10 ∧ ((20 : ℕ) : ℚ) ^ 2 + ((10 : ℕ) : ℚ) ^ 2 ≤ 65535)
    ∧ (separableMultiDistSquaredRun columnMask 20 10 newImage false unitPitch 65535
        (saturate 65535)).tmpArray = none
    ∧ 0 ≤ separableMultiDistSquared columnMask 20 10 newImage false unitPitch 65535
        (saturate 65535) 3 4
    ∧ separableMultiDistSquared columnMask 20 10 newImage false unitPitch 65535
        (saturate 65535) 3 4 ≤ 65535 :=
  ⟨⟨by decide, by decide, by norm_num⟩,
    (separableMultiDistSquared_bounded columnMask 20 10 newImage newImage false 65535
      (saturate 65535) 3 4 (by decide) (by decide)).2.2.2.2 (by norm_num)⟩

/-! ## Rotation and reflection -/

theorem loopXY_apply {α : Type} (V : ℕ → ℕ → α) (m : ℕ) :
    ∀ (n : ℕ) (d : Raster α),
      (List.range n).foldl (fun d x =>
          (List.range m).foldl (fun d y => setPixel d x y (V x y)) d) d
        = fun a b => if a < n ∧ b < m then V a b else d a b := by
  have inner : ∀ (x k : ℕ) (d : Raster α),
      (List.range k).foldl (fun d y => setPixel d x y (V x y)) d
        = fun a b => if a = x ∧ b < k then V a b else d a b := by
    intro x k
    induction k with
    | zero => intro d; funext a b; simp
    | succ k ih =>
        intro d
        rw [List.range_succ, List.foldl_append, ih]
        funext a b
        simp only [List.foldl_cons, List.foldl_nil, setPixel]
        by_cases ha : a = x
        · subst ha
          by_cases hb : b = k
          · subst hb; simp
          · by_cases hb' : b < k
            · have : b < k + 1 := by omega
              simp [hb, hb', this]
            · have : ¬ b < k + 1 := by omega
              simp [hb, hb', this]
        · simp [ha]
  intro n
  induction n with
  | zero => intro d; funext a b; simp
  | succ n ih =>
      intro d
      rw [List.range_succ, List.foldl_append, ih]
      simp only [List.foldl_cons, List.foldl_nil]
      rw [inner]
      funext a b
      by_cases ha : a = n
      · subst ha
        by_cases hb : b < m
        · simp [hb]
        · simp [hb]
      · by_cases ha' : a < n
        · have : a < n + 1 := by omega
          simp [ha, ha', this]
        · have : ¬ a < n + 1 := by omega
          simp [ha, ha', this]

theorem loopYX_apply {α : Type} (V : ℕ → ℕ → α) (m : ℕ) :
    ∀ (n : ℕ) (d : Raster α),
      (List.range n).foldl (fun d x =>
          (List.range m).foldl (fun d y => setPixel d y x (V x y)) d) d
        = fun a b => if b < n ∧ a < m then V b a else d a b := by
  have inner : ∀ (x k : ℕ) (d : Raster α),
      (List.range k).foldl (fun d y => setPixel d y x (V x y)) d
        = fun a b => if b = x ∧ a < k then V b a else d a b := by
    intro x k
    induction k with
    | zero => intro d; funext a b; simp
    | succ k ih =>
        intro d
        rw [List.range_succ, List.foldl_append, ih]
        funext a b
        simp only [List.foldl_cons, List.foldl_nil, setPixel]
        by_cases hb : b = x
        · subst hb
          by_cases ha : a = k
          · subst ha; simp
          · by_cases ha' : a < k
            · have : a < k + 1 := by omega
              simp [ha, ha', this]
            · have : ¬ a < k + 1 := by omega
              simp [ha, ha', this]
        · simp [hb]
  intro n
  induction n with
  | zero => intro d; funext a b; simp
  | succ n ih =>
      intro d
      rw [List.range_succ, List.foldl_append, ih]
      simp only [List.foldl_cons, List.foldl_nil]
      rw [inner]
      funext a b
      by_cases hb : b = n
      · subst hb
        by_cases ha : a < m
        · simp [ha]
        · simp [ha]
      · by_cases hb' : b < n
        · have : b < n + 1 := by omega
          simp [hb, hb', this]
        · have : ¬ b < n + 1 := by omega
          simp [hb, hb', this]

theorem tmod_360_bounds (n : ℤ) : -360 < n.tmod 360 ∧ n.tmod 360 < 360 := by
  cases n with
  | ofNat a =>
      have : (Int.ofNat a).tmod 360 = ((a % 360 : ℕ) : ℤ) := rfl
      rw [this]
      omega
  | negSucc a =>
      have : (Int.negSucc a).tmod 360 = -(((a + 1) % 360 : ℕ) : ℤ) := rfl
      rw [this]
      omega

theorem tmod_360_normalize (n : ℤ) :
    (if n.tmod 360 < 0 then n.tmod 360 + 360 else n.tmod 360) = n % 360 := by
  have h1 := Int.tmod_add_tdiv n 360
  have hb := tmod_360_bounds n
  split_ifs <;> omega

theorem tmod_eq_zero_iff_emod (n b : ℤ) : n.tmod b = 0 ↔ n % b = 0 := by
  rw [← Int.dvd_iff_tmod_eq_zero, Int.dvd_iff_emod_eq_zero]

/-- The four cases of `rotateImage` in closed form, selected by the rotation
modulo 360. -/
theorem rotateImage_eq {α : Type} (src : Raster α) (ws hs : ℕ) (dest : Raster α)
    (rotation : ℤ) (h90 : rotation % 90 = 0) :
    rotateImage src ws hs dest rotation
      = some (fun a b =>
          if rotation % 360 = 0 then
            (if a < ws ∧ b < hs then src a b else dest a b)
          else if rotation % 360 = 90 then
            (if b < ws ∧ a < hs then src (ws - 1 - b) a else dest a b)
          else if rotation % 360 = 180 then
            (if a < ws ∧ b < hs then src (ws - 1 - a) (hs - 1 - b) else dest a b)
          else
            (if b < ws ∧ a < hs then src b (hs - 1 - a) else dest a b)) := by
  unfold rotateImage
  rw [if_neg (not_not.mpr ((tmod_eq_zero_iff_emod rotation 90).mpr h90))]
  simp only [tmod_360_normalize]
  have hcases : rotation % 360 = 0 ∨ rotation % 360 = 90 ∨ rotation % 360 = 180
      ∨ rotation % 360 = 270 := by omega
  rcases hcases with h | h | h | h
  · rw [if_pos h]
    congr 1
    funext a b
    simp only [h, if_true, copyImage]
    by_cases hc : a < ws ∧ b < hs
    · have : 0 ≤ a ∧ a < 0 + (ws - 0) ∧ 0 ≤ b ∧ b < 0 + (hs - 0) := by omega
      rw [if_pos this, if_pos hc]
      simp
    · have : ¬ (0 ≤ a ∧ a < 0 + (ws - 0) ∧ 0 ≤ b ∧ b < 0 + (hs - 0)) := by omega
      rw [if_neg this, if_neg hc]
  · rw [if_neg (by omega), if_pos h, loopYX_apply]
    congr 1
    funext a b
    simp [h]
  · rw [if_neg (by omega), if_neg (by omega), if_pos h, loopXY_apply]
    congr 1
    funext a b
    simp [h]
  · rw [if_neg (by omega), if_neg (by omega), if_neg (by omega), if_pos h, loopYX_apply]
    congr 1
    funext a b
    simp [h]

theorem reflectImage_horizontal {α : Type} (src : Raster α) (ws hs : ℕ) (dest : Raster α) :
    reflectImage src ws hs dest horizontal
      = some (fun a b => if a < ws ∧ b < hs then src a (hs - 1 - b) else dest a b) := by
  unfold reflectImage
  rw [if_pos rfl, loopXY_apply]

theorem reflectImage_vertical {α : Type} (src : Raster α) (ws hs : ℕ) (dest : Raster α) :
    reflectImage src ws hs dest vertical
      = some (fun a b => if a < ws ∧ b < hs then src (ws - 1 - a) b else dest a b) := by
  unfold reflectImage
  rw [if_neg (by decide), if_pos rfl, loopXY_apply]

theorem reflectImage_both {α : Type} (src : Raster α) (ws hs : ℕ) (dest : Raster α) :
    reflectImage src ws hs dest (horizontal ||| vertical)
      = some (fun a b => if a < ws ∧ b < hs then src (ws - 1 - a) (hs - 1 - b)
          else dest a b) := by
  unfold reflectImage
  rw [if_neg (by decide), if_neg (by decide), if_pos rfl, loopXY_apply]

/-- C22: for every `W × H` image, `reflectImage` with `horizontal | vertical`
returns the same raster as `rotateImage` by 180 degrees, with
`dest(x, y) = src(W-1-x, H-1-y)` on the image, and the same raster as
`reflectImage horizontal` followed by `reflectImage vertical`. -/
theorem reflectImage_half_turn {α : Type} (src : Raster α) (W H : ℕ) (dest tmp : Raster α) :
    reflectImage src W H dest (horizontal ||| vertical) = rotateImage src W H dest 180
      ∧ (∃ r, reflectImage src W H dest (horizontal ||| vertical) = some r
          ∧ ∀ x y, x < W → y < H → r x y = src (W - 1 - x) (H - 1 - y))
      ∧ ((reflectImage src W H tmp horizontal).bind fun r1 =>
            reflectImage r1 W H dest vertical)
          = reflectImage src W H dest (horizontal ||| vertical) := by
  refine ⟨?_, ?_, ?_⟩
  · rw [reflectImage_both, rotateImage_eq src W H dest 180 (by decide)]
    congr 1
  · refine ⟨_, reflectImage_both src W H dest, ?_⟩
    intro x y hx hy
    simp [hx, hy]
  · rw [reflectImage_horizontal, Option.some_bind, reflectImage_vertical, reflectImage_both]
    congr 1
    funext a b
    by_cases hc : a < W ∧ b < H
    · have : W - 1 - a < W ∧ b < H := by omega
      rw [if_pos hc, if_pos hc, if_pos this]
    · rw [if_neg hc, if_neg hc]

/-- Witness of `reflectImage_half_turn`: a band mask on a `20 × 10` raster,
read at pixel `(3, 4)`. -/
theorem reflectImage_half_turn_witness :
    ∃ r, reflectImage (bandMask 0 14 255) 20 10 newImage (horizontal ||| vertical) = some r
      ∧ 3 < 20 ∧ 4 < 10 ∧ r 3 4 = bandMask 0 14 255 (20 - 1 - 3) (10 - 1 - 4) :=
  (reflectImage_half_turn (bandMask 0 14 255) 20 10 newImage newImage).2.1.elim
    fun r hr => ⟨r, hr.1, by decide, by decide, hr.2 3 4 (by decide) (by decide)⟩

/-- C23: for every image and every integer `k`, `rotateImage` by `90 * k`
degrees returns a raster; a quarter turn sends the source pixel `(x, y)` to
`(y, W-1-x)` (counter-clockwise), and the turn by `90 * k` is the one selected
by `k` modulo 4, so that negative `k` turn clockwise; the rotation by
`-(90 * k)` equals the rotation by `360 - (90 * k mod 360)`; and rotating by
`90 * k` and then by `-(90 * k)` gives back the source on its `W × H` pixels. -/
theorem rotateImage_quarter_turns {α : Type} (src : Raster α) (W H : ℕ)
    (dest dest2 : Raster α) (k : ℤ) :
    (∃ r, rotateImage src W H dest (90 * k) = some r
        ∧ ∀ x y, x < W → y < H →
            (k % 4 = 0 → r x y = src x y)
            ∧ (k % 4 = 1 → r y (W - 1 - x) = src x y)
            ∧ (k % 4 = 2 → r (W - 1 - x) (H - 1 - y) = src x y)
            ∧ (k % 4 = 3 → r (H - 1 - y) x = src x y))
      ∧ (∃ r, rotateImage src W H dest 90 = some r
          ∧ ∀ x y, x < W → y < H → r y (W - 1 - x) = src x y)
      ∧ (∃ r, rotateImage src W H dest (-90) = some r
          ∧ ∀ x y, x < W → y < H → r (H - 1 - y) x = src x y)
      ∧ rotateImage src W H dest (-(90 * k))
          = rotateImage src W H dest (360 - (90 * k) % 360)
      ∧ rotateImage src W H dest (-(90 * k))
          = rotateImage src W H dest (360 - (90 * k).tmod 360)
      ∧ (∃ r1, rotateImage src W H dest (90 * k) = some r1
          ∧ ∃ r2, rotateImage r1 (rotatedShape W H (90 * k)).1 (rotatedShape W H (90 * k)).2
                dest2 (-(90 * k)) = some r2
            ∧ ∀ x y, x < W → y < H → r2 x y = src x y) := by
  have hk : (90 * k) % 90 = 0 := by omega
  have hnk : (-(90 * k)) % 90 = 0 := by omega
  have hq : ∀ x y, x < W → y < H → W - 1 - (W - 1 - x) = x ∧ H - 1 - (H - 1 - y) = y := by
    intro x y hx hy
    omega
  refine ⟨?_, ?_, ?_, ?_, ?_, ?_⟩
  · refine ⟨_, rotateImage_eq src W H dest (90 * k) hk, ?_⟩
    intro x y hx hy
    obtain ⟨hqx, hqy⟩ := hq x y hx hy
    refine ⟨?_, ?_, ?_, ?_⟩
    · intro h
      rw [if_pos (by omega), if_pos ⟨hx, hy⟩]
    · intro h
      rw [if_neg (by omega), if_pos (by omega), if_pos ⟨by omega, hy⟩, hqx]
    · intro h
      rw [if_neg (by omega), if_neg (by omega), if_pos (by omega),
        if_pos ⟨by omega, by omega⟩, hqx, hqy]
    · intro h
      rw [if_neg (by omega), if_neg (by omega), if_neg (by omega), if_pos ⟨hx, by omega⟩, hqy]
  · refine ⟨_, rotateImage_eq src W H dest 90 (by decide), ?_⟩
    intro x y hx hy
    obtain ⟨hqx, hqy⟩ := hq x y hx hy
    rw [if_neg (by decide), if_pos (by decide), if_pos ⟨by omega, hy⟩, hqx]
  · refine ⟨_, rotateImage_eq src W H dest (-90) (by decide), ?_⟩
    intro x y hx hy
    obtain ⟨hqx, hqy⟩ := hq x y hx hy
    rw [if_neg (by decide), if_neg (by decide), if_neg (by decide), if_pos ⟨hx, by omega⟩,
      hqy]
  · rw [rotateImage_eq src W H dest _ hnk, rotateImage_eq src W H dest _ (by omega)]
    have : (360 - 90 * k % 360) % 360 = (-(90 * k)) % 360 := by omega
    rw [this]
  · have hb := tmod_360_bounds (90 * k)
    have h1 := Int.tmod_add_tdiv (90 * k) 360
    rw [rotateImage_eq src W H dest _ hnk, rotateImage_eq src W H dest _ (by omega)]
    have : (360 - (90 * k).tmod 360) % 360 = (-(90 * k)) % 360 := by omega
    rw [this]
  · refine ⟨_, rotateImage_eq src W H dest (90 * k) hk, _,
      rotateImage_eq _ _ _ dest2 (-(90 * k)) hnk, ?_⟩
    intro x y hx hy
    obtain ⟨hqx, hqy⟩ := hq x y hx hy
    have hshape : rotatedShape W H (90 * k)
        = if (90 * k) % 180 = 0 then (W, H) else (H, W) := by
      unfold rotatedShape
      by_cases h : (90 * k) % 180 = 0
      · rw [if_pos h, if_pos ((tmod_eq_zero_iff_emod _ _).mpr h)]
      · rw [if_neg h, if_neg (fun h' => h ((tmod_eq_zero_iff_emod _ _).mp h'))]
    rw [hshape]
    have hcases : k % 4 = 0 ∨ k % 4 = 1 ∨ k % 4 = 2 ∨ k % 4 = 3 := by omega
    rcases hcases with h | h | h | h
    · have e1 : (90 * k) % 360 = 0 := by omega
      have e2 : (-(90 * k)) % 360 = 0 := by omega
      have e3 : (90 * k) % 180 = 0 := by omega
      simp only [e1, e2, e3, if_true]
      rw [if_pos ⟨hx, hy⟩, if_pos ⟨hx, hy⟩]
    · have e1 : (90 * k) % 360 = 90 := by omega
      have e2 : (-(90 * k)) % 360 = 270 := by omega
      have e3 : ¬ (90 * k) % 180 = 0 := by omega
      simp only [e1, e2, e3, if_false]
      norm_num
      rw [if_pos ⟨hy, hx⟩, if_pos ⟨by omega, hy⟩, hqx]
    · have e1 : (90 * k) % 360 = 180 := by omega
      have e2 : (-(90 * k)) % 360 = 180 := by omega
      have e3 : (90 * k) % 180 = 0 := by omega
      simp only [e1, e2, e3, if_true]
      norm_num
      rw [if_pos ⟨hx, hy⟩, if_pos ⟨by omega, by omega⟩, hqx, hqy]
    · have e1 : (90 * k) % 360 = 270 := by omega
      have e2 : (-(90 * k)) % 360 = 90 := by omega
      have e3 : ¬ (90 * k) % 180 = 0 := by omega
      simp only [e1, e2, e3, if_false]
      norm_num
      rw [if_pos ⟨hy, hx⟩, if_pos ⟨hx, by omega⟩, hqy]

/-- Witness of `rotateImage_quarter_turns`: the clockwise quarter turn
(`k = -1`) of a band mask on a `20 × 10` raster, read at the image of pixel
`(3, 4)`. -/
theorem rotateImage_quarter_turns_witness :
    ∃ r, rotateImage (bandMask 0 14 255) 20 10 newImage (90 * (-1)) = some r
      ∧ 3 < 20 ∧ 4 < 10 ∧ (-1 : ℤ) % 4 = 3
      ∧ r (10 - 1 - 4) 3 = bandMask 0 14 255 3 4 :=
  (rotateImage_quarter_turns (bandMask 0 14 255) 20 10 newImage newImage (-1)).1.elim
    fun r hr => ⟨r, hr.1, by decide, by decide, by decide,
      (hr.2 3 4 (by decide) (by decide)).2.2.2 (by decide)⟩


/-! ## Resampling -/

theorem carryCount_step (dx : ℚ) (h0 : 0 ≤ dx) (h1 : dx < 1) (i : ℕ) :
    (1 ≤ ((i : ℚ) + 1) * dx - carryCount dx i →
        carryCount dx (i + 1) = carryCount dx i + 1
          ∧ (((i : ℚ) + 1) * dx - carryCount dx i
              - truncToInt (((i : ℚ) + 1) * dx - carryCount dx i) + dx
            = (((i + 1 : ℕ) : ℚ) + 1) * dx - carryCount dx (i + 1)))
      ∧ (¬ 1 ≤ ((i : ℚ) + 1) * dx - carryCount dx i →
        carryCount dx (i + 1) = carryCount dx i
          ∧ (((i : ℚ) + 1) * dx - carryCount dx i + dx
            = (((i + 1 : ℕ) : ℚ) + 1) * dx - carryCount dx (i + 1))) := by
  have hi0 : (0 : ℚ) ≤ (i : ℚ) * dx := mul_nonneg (by positivity) h0
  have hlo : ((carryCount dx i : ℕ) : ℚ) ≤ (i : ℚ) * dx := Nat.floor_le hi0
  have hhi : (i : ℚ) * dx < (carryCount dx i : ℚ) + 1 := Nat.lt_floor_add_one _
  have hi1 : (0 : ℚ) ≤ ((i + 1 : ℕ) : ℚ) * dx := mul_nonneg (by positivity) h0
  constructor
  · intro hge
    have hD : carryCount dx (i + 1) = carryCount dx i + 1 := by
      unfold carryCount
      rw [Nat.floor_eq_iff hi1]
      push_cast
      unfold carryCount at hge hlo hhi
      constructor <;> linarith
    refine ⟨hD, ?_⟩
    have htr : truncToInt (((i : ℚ) + 1) * dx - carryCount dx i) = 1 := by
      unfold truncToInt
      rw [if_pos (by linarith)]
      rw [Int.floor_eq_iff]
      push_cast
      constructor <;> linarith
    rw [htr, hD]
    push_cast
    ring
  · intro hlt
    have hlt' : ((i : ℚ) + 1) * dx - carryCount dx i < 1 := not_le.mp hlt
    have hD : carryCount dx (i + 1) = carryCount dx i := by
      unfold carryCount
      rw [Nat.floor_eq_iff hi1]
      push_cast
      unfold carryCount at hlt' hlo hhi
      constructor <;> linarith
    refine ⟨hD, ?_⟩
    rw [hD]
    push_cast
    ring

theorem carryCount_zero (dx : ℚ) : carryCount dx 0 = 0 := by
  simp [carryCount]

theorem blockStart_zero (n : ℕ) (dx : ℚ) : blockStart n dx 0 = 0 := by
  simp [blockStart, carryCount]

/-- One iteration of the enlarging loop writes the block of source element
`i`, from `blockStart i` up to `blockStart (i + 1)`. -/
theorem resampleLineUp_cons {α : Type} (n : ℕ) (dx : ℚ) (h0 : 0 ≤ dx) (h1 : dx < 1)
    (v : α) (rest : List α) (i : ℕ) :
    blockStart n dx i + n ≤ blockStart n dx (i + 1)
      ∧ resampleLineUp n dx (v :: rest) (((i : ℚ) + 1) * dx - carryCount dx i)
        = List.replicate (blockStart n dx (i + 1) - blockStart n dx i) v
          ++ resampleLineUp n dx rest ((((i + 1 : ℕ) : ℚ) + 1) * dx - carryCount dx (i + 1)) := by
  obtain ⟨hge, hlt⟩ := carryCount_step dx h0 h1 i
  by_cases hs : 1 ≤ ((i : ℚ) + 1) * dx - carryCount dx i
  · obtain ⟨hD, hS⟩ := hge hs
    have hB : blockStart n dx (i + 1) = blockStart n dx i + (n + 1) := by
      unfold blockStart
      rw [hD]
      ring
    refine ⟨by omega, ?_⟩
    rw [resampleLineUp, if_pos hs, hS, hB]
    have : blockStart n dx i + (n + 1) - blockStart n dx i = n + 1 := by omega
    rw [this, List.replicate_succ]
    rfl
  · obtain ⟨hD, hS⟩ := hlt hs
    have hB : blockStart n dx (i + 1) = blockStart n dx i + n := by
      unfold blockStart
      rw [hD]
      ring
    refine ⟨by omega, ?_⟩
    rw [resampleLineUp, if_neg hs, hS, hB]
    have : blockStart n dx i + n - blockStart n dx i = n := by omega
    rw [this]

theorem blockStart_mono (n : ℕ) (dx : ℚ) (h0 : 0 ≤ dx) (h1 : dx < 1) (i : ℕ) :
    ∀ t, blockStart n dx i + t * n ≤ blockStart n dx (i + t) := by
  intro t
  induction t with
  | zero => simp
  | succ t ih =>
      have := (resampleLineUp_cons n dx h0 h1 (0 : ℕ) [] (i + t)).1
      have e : i + (t + 1) = i + t + 1 := by ring
      rw [e]
      have e2 : (t + 1) * n = t * n + n := by ring
      omega

theorem resampleLineUp_spec {α : Type} (n : ℕ) (dx : ℚ) (h0 : 0 ≤ dx) (h1 : dx < 1) :
    ∀ (rest : List α) (i : ℕ),
      (resampleLineUp n dx rest (((i : ℚ) + 1) * dx - carryCount dx i)).length
          + blockStart n dx i = blockStart n dx (i + rest.length)
        ∧ ∀ t q, t < rest.length → blockStart n dx (i + t) ≤ blockStart n dx i + q →
            blockStart n dx i + q < blockStart n dx (i + t + 1) →
            (resampleLineUp n dx rest (((i : ℚ) + 1) * dx - carryCount dx i))[q]? = rest[t]? := by
  intro rest
  induction rest with
  | nil =>
      intro i
      refine ⟨by simp [resampleLineUp], ?_⟩
      intro t q ht
      simp at ht
  | cons v rest ih =>
      intro i
      obtain ⟨hstep, hcons⟩ := resampleLineUp_cons n dx h0 h1 v rest i
      obtain ⟨hlen, hget⟩ := ih (i + 1)
      rw [hcons]
      constructor
      · rw [List.length_append, List.length_replicate, List.length_cons]
        have e : i + (rest.length + 1) = i + 1 + rest.length := by ring
        rw [e]
        omega
      · intro t q ht hlo hhi
        cases t with
        | zero =>
            have hq : q < blockStart n dx (i + 1) - blockStart n dx i := by
              simp only [add_zero] at hhi
              omega
            rw [List.getElem?_append_left (by rw [List.length_replicate]; exact hq)]
            simp [List.getElem?_replicate, hq]
        | succ t =>
            have hmono := blockStart_mono n dx h0 h1 (i + 1) t
            have e : i + (t + 1) = i + 1 + t := by ring
            rw [e] at hlo
            have hq : blockStart n dx (i + 1) - blockStart n dx i ≤ q := by omega
            rw [List.getElem?_append_right (by rw [List.length_replicate]; exact hq),
              List.length_replicate]
            have e2 : i + (t + 1) + 1 = i + 1 + t + 1 := by ring
            rw [e2] at hhi
            rw [hget t (q - (blockStart n dx (i + 1) - blockStart n dx i))
              (by simpa using ht) (by omega) (by omega)]
            simp

theorem resampleLineDown_spec {α : Type} (n : ℕ) (hn : 1 ≤ n) (dx : ℚ) (h0 : 0 ≤ dx)
    (h1 : dx < 1) (src u : List α) (hlen : u.length = blockStart n dx src.length)
    (hu : ∀ t q, t < src.length → blockStart n dx t ≤ q → q < blockStart n dx (t + 1) →
      u[q]? = src[t]?) :
    ∀ k j, j + k = src.length →
      resampleLineDown u n dx k (blockStart n dx j) (((j : ℚ) + 1) * dx - carryCount dx j)
        = some (src.drop j) := by
  intro k
  induction k with
  | zero =>
      intro j hj
      have : j = src.length := by omega
      subst this
      simp [resampleLineDown]
  | succ k ih =>
      intro j hj
      have hjlt : j < src.length := by omega
      have hstep := (resampleLineUp_cons n dx h0 h1 (0 : ℕ) [] j).1
      have hmono := blockStart_mono n dx h0 h1 (j + 1) k
      have hjk : j + 1 + k = src.length := by omega
      rw [hjk, ← hlen] at hmono
      have hdrop : src.drop j = src[j] :: src.drop (j + 1) := List.drop_eq_getElem_cons hjlt
      rw [resampleLineDown]
      by_cases hp : blockStart n dx j = u.length - 1
      · rw [if_pos hp]
        have hk0 : k = 0 := by
          by_contra hk
          have : 1 ≤ k := Nat.one_le_iff_ne_zero.mpr hk
          have : n ≤ k * n := Nat.le_mul_of_pos_left n this
          omega
        subst hk0
        have hget := hu j (u.length - 1) hjlt (by omega) (by omega)
        rw [hget, List.getElem?_eq_getElem hjlt, hdrop]
        have : src.drop (j + 1) = [] := by
          apply List.drop_eq_nil_of_le
          omega
        rw [this]
        rfl
      · rw [if_neg hp]
        obtain ⟨hge, hlt⟩ := carryCount_step dx h0 h1 j
        by_cases hs : 1 ≤ ((j : ℚ) + 1) * dx - carryCount dx j
        · obtain ⟨hD, hS⟩ := hge hs
          have hB : blockStart n dx (j + 1) = blockStart n dx j + 1 + n := by
            unfold blockStart
            rw [hD]
            ring
          simp only [ge_iff_le, hs, if_true]
          have hget := hu j (blockStart n dx j + 1) hjlt (by omega) (by omega)
          rw [hget, List.getElem?_eq_getElem hjlt]
          simp only
          rw [hS, ← hB, ih (j + 1) hjk, hdrop]
          rfl
        · obtain ⟨hD, hS⟩ := hlt hs
          have hB : blockStart n dx (j + 1) = blockStart n dx j + n := by
            unfold blockStart
            rw [hD]
            ring
          simp only [ge_iff_le, hs, if_false]
          have hget := hu j (blockStart n dx j) hjlt (by omega) (by omega)
          rw [hget, List.getElem?_eq_getElem hjlt]
          simp only
          rw [hS, ← hB, ih (j + 1) hjk, hdrop]
          rfl

/-- The integer part and the fraction of a factor `f ≥ 1`, as computed by
`resampleLine`. -/
theorem factor_split (f : ℚ) (hf : 1 ≤ f) :
    ∃ n : ℕ, 1 ≤ n ∧ truncToInt f = (n : ℤ) ∧ (truncToInt f).toNat = n
      ∧ 0 ≤ f - ((truncToInt f : ℤ) : ℚ) ∧ f - ((truncToInt f : ℤ) : ℚ) < 1
      ∧ f = (n : ℚ) + (f - ((truncToInt f : ℤ) : ℚ)) := by
  have hpos : (0 : ℚ) ≤ f := by linarith
  have htr : truncToInt f = ⌊f⌋ := by
    unfold truncToInt
    rw [if_pos hpos]
  have hfl : (1 : ℤ) ≤ ⌊f⌋ := by
    rw [Int.le_floor]
    exact_mod_cast hf
  refine ⟨⌊f⌋.toNat, ?_, ?_, ?_, ?_, ?_, ?_⟩
  · omega
  · rw [htr]; omega
  · rw [htr]
  · rw [htr]
    have := Int.floor_le f
    linarith
  · rw [htr]
    have := Int.lt_floor_add_one f
    linarith
  · rw [htr]
    have : ((⌊f⌋.toNat : ℕ) : ℚ) = ((⌊f⌋ : ℤ) : ℚ) := by
      have h : ((⌊f⌋.toNat : ℕ) : ℤ) = ⌊f⌋ := by omega
      exact_mod_cast congrArg (fun z : ℤ => (z : ℚ)) h
    rw [this]
    ring

theorem blockStart_eq_floor (n : ℕ) (dx : ℚ) (h0 : 0 ≤ dx) (i : ℕ) :
    blockStart n dx i = ⌊(i : ℚ) * ((n : ℚ) + dx)⌋₊ := by
  unfold blockStart carryCount
  have : (i : ℚ) * ((n : ℚ) + dx) = (i : ℚ) * dx + ((i * n : ℕ) : ℚ) := by push_cast; ring
  rw [this, Nat.floor_add_nat (mul_nonneg (by positivity) h0)]
  ring

theorem resampleLine_up {α : Type} (src : List α) (hne : src ≠ []) (f : ℚ) (hf : 1 ≤ f) :
    ∃ (n : ℕ) (dx : ℚ), 1 ≤ n ∧ 0 ≤ dx ∧ dx < 1 ∧ f = (n : ℚ) + dx
      ∧ truncToInt f = (n : ℤ) ∧ f - ((truncToInt f : ℤ) : ℚ) = dx
      ∧ resampleLine src f = some (resampleLineUp n dx src dx)
      ∧ (resampleLineUp n dx src dx).length = blockStart n dx src.length
      ∧ ∀ t q, t < src.length → blockStart n dx t ≤ q → q < blockStart n dx (t + 1) →
          (resampleLineUp n dx src dx)[q]? = src[t]? := by
  obtain ⟨n, hn, htr, htn, h0, h1, hsplit⟩ := factor_split f hf
  refine ⟨n, f - ((truncToInt f : ℤ) : ℚ), hn, h0, h1, hsplit, htr, rfl, ?_, ?_, ?_⟩
  · unfold resampleLine
    have hl : src.length > 0 := List.length_pos.mpr hne
    have hfp : f > 0 := by linarith
    simp only [hl, hfp, not_true_eq_false, if_false, ge_iff_le, hf, if_true, htn]
  · have hs := (resampleLineUp_spec n (f - ((truncToInt f : ℤ) : ℚ)) h0 h1 src 0).1
    simp only [Nat.cast_zero, zero_add, one_mul, carryCount_zero, sub_zero,
      blockStart_zero, add_zero] at hs
    exact hs
  · intro t q ht hlo hhi
    have hs := (resampleLineUp_spec n (f - ((truncToInt f : ℤ) : ℚ)) h0 h1 src 0).2 t q ht
    simp only [Nat.cast_zero, zero_add, one_mul, carryCount_zero, sub_zero,
      blockStart_zero] at hs
    exact hs hlo hhi

theorem resampleLine_one {α : Type} (src : List α) (hne : src ≠ []) :
    resampleLine src 1 = some src := by
  obtain ⟨n, dx, hn, h0, h1, hsplit, htr, hdx, hres, hlen, hget⟩ :=
    resampleLine_up src hne 1 (le_refl 1)
  have htr1 : truncToInt (1 : ℚ) = 1 := by
    unfold truncToInt
    simp
  have hn1 : n = 1 := by
    rw [htr1] at htr
    exact_mod_cast htr.symm
  have hdx0 : dx = 0 := by
    rw [← hdx, htr1]
    norm_num
  subst hn1
  subst hdx0
  have hB : ∀ i, blockStart 1 0 i = i := by
    intro i
    simp [blockStart, carryCount]
  rw [hres]
  congr 1
  apply List.ext_getElem?
  intro q
  by_cases hq : q < src.length
  · exact hget q q hq (by rw [hB]) (by rw [hB]; omega)
  · rw [hB] at hlen
    rw [List.getElem?_eq_none (by omega), List.getElem?_eq_none (by omega)]

/-- Enlarging a line by `f ≥ 1` and shrinking the result by `1 / f` gives the
line back. -/
theorem resampleLine_round_trip {α : Type} (src : List α) (hne : src ≠ []) (f : ℚ)
    (hf : 1 ≤ f) :
    ∃ up, resampleLine src f = some up ∧ up.length = ⌊(src.length : ℚ) * f⌋₊
      ∧ resampleLine up (1 / f) = some src := by
  by_cases hf1 : f = 1
  · subst hf1
    refine ⟨src, resampleLine_one src hne, by simp, ?_⟩
    rw [div_one]
    exact resampleLine_one src hne
  have hgt : 1 < f := lt_of_le_of_ne hf (Ne.symm hf1)
  have hfpos : (0 : ℚ) < f := by linarith
  obtain ⟨n, dx, hn, h0, h1, hsplit, htr, hdx, hres, hlen, hget⟩ :=
    resampleLine_up src hne f hf
  have hsl : 0 < src.length := List.length_pos.mpr hne
  have hBlen : blockStart n dx src.length = ⌊(src.length : ℚ) * f⌋₊ := by
    rw [blockStart_eq_floor n dx h0, ← hsplit]
  refine ⟨_, hres, by rw [hlen, hBlen], ?_⟩
  have hup_pos : 0 < (resampleLineUp n dx src dx).length := by
    rw [hlen]
    have := blockStart_mono n dx h0 h1 0 src.length
    rw [blockStart_zero, zero_add, zero_add] at this
    have : 1 ≤ src.length * n := Nat.one_le_iff_ne_zero.mpr (by positivity)
    omega
  have hinv : 1 / (1 / f) = f := by field_simp
  have hsmall : ¬ (1 / f ≥ 1) := by
    rw [ge_iff_le, not_le, div_lt_one hfpos]
    exact hgt
  have hceil : ⌈(((resampleLineUp n dx src dx).length : ℕ) : ℚ) * (1 / f)⌉
      = (src.length : ℤ) := by
    rw [hlen, hBlen, Int.ceil_eq_iff]
    have hnn : (0 : ℚ) ≤ (src.length : ℚ) * f := by positivity
    have hlo : ((⌊(src.length : ℚ) * f⌋₊ : ℕ) : ℚ) ≤ (src.length : ℚ) * f := Nat.floor_le hnn
    have hhi : (src.length : ℚ) * f < (⌊(src.length : ℚ) * f⌋₊ : ℚ) + 1 :=
      Nat.lt_floor_add_one _
    push_cast
    constructor
    · rw [mul_one_div, lt_div_iff₀ hfpos]
      nlinarith
    · rw [mul_one_div, div_le_iff₀ hfpos]
      exact hlo
  unfold resampleLine
  have hpos : (1 : ℚ) / f > 0 := by positivity
  have hdx' : f - (((n : ℕ) : ℤ) : ℚ) = dx := by rw [← htr]; exact hdx
  simp only [hup_pos, hpos, not_true_eq_false, if_false, hsmall, hinv, hceil, htr, hdx',
    Int.toNat_ofNat, gt_iff_lt]
  have := resampleLineDown_spec n hn dx h0 h1 src (resampleLineUp n dx src dx) hlen hget
    src.length 0 (by omega)
  simp only [Nat.cast_zero, zero_add, one_mul, carryCount_zero, sub_zero, blockStart_zero,
    List.drop_zero] at this
  exact this

theorem blockStart_index (n : ℕ) (dx : ℚ) :
    ∀ len p, p < blockStart n dx len →
      ∃ t, t < len ∧ blockStart n dx t ≤ p ∧ p < blockStart n dx (t + 1) := by
  intro len
  induction len with
  | zero =>
      intro p hp
      rw [blockStart_zero] at hp
      omega
  | succ len ih =>
      intro p hp
      by_cases h : p < blockStart n dx len
      · obtain ⟨t, ht, h1, h2⟩ := ih p h
        exact ⟨t, by omega, h1, h2⟩
      · exact ⟨len, by omega, by omega, hp⟩

/-- The enlargement by a fixed factor `f ≥ 1`: the integer part and the
fraction are the same for every line, and shrinking undoes it. -/
theorem resampleLine_up_fixed (f : ℚ) (hf : 1 ≤ f) :
    ∃ (n : ℕ) (dx : ℚ), 1 ≤ n ∧ 0 ≤ dx ∧ dx < 1 ∧ f = (n : ℚ) + dx
      ∧ ∀ {α : Type} (src : List α), src ≠ [] →
          resampleLine src f = some (resampleLineUp n dx src dx)
          ∧ (resampleLineUp n dx src dx).length = blockStart n dx src.length
          ∧ (∀ t q, t < src.length → blockStart n dx t ≤ q → q < blockStart n dx (t + 1) →
              (resampleLineUp n dx src dx)[q]? = src[t]?)
          ∧ resampleLine (resampleLineUp n dx src dx) (1 / f) = some src := by
  obtain ⟨n, hn, htr, htn, h0, h1, hsplit⟩ := factor_split f hf
  refine ⟨n, f - ((truncToInt f : ℤ) : ℚ), hn, h0, h1, hsplit, ?_⟩
  intro α src hne
  obtain ⟨n', dx', _, _, _, _, htr', hdx', hres, hlen, hget⟩ := resampleLine_up src hne f hf
  have hnn : n' = n := by
    rw [htr] at htr'
    exact_mod_cast htr'.symm
  subst hnn
  subst hdx'
  refine ⟨hres, hlen, hget, ?_⟩
  obtain ⟨up, hup, _, hback⟩ := resampleLine_round_trip src hne f hf
  rw [hres] at hup
  rw [Option.some.inj hup]
  exact hback

theorem foldlM_writeColumn {α : Type} (F : ℕ → Option (List α)) (G : ℕ → List α) :
    ∀ (W : ℕ), (∀ x, x < W → F x = some (G x)) → ∀ tmp : Raster α,
      (List.range W).foldlM (fun t x => (F x).map fun vals => writeColumn t x vals) tmp
        = some (fun a b => if a < W then
            (match (G a)[b]? with | some v => v | none => tmp a b) else tmp a b) := by
  intro W
  induction W with
  | zero =>
      intro _ tmp
      simp
  | succ W ih =>
      intro hF tmp
      rw [List.range_succ, List.foldlM_append, ih (fun x hx => hF x (by omega)) tmp]
      simp only [Option.some_bind, List.foldlM_cons, List.foldlM_nil, hF W (by omega),
        Option.map_some', Option.bind_eq_bind, Option.some_bind, Option.pure_def, Option.bind_some]
      congr 1
      funext a b
      unfold writeColumn
      by_cases ha : a = W
      · subst ha
        simp
      · by_cases ha' : a < W
        · have : a < W + 1 := by omega
          simp [ha, ha', this]
        · have : ¬ a < W + 1 := by omega
          simp [ha, ha', this]

theorem foldlM_writeRow {α : Type} (F : ℕ → Option (List α)) (G : ℕ → List α) :
    ∀ (H : ℕ), (∀ y, y < H → F y = some (G y)) → ∀ d : Raster α,
      (List.range H).foldlM (fun t y => (F y).map fun vals => writeRow t y vals) d
        = some (fun a b => if b < H then
            (match (G b)[a]? with | some v => v | none => d a b) else d a b) := by
  intro H
  induction H with
  | zero =>
      intro _ d
      simp
  | succ H ih =>
      intro hF d
      rw [List.range_succ, List.foldlM_append, ih (fun y hy => hF y (by omega)) d]
      simp only [Option.some_bind, List.foldlM_cons, List.foldlM_nil, hF H (by omega),
        Option.map_some', Option.bind_eq_bind, Option.some_bind, Option.pure_def, Option.bind_some]
      congr 1
      funext a b
      unfold writeRow
      by_cases hb : b = H
      · subst hb
        simp
      · by_cases hb' : b < H
        · have : b < H + 1 := by omega
          simp [hb, hb', this]
        · have : ¬ b < H + 1 := by omega
          simp [hb, hb', this]

theorem getElem?_map_range {α : Type} (g : ℕ → α) (n i : ℕ) (hi : i < n) :
    ((List.range n).map g)[i]? = some (g i) := by
  simp [List.getElem?_map, List.getElem?_range, hi]

theorem map_range_ne_nil {α : Type} (g : ℕ → α) (n : ℕ) (hn : 0 < n) :
    (List.range n).map g ≠ [] := by
  intro h
  have := congrArg List.length h
  simp at this
  omega

theorem ceil_floor_div (N : ℕ) (f : ℚ) (hf : 1 ≤ f) :
    ⌈((⌊(N : ℚ) * f⌋₊ : ℕ) : ℚ) * (1 / f)⌉ = (N : ℤ) := by
  have hfpos : (0 : ℚ) < f := by linarith
  rw [Int.ceil_eq_iff]
  have hnn : (0 : ℚ) ≤ (N : ℚ) * f := by positivity
  have hlo : ((⌊(N : ℚ) * f⌋₊ : ℕ) : ℚ) ≤ (N : ℚ) * f := Nat.floor_le hnn
  have hhi : (N : ℚ) * f < (⌊(N : ℚ) * f⌋₊ : ℚ) + 1 := Nat.lt_floor_add_one _
  push_cast
  constructor
  · rw [mul_one_div, lt_div_iff₀ hfpos]
    nlinarith
  · rw [mul_one_div, div_le_iff₀ hfpos]
    exact hlo

theorem sizeForResamplingFactor_up (N : ℕ) (f : ℚ) (hf : 1 ≤ f) :
    sizeForResamplingFactor (N : ℤ) f = ⌊(N : ℚ) * f⌋
      ∧ sizeForResamplingFactor (N : ℤ) f = ((⌊(N : ℚ) * f⌋₊ : ℕ) : ℤ) := by
  have hnn : (0 : ℚ) ≤ (N : ℚ) * f := by positivity
  have h1 : sizeForResamplingFactor (N : ℤ) f = ⌊(N : ℚ) * f⌋ := by
    unfold sizeForResamplingFactor truncToInt
    rw [if_neg (not_lt.mpr hf)]
    push_cast
    rw [if_pos hnn]
  refine ⟨h1, ?_⟩
  rw [h1, ← Int.floor_toNat, Int.toNat_of_nonneg (Int.floor_nonneg.mpr hnn)]

theorem sizeForResamplingFactor_down (N : ℕ) (f : ℚ) (hf : 1 ≤ f) :
    sizeForResamplingFactor ((⌊(N : ℚ) * f⌋₊ : ℕ) : ℤ) (1 / f) = (N : ℤ) := by
  unfold sizeForResamplingFactor
  by_cases hf1 : f = 1
  · subst hf1
    simp [truncToInt]
  · have hgt : 1 < f := lt_of_le_of_ne hf (Ne.symm hf1)
    have hfpos : (0 : ℚ) < f := by linarith
    have : 1 / f < 1 := by
      rw [div_lt_one hfpos]
      exact hgt
    rw [if_pos this]
    push_cast
    exact ceil_floor_div N f hf

/-- C24: for a source of shape `W × H` with `W, H ≥ 2` and a factor `f ≥ 1`
in exact arithmetic, `resampleImage` with factor `f` computes the shape
`⌊f W⌋ × ⌊f H⌋` and returns a raster that holds the source value `(s, t)` on
the block `⌊s f⌋ ≤ p < ⌊(s + 1) f⌋`, `⌊t f⌋ ≤ q < ⌊(t + 1) f⌋`; these blocks
cover the `⌊f W⌋ × ⌊f H⌋` image, and outside it the destination is left as it
was.  `resampleImage` with factor `1 / f` on that raster computes the shape
`W × H` and returns a raster that equals the source at every pixel of the
`W × H` image and is left as it was outside it. -/
theorem resampleImage_round_trip {α : Type} [Zero α] (src : Raster α) (W H : ℕ)
    (hW : 2 ≤ W) (hH : 2 ≤ H) (f : ℚ) (hf : 1 ≤ f) (d1 d2 : Raster α) :
    sizeForResamplingFactor (W : ℤ) f = ⌊(W : ℚ) * f⌋
      ∧ sizeForResamplingFactor (H : ℤ) f = ⌊(H : ℚ) * f⌋
      ∧ sizeForResamplingFactor ⌊(W : ℚ) * f⌋ (1 / f) = (W : ℤ)
      ∧ sizeForResamplingFactor ⌊(H : ℚ) * f⌋ (1 / f) = (H : ℤ)
      ∧ ∃ r1, resampleImage src W H d1 f f = some r1
        ∧ (∀ s t p q, s < W → t < H →
            ⌊(s : ℚ) * f⌋₊ ≤ p → p < ⌊((s + 1 : ℕ) : ℚ) * f⌋₊ →
            ⌊(t : ℚ) * f⌋₊ ≤ q → q < ⌊((t + 1 : ℕ) : ℚ) * f⌋₊ → r1 p q = src s t)
        ∧ (∀ p q, p < ⌊(W : ℚ) * f⌋₊ → q < ⌊(H : ℚ) * f⌋₊ →
            ∃ s t, s < W ∧ t < H
              ∧ ⌊(s : ℚ) * f⌋₊ ≤ p ∧ p < ⌊((s + 1 : ℕ) : ℚ) * f⌋₊
              ∧ ⌊(t : ℚ) * f⌋₊ ≤ q ∧ q < ⌊((t + 1 : ℕ) : ℚ) * f⌋₊)
        ∧ (∀ p q, ¬ (p < ⌊(W : ℚ) * f⌋₊ ∧ q < ⌊(H : ℚ) * f⌋₊) → r1 p q = d1 p q)
        ∧ ∃ r2, resampleImage r1 ⌊(W : ℚ) * f⌋₊ ⌊(H : ℚ) * f⌋₊ d2 (1 / f) (1 / f) = some r2
          ∧ (∀ x y, x < W → y < H → r2 x y = src x y)
          ∧ ∀ x y, ¬ (x < W ∧ y < H) → r2 x y = d2 x y := by
  obtain ⟨n, dx, hn, h0, h1, hsplit, hline⟩ := resampleLine_up_fixed f hf
  have hBfl : ∀ i, blockStart n dx i = ⌊(i : ℚ) * f⌋₊ := by
    intro i
    rw [blockStart_eq_floor n dx h0, ← hsplit]
  have hWup := sizeForResamplingFactor_up W f hf
  have hHup := sizeForResamplingFactor_up H f hf
  have hWdn := sizeForResamplingFactor_down W f hf
  have hHdn := sizeForResamplingFactor_down H f hf
  have hBge : ∀ i, i ≤ blockStart n dx i := by
    intro i
    have := blockStart_mono n dx h0 h1 0 i
    rw [blockStart_zero, zero_add, zero_add] at this
    have : i ≤ i * n := Nat.le_mul_of_pos_right i hn
    omega
  have hW' : 2 ≤ ⌊(W : ℚ) * f⌋₊ := by rw [← hBfl]; exact le_trans hW (hBge W)
  have hH' : 2 ≤ ⌊(H : ℚ) * f⌋₊ := by rw [← hBfl]; exact le_trans hH (hBge H)
  have hWfl : ⌊(W : ℚ) * f⌋ = ((⌊(W : ℚ) * f⌋₊ : ℕ) : ℤ) := by rw [← hWup.1, hWup.2]
  have hHfl : ⌊(H : ℚ) * f⌋ = ((⌊(H : ℚ) * f⌋₊ : ℕ) : ℤ) := by rw [← hHup.1, hHup.2]
  refine ⟨hWup.1, hHup.1, by rw [hWfl]; exact hWdn, by rw [hHfl]; exact hHdn, ?_⟩
  -- the enlargement
  set W' := ⌊(W : ℚ) * f⌋₊ with hW'def
  set H' := ⌊(H : ℚ) * f⌋₊ with hH'def
  set tmp1 : Raster α := fun a b => if a < W then
      (match (resampleLineUp n dx ((List.range H).map fun y => src a y) dx)[b]? with
        | some v => v | none => (newImage : Raster α) a b)
    else (newImage : Raster α) a b with htmp1
  set r1 : Raster α := fun a b => if b < H' then
      (match (resampleLineUp n dx ((List.range W).map fun x => tmp1 x b) dx)[a]? with
        | some v => v | none => d1 a b)
    else d1 a b with hr1
  have hup : resampleImage src W H d1 f f = some r1 := by
    unfold resampleImage
    have c1 : W > 1 ∧ H > 1 := ⟨by omega, by omega⟩
    have c2 : ((W' : ℕ) : ℤ) > 1 ∧ ((H' : ℕ) : ℤ) > 1 := ⟨by omega, by omega⟩
    simp only [hWup.2, hHup.2, c1, c2, and_self, not_true_eq_false, if_false, Int.toNat_ofNat]
    rw [foldlM_writeColumn _
      (fun x => resampleLineUp n dx ((List.range H).map fun y => src x y) dx) W
      (fun x _ => (hline _ (map_range_ne_nil _ H (by omega))).1)]
    rw [Option.some_bind]
    exact foldlM_writeRow _
      (fun y => resampleLineUp n dx ((List.range W).map fun x => tmp1 x y) dx) H'
      (fun y _ => (hline _ (map_range_ne_nil _ W (by omega))).1) d1
  have hP1 : ∀ x q t, x < W → t < H → blockStart n dx t ≤ q → q < blockStart n dx (t + 1) →
      tmp1 x q = src x t := by
    intro x q t hx ht hlo hhi
    have hg := (hline ((List.range H).map fun y => src x y)
      (map_range_ne_nil _ H (by omega))).2.2.1 t q (by simpa using ht) hlo hhi
    rw [getElem?_map_range _ H t ht] at hg
    simp only [htmp1, hx, if_true, hg]
  have hP2 : ∀ p q s t, s < W → t < H → blockStart n dx s ≤ p → p < blockStart n dx (s + 1) →
      blockStart n dx t ≤ q → q < blockStart n dx (t + 1) → r1 p q = src s t := by
    intro p q s t hs ht hlo hhi hlo' hhi'
    have hq : q < H' := by
      have := blockStart_mono n dx h0 h1 (t + 1) (H - (t + 1))
      have e : t + 1 + (H - (t + 1)) = H := by omega
      rw [e, hBfl H] at this
      omega
    have hg := (hline ((List.range W).map fun x => tmp1 x q)
      (map_range_ne_nil _ W (by omega))).2.2.1 s p (by simpa using hs) hlo hhi
    rw [getElem?_map_range _ W s hs] at hg
    simp only [hr1, hq, if_true, hg]
    exact hP1 s q t hs ht hlo' hhi'
  have hA : ∀ s t p q, s < W → t < H →
      ⌊(s : ℚ) * f⌋₊ ≤ p → p < ⌊((s + 1 : ℕ) : ℚ) * f⌋₊ →
      ⌊(t : ℚ) * f⌋₊ ≤ q → q < ⌊((t + 1 : ℕ) : ℚ) * f⌋₊ → r1 p q = src s t := by
    intro s t p q hs ht a1 a2 a3 a4
    rw [← hBfl] at a1 a2 a3 a4
    exact hP2 p q s t hs ht a1 a2 a3 a4
  have hB : ∀ p q, p < W' → q < H' →
      ∃ s t, s < W ∧ t < H
        ∧ ⌊(s : ℚ) * f⌋₊ ≤ p ∧ p < ⌊((s + 1 : ℕ) : ℚ) * f⌋₊
        ∧ ⌊(t : ℚ) * f⌋₊ ≤ q ∧ q < ⌊((t + 1 : ℕ) : ℚ) * f⌋₊ := by
    intro p q hp hq
    obtain ⟨s, hs, a1, a2⟩ := blockStart_index n dx W p (by rw [hBfl W]; exact hp)
    obtain ⟨t, ht, a3, a4⟩ := blockStart_index n dx H q (by rw [hBfl H]; exact hq)
    rw [hBfl] at a1 a2 a3 a4
    exact ⟨s, t, hs, ht, a1, a2, a3, a4⟩
  have hC : ∀ p q, ¬ (p < W' ∧ q < H') → r1 p q = d1 p q := by
    intro p q hnot
    by_cases hq : q < H'
    · have hp : ¬ p < W' := fun hp => hnot ⟨hp, hq⟩
      have hlen := (hline ((List.range W).map fun x => tmp1 x q)
        (map_range_ne_nil _ W (by omega))).2.1
      rw [List.length_map, List.length_range, hBfl W] at hlen
      have hnone : (resampleLineUp n dx ((List.range W).map fun x => tmp1 x q) dx)[p]?
          = none := List.getElem?_eq_none (by rw [hlen]; omega)
      simp only [hr1, hq, if_true, hnone]
    · simp only [hr1, hq, if_false]
  refine ⟨r1, hup, hA, hB, hC, ?_⟩
  -- the shrinking
  have hcol : ∀ p s, s < W → blockStart n dx s ≤ p → p < blockStart n dx (s + 1) →
      ((List.range H').map fun y => r1 p y)
        = resampleLineUp n dx ((List.range H).map fun y => src s y) dx := by
    intro p s hs hlo hhi
    have hsp := hline ((List.range H).map fun y => src s y) (map_range_ne_nil _ H (by omega))
    apply List.ext_getElem?
    intro q
    by_cases hq : q < H'
    · obtain ⟨t, ht, hlo', hhi'⟩ := blockStart_index n dx H q (by rw [hBfl H]; exact hq)
      rw [getElem?_map_range _ H' q hq, hsp.2.2.1 t q (by simpa using ht) hlo' hhi',
        getElem?_map_range _ H t ht, hP2 p q s t hs ht hlo hhi hlo' hhi']
    · rw [List.getElem?_eq_none (by simp; omega), List.getElem?_eq_none]
      rw [hsp.2.1, List.length_map, List.length_range, hBfl H]
      omega
  set tmp2 : Raster α := fun a b => if a < W' then
      (match ((resampleLine ((List.range H').map fun y => r1 a y) (1 / f)).getD [])[b]? with
        | some v => v | none => (newImage : Raster α) a b)
    else (newImage : Raster α) a b with htmp2
  have hcolres : ∀ p, p < W' → ∃ s, s < W ∧ blockStart n dx s ≤ p ∧ p < blockStart n dx (s + 1)
      ∧ resampleLine ((List.range H').map fun y => r1 p y) (1 / f)
        = some ((List.range H).map fun y => src s y) := by
    intro p hp
    obtain ⟨s, hs, hlo, hhi⟩ := blockStart_index n dx W p (by rw [hBfl W]; exact hp)
    refine ⟨s, hs, hlo, hhi, ?_⟩
    rw [hcol p s hs hlo hhi]
    exact (hline _ (map_range_ne_nil _ H (by omega))).2.2.2
  have hP3 : ∀ p y s, y < H → s < W → blockStart n dx s ≤ p → p < blockStart n dx (s + 1) →
      tmp2 p y = src s y := by
    intro p y s hy hs hlo hhi
    have hp : p < W' := by
      have := blockStart_mono n dx h0 h1 (s + 1) (W - (s + 1))
      have e : s + 1 + (W - (s + 1)) = W := by omega
      rw [e, hBfl W] at this
      omega
    have hres : resampleLine ((List.range H').map fun y => r1 p y) (1 / f)
        = some ((List.range H).map fun y => src s y) := by
      rw [hcol p s hs hlo hhi]
      exact (hline _ (map_range_ne_nil _ H (by omega))).2.2.2
    simp only [htmp2, hp, if_true, hres, Option.getD_some, getElem?_map_range _ H y hy]
  have hrow : ∀ y, y < H →
      ((List.range W').map fun x => tmp2 x y)
        = resampleLineUp n dx ((List.range W).map fun x => src x y) dx := by
    intro y hy
    have hsp := hline ((List.range W).map fun x => src x y) (map_range_ne_nil _ W (by omega))
    apply List.ext_getElem?
    intro p
    by_cases hp : p < W'
    · obtain ⟨s, hs, hlo, hhi⟩ := blockStart_index n dx W p (by rw [hBfl W]; exact hp)
      rw [getElem?_map_range _ W' p hp, hsp.2.2.1 s p (by simpa using hs) hlo hhi,
        getElem?_map_range _ W s hs, hP3 p y s hy hs hlo hhi]
    · rw [List.getElem?_eq_none (by simp; omega), List.getElem?_eq_none]
      rw [hsp.2.1, List.length_map, List.length_range, hBfl W]
      omega
  refine ⟨fun a b => if b < H then
      (match ((List.range W).map fun x => src x b)[a]? with
        | some v => v | none => d2 a b)
    else d2 a b, ?_, ?_, ?_⟩
  · unfold resampleImage
    have c1 : W' > 1 ∧ H' > 1 := ⟨by omega, by omega⟩
    have c2 : ((W : ℕ) : ℤ) > 1 ∧ ((H : ℕ) : ℤ) > 1 := ⟨by omega, by omega⟩
    simp only [hWdn, hHdn, c1, c2, and_self, not_true_eq_false, if_false, Int.toNat_ofNat]
    rw [foldlM_writeColumn _
      (fun p => (resampleLine ((List.range H').map fun y => r1 p y) (1 / f)).getD []) W'
      (fun p hp => by
        obtain ⟨s, _, _, _, hres⟩ := hcolres p hp
        simp only [hres, Option.getD_some])]
    rw [Option.some_bind]
    exact foldlM_writeRow _ (fun y => (List.range W).map fun x => src x y) H
      (fun y hy => by
        show resampleLine ((List.range W').map fun x => tmp2 x y) (1 / f) = _
        rw [hrow y hy]
        exact (hline _ (map_range_ne_nil _ W (by omega))).2.2.2) d2
  · intro x y hx hy
    simp only [hy, if_true, getElem?_map_range _ W x hx]
  · intro x y hnot
    by_cases hy : y < H
    · have hx : ¬ x < W := fun hx => hnot ⟨hx, hy⟩
      have hnone : ((List.range W).map fun x => src x y)[x]? = none :=
        List.getElem?_eq_none (by rw [List.length_map, List.length_range]; omega)
      simp only [hy, if_true, hnone]
    · simp only [hy, if_false]

/-- Witness of `resampleImage_round_trip`: a `3 × 2` image enlarged by `3/2`
and shrunk again; the enlarged raster holds the source value `(0, 1)` at the
pixel `(0, 2)`, which lies in the block of that source pixel. -/
theorem resampleImage_round_trip_witness :
    (2 ≤ 3 ∧ 2 ≤ 2 ∧ (1 : ℚ) ≤ 3 / 2)
    ∧ ∃ r1, resampleImage (bandMask 0 0 255) 3 2 newImage (3 / 2) (3 / 2) = some r1
      ∧ (∀ s t p q : ℕ, s < 3 → t < 2 →
          ⌊(s : ℚ) * (3 / 2)⌋₊ ≤ p → p < ⌊((s + 1 : ℕ) : ℚ) * (3 / 2)⌋₊ →
          ⌊(t : ℚ) * (3 / 2)⌋₊ ≤ q → q < ⌊((t + 1 : ℕ) : ℚ) * (3 / 2)⌋₊ →
          r1 p q = bandMask 0 0 255 s t)
      ∧ (∀ p q : ℕ, p < ⌊((3 : ℕ) : ℚ) * (3 / 2)⌋₊ → q < ⌊((2 : ℕ) : ℚ) * (3 / 2)⌋₊ →
          ∃ s t : ℕ, s < 3 ∧ t < 2
            ∧ ⌊(s : ℚ) * (3 / 2)⌋₊ ≤ p ∧ p < ⌊((s + 1 : ℕ) : ℚ) * (3 / 2)⌋₊
            ∧ ⌊(t : ℚ) * (3 / 2)⌋₊ ≤ q ∧ q < ⌊((t + 1 : ℕ) : ℚ) * (3 / 2)⌋₊)
      ∧ (∀ p q : ℕ, ¬ (p < ⌊((3 : ℕ) : ℚ) * (3 / 2)⌋₊ ∧ q < ⌊((2 : ℕ) : ℚ) * (3 / 2)⌋₊) →
          r1 p q = (newImage : Raster ℕ) p q)
      ∧ ∃ r2, resampleImage r1 ⌊((3 : ℕ) : ℚ) * (3 / 2)⌋₊ ⌊((2 : ℕ) : ℚ) * (3 / 2)⌋₊ newImage
            (1 / (3 / 2)) (1 / (3 / 2)) = some r2
        ∧ (∀ x y : ℕ, x < 3 → y < 2 → r2 x y = bandMask 0 0 255 x y)
        ∧ ∀ x y : ℕ, ¬ (x < 3 ∧ y < 2) → r2 x y = (newImage : Raster ℕ) x y :=
  ⟨⟨by decide, by decide, by norm_num⟩,
    (resampleImage_round_trip (bandMask 0 0 255) 3 2 (by decide) (by decide) (3 / 2)
      (by norm_num) newImage newImage).2.2.2.2⟩


/-- Witness of `hugin_utils.gcd_spec`: `gcd 12 (-18) = 6`, and the common
divisor `3` divides it. -/
theorem hugin_utils.gcd_spec_witness :
    hugin_utils.gcd 12 (-18) = 6
      ∧ ((3 : ℤ) ∣ 12 ∧ (3 : ℤ) ∣ -18) ∧ (3 : ℤ) ∣ hugin_utils.gcd 12 (-18) :=
  ⟨(hugin_utils.gcd_spec 12 (-18)).1.trans (by decide),
    ⟨by decide, by decide⟩,
    (hugin_utils.gcd_spec 12 (-18)).2.2.2.2.1 3 (by decide) (by decide)⟩


/-! ## Distance to the region boundary -/

theorem parabola_crossing_one (c a cur v x : ℚ) (hc : c < cur) :
    (x - cur) ^ 2 + v ≤ (x - c) ^ 2 + a
      ↔ cur + (v - a - (cur - c) ^ 2) / (2 * (cur - c)) ≤ x := by
  have := parabola_crossing 1 c a cur v x one_pos hc
  simpa using this

theorem boundaryEntryOK_mono {w : ℚ} {F : ℤ → ℚ} {lo m : ℤ} {e : DistParabolaStackEntry}
    (h : BoundaryEntryOK w F lo m e) (hlo : lo ≤ m)
    (hnew : ∀ x, e.left ≤ x → x < e.right →
      (x - e.center) ^ 2 + e.apex_height ≤ (x - m) ^ 2 + F m) :
    BoundaryEntryOK w F lo (m + 1) e := by
  obtain ⟨⟨c, hc1, hc2, hcen, hap⟩, hr, hdom⟩ := h
  refine ⟨⟨c, hc1, by omega, hcen, hap⟩, hr, ?_⟩
  intro x hl hx j hj1 hj2
  rcases (show j < m ∨ j = m by omega) with hj | rfl
  · exact hdom x hl hx j hj1 hj
  · exact hnew x hl hx

theorem boundaryEntryOK_congr {w : ℚ} {F G : ℤ → ℚ} {lo hi : ℤ} {e : DistParabolaStackEntry}
    (h : BoundaryEntryOK w F lo hi e) (hFG : ∀ j, lo ≤ j → j < hi → F j = G j) :
    BoundaryEntryOK w G lo hi e := by
  obtain ⟨⟨c, hc1, hc2, hcen, hap⟩, hr, hdom⟩ := h
  refine ⟨⟨c, hc1, hc2, hcen, by rw [hap, hFG c hc1 hc2]⟩, hr, ?_⟩
  intro x hl hx j hj1 hj2
  rw [← hFG j hj1 hj2]
  exact hdom x hl hx j hj1 hj2

theorem boundaryInv_congr {w begin : ℚ} {F G : ℤ → ℚ} {lo hi : ℤ}
    {st : List DistParabolaStackEntry} (h : BoundaryInv w begin F lo hi st)
    (hFG : ∀ j, lo ≤ j → j < hi → F j = G j) : BoundaryInv w begin G lo hi st :=
  ⟨h.1, h.2.1, h.2.2.1, fun e he => boundaryEntryOK_congr (h.2.2.2 e he) hFG⟩

theorem coveredFrom_le_left {w begin : ℚ} (s : DistParabolaStackEntry)
    (rest : List DistParabolaStackEntry)
    (hbot : ∀ e, (s :: rest).getLast? = some e → e.left ≤ begin)
    (hch : List.Chain' (StackRel w) (s :: rest)) (x : ℚ)
    (hx : coveredFrom begin rest ≤ x) (hxw : x < w) : s.left ≤ x := by
  cases rest with
  | nil => exact le_trans (hbot s rfl) hx
  | cons t r =>
      rw [List.chain'_cons] at hch
      have hr : t.right = min s.left w := hch.1.1
      have hx' : min s.left w ≤ x := by rw [← hr]; exact hx
      rcases min_le_iff.mp hx' with h | h
      · exact h
      · exact absurd hxw (not_lt.mpr h)

theorem boundaryDistParabolaPush_inv (w begin : ℚ) (F : ℤ → ℚ) (lo m : ℤ) (hlo : lo ≤ m)
    (hbw : begin < w) :
    ∀ st, BoundaryPre w begin F lo m (F m) st →
      BoundaryInv w begin F lo (m + 1) (boundaryDistParabolaPush w begin m (F m) st) := by
  intro st
  induction st with
  | nil =>
      rintro ⟨_, _, _, hpend⟩
      unfold boundaryDistParabolaPush
      rw [if_pos hbw]
      refine ⟨⟨_, rfl, rfl⟩, ?_, List.chain'_singleton _, ?_⟩
      · intro e he
        simp only [List.getLast?_singleton, Option.some.injEq] at he
        rw [← he]
        exact le_refl _
      · intro e he
        simp only [List.mem_singleton] at he
        subst he
        refine ⟨⟨m, hlo, by omega, rfl, rfl⟩, le_refl _, ?_⟩
        intro x hl hx j hj1 hj2
        change begin ≤ x at hl
        change x < w at hx
        show (x - (m : ℚ)) ^ 2 + F m ≤ _
        rcases (show j < m ∨ j = m by omega) with hj | rfl
        · exact hpend x hl hx j hj1 hj
        · exact le_refl _
  | cons s rest ih =>
      rintro ⟨hbot, hch, hent, hpend⟩
      obtain ⟨⟨c, hc1, hc2, hcen, hap⟩, hsr, hsdom⟩ := hent s (List.mem_cons_self _ _)
      have hcm : s.center < (m : ℚ) := by rw [hcen]; exact_mod_cast hc2
      have cross : ∀ x : ℚ, (x - m) ^ 2 + F m ≤ (x - s.center) ^ 2 + s.apex_height
          ↔ (m : ℚ) + (F m - s.apex_height - ((m : ℚ) - s.center) ^ 2)
              / (2 * ((m : ℚ) - s.center)) ≤ x := by
        intro x
        exact parabola_crossing_one s.center s.apex_height m (F m) x hcm
      have hsval : ∀ x : ℚ, (x - s.center) ^ 2 + s.apex_height = (x - c) ^ 2 + F c := by
        intro x
        rw [hcen, hap]
      have hbelow : ∀ e ∈ rest, e.right ≤ s.left := StackChain.right_le_left s rest hch
      have hrest : ∀ I : ℚ, s.left ≤ I →
          (∀ x : ℚ, x < I → (x - s.center) ^ 2 + s.apex_height ≤ (x - m) ^ 2 + F m) →
          ∀ e ∈ rest, BoundaryEntryOK w F lo (m + 1) e := by
        intro I hI hlow e he
        have heok := hent e (List.mem_cons_of_mem _ he)
        refine boundaryEntryOK_mono heok hlo ?_
        intro x hl hx
        have hxI : x < I := lt_of_lt_of_le hx (le_trans (hbelow e he) hI)
        have h1 := heok.2.2 x hl hx c hc1 hc2
        rw [← hsval x] at h1
        exact le_trans h1 (hlow x hxI)
      unfold boundaryDistParabolaPush
      simp only
      generalize hI : (m : ℚ) + (F m - s.apex_height - ((m : ℚ) - s.center) ^ 2)
              / (2 * ((m : ℚ) - s.center)) = I at cross ⊢
      have hlow : ∀ x : ℚ, x < I →
          (x - s.center) ^ 2 + s.apex_height ≤ (x - m) ^ 2 + F m := by
        intro x hx
        by_contra hcon
        have := (cross x).mp (le_of_lt (not_le.mp hcon))
        exact absurd hx (not_lt.mpr this)
      have hnewOK : ∀ (below : List DistParabolaStackEntry), s.left ≤ I → I < w →
          (∀ x, I ≤ x → x < w → ∀ j : ℤ, lo ≤ j → j < m →
            (x - m) ^ 2 + F m ≤ (x - j) ^ 2 + F j) →
          BoundaryEntryOK w F lo (m + 1) (Influence (F m) I m w) := by
        intro _ _ _ hd
        refine ⟨⟨m, hlo, by omega, rfl, rfl⟩, le_refl _, ?_⟩
        intro x hl hx j hj1 hj2
        change I ≤ x at hl
        change x < w at hx
        show (x - (m : ℚ)) ^ 2 + F m ≤ _
        rcases (show j < m ∨ j = m by omega) with hj | rfl
        · exact hd x hl hx j hj1 hj
        · exact le_refl _
      split_ifs with h1 h2 h3 h4
      · -- the top entry has no influence: pop it
        apply ih
        refine ⟨?_, hch.tail, fun e he => hent e (List.mem_cons_of_mem _ he), ?_⟩
        · intro e he
          exact hbot e (getLast?_tail_of_cons s rest e he)
        · intro x hcov hxw j hj1 hj2
          have hl : s.left ≤ x := coveredFrom_le_left s rest hbot hch x hcov hxw
          by_cases hx : x < s.right
          · exact le_trans ((cross x).mpr (le_trans h1.le hl)) (hsdom x hl hx j hj1 hj2)
          · exact hpend x (not_lt.mp hx) hxw j hj1 hj2
      · -- the new parabola takes over from `intersection` on
        have hI1 : s.left ≤ I := not_lt.mp h1
        refine ⟨⟨_, rfl, rfl⟩, ?_, ?_, ?_⟩
        · intro e he
          rw [List.getLast?_cons_cons] at he
          cases rest with
          | nil =>
              simp only [List.getLast?_singleton, Option.some.injEq] at he
              rw [← he]
              exact hbot s rfl
          | cons t r =>
              rw [List.getLast?_cons_cons] at he
              apply hbot e
              rw [List.getLast?_cons_cons]
              exact he
        · rw [List.chain'_cons]
          refine ⟨⟨?_, hI1⟩, ?_⟩
          · show I = min I w
            rw [min_eq_left h3.le]
          · cases rest with
            | nil => exact List.chain'_singleton _
            | cons t r =>
                rw [List.chain'_cons] at hch ⊢
                exact hch
        · intro e he
          rcases List.mem_cons.mp he with rfl | he
          · apply hnewOK rest hI1 h3
            intro x hl hx j hj1 hj2
            by_cases hxr : x < s.right
            · exact le_trans ((cross x).mpr hl) (hsdom x (le_trans hI1 hl) hxr j hj1 hj2)
            · exact hpend x (not_lt.mp hxr) hx j hj1 hj2
          rcases List.mem_cons.mp he with rfl | he
          · refine boundaryEntryOK_mono ⟨⟨c, hc1, hc2, hcen, hap⟩, le_trans h2.le hsr, ?_⟩ hlo ?_
            · intro x hl hx j hj1 hj2
              change x < I at hx
              exact hsdom x hl (lt_trans hx h2) j hj1 hj2
            · intro x _ hx
              change x < I at hx
              exact hlow x hx
          · exact hrest I hI1 hlow e he
      · -- unreachable: the intersection lies left of a right bound that is at most `w`
        exact absurd (lt_of_lt_of_le h2 hsr) h3
      · -- the new parabola starts at or beyond the right bound of the top entry
        have hI1 : s.left ≤ I := not_lt.mp h1
        have hI2 : s.right ≤ I := not_lt.mp h2
        refine ⟨⟨_, rfl, rfl⟩, ?_, ?_, ?_⟩
        · intro e he
          rw [List.getLast?_cons_cons] at he
          exact hbot e he
        · rw [List.chain'_cons]
          refine ⟨⟨?_, hI1⟩, hch⟩
          show s.right = min I w
          have hlt : s.right < w := lt_of_le_of_lt hI2 h4
          have h3' := hpend s.right (le_refl _) hlt c hc1 hc2
          rw [← hsval] at h3'
          have h4' := (cross s.right).mp h3'
          have h5 : I = s.right := le_antisymm h4' hI2
          rw [h5, min_eq_left hsr]
        · intro e he
          rcases List.mem_cons.mp he with rfl | he
          · apply hnewOK rest hI1 h4
            intro x hl hx j hj1 hj2
            exact hpend x (le_trans hI2 hl) hx j hj1 hj2
          rcases List.mem_cons.mp he with rfl | he
          · refine boundaryEntryOK_mono ⟨⟨c, hc1, hc2, hcen, hap⟩, hsr, hsdom⟩ hlo ?_
            intro x _ hx
            exact hlow x (lt_of_lt_of_le hx hI2)
          · exact hrest I hI1 hlow e he
      · -- the new parabola has no influence inside the line: nothing is pushed
        have hI1 : s.left ≤ I := not_lt.mp h1
        have hI2 : s.right ≤ I := not_lt.mp h2
        have hIw : w ≤ I := not_lt.mp h4
        have hsw : s.right = w := by
          rcases lt_or_eq_of_le hsr with hlt | heq
          · have h3' := hpend s.right (le_refl _) hlt c hc1 hc2
            rw [← hsval] at h3'
            have h4' := (cross s.right).mp h3'
            exact absurd (lt_of_le_of_lt h4' hlt) (not_lt.mpr hIw)
          · exact heq
        refine ⟨⟨s, rfl, hsw⟩, hbot, hch, ?_⟩
        intro e he
        rcases List.mem_cons.mp he with rfl | he
        · refine boundaryEntryOK_mono ⟨⟨c, hc1, hc2, hcen, hap⟩, hsr, hsdom⟩ hlo ?_
          intro x _ hx
          exact hlow x (lt_of_lt_of_le hx hI2)
        · exact hrest I hI1 hlow e he

theorem BoundaryInv.toPre {w begin : ℚ} {F : ℤ → ℚ} {lo m : ℤ}
    {st : List DistParabolaStackEntry} (h : BoundaryInv w begin F lo m st) (v : ℚ) :
    BoundaryPre w begin F lo m v st := by
  obtain ⟨⟨top, htop, hright⟩, hbot, hch, hent⟩ := h
  refine ⟨hbot, hch, hent, ?_⟩
  intro x hcov hxw
  cases st with
  | nil => simp at htop
  | cons s rest =>
      simp only [List.head?_cons, Option.some.injEq] at htop
      subst htop
      have : w ≤ x := by rw [← hright]; exact hcov
      exact absurd hxw (not_lt.mpr this)

theorem boundaryDistParabolaEmit_eq (n : ℕ) :
    ∀ (c : ℚ) (it : List DistParabolaStackEntry),
      boundaryDistParabolaEmit n c it = distParabolaEmit 1 n c it := by
  induction n with
  | zero => intro c it; rfl
  | succ n ih =>
      intro c it
      rw [boundaryDistParabolaEmit, distParabolaEmit]
      cases h : distParabolaAdvance c it with
      | nil => rfl
      | cons e rest =>
          simp only
          rw [ih, one_mul]

theorem boundaryDistParabolaEmit_spec (W begin k : ℕ) (G : ℤ → ℚ) (lo hi : ℤ)
    (st : List DistParabolaStackEntry)
    (hinv : BoundaryInv (W : ℚ) (begin : ℚ) G lo hi st) (hk : begin + k ≤ W) :
    (boundaryDistParabolaEmit k begin st.reverse).length = k
      ∧ ∀ i, i < k →
          (∃ j : ℤ, lo ≤ j ∧ j < hi
            ∧ (boundaryDistParabolaEmit k begin st.reverse).getD i 0
              = (((begin + i : ℕ) : ℚ) - j) ^ 2 + G j)
          ∧ ∀ j : ℤ, lo ≤ j → j < hi →
              (boundaryDistParabolaEmit k begin st.reverse).getD i 0
                ≤ (((begin + i : ℕ) : ℚ) - j) ^ 2 + G j := by
  obtain ⟨⟨top, htop, hright⟩, hbot, hch, hent⟩ := hinv
  have hpre : EmitPre (W : ℚ) ((begin : ℕ) : ℚ) st.reverse := by
    refine ⟨List.chain'_reverse.mpr hch, ⟨top, ?_, hright⟩, ?_⟩
    · rw [List.getLast?_reverse]; exact htop
    · intro e he
      rw [List.head?_reverse] at he
      exact le_trans (min_le_left _ _) (hbot e he)
  have hkq : ((begin + k : ℕ) : ℚ) ≤ (W : ℚ) := by exact_mod_cast hk
  obtain ⟨hlen, hval⟩ := distParabolaEmit_spec 1 (W : ℚ) k begin _ hkq hpre
  rw [boundaryDistParabolaEmit_eq]
  refine ⟨hlen, ?_⟩
  intro i hi
  obtain ⟨e, he, hl, hr, hv⟩ := hval i hi
  obtain ⟨⟨c, hc1, hc2, hcen, hap⟩, _, hdom⟩ := hent e (List.mem_reverse.mp he)
  rw [hv]
  have hev : entryValue 1 e ((begin + i : ℕ) : ℚ)
      = (((begin + i : ℕ) : ℚ) - e.center) ^ 2 + e.apex_height := by
    simp [entryValue]
  rw [hev]
  refine ⟨⟨c, hc1, hc2, by rw [hcen, hap]⟩, ?_⟩
  intro j hj1 hj2
  exact hdom _ hl hr j hj1 hj2

theorem boundaryDistParabolaPush_step (W begin current : ℕ) (F : ℤ → ℚ) (lo : ℤ) (v : ℚ)
    (hlo : lo ≤ (current : ℤ)) (hbW : begin < W) (hF : F (current : ℤ) = v)
    (st : List DistParabolaStackEntry)
    (hinv : BoundaryInv (W : ℚ) (begin : ℚ) F lo (current : ℤ) st) :
    BoundaryInv (W : ℚ) (begin : ℚ) F lo ((current + 1 : ℕ) : ℤ)
      (boundaryDistParabolaPush (W : ℚ) (begin : ℚ) (current : ℚ) v st) := by
  have h := boundaryDistParabolaPush_inv (W : ℚ) (begin : ℚ) F lo (current : ℤ) hlo
    (by exact_mod_cast hbW) st (hinv.toPre _)
  rw [Int.cast_natCast] at h
  have e : (((current + 1 : ℕ) : ℤ)) = (current : ℤ) + 1 := by push_cast; rfl
  rw [e, ← hF]
  exact h

theorem boundaryDistParabolaLoop_spec {L : Type} [DecidableEq L] (lab : ℕ → L) (val : ℕ → ℚ)
    (W : ℕ) (dmax : ℚ) (active : Bool) :
    ∀ (rest : List (L × ℚ)) (current begin : ℕ) (stack : List DistParabolaStackEntry),
      current + rest.length = W →
      (∀ i, i < rest.length → rest[i]? = some (lab (current + i), val (current + i))) →
      begin ≤ current → begin < W →
      (∀ i, begin ≤ i → i < current → lab i = lab begin) →
      (begin = 0 ∨ lab (begin - 1) ≠ lab begin) →
      BoundaryInv (W : ℚ) (begin : ℚ)
        (fun j : ℤ => if j < begin then (if begin = 0 then (if active then 0 else dmax) else 0)
          else val j.toNat) ((begin : ℤ) - 1) current stack →
      (boundaryDistParabolaLoop (W : ℚ) dmax active rest current begin (lab begin) stack).length
          = W - begin
        ∧ ∀ p, begin ≤ p → p < W →
            RunMin lab val W (if active then 0 else dmax) p
              ((boundaryDistParabolaLoop (W : ℚ) dmax active rest current begin (lab begin)
                stack).getD (p - begin) 0) := by
  intro rest
  induction rest with
  | nil =>
      intro current begin stack hlen _ hbc hbW hlab hleft hinv
      simp only [List.length_nil, add_zero] at hlen
      subst hlen
      set border : ℚ := if active then 0 else dmax with hborder
      have hG : ∀ j : ℤ, (begin : ℤ) - 1 ≤ j → j < (current : ℤ) →
          (fun j : ℤ => if j < begin then (if begin = 0 then border else 0) else val j.toNat) j
            = segApex val current border begin current j := by
        intro j _ hj2
        simp only [segApex]
        by_cases h : j < (begin : ℤ)
        · rw [if_pos h, if_pos h]
        · rw [if_neg h, if_neg h, if_pos hj2]
      have hinvG := boundaryInv_congr hinv hG
      have hGW : segApex val current border begin current (current : ℤ) = border := by
        simp only [segApex]
        rw [if_neg (by omega), if_neg (by omega)]
        simp
      have hpush := boundaryDistParabolaPush_step current begin current
        (segApex val current border begin current) ((begin : ℤ) - 1) border (by omega) hbW hGW
        stack hinvG
      have hk : begin + (current - begin) ≤ current := by omega
      obtain ⟨hl, hv⟩ := boundaryDistParabolaEmit_spec current begin (current - begin) _ _ _ _
        hpush hk
      have hdef : boundaryDistParabolaLoop (current : ℚ) dmax active ([] : List (L × ℚ))
            current begin (lab begin) stack
          = boundaryDistParabolaEmit (current - begin) begin
              (boundaryDistParabolaPush (current : ℚ) begin current border stack).reverse := rfl
      rw [hdef]
      refine ⟨hl, ?_⟩
      intro p hp1 hp2
      have hlp : lab p = lab begin := hlab p hp1 hp2
      obtain ⟨⟨j, hj1, hj2, hjv⟩, hle⟩ := hv (p - begin) (by omega)
      have hidx : begin + (p - begin) = p := by omega
      rw [hidx] at hjv hle
      refine ⟨begin, current, hp1, hp2, le_refl _, ?_, ?_, Or.inl rfl, ⟨j, hj1, by omega, hjv⟩, ?_⟩
      · intro i hi1 hi2
        rw [hlp]
        exact hlab i hi1 hi2
      · rw [hlp]
        exact hleft
      · intro j hj1 hj2
        exact hle j hj1 (by omega)
  | cons lv rest ih =>
      intro current begin stack hlen hrest hbc hbW hlab hleft hinv
      obtain ⟨l, v⟩ := lv
      have h0 := hrest 0 (by simp)
      simp only [List.getElem?_cons_zero, Option.some.injEq, Prod.mk.injEq, add_zero] at h0
      obtain ⟨hl0, hv0⟩ := h0
      subst hl0
      subst hv0
      have hcW : current < W := by
        simp only [List.length_cons] at hlen
        omega
      have hlen' : current + 1 + rest.length = W := by
        simp only [List.length_cons] at hlen
        omega
      have hrest' : ∀ i, i < rest.length →
          rest[i]? = some (lab (current + 1 + i), val (current + 1 + i)) := by
        intro i hi
        have := hrest (i + 1) (by simp; omega)
        rw [List.getElem?_cons_succ] at this
        rw [this]
        have e : current + (i + 1) = current + 1 + i := by ring
        rw [e]
      set border : ℚ := if active then 0 else dmax with hborder
      rw [boundaryDistParabolaLoop]
      by_cases hsame : lab begin = lab current
      · -- the label continues: push the value of the pixel
        rw [if_pos hsame]
        have hFm : (fun j : ℤ => if j < begin then (if begin = 0 then border else 0)
            else val j.toNat) (current : ℤ) = val current := by
          simp only
          rw [if_neg (by omega)]
          simp
        have hpush' := boundaryDistParabolaPush_step W begin current _ ((begin : ℤ) - 1)
          (val current) (by omega) hbW hFm stack hinv
        exact ih (current + 1) begin _ hlen' hrest' (by omega) hbW
          (fun i hi1 hi2 => by
            rcases (show i < current ∨ i = current by omega) with h | h
            · exact hlab i hi1 h
            · rw [h]; exact hsame.symm)
          hleft hpush'
      · -- the label changes: close the segment and start a new one
        rw [if_neg hsame]
        have hbc' : begin < current := by
          rcases (show begin < current ∨ begin = current by omega) with h | h
          · exact h
          · exact absurd (by rw [h]) hsame
        have hG : ∀ j : ℤ, (begin : ℤ) - 1 ≤ j → j < (current : ℤ) →
            (fun j : ℤ => if j < begin then (if begin = 0 then border else 0) else val j.toNat) j
              = segApex val W border begin current j := by
          intro j _ hj2
          simp only [segApex]
          by_cases h : j < (begin : ℤ)
          · rw [if_pos h, if_pos h]
          · rw [if_neg h, if_neg h, if_pos hj2]
        have hinvG := boundaryInv_congr hinv hG
        have hGc : segApex val W border begin current (current : ℤ) = 0 := by
          simp only [segApex]
          rw [if_neg (by omega), if_neg (by omega), if_neg (by omega)]
        have hclosed := boundaryDistParabolaPush_step W begin current
          (segApex val W border begin current) ((begin : ℤ) - 1) 0 (by omega) hbW hGc
          stack hinvG
        have hk : begin + (current - begin) ≤ W := by omega
        obtain ⟨hl, hv⟩ := boundaryDistParabolaEmit_spec W begin (current - begin) _ _ _ _
          hclosed hk
        -- the new segment
        have hcur0 : current ≠ 0 := by omega
        have hinit : BoundaryInv (W : ℚ) (current : ℚ)
            (fun j : ℤ => if j < current then (if current = 0 then border else 0)
              else val j.toNat) ((current : ℤ) - 1) (current : ℤ)
            [Influence 0 ((current : ℚ) - 1) ((current : ℚ) - 1) W] := by
          refine ⟨⟨_, rfl, rfl⟩, ?_, List.chain'_singleton _, ?_⟩
          · intro e he
            simp only [List.getLast?_singleton, Option.some.injEq] at he
            rw [← he]
            show (current : ℚ) - 1 ≤ current
            linarith
          · intro e he
            simp only [List.mem_singleton] at he
            subst he
            refine ⟨⟨(current : ℤ) - 1, le_refl _, by omega, ?_, ?_⟩, le_refl _, ?_⟩
            · show (current : ℚ) - 1 = (((current : ℤ) - 1 : ℤ) : ℚ)
              push_cast
              rfl
            · show (0 : ℚ) = _
              simp only
              rw [if_pos (by omega), if_neg hcur0]
            · intro x _ _ j hj1 hj2
              have hj : j = (current : ℤ) - 1 := by omega
              subst hj
              show (x - ((current : ℚ) - 1)) ^ 2 + 0 ≤ _
              simp only
              rw [if_pos (by omega), if_neg hcur0]
              push_cast
              exact le_refl _
        have hFm : (fun j : ℤ => if j < current then (if current = 0 then border else 0)
            else val j.toNat) (current : ℤ) = val current := by
          simp only
          rw [if_neg (by omega)]
          simp
        have hpush' := boundaryDistParabolaPush_step W current current _ ((current : ℤ) - 1)
          (val current) (by omega) hcW hFm _ hinit
        have hprev : lab (current - 1) = lab begin := hlab (current - 1) (by omega) (by omega)
        obtain ⟨hl2, hv2⟩ := ih (current + 1) current _ hlen' hrest' (by omega) hcW
          (fun i hi1 hi2 => by
            have : i = current := by omega
            rw [this])
          (Or.inr (by rw [hprev]; exact hsame)) hpush'
        simp only
        constructor
        · rw [List.length_append, hl, hl2]
          omega
        · intro p hp1 hp2
          by_cases hpc : p < current
          · rw [List.getD_append _ _ _ _ (by rw [hl]; omega)]
            have hlp : lab p = lab begin := hlab p hp1 hpc
            obtain ⟨⟨j, hj1, hj2, hjv⟩, hle⟩ := hv (p - begin) (by omega)
            have hidx : begin + (p - begin) = p := by omega
            rw [hidx] at hjv hle
            refine ⟨begin, current, hp1, hpc, by omega, ?_, ?_, Or.inr ?_,
              ⟨j, hj1, by omega, hjv⟩, ?_⟩
            · intro i hi1 hi2
              rw [hlp]
              exact hlab i hi1 hi2
            · rw [hlp]
              exact hleft
            · rw [hlp]
              exact fun h => hsame h.symm
            · intro j hj1 hj2
              exact hle j hj1 (by omega)
          · rw [List.getD_append_right _ _ _ _ (by rw [hl]; omega), hl]
            have hidx : p - begin - (current - begin) = p - current := by omega
            rw [hidx]
            exact hv2 p (by omega) hp2

/-- The values written by `boundaryDistParabola` on a line of `W ≥ 1` pixels:
one value per pixel, each the run minimum of its position. -/
theorem boundaryDistParabola_spec {L : Type} [DecidableEq L] (lab : ℕ → L) (val : ℕ → ℚ)
    (W : ℕ) (hW : 0 < W) (dmax : ℚ) (active : Bool) :
    (boundaryDistParabola ((List.range W).map val) ((List.range W).map lab) dmax active).length
        = W
      ∧ ∀ p, p < W →
          RunMin lab val W (if active then 0 else dmax) p
            ((boundaryDistParabola ((List.range W).map val) ((List.range W).map lab) dmax
              active).getD p 0) := by
  have hz : ((List.range W).map lab).zip ((List.range W).map val)
      = (List.range W).map (fun i => (lab i, val i)) := by
    rw [List.zip_map']
  have hget : ∀ i, i < W →
      ((List.range W).map (fun i => (lab i, val i)))[i]? = some (lab i, val i) := by
    intro i hi
    simp [List.getElem?_map, List.getElem?_range, hi]
  have hlenZ : ((List.range W).map (fun i => (lab i, val i))).length = W := by simp
  cases hZ : (List.range W).map (fun i => (lab i, val i)) with
  | nil =>
      rw [hZ] at hlenZ
      simp at hlenZ
      omega
  | cons a rest =>
      have ha : a = (lab 0, val 0) := by
        have := hget 0 hW
        rw [hZ] at this
        simpa using this
      subst ha
      have hdef : boundaryDistParabola ((List.range W).map val) ((List.range W).map lab) dmax
            active
          = boundaryDistParabolaLoop (W : ℚ) dmax active ((lab 0, val 0) :: rest) 0 0 (lab 0)
              [Influence (if active then 0 else dmax) 0 (-1) W] := by
        unfold boundaryDistParabola
        rw [hz, hZ]
        simp
      rw [hdef]
      have hinit : BoundaryInv (W : ℚ) ((0 : ℕ) : ℚ)
          (fun j : ℤ => if j < ((0 : ℕ) : ℤ) then (if 0 = 0 then (if active then 0 else dmax)
            else 0) else val j.toNat) (((0 : ℕ) : ℤ) - 1) ((0 : ℕ) : ℤ)
          [Influence (if active then 0 else dmax) 0 (-1) W] := by
        refine ⟨⟨_, rfl, rfl⟩, ?_, List.chain'_singleton _, ?_⟩
        · intro e he
          simp only [List.getLast?_singleton, Option.some.injEq] at he
          rw [← he]
          show (0 : ℚ) ≤ ((0 : ℕ) : ℚ)
          simp
        · intro e he
          simp only [List.mem_singleton] at he
          subst he
          refine ⟨⟨-1, by simp, by simp, ?_, ?_⟩, le_refl _, ?_⟩
          · show (-1 : ℚ) = (((-1 : ℤ)) : ℚ)
            simp
          · show (if active then (0 : ℚ) else dmax) = _
            simp
          · intro x _ _ j hj1 hj2
            have hj : j = -1 := by
              simp only [Nat.cast_zero, zero_sub] at hj1 hj2
              omega
            subst hj
            show (x - (-1 : ℚ)) ^ 2 + (if active then (0 : ℚ) else dmax) ≤ _
            simp
      have hspec := boundaryDistParabolaLoop_spec lab val W dmax active
        ((lab 0, val 0) :: rest) 0 0 _ (by rw [← hZ, hlenZ]; simp)
        (fun i hi => by
          rw [← hZ] at hi ⊢
          rw [hlenZ] at hi
          rw [zero_add]
          exact hget i hi)
        (le_refl 0) hW (fun i _ hi => absurd hi (Nat.not_lt_zero i)) (Or.inl rfl) hinit
      simpa using hspec

theorem boundaryDistParabola_length {L : Type} [DecidableEq L] (lab : ℕ → L) (val : ℕ → ℚ)
    (W : ℕ) (dmax : ℚ) (active : Bool) :
    (boundaryDistParabola ((List.range W).map val) ((List.range W).map lab) dmax active).length
      = W := by
  rcases Nat.eq_zero_or_pos W with h0 | hpos
  · subst h0
    simp [boundaryDistParabola]
  · exact (boundaryDistParabola_spec lab val W hpos dmax active).1

theorem lineX_congr (d d' : Raster ℚ) (w y : ℕ) (hd : ∀ x, x < w → d x y = d' x y) :
    lineX d w y = lineX d' w y := by
  unfold lineX
  apply List.map_congr_left
  intro x hx
  exact hd x (List.mem_range.mp hx)

theorem rowPass_apply (w : ℕ) (T : ℕ → List ℚ → List ℚ)
    (hT : ∀ (y : ℕ) (d : Raster ℚ), (T y (lineX d w y)).length = w) :
    ∀ (n : ℕ) (d0 : Raster ℚ) (x y : ℕ),
      (List.range n).foldl (fun d y => writeLineX d y (T y (lineX d w y))) d0 x y
        = if y < n ∧ x < w then (T y (lineX d0 w y)).getD x 0 else d0 x y := by
  intro n
  induction n with
  | zero => intro d0 x y; simp
  | succ n ih =>
      intro d0 x y
      rw [List.range_succ, List.foldl_append]
      simp only [List.foldl_cons, List.foldl_nil]
      have hline : lineX ((List.range n).foldl (fun d y =>
          writeLineX d y (T y (lineX d w y))) d0) w n = lineX d0 w n := by
        apply lineX_congr
        intro x' _
        rw [ih]
        simp
      rw [writeLineX_apply, hT, hline, ih]
      by_cases hy : y = n
      · subst hy
        by_cases hx : x < w
        · simp [hx]
        · simp [hx]
      · by_cases hyn : y < n
        · have : y < n + 1 := by omega
          simp [hy, hyn, this]
        · have : ¬ y < n + 1 := by omega
          simp [hy, hyn, this]

theorem colPass_apply (h : ℕ) (T : ℕ → List ℚ → List ℚ)
    (hT : ∀ (x : ℕ) (d : Raster ℚ), (T x (lineY d h x)).length = h) :
    ∀ (n : ℕ) (d0 : Raster ℚ) (x y : ℕ),
      (List.range n).foldl (fun d x => writeLineY d x (T x (lineY d h x))) d0 x y
        = if x < n ∧ y < h then (T x (lineY d0 h x)).getD y 0 else d0 x y := by
  intro n
  induction n with
  | zero => intro d0 x y; simp
  | succ n ih =>
      intro d0 x y
      rw [List.range_succ, List.foldl_append]
      simp only [List.foldl_cons, List.foldl_nil]
      have hline : lineY ((List.range n).foldl (fun d x =>
          writeLineY d x (T x (lineY d h x))) d0) h n = lineY d0 h n := by
        apply lineY_congr
        intro y' _
        rw [ih]
        simp
      rw [writeLineY_apply, hT, hline, ih]
      by_cases hx : x = n
      · subst hx
        by_cases hy : y < h
        · simp [hy]
        · simp [hy]
      · by_cases hxn : x < n
        · have : x < n + 1 := by omega
          simp [hx, hxn, this]
        · have : ¬ x < n + 1 := by omega
          simp [hx, hxn, this]

theorem RunMin.upper {L : Type} {lab : ℕ → L} {val : ℕ → ℚ} {W : ℕ} {border : ℚ} {p : ℕ}
    {v : ℚ} (hrun : RunMin lab val W border p v) (q : ℕ) (hq : q < W) (hne : lab q ≠ lab p) :
    v ≤ ((p : ℚ) - q) ^ 2 := by
  obtain ⟨b, e, hbp, hpe, heW, hlab, hleft, hright, _, hle⟩ := hrun
  have hout : q < b ∨ e ≤ q := by
    by_contra hcon
    push_neg at hcon
    exact hne (hlab q hcon.1 hcon.2)
  rcases hout with hqb | heq
  · have hb0 : b ≠ 0 := by omega
    have h1 := hle ((b : ℤ) - 1) (le_refl _) (by omega)
    have hap : segApex val W border b e ((b : ℤ) - 1) = 0 := by
      simp only [segApex]
      rw [if_pos (by omega), if_neg hb0]
    rw [hap, add_zero] at h1
    refine le_trans h1 ?_
    have hqb' : (q : ℚ) ≤ (b : ℚ) - 1 := by
      have : q + 1 ≤ b := hqb
      have : ((q + 1 : ℕ) : ℚ) ≤ (b : ℚ) := by exact_mod_cast this
      push_cast at this
      linarith
    have hbp' : (b : ℚ) ≤ p := by exact_mod_cast hbp
    push_cast
    apply sq_le_sq'
    · linarith
    · linarith
  · have heW' : e ≠ W := by omega
    have h1 := hle (e : ℤ) (by omega) (le_refl _)
    have hap : segApex val W border b e (e : ℤ) = 0 := by
      simp only [segApex]
      rw [if_neg (by omega), if_neg (by omega), if_neg heW']
    rw [hap, add_zero] at h1
    refine le_trans h1 ?_
    have hpe' : (p : ℚ) < e := by exact_mod_cast hpe
    have heq' : (e : ℚ) ≤ q := by exact_mod_cast heq
    push_cast
    rw [← neg_sq ((p : ℚ) - e), ← neg_sq ((p : ℚ) - q)]
    apply sq_le_sq'
    · linarith
    · linarith

theorem RunMin.attained {L : Type} {lab : ℕ → L} {val : ℕ → ℚ} {W : ℕ} {border : ℚ} {p : ℕ}
    {v : ℚ} (hrun : RunMin lab val W border p v) :
    border ≤ v
      ∨ (∃ q, q < W ∧ lab q ≠ lab p ∧ v = ((p : ℚ) - q) ^ 2)
      ∨ ∃ q, q < W ∧ lab q = lab p ∧ v = ((p : ℚ) - q) ^ 2 + val q := by
  obtain ⟨b, e, hbp, hpe, heW, hlab, hleft, hright, ⟨j, hj1, hj2, hv⟩, _⟩ := hrun
  by_cases hjb : j < (b : ℤ)
  · have hj : j = (b : ℤ) - 1 := by omega
    by_cases hb0 : b = 0
    · left
      rw [hv]
      simp only [segApex]
      rw [if_pos hjb, if_pos hb0]
      have := sq_nonneg ((p : ℚ) - j)
      linarith
    · right
      left
      refine ⟨b - 1, by omega, ?_, ?_⟩
      · rcases hleft with h | h
        · exact absurd h hb0
        · exact h
      · rw [hv]
        simp only [segApex]
        rw [if_pos hjb, if_neg hb0, add_zero, hj]
        have : ((b - 1 : ℕ) : ℚ) = (b : ℚ) - 1 := by
          have hb1 : 1 ≤ b := Nat.one_le_iff_ne_zero.mpr hb0
          push_cast [Nat.cast_sub hb1]
          rfl
        rw [this]
        push_cast
        rfl
  · by_cases hje : j < (e : ℤ)
    · right
      right
      refine ⟨j.toNat, by omega, hlab j.toNat (by omega) (by omega), ?_⟩
      rw [hv]
      simp only [segApex]
      rw [if_neg hjb, if_pos hje]
      have : ((j.toNat : ℕ) : ℚ) = (j : ℚ) := by
        have h0 : (0 : ℤ) ≤ j := by omega
        have : ((j.toNat : ℕ) : ℤ) = j := Int.toNat_of_nonneg h0
        exact_mod_cast congrArg (fun z : ℤ => (z : ℚ)) this
      rw [this]
    · have hj : j = (e : ℤ) := by omega
      by_cases heW' : e = W
      · left
        rw [hv]
        simp only [segApex]
        rw [if_neg hjb, if_neg hje, if_pos heW']
        have := sq_nonneg ((p : ℚ) - j)
        linarith
      · right
        left
        refine ⟨e, by omega, ?_, ?_⟩
        · rcases hright with h | h
          · exact absurd h heW'
          · exact h
        · rw [hv]
          simp only [segApex]
          rw [if_neg hjb, if_neg hje, if_neg heW', add_zero, hj]
          push_cast
          rfl

theorem RunMin.le_same {L : Type} {lab : ℕ → L} {val : ℕ → ℚ} {W : ℕ} {border : ℚ} {p : ℕ}
    {v : ℚ} (hrun : RunMin lab val W border p v) (q : ℕ) (hq : q < W)
    (hsame : ∀ i, min p q ≤ i → i ≤ max p q → lab i = lab p) :
    v ≤ ((p : ℚ) - q) ^ 2 + val q := by
  obtain ⟨b, e, hbp, hpe, heW, hlab, hleft, hright, _, hle⟩ := hrun
  have hbq : b ≤ q := by
    by_contra hcon
    push_neg at hcon
    rcases hleft with h | h
    · omega
    · exact h (hsame (b - 1) (by rw [min_def]; split_ifs <;> omega)
        (by rw [max_def]; split_ifs <;> omega))
  have hqe : q < e := by
    by_contra hcon
    push_neg at hcon
    rcases hright with h | h
    · omega
    · exact h (hsame e (by rw [min_def]; split_ifs <;> omega)
        (by rw [max_def]; split_ifs <;> omega))
  have h1 := hle (q : ℤ) (by omega) (by omega)
  have hap : segApex val W border b e (q : ℤ) = val q := by
    simp only [segApex]
    rw [if_neg (by omega), if_pos (by omega)]
    simp
  rw [hap] at h1
  exact_mod_cast h1

theorem internalBoundaryMultiArrayDist_runs {L : Type} [DecidableEq L] (labels : Raster L)
    (w h : ℕ) (dest : Raster ℚ) (dmax : ℚ) (active : Bool) :
    ∃ pass0 : Raster ℚ,
      (∀ x y, x < w → y < h →
        RunMin (fun x => labels x y) (fun _ => dmax) w (if active then 0 else dmax) x
          (pass0 x y))
      ∧ ∀ x y, x < w → y < h →
        RunMin (fun y => labels x y) (fun y => pass0 x y) h (if active then 0 else dmax) y
          (internalBoundaryMultiArrayDist labels w h dest dmax active x y) := by
  set dest0 : Raster ℚ := fun x y => if x < w ∧ y < h then dmax else dest x y with hdest0
  set pass0 : Raster ℚ := (List.range h).foldl (fun d y =>
    writeLineX d y (boundaryDistParabola (lineX d w y)
      ((List.range w).map fun x => labels x y) dmax active)) dest0 with hpass0
  have hT0 : ∀ (y : ℕ) (d : Raster ℚ), (boundaryDistParabola (lineX d w y)
      ((List.range w).map fun x => labels x y) dmax active).length = w :=
    fun y d => boundaryDistParabola_length (fun x => labels x y) (fun x => d x y) w dmax active
  have hT1 : ∀ (x : ℕ) (d : Raster ℚ), (boundaryDistParabola (lineY d h x)
      ((List.range h).map fun y => labels x y) dmax active).length = h :=
    fun x d => boundaryDistParabola_length (fun y => labels x y) (fun y => d x y) h dmax active
  have hp0 : ∀ x y, x < w → y < h → pass0 x y
      = (boundaryDistParabola (lineX dest0 w y) ((List.range w).map fun x => labels x y) dmax
          active).getD x 0 := by
    intro x y hx hy
    rw [hpass0, rowPass_apply w (fun y line => boundaryDistParabola line
      ((List.range w).map fun x => labels x y) dmax active) hT0 h dest0 x y, if_pos ⟨hy, hx⟩]
  have hout : ∀ x y, x < w → y < h →
      internalBoundaryMultiArrayDist labels w h dest dmax active x y
        = (boundaryDistParabola (lineY pass0 h x) ((List.range h).map fun y => labels x y) dmax
            active).getD y 0 := by
    intro x y hx hy
    unfold internalBoundaryMultiArrayDist
    rw [colPass_apply h (fun x line => boundaryDistParabola line
      ((List.range h).map fun y => labels x y) dmax active) hT1 w pass0 x y, if_pos ⟨hx, hy⟩]
  refine ⟨pass0, ?_, ?_⟩
  · intro x y hx hy
    rw [hp0 x y hx hy]
    have hline : lineX dest0 w y = (List.range w).map fun _ => dmax := by
      unfold lineX
      apply List.map_congr_left
      intro x' hx'
      simp only [hdest0]
      rw [if_pos ⟨List.mem_range.mp hx', hy⟩]
    rw [hline]
    exact (boundaryDistParabola_spec (fun x => labels x y) (fun _ => dmax) w (by omega) dmax
      active).2 x hx
  · intro x y hx hy
    rw [hout x y hx hy]
    exact (boundaryDistParabola_spec (fun y => labels x y) (fun y => pass0 x y) h (by omega)
      dmax active).2 y hy

/-- With `array_border_is_active = false` and `dmax` at least `w^2 + h^2`, at
every pixel whose label does not cover the whole array
`internalBoundaryMultiArrayDist` writes the least squared Euclidean distance to
a pixel with another label. -/
theorem internalBoundaryMultiArrayDist_isMinOver {L : Type} [DecidableEq L] (labels : Raster L)
    (w h : ℕ) (dest : Raster ℚ) (dmax : ℚ) (hdmax : (w : ℚ) ^ 2 + (h : ℚ) ^ 2 ≤ dmax)
    (x y : ℕ) (hx : x < w) (hy : y < h)
    (hother : ∃ j k, j < w ∧ k < h ∧ labels j k ≠ labels x y) :
    IsMinOver (fun j k => j < w ∧ k < h ∧ labels j k ≠ labels x y) (sqDist x y)
      (internalBoundaryMultiArrayDist labels w h dest dmax false x y) := by
  obtain ⟨pass0, hrow, hcol⟩ :=
    internalBoundaryMultiArrayDist_runs labels w h dest dmax false
  simp only [Bool.false_eq_true, if_false] at hrow hcol
  have hc := hcol x y hx hy
  set out := internalBoundaryMultiArrayDist labels w h dest dmax false x y with hout
  -- upper bound: every pixel with another label is at least `out` away
  have hupper : ∀ j k, j < w → k < h → labels j k ≠ labels x y → out ≤ sqDist x y j k := by
    intro j k hj hk hne
    unfold sqDist
    have hxj : (0 : ℚ) ≤ ((x : ℚ) - j) ^ 2 := sq_nonneg _
    by_cases hall : ∀ i, min y k ≤ i → i ≤ max y k → labels x i = labels x y
    · have h1 := hc.le_same k hk hall
      have hlk : labels x k = labels x y :=
        hall k (min_le_right _ _) (le_max_right _ _)
      have h2 := (hrow x k hx hk).upper j hj (by
        show labels j k ≠ labels x k
        rw [hlk]
        exact hne)
      linarith
    · push_neg at hall
      obtain ⟨i, hi1, hi2, hine⟩ := hall
      have hih : i < h := by
        have : max y k < h := max_lt hy hk
        omega
      have h1 := hc.upper i hih hine
      have h2 : ((y : ℚ) - i) ^ 2 ≤ ((y : ℚ) - k) ^ 2 := by
        rcases le_total y k with hyk | hyk
        · rw [min_eq_left hyk] at hi1
          rw [max_eq_right hyk] at hi2
          have a1 : (y : ℚ) ≤ i := by exact_mod_cast hi1
          have a2 : (i : ℚ) ≤ k := by exact_mod_cast hi2
          rw [← neg_sq ((y : ℚ) - i), ← neg_sq ((y : ℚ) - k)]
          apply sq_le_sq' <;> linarith
        · rw [min_eq_right hyk] at hi1
          rw [max_eq_left hyk] at hi2
          have a1 : (k : ℚ) ≤ i := by exact_mod_cast hi1
          have a2 : (i : ℚ) ≤ y := by exact_mod_cast hi2
          apply sq_le_sq' <;> linarith
      linarith
  have hlt : out < dmax := by
    obtain ⟨j, k, hj, hk, hne⟩ := hother
    have h1 := hupper j k hj hk hne
    have h2 := sqDist_lt_diag w h x y j k hx hy hj hk
    linarith
  have hmin : IsMinOver (fun j k => j < w ∧ k < h ∧ labels j k ≠ labels x y) (sqDist x y)
      out := by
    refine ⟨?_, fun j k hc => hupper j k hc.1 hc.2.1 hc.2.2⟩
    rcases hc.attained with hb | ⟨k, hk, hne, hv⟩ | ⟨k, hk, hsame, hv⟩
    · exact absurd hlt (not_lt.mpr hb)
    · refine ⟨x, k, ⟨hx, hk, hne⟩, ?_⟩
      rw [hv]
      simp [sqDist]
    · have hyk : (0 : ℚ) ≤ ((y : ℚ) - k) ^ 2 := sq_nonneg _
      rcases (hrow x k hx hk).attained with hb | ⟨j, hj, hne, hg⟩ | ⟨j, _, _, hg⟩
      · rw [hv] at hlt
        linarith
      · refine ⟨j, k, ⟨hj, hk, ?_⟩, ?_⟩
        · have : labels j k ≠ labels x k := hne
          have hs : labels x k = labels x y := hsame
          rw [hs] at this
          exact this
        · rw [hv, hg]
          simp only [sqDist]
          ring
      · have hxj : (0 : ℚ) ≤ ((x : ℚ) - j) ^ 2 := sq_nonneg _
        rw [hv, hg] at hlt
        linarith
  exact hmin

/-- The mask that is non-zero exactly on the pixels with the label of `(x, y)`
has its zero pixels at the pixels with another label. -/
theorem regionMask_candidates {L : Type} [DecidableEq L] (labels : Raster L) (w h x y : ℕ) :
    (fun j k => j < w ∧ k < h
        ∧ isSourceValue false ((fun j k => if labels j k = labels x y then 1 else 0) j k))
      = fun j k => j < w ∧ k < h ∧ labels j k ≠ labels x y := by
  funext j k
  by_cases hl : labels j k = labels x y <;> simp [isSourceValue, hl]

/-- C25: with `array_border_is_active = false` and `dmax` at least
`w^2 + h^2` (the caller `boundaryMultiDistance` passes `w^2 + h^2 + 2`), at
every pixel whose label does not cover the whole array
`internalBoundaryMultiArrayDist` writes the least squared Euclidean distance to
a pixel with another label.  On the mask that is non-zero exactly on the
pixels with the label of that pixel, `separableMultiDistSquared` with
`background = false` and a saturating conversion to the destination type
gives there this value cut off at the maximum of the destination type, hence
the same value whenever it does not exceed that maximum. -/
theorem internalBoundaryMultiArrayDist_outer {L : Type} [DecidableEq L] (labels : Raster L)
    (w h : ℕ) (dest : Raster ℚ) (dmax : ℚ) (hdmax : (w : ℚ) ^ 2 + (h : ℚ) ^ 2 ≤ dmax)
    (x y : ℕ) (hx : x < w) (hy : y < h)
    (hother : ∃ j k, j < w ∧ k < h ∧ labels j k ≠ labels x y) :
    IsMinOver (fun j k => j < w ∧ k < h ∧ labels j k ≠ labels x y) (sqDist x y)
        (internalBoundaryMultiArrayDist labels w h dest dmax false x y)
      ∧ ∀ (dest2 : Raster ℚ) (destMax : ℚ) (toDest : ℚ → ℚ), SaturatingCast destMax toDest →
          separableMultiDistSquared (fun j k => if labels j k = labels x y then 1 else 0)
              w h dest2 false unitPitch destMax toDest x y
            = min (internalBoundaryMultiArrayDist labels w h dest dmax false x y) destMax
          ∧ (internalBoundaryMultiArrayDist labels w h dest dmax false x y ≤ destMax →
              internalBoundaryMultiArrayDist labels w h dest dmax false x y
                = separableMultiDistSquared
                    (fun j k => if labels j k = labels x y then 1 else 0)
                    w h dest2 false unitPitch destMax toDest x y) := by
  have hmin := internalBoundaryMultiArrayDist_isMinOver labels w h dest dmax hdmax x y hx hy
    hother
  refine ⟨hmin, ?_⟩
  intro dest2 destMax toDest hcast
  have hsrc : ∃ j k, j < w ∧ k < h
      ∧ isSourceValue false ((fun j k => if labels j k = labels x y then 1 else 0) j k) := by
    obtain ⟨j, k, hj, hk, hne⟩ := hother
    exact ⟨j, k, hj, hk, by simp [isSourceValue, hne]⟩
  have hsep := squaredPasses_isMinOver
    (fun j k => if labels j k = labels x y then 1 else 0) w h newImage false hsrc x y hx hy
  rw [regionMask_candidates labels w h x y] at hsep
  have hval := separableMultiDistSquared_saturating
    (fun j k => if labels j k = labels x y then 1 else 0) w h dest2 false destMax toDest hcast
    x y hx hy
  have heq := isMinOver_unique _ _ _ _ hmin hsep
  rw [hval, ← heq]
  exact ⟨rfl, fun hle => (min_eq_left hle).symm⟩

/-- Witness of `internalBoundaryMultiArrayDist_outer`: a `3 × 2` label array
whose first column carries another label than the rest, with the `dmax` of
`boundaryMultiDistance`, at pixel `(2, 0)`, and an 8-bit destination of
`separableMultiDistSquared`. -/
theorem internalBoundaryMultiArrayDist_outer_witness :
    ((((3 : ℕ) : ℚ) ^ 2 + ((2 : ℕ) : ℚ) ^ 2 ≤ 15) ∧ 2 < 3 ∧ 0 < 2
      ∧ (∃ j k, j < 3 ∧ k < 2 ∧ bandMask 0 0 1 j k ≠ bandMask 0 0 1 2 0)
      ∧ SaturatingCast 255 (saturate 255))
    ∧ IsMinOver (fun j k => j < 3 ∧ k < 2 ∧ bandMask 0 0 1 j k ≠ bandMask 0 0 1 2 0)
        (sqDist 2 0) (internalBoundaryMultiArrayDist (bandMask 0 0 1) 3 2 newImage 15 false 2 0)
    ∧ separableMultiDistSquared
          (fun j k => if bandMask 0 0 1 j k = bandMask 0 0 1 2 0 then 1 else 0)
          3 2 newImage false unitPitch 255 (saturate 255) 2 0
        = min (internalBoundaryMultiArrayDist (bandMask 0 0 1) 3 2 newImage 15 false 2 0) 255 :=
  ⟨⟨by norm_num, by decide, by decide, ⟨0, 0, by decide, by decide, by decide⟩,
      saturate_saturatingCast 255⟩,
    (internalBoundaryMultiArrayDist_outer (bandMask 0 0 1) 3 2 newImage 15 (by norm_num) 2 0
      (by decide) (by decide) ⟨0, 0, by decide, by decide, by decide⟩).1,
    ((internalBoundaryMultiArrayDist_outer (bandMask 0 0 1) 3 2 newImage 15 (by norm_num) 2 0
      (by decide) (by decide) ⟨0, 0, by decide, by decide, by decide⟩).2 newImage 255
      (saturate 255) (saturate_saturatingCast 255)).1⟩

/-- Counterexample to the equality for every destination type: on the
`20 × 10` label array whose pixel `(0, 0)` alone carries the label `0`, with
the `dmax` of `boundaryMultiDistance`, `internalBoundaryMultiArrayDist` writes
`19^2 + 9^2 = 442` at pixel `(19, 9)`, while `separableMultiDistSquared` with
an 8-bit destination writes `255` there on the mask of the region of that
pixel. -/
theorem internalBoundaryMultiArrayDist_outer_counterexample :
    (((20 : ℕ) : ℚ) ^ 2 + ((10 : ℕ) : ℚ) ^ 2 ≤ 502)
    ∧ (∃ j k, j < 20 ∧ k < 10 ∧ singleZeroRaster 0 0 j k ≠ singleZeroRaster 0 0 19 9)
    ∧ SaturatingCast 255 (saturate 255)
    ∧ internalBoundaryMultiArrayDist (singleZeroRaster 0 0) 20 10 newImage 502 false 19 9 = 442
    ∧ separableMultiDistSquared
          (fun j k => if singleZeroRaster 0 0 j k = singleZeroRaster 0 0 19 9 then 1 else 0)
          20 10 newImage false unitPitch 255 (saturate 255) 19 9 = 255 := by
  have hother : ∃ j k, j < 20 ∧ k < 10 ∧ singleZeroRaster 0 0 j k ≠ singleZeroRaster 0 0 19 9 :=
    ⟨0, 0, by decide, by decide, by decide⟩
  have hmin442 : IsMinOver
      (fun j k => j < 20 ∧ k < 10 ∧ singleZeroRaster 0 0 j k ≠ singleZeroRaster 0 0 19 9)
      (sqDist 19 9) 442 := by
    refine ⟨⟨0, 0, ⟨by decide, by decide, by decide⟩, sqDist_far_corner.symm⟩, ?_⟩
    rintro j k ⟨_, _, hs⟩
    have hjk : j = 0 ∧ k = 0 := by
      by_contra hne
      simp [singleZeroRaster, hne] at hs
    rw [hjk.1, hjk.2, sqDist_far_corner]
  have hout := isMinOver_unique _ _ _ _
    (internalBoundaryMultiArrayDist_isMinOver (singleZeroRaster 0 0) 20 10 newImage 502
      (by norm_num) 19 9 (by decide) (by decide) hother) hmin442
  refine ⟨by norm_num, hother, saturate_saturatingCast 255, hout, ?_⟩
  rw [separableMultiDistSquared_saturating _ _ _ _ _ _ _ (saturate_saturatingCast 255) 19 9
      (by decide) (by decide),
    squaredPasses_single _ 20 10 newImage false 0 0 (by decide) (by decide)
      (by simp [isSourceValue, singleZeroRaster])
      (by
        intro j k _ _ hs
        by_contra hne
        simp [isSourceValue, singleZeroRaster, hne] at hs)
      19 9 (by decide) (by decide),
    sqDist_far_corner]
  norm_num


/-! ## The sentinel of a mask without source pixel -/

/-- On a mask without source pixel the value after the passes is `w^2 + h^2`
at every pixel. -/
theorem squaredPasses_no_source (src : Raster ℕ) (w h : ℕ) (base : Raster ℚ)
    (background : Bool)
    (hns : ∀ j k, j < w → k < h → ¬ isSourceValue background (src j k))
    (x y : ℕ) (hx : x < w) (hy : y < h) :
    squaredPasses src w h base background x y = (w : ℚ) ^ 2 + (h : ℚ) ^ 2 := by
  obtain ⟨⟨j, k, hj, hk, hv⟩, hle⟩ := squaredPasses_envelope src w h base background x y hx hy
  apply le_antisymm
  · have h1 := hle x y hx hy
    rw [if_neg (hns x y hx hy), sqDist_self, zero_add] at h1
    exact h1
  · rw [hv, if_neg (hns j k hj hk)]
    have := sqDist_nonneg x y j k
    linarith

theorem no_source_of_flag (src : Raster ℕ) (w h : ℕ) (background : Bool)
    (hnone : ∀ j k, j < w → k < h →
      if background = true then src j k = 0 else src j k ≠ 0) :
    ∀ j k, j < w → k < h → ¬ isSourceValue background (src j k) := by
  intro j k hj hk
  have := hnone j k hj hk
  unfold isSourceValue
  cases background
  · simpa using this
  · simpa using this

/-- C31: on a `w × h` mask without source pixel (no non-zero pixel when
`background = true`, no zero pixel when `background = false`),
`separableMultiDistSquared` with unit pixel pitch and a saturating conversion
to the destination type writes at every pixel `w^2 + h^2` cut off at the
maximum of the destination type; when `w^2 + h^2` does not exceed that maximum
the value written is `w^2 + h^2` itself, and it is strictly larger than the
squared distance between any two pixels of the raster. -/
theorem separableMultiDistSquared_no_source (src : Raster ℕ) (w h : ℕ) (dest : Raster ℚ)
    (background : Bool) (destMax : ℚ) (toDest : ℚ → ℚ)
    (hcast : SaturatingCast destMax toDest)
    (hnone : ∀ j k, j < w → k < h →
      if background = true then src j k = 0 else src j k ≠ 0)
    (x y : ℕ) (hx : x < w) (hy : y < h) :
    separableMultiDistSquared src w h dest background unitPitch destMax toDest x y
        = min ((w : ℚ) ^ 2 + (h : ℚ) ^ 2) destMax
      ∧ ((w : ℚ) ^ 2 + (h : ℚ) ^ 2 ≤ destMax →
          separableMultiDistSquared src w h dest background unitPitch destMax toDest x y
              = (w : ℚ) ^ 2 + (h : ℚ) ^ 2
            ∧ ∀ x1 y1 x2 y2, x1 < w → y1 < h → x2 < w → y2 < h →
                sqDist x1 y1 x2 y2
                  < separableMultiDistSquared src w h dest background unitPitch destMax toDest
                      x y) := by
  have hval : separableMultiDistSquared src w h dest background unitPitch destMax toDest x y
      = min ((w : ℚ) ^ 2 + (h : ℚ) ^ 2) destMax := by
    rw [separableMultiDistSquared_saturating src w h dest background destMax toDest hcast
        x y hx hy,
      squaredPasses_no_source src w h newImage background
        (no_source_of_flag src w h background hnone) x y hx hy]
  refine ⟨hval, ?_⟩
  intro hsmall
  have hval' : separableMultiDistSquared src w h dest background unitPitch destMax toDest x y
      = (w : ℚ) ^ 2 + (h : ℚ) ^ 2 := by
    rw [hval, min_eq_left hsmall]
  refine ⟨hval', ?_⟩
  intro x1 y1 x2 y2 hx1 hy1 hx2 hy2
  rw [hval']
  exact sqDist_lt_diag w h x1 y1 x2 y2 hx1 hy1 hx2 hy2

/-- Witness of `separableMultiDistSquared_no_source`: the full mask on a
`5 × 5` raster with `background = false` and an 8-bit destination. -/
theorem separableMultiDistSquared_no_source_witness :
    (SaturatingCast 255 (saturate 255)
      ∧ (∀ j k, j < 5 → k < 5 → if false = true then fullMask j k = 0 else fullMask j k ≠ 0)
      ∧ 1 < 5 ∧ 2 < 5 ∧ ((5 : ℕ) : ℚ) ^ 2 + ((5 : ℕ) : ℚ) ^ 2 ≤ 255)
    ∧ separableMultiDistSquared fullMask 5 5 newImage false unitPitch 255 (saturate 255) 1 2
        = ((5 : ℕ) : ℚ) ^ 2 + ((5 : ℕ) : ℚ) ^ 2 :=
  have hnone : ∀ j k, j < 5 → k < 5 →
      if false = true then fullMask j k = 0 else fullMask j k ≠ 0 := by
    intro j k _ _
    simp [fullMask]
  ⟨⟨saturate_saturatingCast 255, hnone, by decide, by decide, by norm_num⟩,
    ((separableMultiDistSquared_no_source fullMask 5 5 newImage false 255 (saturate 255)
      (saturate_saturatingCast 255) hnone 1 2 (by decide) (by decide)).2 (by norm_num)).1⟩

/-- Counterexample to the sentinel `w^2 + h^2` for every destination type: on
the full `20 × 10` mask with `background = false` and an 8-bit destination the
value written at pixel `(19, 9)` is `255`, not `20^2 + 10^2 = 500`, and it is
not larger than the squared distance `442` between the pixels `(19, 9)` and
`(0, 0)`. -/
theorem separableMultiDistSquared_no_source_counterexample :
    (∀ j k, j < 20 → k < 10 → if false = true then fullMask j k = 0 else fullMask j k ≠ 0)
    ∧ SaturatingCast 255 (saturate 255)
    ∧ separableMultiDistSquared fullMask 20 10 newImage false unitPitch 255 (saturate 255) 19 9
        = 255
    ∧ (255 : ℚ) ≠ ((20 : ℕ) : ℚ) ^ 2 + ((10 : ℕ) : ℚ) ^ 2
    ∧ ¬ (sqDist 19 9 0 0
          < separableMultiDistSquared fullMask 20 10 newImage false unitPitch 255
              (saturate 255) 19 9) := by
  have hnone : ∀ j k, j < 20 → k < 10 →
      if false = true then fullMask j k = 0 else fullMask j k ≠ 0 := by
    intro j k _ _
    simp [fullMask]
  have hval : separableMultiDistSquared fullMask 20 10 newImage false unitPitch 255
      (saturate 255) 19 9 = 255 := by
    rw [separableMultiDistSquared_saturating _ _ _ _ _ _ _ (saturate_saturatingCast 255) 19 9
        (by decide) (by decide),
      squaredPasses_no_source fullMask 20 10 newImage false
        (no_source_of_flag fullMask 20 10 false hnone) 19 9 (by decide) (by decide)]
    norm_num
  refine ⟨hnone, saturate_saturatingCast 255, hval, by norm_num, ?_⟩
  rw [hval, sqDist_far_corner]
  norm_num

/-! ## The stack after the forward sweep -/

theorem distParabolaPush_centers (sigma2 sigma22 w m v : ℚ) :
    ∀ st : List DistParabolaStackEntry,
      List.Chain' (fun s t => t.center < s.center) st → (∀ e ∈ st, e.center < m) →
      List.Chain' (fun s t => t.center < s.center) (distParabolaPush sigma2 sigma22 w m v st)
        ∧ ∀ e ∈ distParabolaPush sigma2 sigma22 w m v st, e.center < m + 1 := by
  intro st
  induction st with
  | nil =>
      intro _ _
      refine ⟨List.chain'_singleton _, ?_⟩
      intro e he
      simp only [distParabolaPush, List.mem_singleton] at he
      subst he
      show m < m + 1
      linarith
  | cons s rest ih =>
      intro hch hlt
      have hs : s.center < m := hlt s (List.mem_cons_self _ _)
      have hrest : ∀ e ∈ rest, e.center < m := fun e he => hlt e (List.mem_cons_of_mem _ he)
      unfold distParabolaPush
      simp only
      split_ifs with h1 h2
      · exact ih hch.tail hrest
      · refine ⟨?_, ?_⟩
        · rw [List.chain'_cons]
          refine ⟨hs, ?_⟩
          cases rest with
          | nil => exact List.chain'_singleton _
          | cons t r =>
              rw [List.chain'_cons] at hch ⊢
              exact hch
        · intro e he
          rcases List.mem_cons.mp he with rfl | he
          · show m < m + 1
            linarith
          rcases List.mem_cons.mp he with rfl | he
          · show s.center < m + 1
            linarith
          · have := hrest e he
            linarith
      · refine ⟨?_, ?_⟩
        · rw [List.chain'_cons]
          exact ⟨hs, hch⟩
        · intro e he
          rcases List.mem_cons.mp he with rfl | he
          · show m < m + 1
            linarith
          · have := hlt e he
            linarith

theorem distParabolaSweep_centers (sigma2 sigma22 w : ℚ) :
    ∀ (vs : List ℚ) (m : ℚ) (st : List DistParabolaStackEntry),
      List.Chain' (fun s t => t.center < s.center) st → (∀ e ∈ st, e.center < m) →
      List.Chain' (fun s t => t.center < s.center) (distParabolaSweep sigma2 sigma22 w m vs st) := by
  intro vs
  induction vs with
  | nil =>
      intro m st hch _
      simpa [distParabolaSweep] using hch
  | cons v vs ih =>
      intro m st hch hlt
      obtain ⟨h1, h2⟩ := distParabolaPush_centers sigma2 sigma22 w m v st hch hlt
      rw [distParabolaSweep]
      exact ih (m + 1) _ h1 h2

theorem distParabolaSweep_stackInv (v0 : ℚ) (vs : List ℚ) (sigma2 : ℚ) (hs : 0 < sigma2) :
    StackInv sigma2 (((v0 :: vs).length : ℕ) : ℚ) (fun j => (v0 :: vs).getD j 0)
      (v0 :: vs).length
      (distParabolaSweep sigma2 (2 * sigma2) (((v0 :: vs).length : ℕ) : ℚ) ((1 : ℕ) : ℚ) vs
        [Influence v0 0 0 (((v0 :: vs).length : ℕ) : ℚ)]) := by
  set w : ℚ := (((v0 :: vs).length : ℕ) : ℚ) with hw
  set f : ℕ → ℚ := fun j => (v0 :: vs).getD j 0 with hf
  have hinit : StackInv sigma2 w f 1 [Influence v0 0 0 w] := by
    refine ⟨⟨_, rfl, rfl⟩, ?_, List.chain'_singleton _, ?_⟩
    · intro e he
      simp only [List.getLast?_singleton, Option.some.injEq] at he
      rw [← he]; rfl
    · intro e he
      simp only [List.mem_singleton] at he
      subst he
      refine ⟨⟨0, Nat.one_pos, by simp [Influence], by simp [Influence, hf]⟩, le_refl _, ?_⟩
      intro x _ _ j hj
      have hj0 : j = 0 := by omega
      subst hj0
      simp [entryValue, Influence, hf]
  have hvs : ∀ i, i < vs.length → vs.getD i 0 = f (1 + i) := by
    intro i _
    simp only [hf]
    rw [Nat.add_comm 1 i, List.getD_cons_succ]
  have hsweep := distParabolaSweep_inv sigma2 w f hs vs 1 _ hvs hinit
  have hlen1 : 1 + vs.length = (v0 :: vs).length := by simp; omega
  rw [hlen1] at hsweep
  exact hsweep

theorem distParabolaAdvance_head (x : ℚ) :
    ∀ it : List DistParabolaStackEntry,
      (distParabolaAdvance x it).head? = it.find? (fun e => decide (x < e.right)) := by
  intro it
  induction it with
  | nil => rfl
  | cons e rest ih =>
      unfold distParabolaAdvance
      rw [List.find?_cons]
      by_cases h : x < e.right
      · rw [if_neg (not_le.mpr h)]
        simp [h]
      · rw [if_pos (not_lt.mp h), ih]
        simp [h]

/-- C32: after the forward sweep of `distParabola` (spread `1`) over a line of
`n ≥ 1` samples the stack, read from its bottom, is non-empty; its entries are
parabolas of samples, with centers strictly increasing positions below `n`;
the left bounds are non-decreasing and the first is `0`; the last right bound
is `n` and every other right bound is `min (left of the next entry) n`; and at
every position `x < n` the first entry with `right > x` attains the minimum of
`(x - j)^2 + v[j]` over all positions `j`, which is the value `distParabola`
writes at `x`. -/
theorem distParabolaSweep_stack (v0 : ℚ) (vs : List ℚ) :
    ∃ st : List DistParabolaStackEntry,
      st = (distParabolaSweep (1 * 1) (2 * (1 * 1)) ((v0 :: vs).length : ℚ) 1 vs
              [Influence v0 0 0 ((v0 :: vs).length : ℚ)]).reverse
        ∧ distParabola (v0 :: vs) 1 = distParabolaEmit (1 * 1) (v0 :: vs).length 0 st
        ∧ st ≠ []
        ∧ (∀ e ∈ st, ∃ c : ℕ, c < (v0 :: vs).length ∧ e.center = c
            ∧ e.apex_height = (v0 :: vs).getD c 0)
        ∧ st.Pairwise (fun a b => a.center < b.center)
        ∧ st.Pairwise (fun a b => a.left ≤ b.left)
        ∧ (∀ e, st.head? = some e → e.left = 0)
        ∧ (∀ e, st.getLast? = some e → e.right = ((v0 :: vs).length : ℚ))
        ∧ st.Chain' (fun a b => a.right = min b.left ((v0 :: vs).length : ℚ))
        ∧ ∀ x, x < (v0 :: vs).length →
            ∃ e, st.find? (fun e => decide ((x : ℚ) < e.right)) = some e
              ∧ (∃ j, j < (v0 :: vs).length
                  ∧ ((x : ℚ) - e.center) ^ 2 + e.apex_height
                    = ((x : ℚ) - j) ^ 2 + (v0 :: vs).getD j 0)
              ∧ (∀ j, j < (v0 :: vs).length →
                  ((x : ℚ) - e.center) ^ 2 + e.apex_height
                    ≤ ((x : ℚ) - j) ^ 2 + (v0 :: vs).getD j 0)
              ∧ (distParabola (v0 :: vs) 1).getD x 0
                  = ((x : ℚ) - e.center) ^ 2 + e.apex_height := by
  have hinv := distParabolaSweep_stackInv v0 vs (1 * 1) (by norm_num)
  rw [Nat.cast_one] at hinv
  set w : ℚ := ((v0 :: vs).length : ℚ) with hw
  set top := distParabolaSweep (1 * 1) (2 * (1 * 1)) w 1 vs [Influence v0 0 0 w] with htopdef
  have hcen : List.Chain' (fun s t : DistParabolaStackEntry => t.center < s.center) top :=
    distParabolaSweep_centers (1 * 1) (2 * (1 * 1)) w vs 1 [Influence v0 0 0 w]
      (List.chain'_singleton _) (by
        intro e he
        simp only [List.mem_singleton] at he
        subst he
        show (0 : ℚ) < 1
        norm_num)
  obtain ⟨⟨t, ht, hright⟩, hbot, hch, hent⟩ := hinv
  have hchr : List.Chain' (flip (StackRel w)) top.reverse := List.chain'_reverse.mpr hch
  refine ⟨top.reverse, rfl, ?_, ?_, ?_, ?_, ?_, ?_, ?_, ?_, ?_⟩
  · simp [distParabola, hw, htopdef]
  · intro hnil
    rw [List.reverse_eq_nil_iff] at hnil
    rw [hnil] at ht
    simp at ht
  · intro e he
    obtain ⟨⟨c, hc, hcen', hap⟩, _⟩ := hent e (List.mem_reverse.mp he)
    exact ⟨c, hc, hcen', hap⟩
  · haveI : IsTrans DistParabolaStackEntry (fun a b => a.center < b.center) :=
      ⟨fun _ _ _ h1 h2 => lt_trans h1 h2⟩
    rw [← List.chain'_iff_pairwise]
    exact List.chain'_reverse.mpr hcen
  · haveI : IsTrans DistParabolaStackEntry (fun a b => a.left ≤ b.left) :=
      ⟨fun _ _ _ h1 h2 => le_trans h1 h2⟩
    rw [← List.chain'_iff_pairwise]
    exact hchr.imp (fun _ _ h => h.2)
  · intro e he
    rw [List.head?_reverse] at he
    exact hbot e he
  · intro e he
    rw [List.getLast?_reverse, ht] at he
    rw [← Option.some.inj he]
    exact hright
  · exact hchr.imp (fun _ _ h => h.1)
  · intro x hx
    have hxw : (x : ℚ) < w := by
      rw [hw]
      exact_mod_cast hx
    have hpre : EmitPre w (x : ℚ) top.reverse := by
      refine ⟨hchr, ⟨t, ?_, hright⟩, ?_⟩
      · rw [List.getLast?_reverse]; exact ht
      · intro e he
        rw [List.head?_reverse] at he
        rw [hbot e he]
        exact le_trans (min_le_left _ _) (by positivity)
    obtain ⟨e, rest, hadv, hl, hr, hsub, _⟩ := distParabolaAdvance_spec w x hxw _ hpre
    have hfind : top.reverse.find? (fun e => decide ((x : ℚ) < e.right)) = some e := by
      rw [← distParabolaAdvance_head, hadv]
      rfl
    obtain ⟨⟨c, hc, hcen', hap⟩, _, hdom⟩ :=
      hent e (List.mem_reverse.mp (hsub e (List.mem_cons_self _ _)))
    have hdom' : ∀ j, j < (v0 :: vs).length →
        ((x : ℚ) - e.center) ^ 2 + e.apex_height
          ≤ ((x : ℚ) - j) ^ 2 + (v0 :: vs).getD j 0 := by
      intro j hj
      have := hdom x hl hr j hj
      simpa [entryValue] using this
    have hatt : ((x : ℚ) - e.center) ^ 2 + e.apex_height
        = ((x : ℚ) - c) ^ 2 + (v0 :: vs).getD c 0 := by
      rw [hcen', hap]
    refine ⟨e, hfind, ⟨c, hc, hatt⟩, hdom', ?_⟩
    obtain ⟨_, henv⟩ := distParabola_envelope (v0 :: vs) 1 (by simp) one_ne_zero
    obtain ⟨⟨j, hj, hjv⟩, hjle⟩ := henv x hx
    apply le_antisymm
    · have := hjle c hc
      rw [hatt]
      simpa using this
    · rw [hjv]
      have := hdom' j hj
      simpa using this

/-- Witness of `distParabolaSweep_stack`: the mask line `9, 0, 9`, read at
position `2`. -/
theorem distParabolaSweep_stack_witness :
    ∃ st : List DistParabolaStackEntry,
      st = (distParabolaSweep (1 * 1) (2 * (1 * 1)) (([9, 0, 9] : List ℚ).length : ℚ) 1 [0, 9]
              [Influence 9 0 0 (([9, 0, 9] : List ℚ).length : ℚ)]).reverse
        ∧ st ≠ []
        ∧ 2 < ([9, 0, 9] : List ℚ).length
        ∧ ∃ e, st.find? (fun e => decide (((2 : ℕ) : ℚ) < e.right)) = some e
            ∧ (distParabola [9, 0, 9] 1).getD 2 0
                = (((2 : ℕ) : ℚ) - e.center) ^ 2 + e.apex_height :=
  (distParabolaSweep_stack 9 [0, 9]).elim fun st hst =>
    ⟨st, hst.1, hst.2.2.1, by decide,
      (hst.2.2.2.2.2.2.2.2.2 2 (by decide)).elim fun e he => ⟨e, he.1, he.2.2.2⟩⟩

end Hugin
